import Mathlib

/-!
# RawTherapee: `rtexif` interpreters and the box blur

A shallow embedding of the parts of `src/rtexif/rtexif.h` that decide how a
tag's value is read and shown: `TagType`, `ByteOrder`, `TagAttrib`, `Tag`,
`Tag::getType`, `Tag::getOrder`, `Interpreter::toDouble` / `toInt` /
`toString`, `ChoiceInterpreter::toString` and `IntLensInterpreter::guess`;
and of the four `boxblur` functions and `boxabsblur` of
`src/rtengine/boxblur.h`.

Conventions of the embedding

* A C++ `int` is an `Int` in the range `[-2^31, 2^31)`; the wrap of a 32-bit
  pattern to that range is written explicitly (`wrap32`).
* The buffer `unsigned char* value` of `valuesize` bytes is a
  `List (Fin 256)`; a read through the pointer at an index outside
  `[0, valuesize)` has no defined result in C++ and is the fault
  `Fault.outOfBounds` here.
* A `double` is the rational number it denotes.  Every `int` converts to a
  `double` exactly (32 bits fit in the 53-bit significand); the sums,
  differences, products and quotients of doubles in the interpreters and in
  the lens heuristics are rounded to nearest, ties to even (`roundBinary64`).
  The exponent range is not modelled, and a value that is not a finite number
  is the fault `Fault.nonFinite`.
* A computation that can fault returns `Except Fault _`.
* A `std::string` is the `List Char` of its characters.
* In the box blur the arithmetic of `float` is exact.  The vertical blur of the
  flat-array `boxblur` and of `boxabsblur` is embedded for both settings of
  `__SSE2__`; an aligned load or store at an address that is not a multiple of
  16 bytes is a fault (`none`).
* Functions of other libraries (`exp`, `log`, the glibmm renderings) and
  functions declared without a body are parameters.
-/

namespace rtexif

/-! ## Enumerations -/

/-- The enumeration `TagType` of `rtexif.h`. -/
inductive TagType where
  | INVALID | BYTE | ASCII | SHORT | LONG | RATIONAL | UNDEFINED | SSHORT
  | SLONG | SRATIONAL | FLOAT | DOUBLE | OLYUNDEF | AUTO | SUBDIR
  deriving DecidableEq, Repr

/-- The integer value of each enumerator of `TagType`. -/
def TagType.code : TagType → Int
  | .INVALID => 0
  | .BYTE => 1
  | .ASCII => 2
  | .SHORT => 3
  | .LONG => 4
  | .RATIONAL => 5
  | .UNDEFINED => 7
  | .SSHORT => 8
  | .SLONG => 9
  | .SRATIONAL => 10
  | .FLOAT => 11
  | .DOUBLE => 12
  | .OLYUNDEF => 13
  | .AUTO => 98
  | .SUBDIR => 99

/-- The enumeration `ByteOrder` (`INTEL = 0x4949`, `MOTOROLA = 0x4D4D`). -/
inductive ByteOrder where
  | INTEL | MOTOROLA
  deriving DecidableEq, Repr

/-- Ways in which a C++ evaluation has no defined result. -/
inductive Fault where
  /-- a read through `value` at an index outside `[0, valuesize)` -/
  | outOfBounds
  /-- an `int` operation whose result is not a 32-bit signed integer -/
  | intOverflow
  /-- an `int` quotient with a zero divisor -/
  | divByZero
  /-- a floating value that is not a finite number (infinite or NaN) -/
  | nonFinite
  deriving DecidableEq, Repr

deriving instance DecidableEq for Except

/-! ## Data model -/

/-- The fields of `struct TagAttrib` that the tag accessors read. -/
structure TagAttrib where
  ignore : Int
  editable : Int
  ID : Nat
  type : TagType
  name : String
  deriving Repr

/-- The part of `class TagDirectory` a tag reaches through its `parent`
pointer: the byte order. -/
structure TagDirectory where
  order : ByteOrder
  deriving DecidableEq, Repr

/-- The member `TagDirectory::getOrder`. -/
def TagDirectory.getOrder (d : TagDirectory) : ByteOrder := d.order

/-- The member `TagDirectory::setOrder`. -/
def TagDirectory.setOrder (d : TagDirectory) (bo : ByteOrder) : TagDirectory :=
  { d with order := bo }

/-- The data members of `class Tag`.  `value` is the buffer of `valuesize`
bytes, `attrib` and `parent` are the nullable pointers. -/
structure Tag where
  tag : Nat
  type : TagType
  count : Nat
  value : List (Fin 256)
  keep : Bool
  attrib : Option TagAttrib
  parent : Option TagDirectory
  deriving Repr

/-- The member `Tag::getType`:
`(attrib && attrib->type > INVALID && attrib->type < AUTO) ? attrib->type : type`. -/
def Tag.getType (t : Tag) : TagType :=
  match t.attrib with
  | some a =>
    if a.type.code > TagType.INVALID.code ∧ a.type.code < TagType.AUTO.code then a.type
    else t.type
  | none => t.type

/-- The member `Tag::getValue`. -/
def Tag.getValue (t : Tag) : List (Fin 256) := t.value

/-- The member `Tag::getOrder`: `parent ? parent->getOrder() : INTEL`. -/
def Tag.getOrder (t : Tag) : ByteOrder :=
  match t.parent with
  | some p => p.getOrder
  | none => ByteOrder.INTEL

/-- The member `Tag::getValueSize`: the number of bytes of the value buffer. -/
def Tag.getValueSize (t : Tag) : Int := (t.value.length : Int)

/-! ## Byte-order codec -/

/-- The read `s[i]` through an `unsigned char*`. -/
def readByte (s : List (Fin 256)) (i : Int) : Except Fault Int :=
  if 0 ≤ i then
    match s.get? i.toNat with
    | some b => .ok (b.val : Int)
    | none => .error Fault.outOfBounds
  else .error Fault.outOfBounds

/-- The value of a 32-bit pattern read as a two's complement `int`. -/
def wrap32 (n : Int) : Int := (n + 2147483648) % 4294967296 - 2147483648

/-- Modelled from the spec: `sget2` is declared in `rtexif.h` without a body.
It decodes the two bytes at `s + p` to an unsigned 16-bit integer under the
byte order (`INTEL` little-endian, `MOTOROLA` big-endian). -/
def sget2 (s : List (Fin 256)) (p : Int) (order : ByteOrder) : Except Fault Int := do
  let b0 ← readByte s p
  let b1 ← readByte s (p + 1)
  match order with
  | .INTEL => pure (b0 + b1 * 256)
  | .MOTOROLA => pure (b0 * 256 + b1)

/-- Modelled from the spec: `sget4` is declared in `rtexif.h` without a body
(`int sget4 (unsigned char *s, ByteOrder order)`).  It decodes the four bytes
at `s + p` under the byte order; the declared result type is `int`, so the
32-bit pattern is read as a signed integer. -/
def sget4 (s : List (Fin 256)) (p : Int) (order : ByteOrder) : Except Fault Int := do
  let b0 ← readByte s p
  let b1 ← readByte s (p + 1)
  let b2 ← readByte s (p + 2)
  let b3 ← readByte s (p + 3)
  match order with
  | .INTEL => pure (wrap32 (b0 + b1 * 256 + b2 * 65536 + b3 * 16777216))
  | .MOTOROLA => pure (wrap32 (b0 * 16777216 + b1 * 65536 + b2 * 256 + b3))

/-- Modelled from the spec: `int2_to_signed` is declared in `rtexif.h` without
a body (`short int int2_to_signed (short unsigned int i)`).  It reads a 16-bit
pattern as a signed short. -/
def int2_to_signed (i : Int) : Int := (i + 32768) % 65536 - 32768

/-! ## Arithmetic of `int` and `double` -/

/-- The C++ quotient `n / a` of two `int`s: truncation toward zero, undefined
for a zero divisor and when the quotient is not an `int`
(`-2147483648 / -1`). -/
def intDiv (n a : Int) : Except Fault Int :=
  if a = 0 then .error Fault.divByZero
  else if n = -2147483648 ∧ a = -1 then .error Fault.intOverflow
  else .ok (Int.tdiv n a)

/-- Nearest integer to `n / d`, ties to the even one (`0 < d`). -/
def roundTiesEven (n d : Nat) : Nat :=
  let t := n / d
  let r := n % d
  if 2 * r < d then t
  else if d < 2 * r then t + 1
  else if t % 2 = 0 then t else t + 1

/-- The positive rational `a / b` rounded to a 53-bit significand, nearest,
ties to even: the quotient is scaled by `2 ^ k` into `[2^52, 2^53)`, rounded to
an integer and scaled back.  The exponent range of binary64 is not modelled: the
quotients formed by the interpreter have magnitude between `2^-31` and
`2^31`. -/
def roundPos53 (a b : Nat) : ℚ :=
  let k0 : Int := 52 - ((Nat.log2 a : Int) - (Nat.log2 b : Int))
  let up (k : Int) : Nat := a * 2 ^ k.toNat
  let dn (k : Int) : Nat := b * 2 ^ (-k).toNat
  let k : Int := if up k0 < 2 ^ 52 * dn k0 then k0 + 1 else k0
  (roundTiesEven (up k) (dn k) : ℚ) * (2 : ℚ) ^ (-k)

/-- The rational `q` rounded to the nearest `double`. -/
def roundBinary64 (q : ℚ) : ℚ :=
  if q = 0 then 0
  else if 0 < q then roundPos53 q.num.natAbs q.den
  else - roundPos53 q.num.natAbs q.den

/-- A number that a `double` holds exactly, the exponent range apart: an
integer below `2 ^ 53` times a power of 2, or its opposite. -/
def isDouble (y : ℚ) : Prop :=
  ∃ (n : Nat) (e : Int), n < 2 ^ 53 ∧ (y = (n : ℚ) * (2 : ℚ) ^ e ∨ y = -((n : ℚ) * (2 : ℚ) ^ e))

/-- The quotient `(double)ud / (double)dd` of two `int`s converted to
`double`: infinite or NaN for a zero divisor, the rounded exact quotient
otherwise. -/
def doubleDiv (ud dd : Int) : Except Fault ℚ :=
  if dd = 0 then .error Fault.nonFinite
  else .ok (roundBinary64 ((ud : ℚ) / (dd : ℚ)))

/-- The conversion `(int)d` of a `double`: truncation toward zero, undefined
when the truncated value is not an `int`. -/
def doubleToInt (d : ℚ) : Except Fault Int :=
  let z := Int.tdiv d.num (d.den : Int)
  if -2147483648 ≤ z ∧ z ≤ 2147483647 then .ok z else .error Fault.intOverflow

/-- Modelled from the spec: `int_to_float` is declared in `rtexif.h` without a
body (`float int_to_float (int i)`).  It reinterprets the 32-bit pattern of `i`
as an IEEE-754 single precision number: sign bit, 8 exponent bits biased by
127, 23 fraction bits; infinities and NaN are not finite values. -/
def int_to_float (i : Int) : Except Fault ℚ :=
  let u : Int := i % 4294967296
  let sign : ℚ := if u / 2147483648 = 1 then -1 else 1
  let e : Int := u / 8388608 % 256
  let m : Int := u % 8388608
  if e = 255 then .error Fault.nonFinite
  else if e = 0 then .ok (sign * (m : ℚ) * (2 : ℚ) ^ (-149 : Int))
  else .ok (sign * ((8388608 + m : Int) : ℚ) * (2 : ℚ) ^ (e - 150))

/-! ## The default interpreter -/

/-- The member `Interpreter::toDouble (Tag* t, int ofs)`. -/
def Interpreter.toDouble (t : Tag) (ofs : Int) : Except Fault ℚ :=
  match t.getType with
  | .BYTE => do
    let b ← readByte t.getValue ofs
    pure (b : ℚ)
  | .ASCII => pure 0
  | .SSHORT => do
    let v ← sget2 t.getValue ofs t.getOrder
    pure (int2_to_signed v : ℚ)
  | .SHORT => do
    let v ← sget2 t.getValue ofs t.getOrder
    pure (v : ℚ)
  | .SLONG | .LONG => do
    let v ← sget4 t.getValue ofs t.getOrder
    pure (v : ℚ)
  | .SRATIONAL | .RATIONAL => do
    let ud ← sget4 t.getValue ofs t.getOrder
    let dd ← sget4 t.getValue (ofs + 4) t.getOrder
    if dd = 0 then pure 0 else doubleDiv ud dd
  | .FLOAT => do
    let v ← sget4 t.getValue ofs t.getOrder
    pure (v : ℚ)
  | .UNDEFINED => pure 0
  | _ => pure 0

/-- The member `Interpreter::toInt (Tag* t, int ofs, TagType astype)`. -/
def Interpreter.toInt (t : Tag) (ofs : Int) (astype : TagType) : Except Fault Int :=
  let astype := if astype = TagType.INVALID ∨ astype = TagType.AUTO then t.getType else astype
  match astype with
  | .BYTE => readByte t.getValue ofs
  | .ASCII => pure 0
  | .SSHORT => do
    let v ← sget2 t.getValue ofs t.getOrder
    pure (int2_to_signed v)
  | .SHORT => sget2 t.getValue ofs t.getOrder
  | .SLONG | .LONG => sget4 t.getValue ofs t.getOrder
  | .SRATIONAL | .RATIONAL => do
    let a ← sget4 t.getValue (ofs + 4) t.getOrder
    if a = 0 then pure 0
    else do
      let n ← sget4 t.getValue ofs t.getOrder
      intDiv n a
  | .FLOAT => do
    let d ← Interpreter.toDouble t ofs
    doubleToInt d
  | .UNDEFINED => pure 0
  | _ => pure 0

/-! ## Worked examples -/

/-- A tag with the given stored type, value bytes, attribute-table type (when
it has an attribute entry) and byte order of its parent directory. -/
def exampleTag (ty : TagType) (v : List (Fin 256)) (a : Option TagType) (o : ByteOrder) : Tag :=
  { tag := 0, type := ty, count := 1, value := v, keep := true,
    attrib := a.map (fun x => { ignore := 0, editable := 0, ID := 0, type := x, name := "" }),
    parent := some { order := o } }

/-! ## Vocabulary of the statements -/

/-- Number of value bytes the default interpreter reads to decode one element
of each type: 1 at `[ofs]`, 2 through `sget2`, 4 through `sget4`, 8 for the
two `sget4` of a rational, and 0 for the types its `switch` answers without
touching the value. -/
def decodedWidth : TagType → Int
  | .BYTE => 1
  | .SHORT | .SSHORT => 2
  | .LONG | .SLONG | .FLOAT => 4
  | .RATIONAL | .SRATIONAL => 8
  | _ => 0

/-- The unsigned number stored little-endian in the `w` bytes of `s` from
index `p`. -/
def storedLE (s : List (Fin 256)) (p : Nat) : Nat → Nat
  | 0 => 0
  | w + 1 => (s.getD p 0).val + 256 * storedLE s (p + 1) w

/-- The unsigned number stored big-endian in the `w` bytes of `s` from
index `p`. -/
def storedBE (s : List (Fin 256)) (p : Nat) : Nat → Nat
  | 0 => 0
  | w + 1 => (s.getD p 0).val * 256 ^ w + storedBE s (p + 1) w

/-- The unsigned number stored in the `w` bytes of `s` from index `p`, in the
given byte order. -/
def storedUnsigned (s : List (Fin 256)) (p w : Nat) (order : ByteOrder) : Nat :=
  match order with
  | .INTEL => storedLE s p w
  | .MOTOROLA => storedBE s p w

/-! ## Directories in memory -/

/-- The `TagDirectory` objects in memory, by address. -/
abbrev DirStore := Nat → TagDirectory

/-- The tag object `t` read in the memory state `st`, its `parent` pointer
being `p` (null or the address of a directory): the pointee of `parent` is the
directory stored at that address. -/
def Tag.inStore (st : DirStore) (t : Tag) (p : Option Nat) : Tag :=
  { t with parent := p.map st }

/-- The call `d->setOrder (bo)` on the directory at address `d`. -/
def DirStore.setOrder (st : DirStore) (d : Nat) (bo : ByteOrder) : DirStore :=
  Function.update st d ((st d).setOrder bo)

/-! ## `std::string` -/

/-- The constant `std::string::npos` (64-bit `size_type`). -/
def npos : Nat := 18446744073709551615

/-- The member `std::string::find_first_not_of (c)`: index of the first
character different from `c`, `npos` when there is none. -/
def find_first_not_of (s : List Char) (c : Char) : Nat :=
  if s.all (fun x => x == c) then npos else s.findIdx (fun x => x != c)

/-- The member `std::string::find_last_not_of (c)`: index of the last
character different from `c`, `npos` when there is none. -/
def find_last_not_of (s : List Char) (c : Char) : Nat :=
  if s.all (fun x => x == c) then npos
  else s.length - 1 - s.reverse.findIdx (fun x => x != c)

/-- The member `std::string::substr (pos, n)`: at most `n` characters from
index `pos`. -/
def substr (s : List Char) (pos n : Nat) : List Char := (s.drop pos).take n

/-! ## String renderings -/

/-- The member `Interpreter::toString (Tag* t)`.  `Tag::toString (char*)` is
declared in `rtexif.h` without a body: the text it leaves in `buffer` is the
parameter `Tag_toString`. -/
def Interpreter.toString (Tag_toString : Tag → List Char) (t : Tag) : List Char :=
  let s := Tag_toString t
  let p1 := find_first_not_of s ' '
  if p1 = npos then s
  else substr s p1 (find_last_not_of s ' ' - p1 + 1)

/-- The member `ChoiceInterpreter::toString (Tag* t)`, `choices` being the
`std::map<int,std::string>` as the list of its entries.  `Tag::toInt` and
`Tag::toString` are declared in `rtexif.h` without a body and are the
parameters `Tag_toInt` (called with its default arguments) and
`Tag_toString`. -/
def ChoiceInterpreter.toString (choices : List (Int × List Char))
    (Tag_toInt : Tag → Except Fault Int) (Tag_toString : Tag → List Char) (t : Tag) :
    Except Fault (List Char) := do
  let k ← Tag_toInt t
  match choices.lookup k with
  | some r => pure r
  | none => pure (Tag_toString t)

/-! ## The lens interpreter -/

/-- The sum `a + b` of two doubles: the exact sum rounded to the nearest
double. -/
def doubleAdd (a b : ℚ) : ℚ := roundBinary64 (a + b)

/-- The difference `a - b` of two doubles: the exact difference rounded to the
nearest double. -/
def doubleSub (a b : ℚ) : ℚ := roundBinary64 (a - b)

/-- The product `a * b` of two doubles: the exact product rounded to the
nearest double. -/
def doubleMul (a b : ℚ) : ℚ := roundBinary64 (a * b)

/-- The quotient `a / b` of two doubles: infinite or NaN for a zero divisor,
the exact quotient rounded to the nearest double otherwise. -/
def doubleQuot (a b : ℚ) : Except Fault ℚ :=
  if b = 0 then .error Fault.nonFinite else .ok (roundBinary64 (a / b))

/-- The literal `0.15`: the double nearest to 15/100. -/
def double_0_15 : ℚ := roundBinary64 (15 / 100)

/-- The literal `0.1`: the double nearest to 1/10. -/
def double_0_1 : ℚ := roundBinary64 (1 / 10)

/-- The function `int abs (int)` of `<cstdlib>`: undefined for the `int` whose
opposite is not an `int`. -/
def intAbs (i : Int) : Except Fault Int :=
  if i = -2147483648 then .error Fault.intOverflow else .ok |i|

/-- What `IntLensInterpreter::guess` calls from outside the header:
`extractLensInfo` (declared in `rtexif.h` without a body; `some (f1, f2, a1, a2)`
when it returns `true` and sets minimal and maximal focal length and maximal
aperture at each of them), the `exp` and `log` of `<cmath>` on doubles (the
double returned, or `nonFinite` when the result is infinite or NaN), and the
glibmm renderings `Glib::ustring::compose ("%1", int)` and
`Glib::ustring::format (std::fixed, std::setprecision (1), double)`. -/
structure LensEnv where
  extractLensInfo : List Char → Option (ℚ × ℚ × ℚ × ℚ)
  exp : ℚ → Except Fault ℚ
  log : ℚ → Except Fault ℚ
  composeInt : Int → List Char
  formatFixed1 : ℚ → List Char

/-- The range `choices.lower_bound (lensID) .. choices.upper_bound (lensID)` of
the `std::multimap`, given as the list of its entries in iteration order: the
names stored under `lensID`, in that order. -/
def IntLensInterpreter.candidates {T : Type} [DecidableEq T]
    (choices : List (T × List Char)) (lensID : T) : List (List Char) :=
  (choices.filter (fun p => p.1 = lensID)).map (fun p => p.2)

/-- The first loop of `guess` over the candidates: the first name whose
extracted lens info equals the four values of `lensInfoArray`; `none` when the
loop ends without `return`. -/
def IntLensInterpreter.exactMatch (env : LensEnv) (lensInfoArray : ℚ × ℚ × ℚ × ℚ) :
    List (List Char) → Option (List Char)
  | [] => none
  | name :: rest =>
    match env.extractLensInfo name with
    | none => exactMatch env lensInfoArray rest
    | some (f1, f2, a1, a2) =>
      if f1 = lensInfoArray.1 ∧ f2 = lensInfoArray.2.1 ∧ a1 = lensInfoArray.2.2.1 ∧
          a2 = lensInfoArray.2.2.2 then some name
      else exactMatch env lensInfoArray rest

/-- The text appended to `bestMatch` after the first loop: "Unknown" followed
by the focal length or range as `int`s and the aperture or aperture range with
one decimal. -/
def IntLensInterpreter.unknownLabel (env : LensEnv) (lensInfoArray : ℚ × ℚ × ℚ × ℚ) :
    Except Fault (List Char) := do
  let focal ←
    if lensInfoArray.1 = lensInfoArray.2.1 then do
      let i0 ← doubleToInt lensInfoArray.1
      pure (" (".toList ++ env.composeInt i0 ++ "mm".toList)
    else do
      let i0 ← doubleToInt lensInfoArray.1
      let i1 ← doubleToInt lensInfoArray.2.1
      pure (" (".toList ++ env.composeInt i0 ++ "-".toList ++ env.composeInt i1 ++ "mm".toList)
  let aperture :=
    if lensInfoArray.2.2.1 = lensInfoArray.2.2.2 then
      " f/".toList ++ env.formatFixed1 lensInfoArray.2.2.1 ++ ")".toList
    else
      " f/".toList ++ env.formatFixed1 lensInfoArray.2.2.1 ++ "-".toList
        ++ env.formatFixed1 lensInfoArray.2.2.2 ++ ")".toList
  pure ("Unknown".toList ++ focal ++ aperture)

/-- The value given to `lensAperture` in the second loop of `guess`
(`rtexif.h:405-408`), with the numbers in `R` and the operations passed in:
`a1` when `a1 == a2 || f1 == f2`, else
`exp (log (a1) + (log (a2) - log (a1)) / (log (f2) - log (f1)) * (log (focalLength) - log (f1)))`.
The quotient, `exp` and `log` give their result in `M`, which carries the
results that are not numbers of `R`. -/
def IntLensInterpreter.lensApertureWith {M : Type → Type} [Monad M] {R : Type} [DecidableEq R]
    (add sub mul : R → R → R) (quot : R → R → M R) (exp log : R → M R)
    (f1 f2 a1 a2 focalLength : R) : M R :=
  if a1 = a2 ∨ f1 = f2 then pure a1
  else do
    let la1 ← log a1
    let la2 ← log a2
    let lf2 ← log f2
    let lf1 ← log f1
    let lfl ← log focalLength
    let q ← quot (sub la2 la1) (sub lf2 lf1)
    exp (add la1 (mul q (sub lfl lf1)))

/-- The statement `dif = abs (lensAperture - maxApertureAtFocal)`
(`rtexif.h:410`).  The call is unqualified and stands in `namespace rtexif`;
of the headers that `rtexif.h` includes, `<cstdlib>` declares `int abs (int)`
at global scope and `<cmath>` declares the overloads for `double` in `std`, so
the function called is `int abs (int)`: the difference of the two doubles is
converted to `int` (truncation toward zero, undefined outside the range of
`int`), and the `int` result is converted back to `double`. -/
def IntLensInterpreter.apertureDif (lensAperture maxApertureAtFocal : ℚ) : Except Fault ℚ := do
  let i ← doubleToInt (doubleSub lensAperture maxApertureAtFocal)
  let d ← intAbs i
  pure (d : ℚ)

/-- The part of the body of the second loop that decides `continue` (`none`)
or computes `dif` for the candidate `name`, in binary64: the sums and
differences `f1 - .5`, `f2 + 0.5`, `a1 - 0.15`, `a2 + 0.15` and the operations
of the interpolation are rounded, and `0.15` and `0.1` are the doubles of these
literals (`.5` is a double). -/
def IntLensInterpreter.lensDif (env : LensEnv) (focalLength maxApertureAtFocal : ℚ)
    (name : List Char) : Except Fault (Option ℚ) :=
  match env.extractLensInfo name with
  | none => pure none
  | some (f1, f2, a1, a2) =>
    if f1 = 0 ∨ a1 = 0 then pure none
    else if focalLength < doubleSub f1 (1 / 2) ∨ focalLength > doubleAdd f2 (1 / 2) then pure none
    else if maxApertureAtFocal > double_0_1 then
      if maxApertureAtFocal < doubleSub a1 double_0_15 ∨
          maxApertureAtFocal > doubleAdd a2 double_0_15 then pure none
      else do
        let lensAperture ← lensApertureWith doubleAdd doubleSub doubleMul doubleQuot
          env.exp env.log f1 f2 a1 a2 focalLength
        let dif ← apertureDif lensAperture maxApertureAtFocal
        pure (some dif)
    else pure (some 0)

/-- The variables the second loop of `guess` updates. -/
structure GuessState where
  deltaMin : ℚ
  bestMatch : List Char
  candidates : List Char

/-- The statement `if (candidates.tellp ()) candidates << "\n or " << name;
else candidates << name;`. -/
def IntLensInterpreter.appendCandidate (candidates name : List Char) : List Char :=
  if candidates.length ≠ 0 then candidates ++ "\n or ".toList ++ name
  else candidates ++ name

/-- The end of the body of the second loop, from `if (dif < deltaMin)` on, for
the candidate `name`; `none` stands for `continue`. -/
def IntLensInterpreter.guessUpdate (st : GuessState) (name : List Char) :
    Option ℚ → GuessState
  | none => st
  | some dif =>
    let st1 : GuessState :=
      if dif < st.deltaMin then { st with deltaMin := dif, bestMatch := name } else st
    if dif < double_0_15 then
      { st1 with candidates := appendCandidate st1.candidates name }
    else st1

/-- One iteration of the second loop of `guess`, for the candidate `name`. -/
def IntLensInterpreter.guessStep (env : LensEnv) (focalLength maxApertureAtFocal : ℚ)
    (st : GuessState) (name : List Char) : Except Fault GuessState := do
  let dif ← lensDif env focalLength maxApertureAtFocal name
  pure (guessUpdate st name dif)

/-- The second loop of `guess` and the final choice between `bestMatch` and
the candidates collected. -/
def IntLensInterpreter.secondTry (env : LensEnv) (focalLength maxApertureAtFocal : ℚ)
    (bestMatch : List Char) (names : List (List Char)) : Except Fault (List Char) := do
  let st ← names.foldlM (guessStep env focalLength maxApertureAtFocal)
    { deltaMin := 1000, bestMatch := bestMatch, candidates := [] }
  if st.candidates.length = 0 then pure st.bestMatch else pure st.candidates

/-- The member `IntLensInterpreter<T>::guess`.  `choices` is the multimap as the
list of its entries, `idText` the rendering `s << lensID`, `lensInfoArray` the
nullable pointer to four doubles. -/
def IntLensInterpreter.guess {T : Type} [DecidableEq T] (env : LensEnv)
    (idText : T → List Char) (choices : List (T × List Char)) (lensID : T)
    (focalLength maxApertureAtFocal : ℚ) (lensInfoArray : Option (ℚ × ℚ × ℚ × ℚ)) :
    Except Fault (List Char) :=
  match candidates choices lensID with
  | [] => pure (idText lensID)
  | [name] => pure name
  | names =>
    match lensInfoArray with
    | none => secondTry env focalLength maxApertureAtFocal "Unknown".toList names
    | some info =>
      match exactMatch env info names with
      | some name => pure name
      | none => do
        let bestMatch ← unknownLabel env info
        secondTry env focalLength maxApertureAtFocal bestMatch names

/-- An environment for the worked examples: lens info read from a table,
`Nat`/`Int` decimal text for `composeInt`, and stand-ins for `exp`, `log` and
the one-decimal rendering, which the examples do not reach or do not depend
on. -/
def exampleEnv (table : List (List Char × (ℚ × ℚ × ℚ × ℚ))) : LensEnv :=
  { extractLensInfo := fun name => table.lookup name
    exp := fun x => .ok x
    log := fun x => .ok x
    composeInt := fun i => (toString i).toList
    formatFixed1 := fun x =>
      (toString (Int.tdiv (x * 10).num (x * 10).den / 10)).toList ++ ".".toList
        ++ (toString (Int.tdiv (x * 10).num (x * 10).den % 10)).toList }

/-- The two lenses of the disambiguation example, stored under one id. -/
def exampleLenses : List (Int × List Char) :=
  [(7, "24-70mm f/2.8".toList), (7, "70-200mm f/2.8".toList), (9, "50mm f/1.8".toList),
   (3, "50mm f/2.8-3.2".toList), (3, "50mm f/2.9-3.2".toList)]

/-- The published values of the lenses of `exampleLenses`. -/
def exampleLensTable : List (List Char × (ℚ × ℚ × ℚ × ℚ)) :=
  [("24-70mm f/2.8".toList, (24, 70, 14 / 5, 14 / 5)),
   ("70-200mm f/2.8".toList, (70, 200, 14 / 5, 14 / 5)),
   ("50mm f/1.8".toList, (50, 50, 9 / 5, 9 / 5)),
   ("50mm f/2.8-3.2".toList, (50, 50, 14 / 5, 16 / 5)),
   ("50mm f/2.9-3.2".toList, (50, 50, 29 / 10, 16 / 5))]

/-- Lenses whose values lie on the boundary of a filter: two f/4 lenses under
the id 4, a 3.9 mm lens and a telephoto zoom under the id 5. -/
def boundaryLenses : List (Int × List Char) :=
  [(4, "50mm f/4".toList), (4, "200-300mm f/4".toList),
   (5, "3.9mm f/2.8".toList), (5, "200-300mm f/4".toList)]

/-- The published values of the lenses of `exampleLenses` and of
`boundaryLenses` as doubles: the decimal numbers are rounded to the nearest
double. -/
def exampleDoubleTable : List (List Char × (ℚ × ℚ × ℚ × ℚ)) :=
  [("24-70mm f/2.8".toList, (24, 70, roundBinary64 (14 / 5), roundBinary64 (14 / 5))),
   ("70-200mm f/2.8".toList, (70, 200, roundBinary64 (14 / 5), roundBinary64 (14 / 5))),
   ("50mm f/1.8".toList, (50, 50, roundBinary64 (9 / 5), roundBinary64 (9 / 5))),
   ("50mm f/2.8-3.2".toList, (50, 50, roundBinary64 (14 / 5), roundBinary64 (16 / 5))),
   ("50mm f/2.9-3.2".toList, (50, 50, roundBinary64 (29 / 10), roundBinary64 (16 / 5))),
   ("50mm f/4".toList, (50, 50, 4, 4)),
   ("200-300mm f/4".toList, (200, 300, 4, 4)),
   ("3.9mm f/2.8".toList, (roundBinary64 (39 / 10), roundBinary64 (39 / 10),
      roundBinary64 (14 / 5), roundBinary64 (14 / 5)))]

/-- The scoring filters of the second loop of `guess`, as conditions on the
candidate `name`, the sums and differences being those of doubles:
`extractLensInfo` succeeds, `f1` and `a1` are not 0,
`f1 - 0.5 <= focalLength <= f2 + 0.5` and, when the aperture is known
(`> 0.1`), `a1 - 0.15 <= maxApertureAtFocal <= a2 + 0.15`. -/
def passesFilters (env : LensEnv) (focalLength maxApertureAtFocal : ℚ)
    (name : List Char) : Prop :=
  ∃ f1 f2 a1 a2, env.extractLensInfo name = some (f1, f2, a1, a2) ∧ f1 ≠ 0 ∧ a1 ≠ 0 ∧
    doubleSub f1 (1 / 2) ≤ focalLength ∧ focalLength ≤ doubleAdd f2 (1 / 2) ∧
    (maxApertureAtFocal > double_0_1 →
      doubleSub a1 double_0_15 ≤ maxApertureAtFocal ∧
      maxApertureAtFocal ≤ doubleAdd a2 double_0_15)

/-- The `dif` of a candidate when its computation ends in a double, `none`
when the candidate is skipped. -/
def difOf (env : LensEnv) (focalLength maxApertureAtFocal : ℚ) (name : List Char) : Option ℚ :=
  match IntLensInterpreter.lensDif env focalLength maxApertureAtFocal name with
  | .ok d => d
  | .error _ => none

/-- The candidates, in lookup order, whose `dif` in the second loop of `guess`
is below `0.15`. -/
def closeCandidates (env : LensEnv) (focalLength maxApertureAtFocal : ℚ)
    (names : List (List Char)) : List (List Char) :=
  names.filter (fun name =>
    match difOf env focalLength maxApertureAtFocal name with
    | some dif => decide (dif < double_0_15)
    | none => false)

/-- The text the second loop of `guess` collects from a list of names. -/
def orList (names : List (List Char)) : List Char :=
  names.foldl IntLensInterpreter.appendCandidate []

/-- The first try of `guess` ends without `return` and leaves `label` in
`bestMatch`: there is no side data and the label is "Unknown", or no candidate
has exactly the side-data values and the label synthesized from them is
`label`. -/
def noExactReturn (env : LensEnv) (names : List (List Char))
    (lensInfoArray : Option (ℚ × ℚ × ℚ × ℚ)) (label : List Char) : Prop :=
  (lensInfoArray = none ∧ label = "Unknown".toList) ∨
  ∃ info, lensInfoArray = some info ∧
    (∀ name ∈ names, env.extractLensInfo name ≠ some info) ∧
    IntLensInterpreter.unknownLabel env info = .ok label

/-! ## Byte-order codec: encoding -/

/-- The write `s[i] = b` through an `unsigned char*`: the low eight bits of `b`
are stored. -/
def writeByte (s : List (Fin 256)) (i : Int) (b : Int) : Except Fault (List (Fin 256)) :=
  if 0 ≤ i ∧ i.toNat < s.length then .ok (s.set i.toNat (Fin.ofNat (b % 256).toNat))
  else .error Fault.outOfBounds

/-- Modelled from the spec: `sset2` is declared in `rtexif.h` without a body
(`void sset2 (unsigned short v, unsigned char *s, ByteOrder order)`).  It is
the reverse of `sget2`: it writes the 16-bit value `v` to the two bytes at
`s + p` under the byte order (`INTEL` low byte first, `MOTOROLA` high byte
first). -/
def sset2 (v : Int) (s : List (Fin 256)) (p : Int) (order : ByteOrder) :
    Except Fault (List (Fin 256)) :=
  match order with
  | .INTEL => do
    let s ← writeByte s p v
    writeByte s (p + 1) (v / 256)
  | .MOTOROLA => do
    let s ← writeByte s p (v / 256)
    writeByte s (p + 1) v

/-- Modelled from the spec: `sset4` is declared in `rtexif.h` without a body
(`void sset4 (int v, unsigned char *s, ByteOrder order)`).  It is the reverse
of `sget4`: it writes the 32-bit pattern of `v` to the four bytes at `s + p`
under the byte order. -/
def sset4 (v : Int) (s : List (Fin 256)) (p : Int) (order : ByteOrder) :
    Except Fault (List (Fin 256)) :=
  match order with
  | .INTEL => do
    let s ← writeByte s p v
    let s ← writeByte s (p + 1) (v / 256)
    let s ← writeByte s (p + 2) (v / 65536)
    writeByte s (p + 3) (v / 16777216)
  | .MOTOROLA => do
    let s ← writeByte s p (v / 16777216)
    let s ← writeByte s (p + 1) (v / 65536)
    let s ← writeByte s (p + 2) (v / 256)
    writeByte s (p + 3) v

/-! ## Element sizes and the value slot -/

/-- Modelled from the spec: `getTypeSize` is declared in `rtexif.h` without a
body (`int getTypeSize (TagType type)`).  It gives the bytes per element of a
wire type: byte/ASCII/undefined 1, short/sshort 2, long/slong/float 4,
rational/srational/double 8.  No size is written down for `INVALID`,
`OLYUNDEF`, `AUTO` and `SUBDIR`: the size returned for them is the parameter
`other`. -/
def getTypeSize (other : TagType → Int) (type : TagType) : Int :=
  match type with
  | .BYTE | .ASCII | .UNDEFINED => 1
  | .SHORT | .SSHORT => 2
  | .LONG | .SLONG | .FLOAT => 4
  | .RATIONAL | .SRATIONAL | .DOUBLE => 8
  | .INVALID | .OLYUNDEF | .AUTO | .SUBDIR => other type

/-- Modelled from the spec: the parser and the writer have no body in
`rtexif.h`.  A value of `count` elements of type `type` fits inline in the
4-byte value slot of a directory entry iff `count * typeSize <= 4`; otherwise
the slot holds a file offset to the value bytes. -/
def fitsInline (other : TagType → Int) (type : TagType) (count : Int) : Bool :=
  decide (count * getTypeSize other type ≤ 4)

/-! ## Table-addressed directories -/

/-- The class `TagDirectoryTable`: its data members and the byte order of its
base class `TagDirectory`.  `values` is the value blob and `valuesSize` the
size of the allocated memory. -/
structure TagDirectoryTable extends TagDirectory where
  /-- Member `values`: "Tags values are saved internally here". -/
  values : List (Fin 256)
  /-- Member `zeroOffset`: "Offset 0 (index 0) could be at an offset from values". -/
  zeroOffset : Int
  /-- Member `valuesSize`: "Size of allocated memory". -/
  valuesSize : Int
  /-- Member `defaultType`: "Default type of all tags in this directory". -/
  defaultType : TagType

/-- Modelled from the spec: the member functions of `TagDirectoryTable` have no
body in `rtexif.h`.  `zeroOffset` is subtracted from an address field read from
the value blob before it is treated as a blob-local index. -/
def TagDirectoryTable.blobIndex (d : TagDirectoryTable) (o : Int) : Int :=
  o - d.zeroOffset

/-- The value of a `double` truncated toward zero, as a mathematical integer. -/
def truncate (d : ℚ) : Int := Int.tdiv d.num (d.den : Int)

/-! ## The lens interpreter: unknown aperture, interpolated aperture -/

/-- The value of `lensAperture` in the second loop of `guess`
(`rtexif.h:405-408`), with the numbers in a field `R` and the `exp` and `log`
selected at the call: `a1` when `a1 == a2 || f1 == f2`, else
`exp (log (a1) + (log (a2) - log (a1)) / (log (f2) - log (f1)) * (log (focalLength) - log (f1)))`. -/
def IntLensInterpreter.lensAperture {R : Type} [Field R] [DecidableEq R] (exp log : R → R)
    (f1 f2 a1 a2 focalLength : R) : R :=
  if a1 = a2 ∨ f1 = f2 then a1
  else exp (log a1 + (log a2 - log a1) / (log f2 - log f1) * (log focalLength - log f1))

end rtexif

namespace rtengine

/-! ## Box blur (`src/rtengine/boxblur.h`), in exact arithmetic -/

/-- An image `T**` (or `A**`): the sample at a row and a column.  Samples are
rational numbers: the arithmetic of `float` is taken exactly. -/
abbrev Image := Nat → Nat → ℚ

/-- The loop `for (int i = lo; i < hi; i++) body`, `body` acting on the state. -/
def forLoop {σ : Type} (lo hi : Nat) (body : Nat → σ → σ) (init : σ) : σ :=
  (List.range' lo (hi - lo)).foldl (fun s i => body i s) init

/-- The assignment `img[row][col] = v`. -/
def setPixel (img : Image) (row col : Nat) (v : ℚ) : Image :=
  Function.update img row (Function.update (img row) col v)

/-- The sliding-window pass along one line of `n` samples with radius `rad`:
`x` is the line read and `out` the line written.  In the horizontal blur
(`boxblur.h:61-80`) `x` is `src[row]`, `out` is `temp[row * W + ..]`, `n = W` and
`rad = radx`; in the vertical blur (`boxblur.h:100-119`) `x` is the column
`temp[.. * W + col]`, `out` is the column `dst[..][col]`, `n = H` and `rad = rady`.
The state of the loops that change `len` is the pair of the line and `len`. -/
def blurLine (x : Nat → ℚ) (rad n : Nat) (out : Nat → ℚ) : Nat → ℚ :=
  let len : Int := rad + 1
  let out := Function.update out 0 (x 0 / len)
  let out := forLoop 1 (rad + 1) (fun j o => Function.update o 0 (o 0 + x j / len)) out
  let s := forLoop 1 (rad + 1)
    (fun col (s : (Nat → ℚ) × Int) =>
      (Function.update s.1 col ((s.1 (col - 1) * s.2 + x (col + rad)) / ((s.2 + 1 : Int) : ℚ)),
        s.2 + 1))
    (out, len)
  let out := forLoop (rad + 1) (n - rad)
    (fun col o =>
      Function.update o col (o (col - 1) + (x (col + rad) - x (col - rad - 1)) / s.2))
    s.1
  let s := forLoop (n - rad) n
    (fun col (s : (Nat → ℚ) × Int) =>
      (Function.update s.1 col ((s.1 (col - 1) * s.2 - x (col - rad - 1)) / ((s.2 - 1 : Int) : ℚ)),
        s.2 - 1))
    (out, s.2)
  s.1

/-- The function `boxblur (T** src, A** dst, int radx, int rady, int W, int H)`
(`boxblur.h:36-125`), returning the final `dst`: `none` when an `assert` fails.
The `int` arguments are taken non-negative; `temp` is the content of the
fresh buffer when it is allocated, and `temp[row * W + col]` is written
`temp row col`. -/
def boxblur (src dst : Image) (radx rady W H : Nat) (temp : Image) : Option Image :=
  if ¬ (2 * radx + 1 < W) then none
  else if ¬ (2 * rady + 1 < H) then none
  else
    let temp : Image :=
      if radx = 0 then
        forLoop 0 H (fun row t =>
          forLoop 0 W (fun col t => setPixel t row col (src row col)) t) temp
      else
        forLoop 0 H (fun row t =>
          Function.update t row (blurLine (src row) radx W (t row))) temp
    let dst : Image :=
      if rady = 0 then
        forLoop 0 H (fun row d =>
          forLoop 0 W (fun col d => setPixel d row col (temp row col)) d) dst
      else
        forLoop 0 W (fun col d =>
          let line := blurLine (fun row => temp row col) rady H (fun row => d row col)
          fun row c => if c = col then line row else d row c) dst
    some dst

/-- The arithmetic mean of `src` over the box of radii `radx`, `rady` centred
at `(r, c)` and clipped to the `W` x `H` image: rows
`max (0, r - rady) .. min (H - 1, r + rady)` and columns
`max (0, c - radx) .. min (W - 1, c + radx)`. -/
def boxMean (src : Image) (radx rady W H r c : Nat) : ℚ :=
  (∑ i in Finset.Icc (r - rady) (min (H - 1) (r + rady)),
    ∑ j in Finset.Icc (c - radx) (min (W - 1) (c + radx)), src i j)
  / (((min (H - 1) (r + rady) - (r - rady) + 1)
      * (min (W - 1) (c + radx) - (c - radx) + 1) : Nat) : ℚ)

/-- A 5 x 4 image for the worked example: the sample at `(r, c)` is
`r * r + 3 * c`. -/
def exampleImage : Image := fun r c => (r * r + 3 * c : Nat)

/-- The prefix sum `x 0 + ... + x (k - 1)`. -/
def prefixSum (x : Nat → ℚ) (k : Nat) : ℚ := ∑ j in Finset.range k, x j

/-- The mean of the line `x` over the window of radius `rad` centred at `c`
and clipped to `0 .. n - 1`, by prefix sums. -/
def lineMean (x : Nat → ℚ) (rad n c : Nat) : ℚ :=
  (prefixSum x (min n (c + rad + 1)) - prefixSum x (c - rad))
    / ((min n (c + rad + 1) - (c - rad) : Nat) : ℚ)

/-! ## Box blur: the accesses of a run -/

/-- An access to `src`, `temp` or `dst`, or a division, met in a run of
`boxblur`.  The access `temp[row * W + col]` is recorded with its row and its
column. -/
inductive Event where
  | readSrc (row col : Int)
  | readTemp (row col : Int)
  | writeTemp (row col : Int)
  | readDst (row col : Int)
  | writeDst (row col : Int)
  | divide (divisor : Int)
  deriving DecidableEq, Repr

/-- The values taken by `i` in `for (int i = lo; i < hi; i++)`. -/
def intRange (lo hi : Int) : List Int :=
  (List.range (hi - lo).toNat).map (fun (k : Nat) => lo + (k : Int))

/-- The loop `for (int i = lo; i < hi; i++) body` on a trace: the state is the
list of the events so far and the local `len`; the body, at `i` and `len`,
gives the events of one iteration and the new `len`. -/
def traceLoop (lo hi : Int) (body : Int → Int → List Event × Int)
    (s : List Event × Int) : List Event × Int :=
  (intRange lo hi).foldl (fun s i => (s.1 ++ (body i s.2).1, (body i s.2).2)) s

/-- The events of the sliding-window pass along one line of `n` samples with
radius `rad`, in program order: `readX` is the read of the line blurred,
`readOut` and `writeOut` the read and the write of the line produced.  In the
horizontal blur (`boxblur.h:61-80`) they are `src[row][..]` and
`temp[row * W + ..]`, with `n = W`, `rad = radx`; in the vertical blur
(`boxblur.h:100-119`) they are `temp[.. * W + col]` and `dst[..][col]`, with
`n = H`, `rad = rady`. -/
def lineEvents (readX readOut writeOut : Int → Event) (rad n : Int) : List Event :=
  let len : Int := rad + 1
  let s : List Event × Int := ([readX 0, .divide len, writeOut 0], len)
  let s := traceLoop 1 (rad + 1)
    (fun j len => ([readOut 0, readX j, .divide len, writeOut 0], len)) s
  let s := traceLoop 1 (rad + 1)
    (fun col len =>
      ([readOut (col - 1), readX (col + rad), .divide (len + 1), writeOut col], len + 1)) s
  let s := traceLoop (rad + 1) (n - rad)
    (fun col len =>
      ([readOut (col - 1), readX (col + rad), readX (col - rad - 1), .divide len,
        writeOut col], len)) s
  let s := traceLoop (n - rad) n
    (fun col len =>
      ([readOut (col - 1), readX (col - rad - 1), .divide (len - 1), writeOut col],
        len - 1)) s
  s.1

/-- The accesses and divisions of a run of
`boxblur (T** src, A** dst, int radx, int rady, int W, int H)`
(`boxblur.h:36-125`), in program order; they do not depend on the samples.
`none` when an `assert` fails. -/
def boxblurEvents (radx rady W H : Int) : Option (List Event) :=
  if ¬ (2 * radx + 1 < W) then none
  else if ¬ (2 * rady + 1 < H) then none
  else
    let horizontal : List Event :=
      if radx = 0 then
        ((intRange 0 H).map (fun row =>
          ((intRange 0 W).map (fun col =>
            [Event.readSrc row col, Event.writeTemp row col])).flatten)).flatten
      else
        ((intRange 0 H).map (fun row =>
          lineEvents (Event.readSrc row) (Event.readTemp row) (Event.writeTemp row)
            radx W)).flatten
    let vertical : List Event :=
      if rady = 0 then
        ((intRange 0 H).map (fun row =>
          ((intRange 0 W).map (fun col =>
            [Event.readTemp row col, Event.writeDst row col])).flatten)).flatten
      else
        ((intRange 0 W).map (fun col =>
          lineEvents (fun row => Event.readTemp row col) (fun row => Event.readDst row col)
            (fun row => Event.writeDst row col) rady H)).flatten
    some (horizontal ++ vertical)

/-- An access is in bounds for a `W` x `H` image when its row index is in
`[0, H)` and its column index in `[0, W)`; a division is in bounds when the
divisor is at least 1. -/
def Event.inBounds (W H : Int) : Event → Bool
  | .readSrc row col | .readTemp row col | .writeTemp row col | .readDst row col
  | .writeDst row col => decide (0 ≤ row ∧ row < H ∧ 0 ≤ col ∧ col < W)
  | .divide divisor => decide (1 ≤ divisor)

/-! ## Box blur with row and line buffers (`boxblur.h:315-554`) -/

/-- The constant `numCols`: "process numCols columns at once". -/
abbrev numCols : Nat := 8

/-- The loop `for (int i = lo; i < hi; i += step) body`. -/
def forLoopStep {σ : Type} (lo hi step : Nat) (body : Nat → σ → σ) (init : σ) : σ :=
  (List.range' lo ((hi - lo + step - 1) / step) step).foldl (fun s i => body i s) init

/-- The variables that the loops of the row/line-buffer `boxblur` change: the
image `dst`, the memory of `buffer` (`lineBuffer[i]` is `buffer i` and
`rowBuffer[row][k]` is `buffer (row * 8 + k)`), and the locals `tempval`, `len`
and `pos`.  The `float`s are rational numbers. -/
structure BlurState where
  dst : Image
  buffer : Nat → ℚ
  tempval : ℚ
  len : ℚ
  pos : Nat

/-- The read `src[row][col]`.  The image `src` is `none` when the pointers
`src` and `dst` are equal: the read then sees what `dst` holds. -/
def srcAt (src : Option Image) (dst : Image) (row col : Nat) : ℚ :=
  match src with
  | some im => im row col
  | none => dst row col

/-- The statements `++pos; pos = pos <= radius ? pos : 0;`. -/
def nextPos (radius pos : Nat) : Nat :=
  if pos + 1 ≤ radius then pos + 1 else 0

/-- The body of `for (int col = 1; col <= radius; col++)` in the horizontal
blur (`boxblur.h:358-361`). -/
def horizontalGrow (src : Option Image) (radius row col : Nat) (s : BlurState) : BlurState :=
  let s := { s with buffer := Function.update s.buffer col (srcAt src s.dst row col) }
  let s := { s with
    tempval := (s.tempval * s.len + srcAt src s.dst row (col + radius)) / (s.len + 1) }
  let s := { s with dst := setPixel s.dst row col s.tempval }
  { s with len := s.len + 1 }

/-- The body of `for (int col = radius + 1; col < W - radius; col++)` in the
horizontal blur (`boxblur.h:365-370`). -/
def horizontalSlide (src : Option Image) (radius row col : Nat) (s : BlurState) : BlurState :=
  let oldVal := s.buffer s.pos
  let s := { s with buffer := Function.update s.buffer s.pos (srcAt src s.dst row col) }
  let s := { s with
    tempval := s.tempval + (srcAt src s.dst row (col + radius) - oldVal) / s.len }
  let s := { s with dst := setPixel s.dst row col s.tempval }
  { s with pos := nextPos radius s.pos }

/-- The body of `for (int col = W - radius; col < W; col++)` in the horizontal
blur (`boxblur.h:374-378`). -/
def horizontalShrink (radius row col : Nat) (s : BlurState) : BlurState :=
  let s := { s with tempval := (s.tempval * s.len - s.buffer s.pos) / (s.len - 1) }
  let s := { s with dst := setPixel s.dst row col s.tempval }
  let s := { s with len := s.len - 1 }
  { s with pos := nextPos radius s.pos }

/-- The first sample of a row in the horizontal blur (`boxblur.h:347-355`):
the sum of the first window, its mean and the store to `dst[row][0]`. -/
def horizontalStart (src : Option Image) (radius row : Nat) (s : BlurState) : BlurState :=
  let s := { s with len := (radius : ℚ) + 1 }
  let s := { s with tempval := srcAt src s.dst row 0 }
  let s := { s with buffer := Function.update s.buffer 0 s.tempval }
  let s := forLoop 1 (radius + 1)
    (fun j s => { s with tempval := s.tempval + srcAt src s.dst row j }) s
  let s := { s with tempval := s.tempval / s.len }
  { s with dst := setPixel s.dst row 0 s.tempval }

/-- The body of the loop over `row` of the horizontal blur
(`boxblur.h:347-379`). -/
def horizontalRow (src : Option Image) (radius W row : Nat) (s : BlurState) : BlurState :=
  let s := horizontalStart src radius row s
  let s := forLoop 1 (radius + 1) (horizontalGrow src radius row) s
  let s := { s with pos := 0 }
  let s := forLoop (radius + 1) (W - radius) (horizontalSlide src radius row) s
  forLoop (W - radius) W (horizontalShrink radius row) s

/-- The part of the loop invariant shared by the three loops over `col` of a
row of the horizontal blur, before the iteration `col`: `tempval` and the
samples of `dst[row]` before `col` are the window means of the line `x`, the
samples of `src[row]` from `col` on are still those of `x`, and the other rows
of `dst` are those of `d0`. -/
def horizontalInv (src : Option Image) (x : Nat → ℚ) (d0 : Image) (radius W row col : Nat)
    (s : BlurState) : Prop :=
  s.tempval = lineMean x radius W (col - 1) ∧
  (∀ k, k < col → s.dst row k = lineMean x radius W k) ∧
  (∀ j, col ≤ j → srcAt src s.dst row j = x j) ∧
  (∀ r, r ≠ row → s.dst r = d0 r)

/-- The statement `rowBuffer[0][k] = dst[0][col + k]` (`boxblur.h:458, 515`). -/
def verticalSave (col k : Nat) (s : BlurState) : BlurState :=
  { s with buffer := Function.update s.buffer (0 * 8 + k) (s.dst 0 (col + k)) }

/-- The statement `dst[0][col + k] += dst[i][col + k]` (`boxblur.h:463, 519`). -/
def verticalAdd (col i k : Nat) (s : BlurState) : BlurState :=
  { s with dst := setPixel s.dst 0 (col + k) (s.dst 0 (col + k) + s.dst i (col + k)) }

/-- The statement `dst[0][col + k] /= len` (`boxblur.h:468, 523`). -/
def verticalDivide (col k : Nat) (s : BlurState) : BlurState :=
  { s with dst := setPixel s.dst 0 (col + k) (s.dst 0 (col + k) / s.len) }

/-- The body of the loop over `k` for the growing windows
(`boxblur.h:473-474, 527-528`). -/
def verticalGrow (radius col row k : Nat) (s : BlurState) : BlurState :=
  let s := { s with buffer := Function.update s.buffer (row * 8 + k) (s.dst row (col + k)) }
  { s with
    dst := setPixel s.dst row (col + k)
      ((s.dst (row - 1) (col + k) * s.len + s.dst (row + radius) (col + k)) / (s.len + 1)) }

/-- The body of the loop over `k` for the full windows: with `rlen = false`
the step divides by `len` (`boxblur.h:483-485`), with `rlen = true` it
multiplies by `rlenVal`, the value of `rlen = 1.f / len`
(`boxblur.h:536-538`). -/
def verticalSlide (radius col : Nat) (rlen : Bool) (rlenVal : ℚ) (row k : Nat)
    (s : BlurState) : BlurState :=
  let oldVal := s.buffer (s.pos * 8 + k)
  let s := { s with buffer := Function.update s.buffer (s.pos * 8 + k) (s.dst row (col + k)) }
  { s with
    dst := setPixel s.dst row (col + k)
      (s.dst (row - 1) (col + k) +
        (if rlen then (s.dst (row + radius) (col + k) - oldVal) * rlenVal
         else (s.dst (row + radius) (col + k) - oldVal) / s.len)) }

/-- The body of the loop over `k` for the shrinking windows
(`boxblur.h:493, 545`). -/
def verticalShrink (col row k : Nat) (s : BlurState) : BlurState :=
  { s with
    dst := setPixel s.dst row (col + k)
      ((s.dst (row - 1) (col + k) * s.len - s.buffer (s.pos * 8 + k)) / (s.len - 1)) }

/-- The first row of a block of columns in the vertical blur
(`boxblur.h:455-469, 513-524`): the sums of the first windows and their
means. -/
def verticalStart (radius col cnt : Nat) (s : BlurState) : BlurState :=
  let s := { s with len := (radius : ℚ) + 1 }
  let s := forLoop 0 cnt (verticalSave col) s
  let s := forLoop 1 (radius + 1) (fun i s => forLoop 0 cnt (verticalAdd col i) s) s
  forLoop 0 cnt (verticalDivide col) s

/-- The vertical blur of the `cnt` columns from `col`, in the portable code
(the `#else` of `__SSE2__`): the body of the loop over the tiles of `numCols`
columns (`boxblur.h:455-498`, `cnt = numCols`, `rlen = false`) and the block
of the remaining columns (`boxblur.h:513-550`, `cnt = remaining`,
`rlen = true`: the sliding step multiplies by `rlen = 1.f / len` instead of
dividing by `len`). -/
def verticalCols (radius H col cnt : Nat) (rlen : Bool) (s : BlurState) : BlurState :=
  let s := verticalStart radius col cnt s
  let s := forLoop 1 (radius + 1)
    (fun row s =>
      let s := forLoop 0 cnt (verticalGrow radius col row) s
      { s with len := s.len + 1 }) s
  let rlenVal : ℚ := 1 / s.len
  let s := { s with pos := 0 }
  let s := forLoop (radius + 1) (H - radius)
    (fun row s =>
      let s := forLoop 0 cnt (verticalSlide radius col rlen rlenVal row) s
      { s with pos := nextPos radius s.pos }) s
  forLoop (H - radius) H
    (fun row s =>
      let s := forLoop 0 cnt (verticalShrink col row) s
      let s := { s with len := s.len - 1 }
      { s with pos := nextPos radius s.pos }) s

/-- The part of the loop invariant shared by the loops over `row` of the
vertical blur of the columns `col .. col + cnt - 1`, before the iteration
`row`: in these columns the samples of `dst` above `row` are the window means
of the columns of `d0` and those from `row` on are still those of `d0`; the
other columns of `dst` are those of `d0`. -/
def verticalInv (d0 : Image) (radius H col cnt row : Nat) (s : BlurState) : Prop :=
  (∀ k, k < cnt → ∀ i, i < row →
    s.dst i (col + k) = lineMean (fun i => d0 i (col + k)) radius H i) ∧
  (∀ k, k < cnt → ∀ i, row ≤ i → s.dst i (col + k) = d0 i (col + k)) ∧
  (∀ i c, (c < col ∨ col + cnt ≤ c) → s.dst i c = d0 i c)

/-- The function
`boxblur (float** src, float** dst, int radius, int W, int H, bool multiThread)`
(`boxblur.h:315-554`), "box blur using rowbuffers and linebuffers instead of a
full size buffer", returning the final `dst`.  `src` is `none` when the
pointers `src` and `dst` are equal (blur in place); `buffer` is the content of
the fresh buffer when it is allocated; the `int` arguments are taken
non-negative.  The loops run in program order, on one buffer: `multiThread`
only selects the OpenMP schedule.  The vertical blur of the tiles is the
portable code, which does the arithmetic of the `__SSE2__` code column by
column. -/
def boxblurRowBuffer (src : Option Image) (dst : Image) (radius W H : Nat)
    (_multiThread : Bool) (buffer : Nat → ℚ) : Image :=
  if radius = 0 then
    match src with
    | some im =>
      forLoop 0 H (fun row d =>
        forLoop 0 W (fun col d => setPixel d row col (im row col)) d) dst
    | none => dst
  else
    let s : BlurState := { dst := dst, buffer := buffer, tempval := 0, len := 0, pos := 0 }
    let s := forLoop 0 H (fun row s => horizontalRow src radius W row s) s
    let s := forLoopStep 0 (W + 1 - numCols) 8
      (fun col s => verticalCols radius H col numCols false s) s
    let remaining := W % numCols
    let s := if remaining > 0 then verticalCols radius H (W - remaining) remaining true s else s
    s.dst

/-! ## Box blur with the buffer of the caller (`boxblur.h:127-313`, `boxblur.h:556-884`) -/

/-- The loop `for (int i = hi - 1; i >= 0; i--) body`. -/
def forLoopDown {σ : Type} (hi : Nat) (body : Nat → σ → σ) (init : σ) : σ :=
  (List.range hi).foldr body init

/-- The variables of the horizontal blur of one row in the versions that keep
the running mean in `tempval`: the memory of `temp`, `tempval` and `len`.
`len` is a `float` in `boxblur.h:149` and an `int` in `boxblur.h:570, 757`; it
is the rational number of the same value here. -/
structure LineState where
  temp : Nat → ℚ
  tempval : ℚ
  len : ℚ

/-- The body of `for (int col = 1; col <= radx; col++)` in the horizontal blur
(`boxblur.h:159-162, 580-584, 767-771`): `ahead col` is the sample read at
`col + radx` and `base + col` the index `row * W + col` in `temp`. -/
def blurRowGrow (ahead : Nat → ℚ) (base col : Nat) (s : LineState) : LineState :=
  let tempval := (s.tempval * s.len + ahead col) / (s.len + 1)
  { temp := Function.update s.temp (base + col) tempval, tempval := tempval, len := s.len + 1 }

/-- The body of `for (int col = radx + 1; col < W - radx; col++)` in the
horizontal blur: `behind col` is the sample read at `col - radx - 1`.  With
`recip = false` the step divides by `len` (`boxblur.h:164-166`); with
`recip = true` it multiplies by `reclen`, the value of `1.f / len` before the
loop (`boxblur.h:586-591, 773-778`). -/
def blurRowSlide (ahead behind : Nat → ℚ) (base : Nat) (recip : Bool) (reclen : ℚ)
    (col : Nat) (s : LineState) : LineState :=
  let tempval :=
    if recip then s.tempval + (ahead col - behind col) * reclen
    else s.tempval + (ahead col - behind col) / s.len
  { s with temp := Function.update s.temp (base + col) tempval, tempval := tempval }

/-- The body of `for (int col = W - radx; col < W; col++)` in the horizontal
blur (`boxblur.h:168-171, 593-597, 780-784`). -/
def blurRowShrink (behind : Nat → ℚ) (base col : Nat) (s : LineState) : LineState :=
  let tempval := (s.tempval * s.len - behind col) / (s.len - 1)
  { temp := Function.update s.temp (base + col) tempval, tempval := tempval, len := s.len - 1 }

/-- The body of the loop over `row` of the horizontal blur in the versions
that keep the running mean in `tempval` (`boxblur.h:149-171`, `570-597`,
`757-784`), on the memory of `temp`: `first j` is the read of the sample `j`
of the row in the sum of the first window, `ahead col` the read at
`col + radx`, `behind col` the read at `col - radx - 1`, and `base` the index
`row * W` of the row in `temp`. -/
def blurRow (first ahead behind : Nat → ℚ) (radx W base : Nat) (recip : Bool)
    (temp : Nat → ℚ) : Nat → ℚ :=
  let len : ℚ := (radx : ℚ) + 1
  let tempval := forLoop 1 (radx + 1) (fun j tv => tv + first j) (first 0)
  let tempval := tempval / len
  let s : LineState :=
    { temp := Function.update temp (base + 0) tempval, tempval := tempval, len := len }
  let s := forLoop 1 (radx + 1) (blurRowGrow ahead base) s
  let reclen : ℚ := 1 / s.len
  let s := forLoop (radx + 1) (W - radx) (blurRowSlide ahead behind base recip reclen) s
  let s := forLoop (W - radx) W (blurRowShrink behind base) s
  s.temp

/-- The sliding-window pass of `blurLine` on a line stored with a stride: the
sample `k` of the line written is `out (idx k)`.  In the vertical blur of the
flat-array versions (`boxblur.h:716-735`, `859-878`) `x` is the column
`temp[.. * W + col]`, `idx row` is `row * W + col`, `out` is the memory of
`dst`, `n = H` and `rad = rady`. -/
def blurLineAt (x : Nat → ℚ) (rad n : Nat) (idx : Nat → Nat) (out : Nat → ℚ) : Nat → ℚ :=
  let len : Int := rad + 1
  let out := Function.update out (idx 0) (x 0 / len)
  let out := forLoop 1 (rad + 1)
    (fun j o => Function.update o (idx 0) (o (idx 0) + x j / len)) out
  let s := forLoop 1 (rad + 1)
    (fun row (s : (Nat → ℚ) × Int) =>
      (Function.update s.1 (idx row)
        ((s.1 (idx (row - 1)) * s.2 + x (row + rad)) / ((s.2 + 1 : Int) : ℚ)),
        s.2 + 1))
    (out, len)
  let out := forLoop (rad + 1) (n - rad)
    (fun row o =>
      Function.update o (idx row)
        (o (idx (row - 1)) + (x (row + rad) - x (row - rad - 1)) / s.2))
    s.1
  let s := forLoop (n - rad) n
    (fun row (s : (Nat → ℚ) × Int) =>
      (Function.update s.1 (idx row)
        ((s.1 (idx (row - 1)) * s.2 - x (row - rad - 1)) / ((s.2 - 1 : Int) : ℚ)),
        s.2 - 1))
    (out, s.2)
  s.1

/-- The second half of the flat-array `boxblur` and of `boxabsblur`, which
have the same text (`boxblur.h:601-739`, `788-882`): the copy of `temp` to
`dst` when `rady == 0`, else the vertical blur, column by column: the code
compiled when `__SSE2__` is not defined (the `#else` branches).  The code
compiled under `__SSE2__` is `flatVerticalSSE2` for `boxblur` and
`absVerticalSSE2` for `boxabsblur`. -/
def flatVertical (temp dst : Nat → ℚ) (rady W H : Nat) : Nat → ℚ :=
  if rady = 0 then
    forLoop 0 H (fun row d =>
      forLoop 0 W (fun col d => Function.update d (row * W + col) (temp (row * W + col))) d) dst
  else
    forLoop 0 W (fun col d =>
      blurLineAt (fun row => temp (row * W + col)) rady H (fun row => row * W + col) d) dst

/-- The first half of the flat-array `boxblur` (`boxblur.h:562-599`): the copy
of `src` to `temp` when `radx == 0`, else the horizontal blur, from the last
row to the first. -/
def flatHorizontal (src : Nat → ℚ) (radx W H : Nat) (temp : Nat → ℚ) : Nat → ℚ :=
  if radx = 0 then
    forLoop 0 H (fun row t =>
      forLoop 0 W (fun col t => Function.update t (row * W + col) (src (row * W + col))) t) temp
  else
    forLoopDown H (fun row t =>
      blurRow (fun j => src (row * W + j)) (fun col => src (row * W + col + radx))
        (fun col => src (row * W + col - radx - 1)) radx W (row * W) true t) temp

/-- The first half of `boxabsblur` (`boxblur.h:749-786`): the copy of the
absolute values of `src` to `temp` when `radx == 0`, else the horizontal blur
of the absolute values, from the first row to the last. -/
def absHorizontal (src : Nat → ℚ) (radx W H : Nat) (temp : Nat → ℚ) : Nat → ℚ :=
  if radx = 0 then
    forLoop 0 H (fun row t =>
      forLoop 0 W (fun col t => Function.update t (row * W + col) |src (row * W + col)|) t) temp
  else
    forLoop 0 H (fun row t =>
      blurRow (fun j => |src (row * W + j)|) (fun col => |src (row * W + col + radx)|)
        (fun col => |src (row * W + col - radx - 1)|) radx W (row * W) true t) temp

/-- A flat image with samples of both signs: 1, -2, 3, -4, ... -/
def exampleFlat : Nat → ℚ := fun i => if i % 2 = 0 then (i : ℚ) + 1 else -((i : ℚ) + 1)

/-- The statement `dst[0][col + k] = temp[0 * W + col + k]` (`boxblur.h:248`). -/
def tileInit (temp : Nat → ℚ) (W col k : Nat) (d : Image) : Image :=
  setPixel d 0 (col + k) (temp (0 * W + col + k))

/-- The statement `dst[0][col + k] += temp[i * W + col + k]` (`boxblur.h:253`). -/
def tileAdd (temp : Nat → ℚ) (W col i k : Nat) (d : Image) : Image :=
  setPixel d 0 (col + k) (d 0 (col + k) + temp (i * W + col + k))

/-- The statement `dst[0][col + k] /= len` (`boxblur.h:258`). -/
def tileDivide (len : ℚ) (col k : Nat) (d : Image) : Image :=
  setPixel d 0 (col + k) (d 0 (col + k) / len)

/-- The body of the loop over `k` for the growing windows (`boxblur.h:263`). -/
def tileGrow (temp : Nat → ℚ) (rady W col : Nat) (len : ℚ) (row k : Nat) (d : Image) : Image :=
  setPixel d row (col + k)
    ((d (row - 1) (col + k) * len + temp ((row + rady) * W + col + k)) / (len + 1))

/-- The body of the loop over `k` for the full windows (`boxblur.h:271`). -/
def tileSlide (temp : Nat → ℚ) (rady W col : Nat) (len : ℚ) (row k : Nat) (d : Image) : Image :=
  setPixel d row (col + k)
    (d (row - 1) (col + k)
      + (temp ((row + rady) * W + col + k) - temp ((row - rady - 1) * W + col + k)) / len)

/-- The body of the loop over `k` for the shrinking windows (`boxblur.h:277`). -/
def tileShrink (temp : Nat → ℚ) (rady W col : Nat) (len : ℚ) (row k : Nat) (d : Image) : Image :=
  setPixel d row (col + k)
    ((d (row - 1) (col + k) * len - temp ((row - rady - 1) * W + col + k)) / (len - 1))

/-- The body of the loop over the tiles of `numCols` columns in the vertical
blur of the portable code (`boxblur.h:245-281`), on `dst`: the state of the
loops that change `len` is the pair of `dst` and `len`. -/
def tileColumns (temp : Nat → ℚ) (rady W H col : Nat) (dst : Image) : Image :=
  let len : ℚ := (rady : ℚ) + 1
  let d := forLoop 0 numCols (tileInit temp W col) dst
  let d := forLoop 1 (rady + 1) (fun i d => forLoop 0 numCols (tileAdd temp W col i) d) d
  let d := forLoop 0 numCols (tileDivide len col) d
  let s : Image × ℚ := forLoop 1 (rady + 1)
    (fun row s => (forLoop 0 numCols (tileGrow temp rady W col s.2 row) s.1, s.2 + 1)) (d, len)
  let d := forLoop (rady + 1) (H - rady)
    (fun row d => forLoop 0 numCols (tileSlide temp rady W col s.2 row) d) s.1
  let s : Image × ℚ := forLoop (H - rady) H
    (fun row s => (forLoop 0 numCols (tileShrink temp rady W col s.2 row) s.1, s.2 - 1))
    (d, s.2)
  s.1

/-- The first half of `boxblur` with the buffer of the caller
(`boxblur.h:131-173`): the copy of `src` to `temp` when `radx == 0`, else the
horizontal blur. -/
def bufferHorizontal (src : Image) (radx W H : Nat) (temp : Nat → ℚ) : Nat → ℚ :=
  if radx = 0 then
    forLoop 0 H (fun row t =>
      forLoop 0 W (fun col t => Function.update t (row * W + col) (src row col)) t) temp
  else
    forLoop 0 H (fun row t =>
      blurRow (fun j => src row j) (fun col => src row (col + radx))
        (fun col => src row (col - radx - 1)) radx W (row * W) false t) temp

/-- The function
`boxblur (T** src, A** dst, T* buffer, int radx, int rady, int W, int H)`
(`boxblur.h:127-313`), returning the final `dst`.  `buffer` is the memory of
the buffer at the call; the `int` arguments are taken non-negative.  The
vertical blur is the portable code (the `#else` of `__SSE2__`): the tiles of
`numCols` columns, then the remaining columns one by one. -/
def boxblurBuffer (src dst : Image) (buffer : Nat → ℚ) (radx rady W H : Nat) : Image :=
  let temp := bufferHorizontal src radx W H buffer
  if rady = 0 then
    forLoop 0 H (fun row d =>
      forLoop 0 W (fun col d => setPixel d row col (temp (row * W + col))) d) dst
  else
    let d := forLoopStep 0 (W + 1 - numCols) 8 (fun col d => tileColumns temp rady W H col d) dst
    forLoop (W - W % numCols) W (fun col d =>
      let line := blurLine (fun row => temp (row * W + col)) rady H (fun row => d row col)
      fun row c => if c = col then line row else d row c) d

/-- The columns of `dst` that the loop over the tiles handles
(`boxblur.h:244-282`), in program order: `col + k` for `col` from 0 in steps
of 8 while `col < W - numCols + 1` and `k` from 0 to `numCols - 1`. -/
def tiledColumns (W : Nat) : List Nat :=
  forLoopStep 0 (W + 1 - numCols) 8
    (fun col cols => forLoop 0 numCols (fun k cols => cols ++ [col + k]) cols) []

/-- The columns of `dst` that the loop over the remaining columns handles
(`boxblur.h:289-310`), in program order: `col` from `W - (W % numCols)` to
`W - 1`. -/
def remainderColumns (W : Nat) : List Nat :=
  forLoop (W - W % numCols) W (fun col cols => cols ++ [col]) []

/-! ## The vertical blur of the flat-array versions under `__SSE2__` -/

/-- The loop `for (int i = lo; i < hi; i++) body` with a body that may fault:
`none` is the fault. -/
def forLoopM {σ : Type} (lo hi : Nat) (body : Nat → σ → Option σ) (init : σ) : Option σ :=
  (List.range' lo (hi - lo)).foldlM (fun s i => body i s) init

/-- The loop `for (; i < hi; i += step) body`, started with `i = lo`, with a
body that may fault. -/
def forLoopStepM {σ : Type} (lo hi step : Nat) (body : Nat → σ → Option σ) (init : σ) :
    Option σ :=
  (List.range' lo ((hi - lo + step - 1) / step) step).foldlM (fun s i => body i s) init

/-- The value of `i` when the loop `for (; i < hi; i += step)`, started with
`i = lo`, is left. -/
def loopExit (lo hi step : Nat) : Nat := lo + step * ((hi - lo + step - 1) / step)

/-- The loads `LVF (mem[i])` (`_mm_load_ps`, `aligned = true`) and
`LVFU (mem[i])` (`_mm_loadu_ps`, `aligned = false`): the lane `k` of the
register is `mem[i + k]`; for the pair of registers loaded from `mem[i]` and
`mem[i + 4]` the lanes of the second are counted from 4 on.  `base` is the
address of `mem[0]` counted in `float`s: the address of `mem[i]` is a multiple
of 16 bytes when `(base + i) % 4 = 0`, and the aligned load of another address
faults (`none`). -/
def loadV (aligned : Bool) (base : Nat) (mem : Nat → ℚ) (i : Nat) : Option (Nat → ℚ) :=
  if aligned = true ∧ (base + i) % 4 ≠ 0 then none else some (fun k => mem (i + k))

/-- The stores `STVF (mem[i], v)` (`_mm_store_ps`, `aligned = true`) and
`STVFU (mem[i], v)` (`_mm_storeu_ps`, `aligned = false`) of `lanes` lanes (4 for
one register, 8 for the pair stored at `mem[i]` and `mem[i + 4]`); the aligned
store to an address that is not a multiple of 16 bytes faults (`none`). -/
def storeV (aligned : Bool) (base lanes : Nat) (mem : Nat → ℚ) (i : Nat) (v : Nat → ℚ) :
    Option (Nat → ℚ) :=
  if aligned = true ∧ (base + i) % 4 ≠ 0 then none
  else some (fun j => if i ≤ j ∧ j < i + lanes then v (j - i) else mem j)

/-- The variables of the vertical blur of one group of columns under
`__SSE2__`: the memory of `dst`, the lanes of `tempv` (followed by those of
`temp1v` when the group has two registers) and `lenv`, whose lanes hold one
value. -/
structure VectorState where
  dst : Nat → ℚ
  tempv : Nat → ℚ
  lenv : ℚ

/-- The body of `for (int i = 1; i <= rady; i++)` under `__SSE2__`
(`boxblur.h:617-620, 655-657, 804-806`):
`tempv = tempv + LVF (temp[i * W + col])`. -/
def vectorAdd (aligned : Bool) (tempBase : Nat) (temp : Nat → ℚ) (W col i : Nat)
    (tempv : Nat → ℚ) : Option (Nat → ℚ) := do
  let x ← loadV aligned tempBase temp (i * W + col)
  pure (fun k => tempv k + x k)

/-- The body of `for (int row = 1; row <= rady; row++)` under `__SSE2__`
(`boxblur.h:627-634, 662-667, 811-816`). -/
def vectorGrow (aligned : Bool) (tempBase dstBase lanes : Nat) (temp : Nat → ℚ)
    (rady W col row : Nat) (s : VectorState) : Option VectorState := do
  let lenp1v := s.lenv + 1
  let x ← loadV aligned tempBase temp ((row + rady) * W + col)
  let tempv : Nat → ℚ := fun k => (s.tempv k * s.lenv + x k) / lenp1v
  let dst ← storeV aligned dstBase lanes s.dst (row * W + col) tempv
  pure { dst := dst, tempv := tempv, lenv := lenp1v }

/-- The body of `for (int row = rady + 1; row < H - rady; row++)` under
`__SSE2__` (`boxblur.h:638-643, 671-674, 820-823`), `rlenv` being `onev / lenv`
before the loop. -/
def vectorSlide (aligned : Bool) (tempBase dstBase lanes : Nat) (temp : Nat → ℚ)
    (rady W col : Nat) (rlenv : ℚ) (row : Nat) (s : VectorState) : Option VectorState := do
  let x ← loadV aligned tempBase temp ((row + rady) * W + col)
  let y ← loadV aligned tempBase temp ((row - rady - 1) * W + col)
  let tempv : Nat → ℚ := fun k => s.tempv k + (x k - y k) * rlenv
  let dst ← storeV aligned dstBase lanes s.dst (row * W + col) tempv
  pure { s with dst := dst, tempv := tempv }

/-- The body of `for (int row = H - rady; row < H; row++)` under `__SSE2__`
(`boxblur.h:645-652, 676-681, 825-830`). -/
def vectorShrink (aligned : Bool) (tempBase dstBase lanes : Nat) (temp : Nat → ℚ)
    (rady W col row : Nat) (s : VectorState) : Option VectorState := do
  let lenm1v := s.lenv - 1
  let x ← loadV aligned tempBase temp ((row - rady - 1) * W + col)
  let tempv : Nat → ℚ := fun k => (s.tempv k * s.lenv - x k) / lenm1v
  let dst ← storeV aligned dstBase lanes s.dst (row * W + col) tempv
  pure { dst := dst, tempv := tempv, lenv := lenm1v }

/-- The body of a loop over `col` of the vertical blur under `__SSE2__`
(`boxblur.h:612-653` with `lanes = 8`, `boxblur.h:655-682` and `799-831` with
`lanes = 4`), on the memory of `dst`. -/
def vectorColumn (aligned : Bool) (tempBase dstBase lanes : Nat) (temp : Nat → ℚ)
    (rady W H col : Nat) (dst : Nat → ℚ) : Option (Nat → ℚ) := do
  let lenv : ℚ := (rady : ℚ) + 1
  let tempv ← loadV aligned tempBase temp (0 * W + col)
  let tempv ← forLoopM 1 (rady + 1) (vectorAdd aligned tempBase temp W col) tempv
  let tempv : Nat → ℚ := fun k => tempv k / lenv
  let dst ← storeV aligned dstBase lanes dst (0 * W + col) tempv
  let s ← forLoopM 1 (rady + 1) (vectorGrow aligned tempBase dstBase lanes temp rady W col)
    { dst := dst, tempv := tempv, lenv := lenv }
  let rlenv : ℚ := 1 / s.lenv
  let s ← forLoopM (rady + 1) (H - rady)
    (vectorSlide aligned tempBase dstBase lanes temp rady W col rlenv) s
  let s ← forLoopM (H - rady) H (vectorShrink aligned tempBase dstBase lanes temp rady W col) s
  pure s.dst

/-- The second half of the flat-array `boxblur` under `__SSE2__`
(`boxblur.h:601-711`): the copy of `temp` to `dst` when `rady == 0`, else the
vertical blur with unaligned loads and stores, of 8 columns at a time, then of
4 columns at a time, then of the remaining columns one by one. -/
def flatVerticalSSE2 (temp dst : Nat → ℚ) (rady W H : Nat) : Option (Nat → ℚ) :=
  if rady = 0 then
    some (forLoop 0 H (fun row d =>
      forLoop 0 W (fun col d => Function.update d (row * W + col) (temp (row * W + col))) d) dst)
  else do
    let d ← forLoopStepM 0 (W - 7) 8 (vectorColumn false 0 0 8 temp rady W H) dst
    let col := loopExit 0 (W - 7) 8
    let d ← forLoopStepM col (W - 3) 4 (vectorColumn false 0 0 4 temp rady W H) d
    let col := loopExit col (W - 3) 4
    pure (forLoop col W (fun col d =>
      blurLineAt (fun row => temp (row * W + col)) rady H (fun row => row * W + col) d) d)

/-- The second half of `boxabsblur` under `__SSE2__` (`boxblur.h:788-854`): the
copy of `temp` to `dst` when `rady == 0`, else the vertical blur with aligned
loads and stores, of 4 columns at a time, then of the columns from
`W - (W % 4)` on one by one.  `tempBase` and `dstBase` are the addresses of
`temp[0]` and `dst[0]` counted in `float`s. -/
def absVerticalSSE2 (tempBase dstBase : Nat) (temp dst : Nat → ℚ) (rady W H : Nat) :
    Option (Nat → ℚ) :=
  if rady = 0 then
    some (forLoop 0 H (fun row d =>
      forLoop 0 W (fun col d => Function.update d (row * W + col) (temp (row * W + col))) d) dst)
  else do
    let d ← forLoopStepM 0 (W - 3) 4 (vectorColumn true tempBase dstBase 4 temp rady W H) dst
    pure (forLoop (W - W % 4) W (fun col d =>
      blurLineAt (fun row => temp (row * W + col)) rady H (fun row => row * W + col) d) d)

/-- The function
`boxblur (T* src, A* dst, A* buffer, int radx, int rady, int W, int H)`
(`boxblur.h:556-741`) on flat arrays, returning the final memory of `dst`;
`sse2` tells whether `__SSE2__` is defined.  `buffer` is the memory of the
buffer at the call; it overlaps neither `src` nor `dst`.  The `int` arguments
are taken non-negative.  The function has no aligned access: it always returns
(`some`). -/
def boxblurFlat (sse2 : Bool) (src dst buffer : Nat → ℚ) (radx rady W H : Nat) :
    Option (Nat → ℚ) :=
  if sse2 then flatVerticalSSE2 (flatHorizontal src radx W H buffer) dst rady W H
  else some (flatVertical (flatHorizontal src radx W H buffer) dst rady W H)

/-- The function
`boxabsblur (T* src, A* dst, int radx, int rady, int W, int H, float* temp)`
(`boxblur.h:743-884`), returning the final memory of `dst`, or `none` when an
aligned load or store is given an address that is not a multiple of 16 bytes;
`sse2` tells whether `__SSE2__` is defined, `tempBase` and `dstBase` are the
addresses of `temp[0]` and `dst[0]` counted in `float`s.  `temp` is the memory
of the buffer at the call; it overlaps neither `src` nor `dst`.  The `int`
arguments are taken non-negative. -/
def boxabsblur (sse2 : Bool) (tempBase dstBase : Nat) (src dst : Nat → ℚ)
    (radx rady W H : Nat) (temp : Nat → ℚ) : Option (Nat → ℚ) :=
  if sse2 then absVerticalSSE2 tempBase dstBase (absHorizontal src radx W H temp) dst rady W H
  else some (flatVertical (absHorizontal src radx W H temp) dst rady W H)

/-- The state of the vertical blur of a group of `lanes` columns under
`__SSE2__` before the row `row`, for a `dst` that was `d0` before the group:
`lenv` is `len`, the lanes of `tempv` hold the window means of the row
`row - 1`, the rows above `row` of the columns of the group hold their window
means, and the memory outside the group is that of `d0`. -/
def vectorInv (temp d0 : Nat → ℚ) (rady W H col lanes row : Nat) (len : ℚ)
    (s : VectorState) : Prop :=
  s.lenv = len ∧
  (∀ k, k < lanes →
    s.tempv k = lineMean (fun i => temp (i * W + col + k)) rady H (row - 1)) ∧
  (∀ r k, r < row → k < lanes →
    s.dst (r * W + col + k) = lineMean (fun i => temp (i * W + col + k)) rady H r) ∧
  (∀ j, (∀ r k, r < H → k < lanes → j ≠ r * W + col + k) → s.dst j = d0 j)

end rtengine

namespace rtexif

/-! ## Reads through the value pointer -/

/-- A read below the buffer or at or beyond its end faults. -/
theorem readByte_out (s : List (Fin 256)) (i : Int) (h : i < 0 ∨ (s.length : Int) ≤ i) :
    readByte s i = .error Fault.outOfBounds := by
  unfold readByte
  split
  · next h0 =>
    have hlen : s.length ≤ i.toNat := by omega
    rw [List.get?_eq_none.mpr hlen]
  · rfl

/-- A read inside the buffer returns the byte there. -/
theorem readByte_natCast (s : List (Fin 256)) (n : Nat) (h : n < s.length) :
    readByte s (n : Int) = .ok ((s.getD n 0).val : Int) := by
  unfold readByte
  have h0 : (0 : Int) ≤ (n : Int) := Int.natCast_nonneg n
  rw [if_pos h0, Int.toNat_natCast, List.get?_eq_get h]
  simp [List.getElem?_eq_getElem h]

/-- A read either faults as out of bounds or returns a byte. -/
theorem readByte_cases (s : List (Fin 256)) (i : Int) :
    readByte s i = .error Fault.outOfBounds ∨ ∃ b, readByte s i = .ok b := by
  unfold readByte
  split
  · split
    · exact Or.inr ⟨_, rfl⟩
    · exact Or.inl rfl
  · exact Or.inl rfl

/-- The decode `sget2` reads outside the buffer unless both bytes are inside. -/
theorem sget2_out (s : List (Fin 256)) (p : Int) (o : ByteOrder)
    (h : p < 0 ∨ (s.length : Int) < p + 2) :
    sget2 s p o = .error Fault.outOfBounds := by
  rcases readByte_cases s p with h0 | ⟨b0, h0⟩
  · simp [sget2, h0, bind, Except.bind]
  · have h1 : readByte s (p + 1) = .error Fault.outOfBounds := by
      apply readByte_out
      rcases h with h | h
      · rw [readByte_out s p (Or.inl h)] at h0
        cases h0
      · right; omega
    simp [sget2, h0, h1, bind, Except.bind]

/-- The decode `sget4` reads outside the buffer unless all four bytes are
inside. -/
theorem sget4_out (s : List (Fin 256)) (p : Int) (o : ByteOrder)
    (h : p < 0 ∨ (s.length : Int) < p + 4) :
    sget4 s p o = .error Fault.outOfBounds := by
  rcases readByte_cases s p with h0 | ⟨b0, h0⟩
  · simp [sget4, h0, bind, Except.bind]
  rcases readByte_cases s (p + 1) with h1 | ⟨b1, h1⟩
  · simp [sget4, h0, h1, bind, Except.bind]
  rcases readByte_cases s (p + 2) with h2 | ⟨b2, h2⟩
  · simp [sget4, h0, h1, h2, bind, Except.bind]
  have h3 : readByte s (p + 3) = .error Fault.outOfBounds := by
    apply readByte_out
    rcases h with h | h
    · rw [readByte_out s p (Or.inl h)] at h0
      cases h0
    · right; omega
  simp [sget4, h0, h1, h2, h3, bind, Except.bind]

/-- The decode `sget4` either faults as out of bounds or returns a value. -/
theorem sget4_cases (s : List (Fin 256)) (p : Int) (o : ByteOrder) :
    sget4 s p o = .error Fault.outOfBounds ∨ ∃ v, sget4 s p o = .ok v := by
  rcases readByte_cases s p with h0 | ⟨b0, h0⟩
  · left; simp [sget4, h0, bind, Except.bind]
  rcases readByte_cases s (p + 1) with h1 | ⟨b1, h1⟩
  · left; simp [sget4, h0, h1, bind, Except.bind]
  rcases readByte_cases s (p + 2) with h2 | ⟨b2, h2⟩
  · left; simp [sget4, h0, h1, h2, bind, Except.bind]
  rcases readByte_cases s (p + 3) with h3 | ⟨b3, h3⟩
  · left; simp [sget4, h0, h1, h2, h3, bind, Except.bind]
  · right
    cases o <;> simp [sget4, h0, h1, h2, h3, bind, Except.bind, pure, Except.pure]

/-- The double decode of a rational whose eight bytes are not all inside the
buffer reads outside it. -/
theorem rational_toDouble_out (s : List (Fin 256)) (ofs : Int) (o : ByteOrder)
    (h : ofs < 0 ∨ (s.length : Int) < ofs + 8) :
    (do
      let ud ← sget4 s ofs o
      let dd ← sget4 s (ofs + 4) o
      if dd = 0 then pure 0 else doubleDiv ud dd) = .error Fault.outOfBounds := by
  rcases sget4_cases s ofs o with h0 | ⟨ud, h0⟩
  · simp [h0, bind, Except.bind]
  · have h1 : sget4 s (ofs + 4) o = .error Fault.outOfBounds := by
      apply sget4_out
      rcases h with h | h
      · rw [sget4_out s ofs o (Or.inl h)] at h0
        cases h0
      · right; omega
    simp [h0, h1, bind, Except.bind]

/-- The integer decode of a rational whose eight bytes are not all inside the
buffer reads outside it, unless the offset is negative and the denominator is
inside the buffer and zero. -/
theorem rational_toInt_out (s : List (Fin 256)) (ofs : Int) (o : ByteOrder)
    (h : ofs < 0 ∨ (s.length : Int) < ofs + 8) :
    ((do
        let a ← sget4 s (ofs + 4) o
        if a = 0 then pure 0
        else do
          let n ← sget4 s ofs o
          intDiv n a) = .error Fault.outOfBounds ∨
      (ofs < 0 ∧ sget4 s (ofs + 4) o = .ok 0 ∧
        (do
          let a ← sget4 s (ofs + 4) o
          if a = 0 then pure 0
          else do
            let n ← sget4 s ofs o
            intDiv n a) = .ok 0)) ∧
    ((s.length : Int) < ofs + 8 →
      (do
        let a ← sget4 s (ofs + 4) o
        if a = 0 then pure 0
        else do
          let n ← sget4 s ofs o
          intDiv n a) = .error Fault.outOfBounds) := by
  constructor
  · rcases sget4_cases s (ofs + 4) o with h1 | ⟨a, h1⟩
    · left; simp [h1, bind, Except.bind]
    · have hneg : ofs < 0 := by
        rcases h with h | h
        · exact h
        · rw [sget4_out s (ofs + 4) o (Or.inr (by omega))] at h1
          cases h1
      by_cases ha : a = 0
      · right
        subst ha
        exact ⟨hneg, h1, by simp [h1, bind, Except.bind, pure, Except.pure]⟩
      · left
        simp [h1, ha, sget4_out s ofs o (Or.inl hneg), bind, Except.bind]
  · intro hlt
    simp [sget4_out s (ofs + 4) o (Or.inr (by omega)), bind, Except.bind]

/-- The number stored in `w` bytes is below `256 ^ w`. -/
theorem storedUnsigned_lt (s : List (Fin 256)) (p w : Nat) (o : ByteOrder) :
    storedUnsigned s p w o < 256 ^ w := by
  cases o
  · simp only [storedUnsigned]
    induction w generalizing p with
    | zero => simp [storedLE]
    | succ w ih =>
      have h1 := ih (p + 1)
      have h2 := (s.getD p 0).isLt
      simp only [storedLE, pow_succ]
      omega
  · simp only [storedUnsigned]
    induction w generalizing p with
    | zero => simp [storedBE]
    | succ w ih =>
      have h1 := ih (p + 1)
      have h2 := (s.getD p 0).isLt
      have h3 : (s.getD p 0).val * 256 ^ w ≤ 255 * 256 ^ w :=
        Nat.mul_le_mul_right _ (by omega)
      simp only [storedBE, pow_succ]
      omega

/-- Inside the buffer `sget2` returns the stored unsigned 16-bit number. -/
theorem sget2_in (s : List (Fin 256)) (n : Nat) (o : ByteOrder) (h : n + 2 ≤ s.length) :
    sget2 s (n : Int) o = .ok (storedUnsigned s n 2 o : Int) := by
  have h0 := readByte_natCast s n (by omega)
  have h1 := readByte_natCast s (n + 1) (by omega)
  push_cast at h1
  cases o <;>
    simp only [sget2, h0, h1, bind, Except.bind, pure, Except.pure, storedUnsigned, storedLE,
      storedBE] <;>
    apply congrArg Except.ok <;>
    push_cast <;>
    ring

/-- Inside the buffer `sget4` returns the stored 32-bit number read as a
signed integer. -/
theorem sget4_in (s : List (Fin 256)) (n : Nat) (o : ByteOrder) (h : n + 4 ≤ s.length) :
    sget4 s (n : Int) o = .ok (wrap32 (storedUnsigned s n 4 o : Int)) := by
  have h0 := readByte_natCast s n (by omega)
  have h1 := readByte_natCast s (n + 1) (by omega)
  have h2 := readByte_natCast s (n + 2) (by omega)
  have h3 := readByte_natCast s (n + 3) (by omega)
  push_cast at h1 h2 h3
  have e2 : n + 1 + 1 = n + 2 := rfl
  have e3 : n + 1 + 1 + 1 = n + 3 := rfl
  cases o <;>
    simp only [sget4, h0, h1, h2, h3, bind, Except.bind, pure, Except.pure, storedUnsigned,
      storedLE, storedBE, e2, e3] <;>
    apply congrArg Except.ok <;>
    apply congrArg wrap32 <;>
    push_cast <;>
    ring

/-- The signed reading of a 32-bit pattern `u`: `u` below `2^31`, `u - 2^32`
from `2^31` on. -/
theorem wrap32_of_lt (u : Nat) (h : u < 4294967296) :
    wrap32 (u : Int) = if u < 2147483648 then (u : Int) else (u : Int) - 4294967296 := by
  unfold wrap32
  split <;> omega

/-! ## Type resolution -/

/-- Every enumerator is either valid for resolution (`INVALID < t < AUTO`) or
one of `INVALID`, `AUTO`, `SUBDIR`. -/
theorem TagType.valid_or_meta (ty : TagType) :
    (TagType.INVALID.code < ty.code ∧ ty.code < TagType.AUTO.code) ∨
      ty = TagType.INVALID ∨ ty = TagType.AUTO ∨ ty = TagType.SUBDIR := by
  cases ty <;> simp [TagType.code]

/-- The three meta enumerators are not valid for resolution. -/
theorem TagType.not_valid_of_meta (ty : TagType)
    (h : ty = TagType.INVALID ∨ ty = TagType.AUTO ∨ ty = TagType.SUBDIR) :
    ¬ (ty.code > TagType.INVALID.code ∧ ty.code < TagType.AUTO.code) := by
  rcases h with h | h | h <;> subst h <;> simp [TagType.code]

/-- C1. `Tag::getType` returns the attribute entry's type when the tag has an
entry whose type `t` satisfies `INVALID < t < AUTO`, and the tag's own stored
type in every other case: no entry, or an entry of type `INVALID`, `AUTO` or
`SUBDIR` (these are all the remaining enumerators). -/
theorem getType_resolution (t : Tag) :
    (∀ a, t.attrib = some a →
        TagType.INVALID.code < a.type.code → a.type.code < TagType.AUTO.code →
        t.getType = a.type) ∧
    (t.attrib = none → t.getType = t.type) ∧
    (∀ a, t.attrib = some a →
        (a.type = TagType.INVALID ∨ a.type = TagType.AUTO ∨ a.type = TagType.SUBDIR) →
        t.getType = t.type) ∧
    (∀ a, t.attrib = some a →
        ¬ (TagType.INVALID.code < a.type.code ∧ a.type.code < TagType.AUTO.code) →
        (a.type = TagType.INVALID ∨ a.type = TagType.AUTO ∨ a.type = TagType.SUBDIR)) := by
  refine ⟨?_, ?_, ?_, ?_⟩
  · intro a ha h1 h2
    simp [Tag.getType, ha, h1, h2]
  · intro hn
    simp [Tag.getType, hn]
  · intro a ha hm
    have hnv := TagType.not_valid_of_meta a.type hm
    simp only [Tag.getType, ha]
    rw [if_neg hnv]
  · intro a _ hnv
    rcases TagType.valid_or_meta a.type with h | h
    · exact absurd h hnv
    · exact h

/-- C1, at concrete tags: a `SHORT` tag with a `LONG` entry resolves to `LONG`,
with no entry or with an `AUTO` entry it resolves to `SHORT`. -/
theorem getType_resolution_witness :
    (exampleTag .SHORT [1, 0] (some .LONG) .INTEL).getType = TagType.LONG ∧
    (exampleTag .SHORT [1, 0] none .INTEL).getType = TagType.SHORT ∧
    (exampleTag .SHORT [1, 0] (some .AUTO) .INTEL).getType = TagType.SHORT :=
  ⟨(getType_resolution (exampleTag .SHORT [1, 0] (some .LONG) .INTEL)).1 _ rfl
      (by decide) (by decide),
   (getType_resolution (exampleTag .SHORT [1, 0] none .INTEL)).2.1 rfl,
   (getType_resolution (exampleTag .SHORT [1, 0] (some .AUTO) .INTEL)).2.2.1 _ rfl
      (Or.inr (Or.inl rfl))⟩

/-- C2, as stated, fails: a `SHORT` tag whose attribute entry has type `AUTO`
has an entry type different from its stored type, and `getType` returns the
stored type `SHORT`, not the entry type. -/
theorem getType_attrib_differs_counterexample :
    (exampleTag .SHORT [1, 0] (some .AUTO) .INTEL).attrib.map TagAttrib.type = some TagType.AUTO ∧
    TagType.AUTO ≠ (exampleTag .SHORT [1, 0] (some .AUTO) .INTEL).type ∧
    (exampleTag .SHORT [1, 0] (some .AUTO) .INTEL).getType ≠ TagType.AUTO := by
  decide

/-- C2, amended. For a tag with an attribute entry whose type differs from the
stored type: when the entry type is none of `INVALID`, `AUTO`, `SUBDIR`,
`getType` returns the entry type (and so not the stored type); when it is one
of those three, `getType` returns the stored type. -/
theorem getType_attrib_differs (t : Tag) (a : TagAttrib)
    (ha : t.attrib = some a) (hd : a.type ≠ t.type) :
    (a.type ≠ TagType.INVALID → a.type ≠ TagType.AUTO → a.type ≠ TagType.SUBDIR →
        t.getType = a.type ∧ t.getType ≠ t.type) ∧
    ((a.type = TagType.INVALID ∨ a.type = TagType.AUTO ∨ a.type = TagType.SUBDIR) →
        t.getType = t.type ∧ t.getType ≠ a.type) := by
  constructor
  · intro h1 h2 h3
    have hv : TagType.INVALID.code < a.type.code ∧ a.type.code < TagType.AUTO.code := by
      rcases TagType.valid_or_meta a.type with h | h | h | h
      · exact h
      · exact absurd h h1
      · exact absurd h h2
      · exact absurd h h3
    have he : t.getType = a.type := by
      simp [Tag.getType, ha, hv.1, hv.2]
    exact ⟨he, by rw [he]; exact hd⟩
  · intro hm
    have hnv := TagType.not_valid_of_meta a.type hm
    have he : t.getType = t.type := by
      simp only [Tag.getType, ha]
      rw [if_neg hnv]
    exact ⟨he, by rw [he]; exact fun h => hd h.symm⟩

/-- C2, amended, at a concrete tag: stored type `SHORT`, entry type `LONG`. -/
theorem getType_attrib_differs_witness :
    (exampleTag .SHORT [1, 0] (some .LONG) .INTEL).getType = TagType.LONG ∧
    (exampleTag .SHORT [1, 0] (some .LONG) .INTEL).getType ≠ TagType.SHORT :=
  (getType_attrib_differs (exampleTag .SHORT [1, 0] (some .LONG) .INTEL)
    { ignore := 0, editable := 0, ID := 0, type := .LONG, name := "" } rfl (by decide)).1
    (by decide) (by decide) (by decide)

/-! ## Rationals with a zero denominator -/

/-- C3. For a tag of effective type `RATIONAL` or `SRATIONAL`, whatever the
byte order and the numerator `n` stored at `ofs`: when the denominator stored
at `ofs + 4` is 0, `Interpreter::toDouble` returns exactly 0.0; no quotient is
formed (the result is a value, not the non-finite outcome of a division by
zero). -/
theorem toDouble_rational_zero_denominator (t : Tag) (ofs n : Int)
    (hty : t.getType = TagType.RATIONAL ∨ t.getType = TagType.SRATIONAL)
    (hnum : sget4 t.getValue ofs t.getOrder = .ok n)
    (hden : sget4 t.getValue (ofs + 4) t.getOrder = .ok 0) :
    Interpreter.toDouble t ofs = .ok 0 := by
  rcases hty with h | h <;>
    simp [Interpreter.toDouble, h, hnum, hden, bind, Except.bind, pure, Except.pure]

/-- C3, at numerator 1 and denominator 0, in both byte orders. -/
theorem toDouble_rational_zero_denominator_witness :
    Interpreter.toDouble (exampleTag .RATIONAL [1, 0, 0, 0, 0, 0, 0, 0] none .INTEL) 0 = .ok 0 ∧
    Interpreter.toDouble (exampleTag .SRATIONAL [0, 0, 0, 1, 0, 0, 0, 0] none .MOTOROLA) 0
      = .ok 0 :=
  ⟨toDouble_rational_zero_denominator
      (exampleTag .RATIONAL [1, 0, 0, 0, 0, 0, 0, 0] none .INTEL) 0 1 (Or.inl rfl) rfl rfl,
   toDouble_rational_zero_denominator
      (exampleTag .SRATIONAL [0, 0, 0, 1, 0, 0, 0, 0] none .MOTOROLA) 0 1 (Or.inr rfl) rfl rfl⟩

/-- C4. For a tag decoded as `RATIONAL` or `SRATIONAL`, by the type override
`astype` or, when `astype` is `INVALID` or `AUTO`, by its effective type:
whatever the byte order and the numerator, when the denominator stored at
`ofs + 4` is 0, `Interpreter::toInt` returns 0. -/
theorem toInt_rational_zero_denominator (t : Tag) (ofs : Int) (astype : TagType)
    (hty : (astype = TagType.RATIONAL ∨ astype = TagType.SRATIONAL) ∨
      ((astype = TagType.INVALID ∨ astype = TagType.AUTO) ∧
        (t.getType = TagType.RATIONAL ∨ t.getType = TagType.SRATIONAL)))
    (hden : sget4 t.getValue (ofs + 4) t.getOrder = .ok 0) :
    Interpreter.toInt t ofs astype = .ok 0 := by
  rcases hty with (h | h) | ⟨h | h, h2 | h2⟩
  · simp [Interpreter.toInt, h, hden, bind, Except.bind, pure, Except.pure]
  · simp [Interpreter.toInt, h, hden, bind, Except.bind, pure, Except.pure]
  all_goals simp [Interpreter.toInt, h, h2, hden, bind, Except.bind, pure, Except.pure]

/-- C4, at numerator 1 and denominator 0: by effective type, and by override
on a tag of another type. -/
theorem toInt_rational_zero_denominator_witness :
    Interpreter.toInt (exampleTag .SRATIONAL [1, 0, 0, 0, 0, 0, 0, 0] none .INTEL) 0 .INVALID
      = .ok 0 ∧
    Interpreter.toInt (exampleTag .UNDEFINED [0, 0, 0, 1, 0, 0, 0, 0] none .MOTOROLA) 0 .RATIONAL
      = .ok 0 :=
  ⟨toInt_rational_zero_denominator
      (exampleTag .SRATIONAL [1, 0, 0, 0, 0, 0, 0, 0] none .INTEL) 0 .INVALID
      (Or.inr ⟨Or.inl rfl, Or.inr rfl⟩) rfl,
   toInt_rational_zero_denominator
      (exampleTag .UNDEFINED [0, 0, 0, 1, 0, 0, 0, 0] none .MOTOROLA) 0 .RATIONAL
      (Or.inl (Or.inl rfl)) rfl⟩

/-- C5. At numerator -2147483648 and denominator -1 (bytes `00 00 00 80`,
`FF FF FF FF`, little-endian) the denominator passes the zero guard of
`Interpreter::toInt` and the quotient `-2147483648 / -1` is formed, which is
not a 32-bit signed integer: the division is undefined there. -/
theorem toInt_rational_min_over_minus_one :
    sget4 [0, 0, 0, 128, 255, 255, 255, 255] 0 .INTEL = .ok (-2147483648) ∧
    sget4 [0, 0, 0, 128, 255, 255, 255, 255] (0 + 4) .INTEL = .ok (-1) ∧
    Interpreter.toInt
      (exampleTag .SRATIONAL [0, 0, 0, 128, 255, 255, 255, 255] none .INTEL) 0 .INVALID
      = .error Fault.intOverflow := by
  decide

/-! ## Offsets outside the value -/

/-- C6, as stated, fails: for a `BYTE` tag with an empty value the element at
offset 0 extends beyond the value (`0 + 1 > valuesize = 0`), and both decoders
read `value[0]` outside the buffer instead of returning 0. -/
theorem decode_out_of_range_counterexample :
    (exampleTag .BYTE [] none .INTEL).getValueSize
      < 0 + decodedWidth (exampleTag .BYTE [] none .INTEL).getType ∧
    Interpreter.toInt (exampleTag .BYTE [] none .INTEL) 0 .INVALID
      = .error Fault.outOfBounds ∧
    Interpreter.toDouble (exampleTag .BYTE [] none .INTEL) 0 = .error Fault.outOfBounds := by
  decide

/-- C6, amended. Let the element at `ofs` extend beyond the value bytes
(`ofs < 0` or `ofs + width > valuesize`).  For an effective type the
interpreter does not decode (width 0: `ASCII`, `UNDEFINED`, `INVALID`,
`DOUBLE`, `OLYUNDEF`, `AUTO`, `SUBDIR`) `toInt` returns 0 and `toDouble` 0.0.
For a decoded type (`BYTE`, `SHORT`, `SSHORT`, `LONG`, `SLONG`, `FLOAT`,
`RATIONAL`, `SRATIONAL`) no bound is checked: `toDouble` reads outside the
buffer, and so does `toInt`, except for a rational at a negative offset whose
denominator bytes lie inside the buffer and hold 0, where it returns 0 before
reading the numerator; past the end of the value `toInt` always reads outside
the buffer. -/
theorem decode_out_of_range (t : Tag) (ofs : Int)
    (h : ofs < 0 ∨ t.getValueSize < ofs + decodedWidth t.getType) :
    (decodedWidth t.getType = 0 →
      Interpreter.toInt t ofs .INVALID = .ok 0 ∧ Interpreter.toDouble t ofs = .ok 0) ∧
    (decodedWidth t.getType ≠ 0 →
      Interpreter.toDouble t ofs = .error Fault.outOfBounds ∧
      (Interpreter.toInt t ofs .INVALID = .error Fault.outOfBounds ∨
        ((t.getType = TagType.RATIONAL ∨ t.getType = TagType.SRATIONAL) ∧ ofs < 0 ∧
          sget4 t.getValue (ofs + 4) t.getOrder = .ok 0 ∧
          Interpreter.toInt t ofs .INVALID = .ok 0)) ∧
      (t.getValueSize < ofs + decodedWidth t.getType →
        Interpreter.toInt t ofs .INVALID = .error Fault.outOfBounds)) := by
  have hlen : t.getValueSize = (t.getValue.length : Int) := rfl
  rw [hlen] at h ⊢
  cases hty : t.getType <;> simp only [hty, decodedWidth] at h ⊢ <;>
    simp only [Interpreter.toInt, Interpreter.toDouble, hty] <;>
    simp <;>
    first
    | exact ⟨rfl, rfl⟩
    | exact ⟨rational_toDouble_out _ _ _ h, (rational_toInt_out _ _ _ h).1,
        (rational_toInt_out _ _ _ h).2⟩
    | (have hr := readByte_out t.getValue ofs (by omega)
       rw [hr]
       simp [Functor.map, Except.map, bind, Except.bind])
    | (have hr := sget2_out t.getValue ofs t.getOrder h
       rw [hr]
       simp [Functor.map, Except.map, bind, Except.bind])
    | (have hr := sget4_out t.getValue ofs t.getOrder h
       rw [hr]
       simp [Functor.map, Except.map, bind, Except.bind])

/-- C6, amended, at concrete tags: an `ASCII` tag read at offset 5 of a
2-byte value yields 0 and 0.0; a `LONG` tag read at offset 0 of a 2-byte value
reads outside the buffer. -/
theorem decode_out_of_range_witness :
    (Interpreter.toInt (exampleTag .ASCII [65, 0] none .INTEL) 5 .INVALID = .ok 0 ∧
      Interpreter.toDouble (exampleTag .ASCII [65, 0] none .INTEL) 5 = .ok 0) ∧
    Interpreter.toDouble (exampleTag .LONG [1, 2] none .INTEL) 0
      = .error Fault.outOfBounds ∧
    Interpreter.toInt (exampleTag .LONG [1, 2] none .INTEL) 0 .INVALID
      = .error Fault.outOfBounds :=
  ⟨(decode_out_of_range (exampleTag .ASCII [65, 0] none .INTEL) 5
      (Or.inr (by decide))).1 (by decide),
   ((decode_out_of_range (exampleTag .LONG [1, 2] none .INTEL) 0
      (Or.inr (by decide))).2 (by decide)).1,
   ((decode_out_of_range (exampleTag .LONG [1, 2] none .INTEL) 0
      (Or.inr (by decide))).2 (by decide)).2.2 (by decide)⟩

/-! ## The `FLOAT` case -/

/-- C7. For the `FLOAT` tag holding the pattern `0x3F800000` (little-endian
bytes `00 00 80 3F`), whose IEEE-754 single precision value is 1.0,
`Interpreter::toDouble` returns 1065353216.0: `double(sget4 (...))` converts
the integer value of the pattern, it does not reinterpret the bits. -/
theorem toDouble_float_pattern :
    sget4 [0, 0, 128, 63] 0 .INTEL = .ok 1065353216 ∧
    int_to_float 1065353216 = .ok 1 ∧
    Interpreter.toDouble (exampleTag .FLOAT [0, 0, 128, 63] none .INTEL) 0
      = .ok 1065353216 := by
  refine ⟨by decide, ?_, by rfl⟩
  norm_num [int_to_float]

/-! ## Non-numeric types -/

/-- C8. For a tag of effective type `ASCII` or `UNDEFINED`, at every offset and
for every content of the value buffer (`v` ranges over all buffers, the empty
one included, so no byte is read), `Interpreter::toDouble` returns 0.0 and
`Interpreter::toInt` without a type override (`astype = INVALID`, the default,
or `AUTO`) returns 0. -/
theorem toDouble_toInt_non_numeric (t : Tag) (ofs : Int) (v : List (Fin 256))
    (hty : t.getType = TagType.ASCII ∨ t.getType = TagType.UNDEFINED) :
    Interpreter.toDouble { t with value := v } ofs = .ok 0 ∧
    Interpreter.toInt { t with value := v } ofs .INVALID = .ok 0 ∧
    Interpreter.toInt { t with value := v } ofs .AUTO = .ok 0 := by
  have hg : ({ t with value := v } : Tag).getType = t.getType := rfl
  rcases hty with h | h <;>
    simp [Interpreter.toDouble, Interpreter.toInt, hg, h, pure, Except.pure]

/-- C8, at concrete tags: an `ASCII` tag by stored type and an `UNDEFINED` tag
by attribute type, at offsets inside and outside the value. -/
theorem toDouble_toInt_non_numeric_witness :
    (Interpreter.toDouble (exampleTag .ASCII [49, 50, 0] none .INTEL) 1 = .ok 0 ∧
      Interpreter.toInt (exampleTag .ASCII [49, 50, 0] none .INTEL) 1 .INVALID = .ok 0 ∧
      Interpreter.toInt (exampleTag .ASCII [49, 50, 0] none .INTEL) 1 .AUTO = .ok 0) ∧
    (Interpreter.toDouble (exampleTag .LONG [] (some .UNDEFINED) .MOTOROLA) 7 = .ok 0 ∧
      Interpreter.toInt (exampleTag .LONG [] (some .UNDEFINED) .MOTOROLA) 7 .INVALID = .ok 0 ∧
      Interpreter.toInt (exampleTag .LONG [] (some .UNDEFINED) .MOTOROLA) 7 .AUTO = .ok 0) :=
  ⟨toDouble_toInt_non_numeric (exampleTag .ASCII [255] none .INTEL) 1 [49, 50, 0]
      (Or.inl rfl),
   toDouble_toInt_non_numeric (exampleTag .LONG [1, 2, 3, 4] (some .UNDEFINED) .MOTOROLA) 7 []
      (Or.inr rfl)⟩

/-! ## The type override of `toInt` -/

/-- C9, as stated, fails at the override `FLOAT`: two tags with the same value
bytes and byte order, one stored as `BYTE` and one as `SHORT`, decode to 7 and
to 263 under `astype = FLOAT`, so the result does not depend on `astype` alone. -/
theorem toInt_override_counterexample :
    (exampleTag .BYTE [7, 1, 0, 0] none .INTEL).getValue
      = (exampleTag .SHORT [7, 1, 0, 0] none .INTEL).getValue ∧
    (exampleTag .BYTE [7, 1, 0, 0] none .INTEL).getOrder
      = (exampleTag .SHORT [7, 1, 0, 0] none .INTEL).getOrder ∧
    Interpreter.toInt (exampleTag .BYTE [7, 1, 0, 0] none .INTEL) 0 .FLOAT = .ok 7 ∧
    Interpreter.toInt (exampleTag .SHORT [7, 1, 0, 0] none .INTEL) 0 .FLOAT = .ok 263 := by
  decide

/-- C9, amended. `toInt (t, ofs, INVALID) = toInt (t, ofs, AUTO)
= toInt (t, ofs, t.getType ())`: with `astype` `INVALID` or `AUTO` the decode
follows the effective type.  For every other `astype` except `FLOAT` the result
depends on the tag only through its value bytes and byte order, not through
its stored or attribute-table type.  For `astype = FLOAT` the result is
`(int) toDouble (t, ofs)`, which decodes by the effective type. -/
theorem toInt_override (t : Tag) (ofs : Int) :
    Interpreter.toInt t ofs .INVALID = Interpreter.toInt t ofs t.getType ∧
    Interpreter.toInt t ofs .AUTO = Interpreter.toInt t ofs t.getType ∧
    (∀ (astype : TagType) (u : Tag),
      astype ≠ TagType.INVALID → astype ≠ TagType.AUTO → astype ≠ TagType.FLOAT →
      u.getValue = t.getValue → u.getOrder = t.getOrder →
      Interpreter.toInt u ofs astype = Interpreter.toInt t ofs astype) ∧
    Interpreter.toInt t ofs .FLOAT = Interpreter.toDouble t ofs >>= doubleToInt := by
  refine ⟨?_, ?_, ?_, ?_⟩
  · cases hty : t.getType <;> simp [Interpreter.toInt, hty]
  · cases hty : t.getType <;> simp [Interpreter.toInt, hty]
  · intro astype u h1 h2 h3 hv ho
    cases astype <;> simp [Interpreter.toInt, hv, ho] at h1 h2 h3 ⊢
  · simp [Interpreter.toInt]

/-- C9, amended, at concrete tags: a `SHORT` tag with a `LONG` attribute entry
holding `07 01 00 00` decodes to 263 with `INVALID`, `AUTO` and `LONG`; with
the override `BYTE` it decodes to 7 like a tag of any other type with the same
bytes; with `FLOAT` it decodes as `toDouble` does. -/
theorem toInt_override_witness :
    Interpreter.toInt (exampleTag .SHORT [7, 1, 0, 0] (some .LONG) .INTEL) 0 .INVALID
      = Interpreter.toInt (exampleTag .SHORT [7, 1, 0, 0] (some .LONG) .INTEL) 0 .LONG ∧
    Interpreter.toInt (exampleTag .ASCII [7, 1, 0, 0] none .INTEL) 0 .BYTE
      = Interpreter.toInt (exampleTag .SHORT [7, 1, 0, 0] (some .LONG) .INTEL) 0 .BYTE ∧
    Interpreter.toInt (exampleTag .SHORT [7, 1, 0, 0] (some .LONG) .INTEL) 0 .FLOAT
      = Interpreter.toDouble (exampleTag .SHORT [7, 1, 0, 0] (some .LONG) .INTEL) 0
          >>= doubleToInt :=
  ⟨(toInt_override (exampleTag .SHORT [7, 1, 0, 0] (some .LONG) .INTEL) 0).1,
   (toInt_override (exampleTag .SHORT [7, 1, 0, 0] (some .LONG) .INTEL) 0).2.2.1
      .BYTE (exampleTag .ASCII [7, 1, 0, 0] none .INTEL)
      (by decide) (by decide) (by decide) rfl rfl,
   (toInt_override (exampleTag .SHORT [7, 1, 0, 0] (some .LONG) .INTEL) 0).2.2.2⟩

/-! ## Unsigned integer types -/

/-- C10, as stated, fails for `LONG`: the tag holding the unsigned value
`2^31 = 2147483648` (little-endian bytes `00 00 00 80`) decodes to
-2147483648.0, a negative number and not the stored value. -/
theorem toDouble_long_counterexample :
    storedUnsigned [0, 0, 0, 128] 0 4 .INTEL = 2147483648 ∧
    Interpreter.toDouble (exampleTag .LONG [0, 0, 0, 128] none .INTEL) 0
      = .ok (-2147483648) := by
  decide

/-- C10, amended. For an in-range offset, `Interpreter::toDouble` returns, for
effective type `BYTE`, the stored unsigned byte (0..255); for `SHORT`, the
stored unsigned 16-bit value (0..65535); for `LONG`, the stored 32-bit value
`u` read as a signed integer: `u` itself when `u < 2^31`, and the negative
number `u - 2^32` when `u` is `2^31` or more. -/
theorem toDouble_unsigned_types (t : Tag) (ofs : Int) (h0 : 0 ≤ ofs)
    (hin : ofs + decodedWidth t.getType ≤ t.getValueSize) :
    (t.getType = TagType.BYTE →
      ∃ u : Nat, u = storedUnsigned t.getValue ofs.toNat 1 t.getOrder ∧ u < 256 ∧
        Interpreter.toDouble t ofs = .ok (u : ℚ)) ∧
    (t.getType = TagType.SHORT →
      ∃ u : Nat, u = storedUnsigned t.getValue ofs.toNat 2 t.getOrder ∧ u < 65536 ∧
        Interpreter.toDouble t ofs = .ok (u : ℚ)) ∧
    (t.getType = TagType.LONG →
      ∃ u : Nat, u = storedUnsigned t.getValue ofs.toNat 4 t.getOrder ∧ u < 4294967296 ∧
        Interpreter.toDouble t ofs
          = .ok (if u < 2147483648 then (u : ℚ) else (u : ℚ) - 4294967296)) := by
  obtain ⟨n, rfl⟩ := Int.eq_ofNat_of_zero_le h0
  have hlen : t.getValueSize = (t.getValue.length : Int) := rfl
  rw [hlen] at hin
  simp only [Int.toNat_natCast]
  refine ⟨?_, ?_, ?_⟩
  · intro hty
    rw [hty] at hin
    simp only [decodedWidth] at hin
    refine ⟨_, rfl, storedUnsigned_lt _ _ 1 _, ?_⟩
    have hr := readByte_natCast t.getValue n (by omega)
    cases ho : t.getOrder <;>
      simp [Interpreter.toDouble, hty, hr, bind, Except.bind, pure, Except.pure,
        storedUnsigned, storedLE, storedBE]
  · intro hty
    rw [hty] at hin
    simp only [decodedWidth] at hin
    refine ⟨_, rfl, storedUnsigned_lt _ _ 2 _, ?_⟩
    have hr := sget2_in t.getValue n t.getOrder (by omega)
    simp [Interpreter.toDouble, hty, hr, bind, Except.bind, pure, Except.pure]
  · intro hty
    rw [hty] at hin
    simp only [decodedWidth] at hin
    have hlt := storedUnsigned_lt t.getValue n 4 t.getOrder
    refine ⟨_, rfl, hlt, ?_⟩
    have hr := sget4_in t.getValue n t.getOrder (by omega)
    have hw := wrap32_of_lt _ hlt
    simp only [Interpreter.toDouble, hty, hr, hw, bind, Except.bind, pure, Except.pure]
    apply congrArg Except.ok
    split <;> push_cast <;> rfl

/-- C10, amended, at concrete tags: the byte 200, the short 65535 (big-endian
`FF FF`) and the longs 1 and `2^32 - 1` (the latter decoding to -1). -/
theorem toDouble_unsigned_types_witness :
    Interpreter.toDouble (exampleTag .BYTE [200] none .INTEL) 0 = .ok 200 ∧
    Interpreter.toDouble (exampleTag .SHORT [255, 255] none .MOTOROLA) 0 = .ok 65535 ∧
    Interpreter.toDouble (exampleTag .LONG [1, 0, 0, 0] none .INTEL) 0 = .ok 1 ∧
    Interpreter.toDouble (exampleTag .LONG [255, 255, 255, 255] none .INTEL) 0 = .ok (-1) := by
  refine ⟨?_, ?_, ?_, ?_⟩
  · obtain ⟨u, hu, _, h⟩ := (toDouble_unsigned_types (exampleTag .BYTE [200] none .INTEL) 0
      (by decide) (by decide)).1 rfl
    have hu2 : u = 200 := by rw [hu]; decide
    rw [h, hu2]; rfl
  · obtain ⟨u, hu, _, h⟩ := (toDouble_unsigned_types
      (exampleTag .SHORT [255, 255] none .MOTOROLA) 0 (by decide) (by decide)).2.1 rfl
    have hu2 : u = 65535 := by rw [hu]; decide
    rw [h, hu2]; rfl
  · obtain ⟨u, hu, _, h⟩ := (toDouble_unsigned_types
      (exampleTag .LONG [1, 0, 0, 0] none .INTEL) 0 (by decide) (by decide)).2.2 rfl
    have hu2 : u = 1 := by rw [hu]; decide
    rw [h, hu2]; rfl
  · obtain ⟨u, hu, _, h⟩ := (toDouble_unsigned_types
      (exampleTag .LONG [255, 255, 255, 255] none .INTEL) 0 (by decide) (by decide)).2.2 rfl
    have hu2 : u = 4294967295 := by rw [hu]; decide
    rw [h, hu2]; norm_num

/-! ## Byte order of a directory and its tags -/

/-- C19. A tag whose `parent` points to a directory reports that directory's
byte order; after `setOrder (bo)` on a directory every tag whose parent is
that directory reports `bo`, and tags of other directories report what they
reported before; a tag with a null `parent` reports `INTEL`. -/
theorem getOrder_follows_directory (st : DirStore) (t : Tag) (d : Nat) (bo : ByteOrder) :
    (Tag.inStore st t (some d)).getOrder = (st d).getOrder ∧
    (Tag.inStore (st.setOrder d bo) t (some d)).getOrder = bo ∧
    (∀ e, e ≠ d →
      (Tag.inStore (st.setOrder d bo) t (some e)).getOrder
        = (Tag.inStore st t (some e)).getOrder) ∧
    (Tag.inStore st t none).getOrder = ByteOrder.INTEL ∧
    (Tag.inStore (st.setOrder d bo) t none).getOrder = ByteOrder.INTEL := by
  refine ⟨rfl, ?_, ?_, rfl, rfl⟩
  · simp [Tag.inStore, Tag.getOrder, DirStore.setOrder, TagDirectory.getOrder,
      TagDirectory.setOrder]
  · intro e he
    simp [Tag.inStore, Tag.getOrder, DirStore.setOrder, Function.update_noteq he]

/-- C19, at a concrete memory: two `INTEL` directories at addresses 0 and 1;
after `setOrder (MOTOROLA)` on directory 0 its tag reports `MOTOROLA` and the
tag of directory 1 still reports `INTEL`. -/
theorem getOrder_follows_directory_witness :
    (Tag.inStore (DirStore.setOrder (fun _ => { order := .INTEL }) 0 .MOTOROLA)
      (exampleTag .SHORT [1, 0] none .INTEL) (some 0)).getOrder = ByteOrder.MOTOROLA ∧
    (Tag.inStore (DirStore.setOrder (fun _ => { order := .INTEL }) 0 .MOTOROLA)
      (exampleTag .SHORT [1, 0] none .INTEL) (some 1)).getOrder = ByteOrder.INTEL :=
  ⟨(getOrder_follows_directory (fun _ => { order := .INTEL })
      (exampleTag .SHORT [1, 0] none .INTEL) 0 .MOTOROLA).2.1,
   ((getOrder_follows_directory (fun _ => { order := .INTEL })
      (exampleTag .SHORT [1, 0] none .INTEL) 0 .MOTOROLA).2.2.1 1 (by decide)).trans rfl⟩

/-! ## The choice interpreter -/

/-- C12. When the tag decodes to the integer `k`: `ChoiceInterpreter::toString`
returns the string the table maps `k` to when `k` is a key, and the tag's raw
rendering unchanged when `k` is not a key; in both cases it returns a string. -/
theorem choice_toString (choices : List (Int × List Char))
    (Tag_toInt : Tag → Except Fault Int) (Tag_toString : Tag → List Char) (t : Tag) (k : Int)
    (hk : Tag_toInt t = .ok k) :
    (∀ r, choices.lookup k = some r →
      ChoiceInterpreter.toString choices Tag_toInt Tag_toString t = .ok r) ∧
    (choices.lookup k = none →
      ChoiceInterpreter.toString choices Tag_toInt Tag_toString t = .ok (Tag_toString t)) ∧
    (∃ r, ChoiceInterpreter.toString choices Tag_toInt Tag_toString t = .ok r) := by
  refine ⟨?_, ?_, ?_⟩
  · intro r hr
    simp [ChoiceInterpreter.toString, hk, hr, bind, Except.bind, pure, Except.pure]
  · intro hn
    simp [ChoiceInterpreter.toString, hk, hn, bind, Except.bind, pure, Except.pure]
  · cases hl : choices.lookup k with
    | none =>
      exact ⟨Tag_toString t, by simp [ChoiceInterpreter.toString, hk, hl, bind, Except.bind,
        pure, Except.pure]⟩
    | some r =>
      exact ⟨r, by simp [ChoiceInterpreter.toString, hk, hl, bind, Except.bind, pure,
        Except.pure]⟩

/-- C12, at a concrete table `0 -> "Off", 1 -> "On"`, the tag being decoded by
the default interpreter and rendered as "7" or "1": the short 1 is shown as
"On", the short 7, not a key, as its raw rendering "7". -/
theorem choice_toString_witness :
    ChoiceInterpreter.toString [(0, "Off".toList), (1, "On".toList)]
      (fun t => Interpreter.toInt t 0 .INVALID) (fun _ => "1".toList)
      (exampleTag .SHORT [1, 0] none .INTEL) = .ok "On".toList ∧
    ChoiceInterpreter.toString [(0, "Off".toList), (1, "On".toList)]
      (fun t => Interpreter.toInt t 0 .INVALID) (fun _ => "7".toList)
      (exampleTag .SHORT [7, 0] none .INTEL) = .ok "7".toList :=
  ⟨(choice_toString [(0, "Off".toList), (1, "On".toList)]
      (fun t => Interpreter.toInt t 0 .INVALID) (fun _ => "1".toList)
      (exampleTag .SHORT [1, 0] none .INTEL) 1 (by decide)).1 _ (by decide),
   (choice_toString [(0, "Off".toList), (1, "On".toList)]
      (fun t => Interpreter.toInt t 0 .INVALID) (fun _ => "7".toList)
      (exampleTag .SHORT [7, 0] none .INTEL) 7 (by decide)).2.1 (by decide)⟩

/-! ## Trimming of the raw rendering -/

/-- A string of only `c`s has no first or last character different from `c`. -/
theorem find_not_of_all (s : List Char) (c : Char) (h : ∀ x ∈ s, x = c) :
    find_first_not_of s c = npos ∧ find_last_not_of s c = npos := by
  have ha : s.all (fun x => x == c) = true := by
    simp only [List.all_eq_true, beq_iff_eq]
    exact h
  simp [find_first_not_of, find_last_not_of, ha]

/-- For a string holding a character different from `c`, the substring from the
first to the last such character is the string without its leading and
trailing `c`s. -/
theorem substr_between_not_of (s : List Char) (c : Char) (hlen : s.length < npos)
    (h : ∃ x ∈ s, x ≠ c) :
    find_first_not_of s c ≠ npos ∧
    substr s (find_first_not_of s c) (find_last_not_of s c - find_first_not_of s c + 1)
      = (s.rdropWhile (fun x => x == c)).dropWhile (fun x => x == c) := by
  obtain ⟨x, hx, hxc⟩ := h
  have ha : ¬ (s.all (fun x => x == c) = true) := by
    simp only [List.all_eq_true, beq_iff_eq, not_forall]
    exact ⟨x, hx, hxc⟩
  have hq : (fun x : Char => x != c) = (fun a => !(fun x => x == c) a) := rfl
  -- the index of the first character different from `c`
  have hf : find_first_not_of s c = s.findIdx (fun x => x != c) := by
    simp [find_first_not_of, ha]
  have hflt : s.findIdx (fun x => x != c) < s.length :=
    List.findIdx_lt_length_of_exists ⟨x, hx, by simpa using hxc⟩
  have hklt : s.reverse.findIdx (fun x => x != c) < s.length := by
    have hex : ∃ y ∈ s.reverse, (fun x => x != c) y = true :=
      ⟨x, by simpa using hx, by simpa using hxc⟩
    have := List.findIdx_lt_length_of_exists hex
    simpa using this
  have hl : find_last_not_of s c = s.length - 1 - s.reverse.findIdx (fun x => x != c) := by
    simp [find_last_not_of, ha]
  -- dropping the trailing `c`s is a `take`
  have hr : s.rdropWhile (fun x => x == c)
      = s.take (s.length - s.reverse.findIdx (fun x => x != c)) := by
    rw [List.rdropWhile, List.dropWhile_eq_drop_findIdx_not, ← hq, List.drop_reverse,
      List.reverse_reverse]
  -- the first character different from `c` is inside that prefix
  have hpre : (s.rdropWhile (fun x => x == c)).findIdx (fun x => x != c)
        = s.findIdx (fun x => x != c) ∧
      s.findIdx (fun x => x != c) < (s.rdropWhile (fun x => x == c)).length := by
    have hne : ∃ y ∈ s.rdropWhile (fun x => x == c), (fun x => x != c) y = true := by
      have hnn : s.rdropWhile (fun x => x == c) ≠ [] := by
        rw [Ne, List.rdropWhile_eq_nil_iff]
        intro hall
        exact hxc (by simpa using hall x hx)
      exact ⟨_, List.getLast_mem hnn, by
        have := List.rdropWhile_last_not (fun x => x == c) s hnn
        simpa using this⟩
    have hlt := List.findIdx_lt_length_of_exists hne
    obtain ⟨t, ht⟩ := List.rdropWhile_prefix (fun x => x == c) s
    have he : (s.rdropWhile (fun x => x == c)).findIdx (fun x => x != c)
        = s.findIdx (fun x => x != c) := by
      conv_rhs => rw [← ht, List.findIdx_append, if_pos hlt]
    exact ⟨he, he ▸ hlt⟩
  have hfk : s.findIdx (fun x => x != c)
      < s.length - s.reverse.findIdx (fun x => x != c) := by
    have := hpre.2
    rw [hr, List.length_take] at this
    omega
  constructor
  · rw [hf]
    exact Nat.ne_of_lt (Nat.lt_trans hflt hlen)
  · rw [List.dropWhile_eq_drop_findIdx_not, ← hq, hpre.1, hr, List.drop_take, substr, hf, hl]
    congr 1
    omega

/-- Removing the `c`s at both ends leaves a string that neither begins nor ends
with `c`, between two runs of `c`. -/
theorem trimmed_spec (s : List Char) (c : Char) (h : ∃ x ∈ s, x ≠ c) :
    (s.rdropWhile (fun x => x == c)).dropWhile (fun x => x == c) ≠ [] ∧
    ((s.rdropWhile (fun x => x == c)).dropWhile (fun x => x == c)).head? ≠ some c ∧
    ((s.rdropWhile (fun x => x == c)).dropWhile (fun x => x == c)).getLast? ≠ some c ∧
    ∃ i j, s = List.replicate i c
      ++ (s.rdropWhile (fun x => x == c)).dropWhile (fun x => x == c)
      ++ List.replicate j c := by
  obtain ⟨x, hx, hxc⟩ := h
  have hnn : s.rdropWhile (fun x => x == c) ≠ [] := by
    rw [Ne, List.rdropWhile_eq_nil_iff]
    intro hall
    exact hxc (by simpa using hall x hx)
  have hlast : (s.rdropWhile (fun x => x == c)).getLast hnn ≠ c := by
    have := List.rdropWhile_last_not (fun x => x == c) s hnn
    simpa using this
  have hne : (s.rdropWhile (fun x => x == c)).dropWhile (fun x => x == c) ≠ [] := by
    rw [Ne, List.dropWhile_eq_nil_iff]
    intro hall
    exact hlast (by simpa using hall _ (List.getLast_mem hnn))
  refine ⟨hne, ?_, ?_, ?_⟩
  · intro hh
    have := List.head?_dropWhile_not (fun x => x == c) (s.rdropWhile (fun x => x == c))
    rw [hh] at this
    simp at this
  · rw [List.getLast?_eq_getLast _ hne,
      (List.dropWhile_suffix (fun x => x == c)).getLast hne]
    intro hh
    exact hlast (Option.some.inj hh)
  · refine ⟨((s.rdropWhile (fun x => x == c)).takeWhile (fun x => x == c)).length,
      (s.rtakeWhile (fun x => x == c)).length, ?_⟩
    have h1 : (s.rdropWhile (fun x => x == c)).takeWhile (fun x => x == c)
        = List.replicate
            ((s.rdropWhile (fun x => x == c)).takeWhile (fun x => x == c)).length c :=
      List.eq_replicate_of_mem (fun b hb => by
        simpa using List.mem_takeWhile_imp hb)
    have h2 : s.rtakeWhile (fun x => x == c)
        = List.replicate (s.rtakeWhile (fun x => x == c)).length c :=
      List.eq_replicate_of_mem (fun b hb => by
        simpa using List.mem_rtakeWhile_imp hb)
    have h3 : s = s.rdropWhile (fun x => x == c) ++ s.rtakeWhile (fun x => x == c) := by
      simp only [List.rdropWhile, List.rtakeWhile, ← List.reverse_append,
        List.takeWhile_append_dropWhile, List.reverse_reverse]
    rw [← h1, ← h2, List.takeWhile_append_dropWhile]
    exact h3

/-- C11, as stated, fails: a rendering that begins with a tab and ends with a
newline is returned with both in place, and a rendering of two spaces is
returned unchanged, not empty. -/
theorem toString_whitespace_counterexample :
    (Interpreter.toString (fun _ => ['\t', 'a', 'b', '\n'])
      (exampleTag .ASCII [] none .INTEL)).head? = some '\t' ∧
    (Interpreter.toString (fun _ => ['\t', 'a', 'b', '\n'])
      (exampleTag .ASCII [] none .INTEL)).getLast? = some '\n' ∧
    Interpreter.toString (fun _ => [' ', ' ']) (exampleTag .ASCII [] none .INTEL)
      = [' ', ' '] := by
  decide

/-- C11, amended. For a raw rendering that fits the 1024-byte buffer: when it
holds a character other than the space, the default `Interpreter::toString`
returns it without its leading and trailing spaces (the rendering is a run of
spaces, the result, a run of spaces), and the result is not empty and neither
begins nor ends with a space; when it holds only spaces it is returned
unchanged. -/
theorem toString_trims_spaces (Tag_toString : Tag → List Char) (t : Tag)
    (hlen : (Tag_toString t).length < 1024) :
    ((∃ x ∈ Tag_toString t, x ≠ ' ') →
      Interpreter.toString Tag_toString t ≠ [] ∧
      (Interpreter.toString Tag_toString t).head? ≠ some ' ' ∧
      (Interpreter.toString Tag_toString t).getLast? ≠ some ' ' ∧
      ∃ i j, Tag_toString t
        = List.replicate i ' ' ++ Interpreter.toString Tag_toString t
          ++ List.replicate j ' ') ∧
    ((∀ x ∈ Tag_toString t, x = ' ') →
      Interpreter.toString Tag_toString t = Tag_toString t) := by
  constructor
  · intro h
    have hn : (Tag_toString t).length < npos :=
      Nat.lt_trans hlen (by unfold npos; omega)
    obtain ⟨h1, h2⟩ := substr_between_not_of (Tag_toString t) ' ' hn h
    have he : Interpreter.toString Tag_toString t
        = ((Tag_toString t).rdropWhile (fun x => x == ' ')).dropWhile (fun x => x == ' ') := by
      simp only [Interpreter.toString]
      rw [if_neg h1, h2]
    rw [he]
    exact trimmed_spec (Tag_toString t) ' ' h
  · intro h
    simp only [Interpreter.toString]
    rw [if_pos (find_not_of_all (Tag_toString t) ' ' h).1]

/-- C11, amended, at the rendering "  a b  ", which is returned as "a b". -/
theorem toString_trims_spaces_witness :
    Interpreter.toString (fun _ => "  a b  ".toList) (exampleTag .ASCII [] none .INTEL)
      = "a b".toList ∧
    (Interpreter.toString (fun _ => "  a b  ".toList)
      (exampleTag .ASCII [] none .INTEL)).head? ≠ some ' ' ∧
    (Interpreter.toString (fun _ => "  a b  ".toList)
      (exampleTag .ASCII [] none .INTEL)).getLast? ≠ some ' ' :=
  ⟨by decide,
   ((toString_trims_spaces (fun _ => "  a b  ".toList) (exampleTag .ASCII [] none .INTEL)
      (by decide)).1 ⟨'a', by decide, by decide⟩).2.1,
   ((toString_trims_spaces (fun _ => "  a b  ".toList) (exampleTag .ASCII [] none .INTEL)
      (by decide)).1 ⟨'a', by decide, by decide⟩).2.2.1⟩

/-! ## Rounding to binary64 -/

/-- The quotient of two naturals is its integer part plus the remainder over
the divisor. -/
theorem quot_split (n d : Nat) (hd : 0 < d) :
    (n : ℚ) / (d : ℚ) = ((n / d : Nat) : ℚ) + ((n % d : Nat) : ℚ) / (d : ℚ) := by
  have hdq : (0 : ℚ) < (d : ℚ) := by exact_mod_cast hd
  have hsplit : (n : ℚ) = (d : ℚ) * ((n / d : Nat) : ℚ) + ((n % d : Nat) : ℚ) := by
    exact_mod_cast (Nat.div_add_mod n d).symm
  rw [hsplit]
  field_simp
  ring

/-- The rounded quotient is within one half of the quotient, and is even when
it is exactly one half from it. -/
theorem roundTiesEven_near (n d : Nat) (hd : 0 < d) :
    |(roundTiesEven n d : ℚ) - (n : ℚ) / (d : ℚ)| ≤ 1 / 2 ∧
    (|(roundTiesEven n d : ℚ) - (n : ℚ) / (d : ℚ)| = 1 / 2 → roundTiesEven n d % 2 = 0) := by
  have hdq : (0 : ℚ) < (d : ℚ) := by exact_mod_cast hd
  have hr : n % d < d := Nat.mod_lt _ hd
  have hr0 : (0 : ℚ) ≤ ((n % d : Nat) : ℚ) := Nat.cast_nonneg _
  rw [quot_split n d hd]
  unfold roundTiesEven
  dsimp only
  generalize n / d = t
  generalize n % d = r at hr hr0
  have hrq : (r : ℚ) < (d : ℚ) := by exact_mod_cast hr
  -- the distance from `t` and from `t + 1`
  have e0 : (t : ℚ) - ((t : ℚ) + (r : ℚ) / (d : ℚ)) = -((r : ℚ) / (d : ℚ)) := by ring
  have e1 : ((t + 1 : Nat) : ℚ) - ((t : ℚ) + (r : ℚ) / (d : ℚ)) = 1 - (r : ℚ) / (d : ℚ) := by
    push_cast
    ring
  have h0 : 0 ≤ (r : ℚ) / (d : ℚ) := div_nonneg hr0 (le_of_lt hdq)
  have h1 : (r : ℚ) / (d : ℚ) < 1 := by
    rw [div_lt_iff₀ hdq]; linarith
  have a0 : |(t : ℚ) - ((t : ℚ) + (r : ℚ) / (d : ℚ))| = (r : ℚ) / (d : ℚ) := by
    rw [e0, abs_neg, abs_of_nonneg h0]
  have a1 : |((t + 1 : Nat) : ℚ) - ((t : ℚ) + (r : ℚ) / (d : ℚ))| = 1 - (r : ℚ) / (d : ℚ) := by
    rw [e1, abs_of_nonneg (by linarith)]
  have hhalf : (r : ℚ) / (d : ℚ) < 1 / 2 ↔ 2 * r < d := by
    rw [div_lt_iff₀ hdq]
    constructor
    · intro h
      have : (2 : ℚ) * (r : ℚ) < (d : ℚ) := by linarith
      exact_mod_cast this
    · intro h
      have : (2 : ℚ) * (r : ℚ) < (d : ℚ) := by exact_mod_cast h
      linarith
  have hhalf2 : 1 / 2 < (r : ℚ) / (d : ℚ) ↔ d < 2 * r := by
    rw [lt_div_iff₀ hdq]
    constructor
    · intro h
      have : (d : ℚ) < (2 : ℚ) * (r : ℚ) := by linarith
      exact_mod_cast this
    · intro h
      have : (d : ℚ) < (2 : ℚ) * (r : ℚ) := by exact_mod_cast h
      linarith
  by_cases c1 : 2 * r < d
  · rw [if_pos c1, a0]
    have := hhalf.mpr c1
    exact ⟨by linarith, fun h => by linarith⟩
  · rw [if_neg c1]
    by_cases c2 : d < 2 * r
    · rw [if_pos c2, a1]
      have := hhalf2.mpr c2
      exact ⟨by linarith, fun h => by linarith⟩
    · rw [if_neg c2]
      have hle1 : ¬ (r : ℚ) / (d : ℚ) < 1 / 2 := fun h => c1 (hhalf.mp h)
      have hle2 : ¬ 1 / 2 < (r : ℚ) / (d : ℚ) := fun h => c2 (hhalf2.mp h)
      have heq : (r : ℚ) / (d : ℚ) = 1 / 2 := le_antisymm (not_lt.mp hle2) (not_lt.mp hle1)
      by_cases c3 : t % 2 = 0
      · rw [if_pos c3, a0, heq]
        exact ⟨le_refl _, fun _ => c3⟩
      · rw [if_neg c3, a1, heq]
        exact ⟨by norm_num, fun _ => by omega⟩


/-- The scaled numerator over the scaled denominator is the quotient times the
power of 2. -/
theorem scaled_quotient (a b : Nat) (hb : 0 < b) (k : Int) :
    ((a * 2 ^ k.toNat : Nat) : ℚ) / ((b * 2 ^ (-k).toNat : Nat) : ℚ)
      = (a : ℚ) / (b : ℚ) * (2 : ℚ) ^ k := by
  have hbq : (b : ℚ) ≠ 0 := by exact_mod_cast (Nat.pos_iff_ne_zero.mp hb)
  have h2 : (2 : ℚ) ≠ 0 := by norm_num
  rcases le_or_lt 0 k with hk | hk
  · have e1 : (-k).toNat = 0 := by omega
    have e2 : k = ((k.toNat : Nat) : Int) := by omega
    rw [e1]
    conv_rhs => rw [e2, zpow_natCast]
    push_cast
    field_simp
  · have e1 : k.toNat = 0 := by omega
    have e2 : k = -(((-k).toNat : Nat) : Int) := by omega
    rw [e1]
    conv_rhs => rw [e2, zpow_neg, zpow_natCast]
    push_cast
    field_simp

/-- The logarithm brackets a positive natural between two powers of 2. -/
theorem log2_bracket (a : Nat) (ha : 0 < a) :
    (2 : ℚ) ^ (Nat.log2 a : Int) ≤ (a : ℚ) ∧ (a : ℚ) < (2 : ℚ) ^ ((Nat.log2 a : Int) + 1) := by
  have h1 : 2 ^ Nat.log2 a ≤ a := Nat.log2_self_le (Nat.pos_iff_ne_zero.mp ha)
  have h2 : a < 2 ^ (Nat.log2 a + 1) := Nat.lt_log2_self
  constructor
  · rw [zpow_natCast]
    exact_mod_cast h1
  · have e : ((Nat.log2 a : Int) + 1) = ((Nat.log2 a + 1 : Nat) : Int) := by push_cast; rfl
    rw [e, zpow_natCast]
    exact_mod_cast h2

/-- The rounding of a positive quotient: the quotient is scaled by the power
of 2 that brings it into `[2^52, 2^53)`, rounded to a nearest integer and
scaled back. -/
theorem roundPos53_spec (a b : Nat) (ha : 0 < a) (hb : 0 < b) :
    ∃ (k : Int) (R : Nat), (2 : ℚ) ^ (52 : Int) ≤ (a : ℚ) / (b : ℚ) * (2 : ℚ) ^ k ∧
      (a : ℚ) / (b : ℚ) * (2 : ℚ) ^ k < (2 : ℚ) ^ (53 : Int) ∧
      roundPos53 a b = (R : ℚ) * (2 : ℚ) ^ (-k) ∧
      |(R : ℚ) - (a : ℚ) / (b : ℚ) * (2 : ℚ) ^ k| ≤ 1 / 2 ∧
      (|(R : ℚ) - (a : ℚ) / (b : ℚ) * (2 : ℚ) ^ k| = 1 / 2 → R % 2 = 0) := by
  obtain ⟨a1, a2⟩ := log2_bracket a ha
  obtain ⟨b1, b2⟩ := log2_bracket b hb
  have haq : (0 : ℚ) < (a : ℚ) := by exact_mod_cast ha
  have hbq : (0 : ℚ) < (b : ℚ) := by exact_mod_cast hb
  have h2 : (2 : ℚ) ≠ 0 := by norm_num
  have h2pos : ∀ z : Int, (0 : ℚ) < (2 : ℚ) ^ z := fun z => zpow_pos (by norm_num) z
  generalize hla : (Nat.log2 a : Int) = la at a1 a2
  generalize hlb : (Nat.log2 b : Int) = lb at b1 b2
  -- the quotient at the first exponent is between 2^51 and 2^53
  have hX1 : (a : ℚ) / (b : ℚ) * (2 : ℚ) ^ (52 - (la - lb)) < (2 : ℚ) ^ (53 : Int) := by
    have : (a : ℚ) / (b : ℚ) < (2 : ℚ) ^ (la + 1) / (2 : ℚ) ^ lb := by
      exact div_lt_div₀ a2 b1 (le_of_lt (h2pos _)) (h2pos _)
    calc (a : ℚ) / (b : ℚ) * (2 : ℚ) ^ (52 - (la - lb))
        < (2 : ℚ) ^ (la + 1) / (2 : ℚ) ^ lb * (2 : ℚ) ^ (52 - (la - lb)) :=
          mul_lt_mul_of_pos_right this (h2pos _)
      _ = (2 : ℚ) ^ (53 : Int) := by
          rw [← zpow_sub₀ h2, ← zpow_add₀ h2]
          congr 1
          ring
  have hX2 : (2 : ℚ) ^ (51 : Int) < (a : ℚ) / (b : ℚ) * (2 : ℚ) ^ (52 - (la - lb)) := by
    have : (2 : ℚ) ^ la / (2 : ℚ) ^ (lb + 1) < (a : ℚ) / (b : ℚ) := by
      exact div_lt_div₀' a1 b2 haq hbq
    calc (2 : ℚ) ^ (51 : Int)
        = (2 : ℚ) ^ la / (2 : ℚ) ^ (lb + 1) * (2 : ℚ) ^ (52 - (la - lb)) := by
          rw [← zpow_sub₀ h2, ← zpow_add₀ h2]
          congr 1
          ring
      _ < (a : ℚ) / (b : ℚ) * (2 : ℚ) ^ (52 - (la - lb)) :=
          mul_lt_mul_of_pos_right this (h2pos _)
  have hstep : ∀ z : Int, (a : ℚ) / (b : ℚ) * (2 : ℚ) ^ (z + 1)
      = 2 * ((a : ℚ) / (b : ℚ) * (2 : ℚ) ^ z) := by
    intro z
    rw [zpow_add₀ h2, zpow_one]
    ring
  have hdn : ∀ z : Int, (0 : ℚ) < ((b * 2 ^ (-z).toNat : Nat) : ℚ) := by
    intro z
    have : 0 < b * 2 ^ (-z).toNat := Nat.mul_pos hb (Nat.two_pow_pos _)
    exact_mod_cast this
  unfold roundPos53
  dsimp only
  rw [hla, hlb]
  generalize hk0 : (52 - (la - lb) : Int) = k0 at hX1 hX2
  -- the test of the definition, in the rationals
  have htest : (a * 2 ^ k0.toNat < 2 ^ 52 * (b * 2 ^ (-k0).toNat)) ↔
      (a : ℚ) / (b : ℚ) * (2 : ℚ) ^ k0 < (2 : ℚ) ^ (52 : Int) := by
    have e52 : (2 : ℚ) ^ (52 : Int) = ((2 ^ 52 : Nat) : ℚ) := by norm_num
    rw [← scaled_quotient a b hb k0, div_lt_iff₀ (hdn k0), e52, ← Nat.cast_mul, Nat.cast_lt]
  by_cases hc : a * 2 ^ k0.toNat < 2 ^ 52 * (b * 2 ^ (-k0).toNat)
  · rw [if_pos hc]
    have hlt := htest.mp hc
    refine ⟨k0 + 1, roundTiesEven (a * 2 ^ (k0 + 1).toNat) (b * 2 ^ (-(k0 + 1)).toNat), ?_, ?_,
      rfl, ?_⟩
    · rw [hstep]
      have : (2 : ℚ) ^ (52 : Int) = 2 * (2 : ℚ) ^ (51 : Int) := by norm_num
      rw [this]
      linarith
    · rw [hstep]
      have : (2 : ℚ) ^ (53 : Int) = 2 * (2 : ℚ) ^ (52 : Int) := by norm_num
      rw [this]
      linarith
    · rw [← scaled_quotient a b hb (k0 + 1)]
      exact roundTiesEven_near _ _ (Nat.mul_pos hb (Nat.two_pow_pos _))
  · rw [if_neg hc]
    have hge : (2 : ℚ) ^ (52 : Int) ≤ (a : ℚ) / (b : ℚ) * (2 : ℚ) ^ k0 :=
      not_lt.mp (fun h => hc (htest.mpr h))
    refine ⟨k0, roundTiesEven (a * 2 ^ k0.toNat) (b * 2 ^ (-k0).toNat), hge, hX1, rfl, ?_⟩
    rw [← scaled_quotient a b hb k0]
    exact roundTiesEven_near _ _ (Nat.mul_pos hb (Nat.two_pow_pos _))


/-- The rounding of a positive number: scaled into `[2^52, 2^53)`, rounded to a
nearest integer and scaled back. -/
theorem roundBinary64_pos_spec (q : ℚ) (hq : 0 < q) :
    ∃ (k : Int) (R : Nat), (2 : ℚ) ^ (52 : Int) ≤ q * (2 : ℚ) ^ k ∧
      q * (2 : ℚ) ^ k < (2 : ℚ) ^ (53 : Int) ∧
      roundBinary64 q = (R : ℚ) * (2 : ℚ) ^ (-k) ∧ |(R : ℚ) - q * (2 : ℚ) ^ k| ≤ 1 / 2 ∧
      (|(R : ℚ) - q * (2 : ℚ) ^ k| = 1 / 2 → R % 2 = 0) := by
  have hnum : 0 < q.num := Rat.num_pos.mpr hq
  have hcast : ((q.num.natAbs : Nat) : ℚ) = (q.num : ℚ) := by
    rw [Nat.cast_natAbs, abs_of_pos hnum]
  have hab : ((q.num.natAbs : Nat) : ℚ) / (q.den : ℚ) = q := by
    rw [hcast]
    exact Rat.num_div_den q
  obtain ⟨k, R, h1, h2, h3, h4, h5⟩ := roundPos53_spec q.num.natAbs q.den (by omega) q.den_pos
  rw [hab] at h1 h2 h4 h5
  refine ⟨k, R, h1, h2, ?_, h4, h5⟩
  unfold roundBinary64
  rw [if_neg (ne_of_gt hq), if_pos hq]
  exact h3

/-- Rounding commutes with the opposite. -/
theorem roundBinary64_neg (q : ℚ) : roundBinary64 (-q) = -roundBinary64 q := by
  unfold roundBinary64
  rcases lt_trichotomy q 0 with h | h | h
  · rw [if_neg (by linarith), if_pos (by linarith), if_neg (by linarith), if_neg (by linarith),
      Rat.neg_num, Int.natAbs_neg, Rat.neg_den, neg_neg]
  · subst h
    simp
  · rw [if_neg (by linarith), if_neg (by linarith), if_neg (by linarith), if_pos h,
      Rat.neg_num, Int.natAbs_neg, Rat.neg_den]

/-- The rounding of a positive number is positive. -/
theorem roundBinary64_pos (q : ℚ) (hq : 0 < q) : 0 < roundBinary64 q := by
  obtain ⟨k, R, h1, -, h3, h4, -⟩ := roundBinary64_pos_spec q hq
  rw [h3]
  have hR : (0 : ℚ) < (R : ℚ) := by
    rw [abs_le] at h4
    have : (4503599627370496 : ℚ) ≤ q * (2 : ℚ) ^ k := by
      have e : (2 : ℚ) ^ (52 : Int) = 4503599627370496 := by norm_num
      rw [← e]
      exact h1
    linarith [h4.1]
  exact mul_pos hR (zpow_pos (by norm_num) _)

/-- Only one power of 2 brings a number into `[2^52, 2^53)`. -/
theorem scale_unique (x : ℚ) (k j : Int)
    (hk1 : (2 : ℚ) ^ (52 : Int) ≤ x * (2 : ℚ) ^ k) (hk2 : x * (2 : ℚ) ^ k < (2 : ℚ) ^ (53 : Int))
    (hj1 : (2 : ℚ) ^ (52 : Int) ≤ x * (2 : ℚ) ^ j) (hj2 : x * (2 : ℚ) ^ j < (2 : ℚ) ^ (53 : Int)) :
    k = j := by
  have h2 : (2 : ℚ) ≠ 0 := by norm_num
  have key : ∀ (m n : Int), (2 : ℚ) ^ (52 : Int) ≤ x * (2 : ℚ) ^ m →
      x * (2 : ℚ) ^ n < (2 : ℚ) ^ (53 : Int) → n < m + 1 := by
    intro m n hm hn
    by_contra hcon
    push_neg at hcon
    have hx : 0 < x := by
      by_contra hx
      push_neg at hx
      have : x * (2 : ℚ) ^ m ≤ 0 := mul_nonpos_of_nonpos_of_nonneg hx (le_of_lt (zpow_pos (by norm_num) _))
      have : (0 : ℚ) < (2 : ℚ) ^ (52 : Int) := zpow_pos (by norm_num) _
      linarith
    have hle : (2 : ℚ) ^ (m + 1) ≤ (2 : ℚ) ^ n := zpow_le_zpow_right₀ (by norm_num) hcon
    have e : x * (2 : ℚ) ^ (m + 1) = 2 * (x * (2 : ℚ) ^ m) := by
      rw [zpow_add₀ h2, zpow_one]
      ring
    have h5 : x * (2 : ℚ) ^ (m + 1) ≤ x * (2 : ℚ) ^ n := mul_le_mul_of_nonneg_left hle (le_of_lt hx)
    have e53 : (2 : ℚ) ^ (53 : Int) = 2 * (2 : ℚ) ^ (52 : Int) := by norm_num
    linarith
  have a := key k j hk1 hj2
  have b := key j k hj1 hk2
  omega

/-- Rounding to nearest, ties to even: a number whose scaling into
`[2^52, 2^53)` is at most one half from the integer `N`, and exactly one half
only if `N` is even, is rounded to `N` scaled back. -/
theorem roundBinary64_nearest (q : ℚ) (k : Int) (N : Nat)
    (h1 : (2 : ℚ) ^ (52 : Int) ≤ q * (2 : ℚ) ^ k) (h2 : q * (2 : ℚ) ^ k < (2 : ℚ) ^ (53 : Int))
    (h3 : |q * (2 : ℚ) ^ k - (N : ℚ)| ≤ 1 / 2)
    (h4 : |q * (2 : ℚ) ^ k - (N : ℚ)| = 1 / 2 → N % 2 = 0) :
    roundBinary64 q = (N : ℚ) * (2 : ℚ) ^ (-k) := by
  have hq : 0 < q := by
    by_contra hx
    push_neg at hx
    have : q * (2 : ℚ) ^ k ≤ 0 := mul_nonpos_of_nonpos_of_nonneg hx (le_of_lt (zpow_pos (by norm_num) _))
    have : (0 : ℚ) < (2 : ℚ) ^ (52 : Int) := zpow_pos (by norm_num) _
    linarith
  obtain ⟨j, R, g1, g2, g3, g4, g5⟩ := roundBinary64_pos_spec q hq
  have hjk : j = k := scale_unique q j k g1 g2 h1 h2
  subst hjk
  rw [g3]
  have hRN : R = N := by
    by_contra hne
    -- two different integers within one half of the same number: a tie
    have g4' := abs_le.mp g4
    have h3' := abs_le.mp h3
    rcases Nat.lt_or_gt_of_ne hne with hlt | hgt
    · have hc : (R : ℚ) + 1 ≤ (N : ℚ) := by exact_mod_cast hlt
      have eR : (R : ℚ) - q * (2 : ℚ) ^ j = -(1 / 2) := by linarith [g4'.1, h3'.2]
      have eN : q * (2 : ℚ) ^ j - (N : ℚ) = -(1 / 2) := by linarith [g4'.1, h3'.2]
      have hR := g5 (by rw [eR]; norm_num)
      have hN := h4 (by rw [eN]; norm_num)
      have : (N : ℚ) = (R : ℚ) + 1 := by linarith
      have : N = R + 1 := by exact_mod_cast this
      omega
    · have hc : (N : ℚ) + 1 ≤ (R : ℚ) := by exact_mod_cast hgt
      have eR : (R : ℚ) - q * (2 : ℚ) ^ j = 1 / 2 := by linarith [g4'.2, h3'.1]
      have eN : q * (2 : ℚ) ^ j - (N : ℚ) = 1 / 2 := by linarith [g4'.2, h3'.1]
      have hR := g5 (by rw [eR]; norm_num)
      have hN := h4 (by rw [eN]; norm_num)
      have : (R : ℚ) = (N : ℚ) + 1 := by linarith
      have : R = N + 1 := by exact_mod_cast this
      omega
  rw [hRN]

/-- Rounding does not pass a positive `double` above the number. -/
theorem roundBinary64_le_pos (q : ℚ) (n : Nat) (e : Int) (hq : 0 < q) (hn : n < 2 ^ 53)
    (h : q ≤ (n : ℚ) * (2 : ℚ) ^ e) : roundBinary64 q ≤ (n : ℚ) * (2 : ℚ) ^ e := by
  have h2 : (2 : ℚ) ≠ 0 := by norm_num
  obtain ⟨k, R, g1, g2, g3, g4, -⟩ := roundBinary64_pos_spec q hq
  have hkpos : (0 : ℚ) < (2 : ℚ) ^ k := zpow_pos (by norm_num) _
  rw [g3]
  -- it is enough to compare the scaled numbers
  have hscale : (n : ℚ) * (2 : ℚ) ^ e = ((n : ℚ) * (2 : ℚ) ^ (e + k)) * (2 : ℚ) ^ (-k) := by
    rw [mul_assoc, ← zpow_add₀ h2]
    congr 2
    ring
  rw [hscale]
  apply mul_le_mul_of_nonneg_right _ (le_of_lt (zpow_pos (by norm_num) _))
  have hy : q * (2 : ℚ) ^ k ≤ (n : ℚ) * (2 : ℚ) ^ (e + k) := by
    rw [zpow_add₀ h2, ← mul_assoc]
    exact mul_le_mul_of_nonneg_right h (le_of_lt hkpos)
  rcases le_or_lt 0 (e + k) with hek | hek
  · -- the scaled double is an integer
    have e2 : e + k = (((e + k).toNat : Nat) : Int) := by omega
    have hM : (n : ℚ) * (2 : ℚ) ^ (e + k) = ((n * 2 ^ (e + k).toNat : Nat) : ℚ) := by
      conv_lhs => rw [e2, zpow_natCast]
      push_cast
      rfl
    rw [hM] at hy ⊢
    rw [abs_le] at g4
    have l1 : (R : ℚ) < ((n * 2 ^ (e + k).toNat : Nat) : ℚ) + 1 := by linarith [g4.2]
    have l1' : R < n * 2 ^ (e + k).toNat + 1 := by exact_mod_cast l1
    have : R ≤ n * 2 ^ (e + k).toNat := by omega
    exact_mod_cast this
  · -- the scaled double is below 2^52: impossible
    exfalso
    have hpow : (2 : ℚ) ^ (e + k) ≤ (2 : ℚ) ^ (-1 : Int) :=
      zpow_le_zpow_right₀ (by norm_num) (by omega)
    have hnq : (n : ℚ) < 9007199254740992 := by
      have : n < 9007199254740992 := by
        have e53 : (2 : Nat) ^ 53 = 9007199254740992 := by norm_num
        omega
      exact_mod_cast this
    have hn0 : (0 : ℚ) ≤ (n : ℚ) := Nat.cast_nonneg n
    have hlt : (n : ℚ) * (2 : ℚ) ^ (e + k) < (2 : ℚ) ^ (52 : Int) := by
      have e52 : (2 : ℚ) ^ (52 : Int) = 4503599627370496 := by norm_num
      have em1 : (2 : ℚ) ^ (-1 : Int) = 1 / 2 := by norm_num
      rw [e52]
      rw [em1] at hpow
      have hp0 : (0 : ℚ) < (2 : ℚ) ^ (e + k) := zpow_pos (by norm_num) _
      nlinarith
    linarith

/-- Rounding does not pass a positive `double` below the number. -/
theorem le_roundBinary64_pos (q : ℚ) (n : Nat) (e : Int) (hq : 0 < q) (hn : n < 2 ^ 53)
    (h : (n : ℚ) * (2 : ℚ) ^ e ≤ q) : (n : ℚ) * (2 : ℚ) ^ e ≤ roundBinary64 q := by
  have h2 : (2 : ℚ) ≠ 0 := by norm_num
  obtain ⟨k, R, g1, g2, g3, g4, -⟩ := roundBinary64_pos_spec q hq
  have hkpos : (0 : ℚ) < (2 : ℚ) ^ k := zpow_pos (by norm_num) _
  rw [g3]
  have hscale : (n : ℚ) * (2 : ℚ) ^ e = ((n : ℚ) * (2 : ℚ) ^ (e + k)) * (2 : ℚ) ^ (-k) := by
    rw [mul_assoc, ← zpow_add₀ h2]
    congr 2
    ring
  rw [hscale]
  apply mul_le_mul_of_nonneg_right _ (le_of_lt (zpow_pos (by norm_num) _))
  have hy : (n : ℚ) * (2 : ℚ) ^ (e + k) ≤ q * (2 : ℚ) ^ k := by
    rw [zpow_add₀ h2, ← mul_assoc]
    exact mul_le_mul_of_nonneg_right h (le_of_lt hkpos)
  rw [abs_le] at g4
  have e52 : (2 : ℚ) ^ (52 : Int) = 4503599627370496 := by norm_num
  rw [e52] at g1
  rcases le_or_lt 0 (e + k) with hek | hek
  · have e2 : e + k = (((e + k).toNat : Nat) : Int) := by omega
    have hM : (n : ℚ) * (2 : ℚ) ^ (e + k) = ((n * 2 ^ (e + k).toNat : Nat) : ℚ) := by
      conv_lhs => rw [e2, zpow_natCast]
      push_cast
      rfl
    rw [hM] at hy ⊢
    have l1 : ((n * 2 ^ (e + k).toNat : Nat) : ℚ) < (R : ℚ) + 1 := by linarith [g4.1]
    have l1' : n * 2 ^ (e + k).toNat < R + 1 := by exact_mod_cast l1
    have : n * 2 ^ (e + k).toNat ≤ R := by omega
    exact_mod_cast this
  · have hpow : (2 : ℚ) ^ (e + k) ≤ (2 : ℚ) ^ (-1 : Int) :=
      zpow_le_zpow_right₀ (by norm_num) (by omega)
    have em1 : (2 : ℚ) ^ (-1 : Int) = 1 / 2 := by norm_num
    rw [em1] at hpow
    have hnq : (n : ℚ) < 9007199254740992 := by
      have : n < 9007199254740992 := by
        have e53 : (2 : Nat) ^ 53 = 9007199254740992 := by norm_num
        omega
      exact_mod_cast this
    have hn0 : (0 : ℚ) ≤ (n : ℚ) := Nat.cast_nonneg n
    have hp0 : (0 : ℚ) < (2 : ℚ) ^ (e + k) := zpow_pos (by norm_num) _
    have hlt : (n : ℚ) * (2 : ℚ) ^ (e + k) < 4503599627370496 := by nlinarith
    have hR : (4503599627370496 : ℚ) < (R : ℚ) + 1 := by linarith [g4.1]
    have hR' : (4503599627370496 : Nat) < R + 1 := by exact_mod_cast hR
    have hR'' : (4503599627370496 : ℚ) ≤ (R : ℚ) := by
      have : (4503599627370496 : Nat) ≤ R := by omega
      exact_mod_cast this
    linarith


/-- The opposite of a `double` is a `double`. -/
theorem isDouble_neg (y : ℚ) (hy : isDouble y) : isDouble (-y) := by
  obtain ⟨n, e, hn, h | h⟩ := hy
  · exact ⟨n, e, hn, Or.inr (by rw [h])⟩
  · exact ⟨n, e, hn, Or.inl (by rw [h, neg_neg])⟩

/-- Rounding does not pass a `double` above the number. -/
theorem roundBinary64_le (q y : ℚ) (hy : isDouble y) (h : q ≤ y) : roundBinary64 q ≤ y := by
  obtain ⟨n, e, hn, hy⟩ := hy
  have hpow : (0 : ℚ) ≤ (n : ℚ) * (2 : ℚ) ^ e :=
    mul_nonneg (Nat.cast_nonneg n) (le_of_lt (zpow_pos (by norm_num) _))
  rcases lt_trichotomy q 0 with hq | hq | hq
  · have hnq : 0 < -q := by linarith
    have e1 : roundBinary64 q = -roundBinary64 (-q) := by
      rw [roundBinary64_neg, neg_neg]
    rw [e1]
    rcases hy with hy | hy
    · have := roundBinary64_pos (-q) hnq
      rw [hy]
      linarith
    · rw [hy]
      apply neg_le_neg
      exact le_roundBinary64_pos (-q) n e hnq hn (by rw [hy] at h; linarith)
  · subst hq
    have : roundBinary64 0 = 0 := by simp [roundBinary64]
    rw [this]
    exact h
  · rcases hy with hy | hy
    · rw [hy]
      exact roundBinary64_le_pos q n e hq hn (by rw [hy] at h; exact h)
    · rw [hy] at h
      linarith

/-- Rounding does not pass a `double` below the number. -/
theorem le_roundBinary64 (q y : ℚ) (hy : isDouble y) (h : y ≤ q) : y ≤ roundBinary64 q := by
  have := roundBinary64_le (-q) (-y) (isDouble_neg y hy) (by linarith)
  rw [roundBinary64_neg] at this
  linarith

/-- A `double` is rounded to itself. -/
theorem roundBinary64_self (y : ℚ) (hy : isDouble y) : roundBinary64 y = y :=
  le_antisymm (roundBinary64_le y y hy (le_refl y)) (le_roundBinary64 y y hy (le_refl y))

open IntLensInterpreter


/-! ## The lens interpreter: the loops -/

/-- With two or more candidates `guess` goes through its two tries. -/
theorem guess_many {T : Type} [DecidableEq T] (env : LensEnv) (idText : T → List Char)
    (choices : List (T × List Char)) (lensID : T) (f m : ℚ)
    (info : Option (ℚ × ℚ × ℚ × ℚ)) (h2 : 2 ≤ (candidates choices lensID).length) :
    guess env idText choices lensID f m info =
      (match info with
      | none => secondTry env f m "Unknown".toList (candidates choices lensID)
      | some li =>
        match exactMatch env li (candidates choices lensID) with
        | some name => pure name
        | none =>
          unknownLabel env li >>= fun bestMatch =>
            secondTry env f m bestMatch (candidates choices lensID)) := by
  unfold guess
  generalize candidates choices lensID = names at h2
  match names, h2 with
  | a :: b :: rest, _ => rfl

/-- The first loop returns the first candidate whose extracted values are the
side data. -/
theorem exactMatch_eq_find (env : LensEnv) (li : ℚ × ℚ × ℚ × ℚ) (names : List (List Char)) :
    exactMatch env li names
      = names.find? (fun name => decide (env.extractLensInfo name = some li)) := by
  induction names with
  | nil => rfl
  | cons name rest ih =>
    obtain ⟨l0, l1, l2, l3⟩ := li
    simp only [exactMatch, List.find?_cons]
    cases he : env.extractLensInfo name with
    | none => simp [ih]
    | some v =>
      obtain ⟨f1, f2, a1, a2⟩ := v
      by_cases hc : f1 = l0 ∧ f2 = l1 ∧ a1 = l2 ∧ a2 = l3
      · obtain ⟨h0, h1, h2, h3⟩ := hc
        subst h0 h1 h2 h3
        simp
      · have hne : ¬ (f1, f2, a1, a2) = (l0, l1, l2, l3) := by
          intro h
          simp only [Prod.mk.injEq] at h
          exact hc h
        simp [hc, hne, ih]

/-- A candidate that does not pass the scoring filters is skipped: the loop
goes on to the next candidate without computing a `dif`. -/
theorem lensDif_skip (env : LensEnv) (f m : ℚ) (name : List Char)
    (h : ¬ passesFilters env f m name) : lensDif env f m name = .ok none := by
  unfold lensDif
  cases he : env.extractLensInfo name with
  | none => rfl
  | some v =>
    obtain ⟨f1, f2, a1, a2⟩ := v
    dsimp only
    by_cases c1 : f1 = 0 ∨ a1 = 0
    · rw [if_pos c1]; rfl
    rw [if_neg c1]
    by_cases c2 : f < doubleSub f1 (1 / 2) ∨ f > doubleAdd f2 (1 / 2)
    · rw [if_pos c2]; rfl
    rw [if_neg c2]
    push_neg at c1 c2
    by_cases c3 : m > double_0_1
    · rw [if_pos c3]
      by_cases c4 : m < doubleSub a1 double_0_15 ∨ m > doubleAdd a2 double_0_15
      · rw [if_pos c4]; rfl
      · push_neg at c4
        exact absurd ⟨f1, f2, a1, a2, he, c1.1, c1.2, c2.1, c2.2, fun _ => c4⟩ h
    · exact absurd ⟨f1, f2, a1, a2, he, c1.1, c1.2, c2.1, c2.2, fun c => absurd c c3⟩ h

/-- The `dif` of a candidate that passes the filters with a known aperture:
`abs` applied to the difference of the interpolated aperture and the
requested one. -/
theorem lensDif_known (env : LensEnv) (f m : ℚ) (name : List Char)
    (f1 f2 a1 a2 : ℚ) (he : env.extractLensInfo name = some (f1, f2, a1, a2))
    (hf1 : f1 ≠ 0) (ha1 : a1 ≠ 0) (hlo : doubleSub f1 (1 / 2) ≤ f)
    (hhi : f ≤ doubleAdd f2 (1 / 2)) (hm : m > double_0_1)
    (hma : doubleSub a1 double_0_15 ≤ m) (hmb : m ≤ doubleAdd a2 double_0_15) :
    lensDif env f m name
      = (lensApertureWith doubleAdd doubleSub doubleMul doubleQuot env.exp env.log
          f1 f2 a1 a2 f >>= fun lensAperture =>
        apertureDif lensAperture m >>= fun dif => pure (some dif)) := by
  have c1 : ¬ (f1 = 0 ∨ a1 = 0) := by
    push_neg; exact ⟨hf1, ha1⟩
  have c2 : ¬ (f < doubleSub f1 (1 / 2) ∨ f > doubleAdd f2 (1 / 2)) := by
    push_neg; exact ⟨hlo, hhi⟩
  have c4 : ¬ (m < doubleSub a1 double_0_15 ∨ m > doubleAdd a2 double_0_15) := by
    push_neg; exact ⟨hma, hmb⟩
  unfold lensDif
  rw [he]
  dsimp only
  rw [if_neg c1, if_neg c2, if_pos hm, if_neg c4]

/-- The `dif` read off a computation that ends in a double. -/
theorem difOf_of_ok (env : LensEnv) (f m : ℚ) (name : List Char) (d : Option ℚ)
    (h : lensDif env f m name = .ok d) : difOf env f m name = d := by
  unfold difOf
  rw [h]

/-- When the `dif` of every candidate is computed, the second loop runs to its
end and is the fold of the updates. -/
theorem foldlM_guessStep (env : LensEnv) (f m : ℚ) (names : List (List Char))
    (st : GuessState) (h : ∀ name ∈ names, ∃ d, lensDif env f m name = .ok d) :
    names.foldlM (guessStep env f m) st
      = .ok (names.foldl (fun s name => guessUpdate s name (difOf env f m name)) st) := by
  induction names generalizing st with
  | nil => rfl
  | cons name rest ih =>
    obtain ⟨d, hd⟩ := h name (List.mem_cons_self _ _)
    have hs : guessStep env f m st name = .ok (guessUpdate st name (difOf env f m name)) := by
      unfold guessStep
      rw [difOf_of_ok env f m name d hd, hd]
      rfl
    rw [List.foldlM_cons, hs, List.foldl_cons]
    exact ih _ (fun x hx => h x (List.mem_cons_of_mem _ hx))

/-- What one update does to the collected text. -/
theorem guessUpdate_candidates (st : GuessState) (name : List Char) (d : Option ℚ) :
    (guessUpdate st name d).candidates =
      match d with
      | some dif => if dif < double_0_15 then appendCandidate st.candidates name else st.candidates
      | none => st.candidates := by
  unfold guessUpdate
  cases d with
  | none => rfl
  | some dif =>
    by_cases h1 : dif < st.deltaMin <;> by_cases h2 : dif < double_0_15 <;> simp [h1, h2]

/-- The text collected by the second loop is built from the close candidates
alone, in order. -/
theorem foldl_guessUpdate_candidates (env : LensEnv) (f m : ℚ) (names : List (List Char))
    (st : GuessState) :
    (names.foldl (fun s name => guessUpdate s name (difOf env f m name)) st).candidates
      = (closeCandidates env f m names).foldl appendCandidate st.candidates := by
  induction names generalizing st with
  | nil => rfl
  | cons name rest ih =>
    rw [List.foldl_cons, ih, guessUpdate_candidates]
    unfold closeCandidates
    cases hd : difOf env f m name with
    | none => simp [List.filter_cons, hd]
    | some dif =>
      by_cases h2 : dif < double_0_15 <;> simp [List.filter_cons, hd, h2]

/-- Candidates without a `dif` leave the loop variables as they are. -/
theorem foldl_guessUpdate_none (env : LensEnv) (f m : ℚ) (names : List (List Char))
    (st : GuessState) (h : ∀ name ∈ names, difOf env f m name = none) :
    names.foldl (fun s name => guessUpdate s name (difOf env f m name)) st = st := by
  induction names generalizing st with
  | nil => rfl
  | cons name rest ih =>
    have h0 : guessUpdate st name (difOf env f m name) = st := by
      rw [h name (List.mem_cons_self _ _)]
      rfl
    rw [List.foldl_cons, h0]
    exact ih st (fun x hx => h x (List.mem_cons_of_mem _ hx))

/-- When the `dif` of every candidate is computed, the second try returns the
text collected from the close candidates, or the best match when there is no
close candidate. -/
theorem secondTry_eq (env : LensEnv) (f m : ℚ) (label : List Char) (names : List (List Char))
    (h : ∀ name ∈ names, ∃ d, lensDif env f m name = .ok d) :
    secondTry env f m label names
      = .ok (if (orList (closeCandidates env f m names)).length = 0 then
          (names.foldl (fun s name => guessUpdate s name (difOf env f m name))
            { deltaMin := 1000, bestMatch := label, candidates := [] }).bestMatch
        else orList (closeCandidates env f m names)) := by
  unfold secondTry
  rw [foldlM_guessStep env f m names _ h]
  have hc := foldl_guessUpdate_candidates env f m names
    { deltaMin := 1000, bestMatch := label, candidates := [] }
  simp only [bind, Except.bind]
  rw [hc]
  by_cases hz : (orList (closeCandidates env f m names)).length = 0
  · have hz2 : (List.foldl appendCandidate [] (closeCandidates env f m names)).length = 0 := hz
    rw [if_pos hz, if_pos hz2]
    rfl
  · have hz2 : ¬ (List.foldl appendCandidate [] (closeCandidates env f m names)).length = 0 := hz
    rw [if_neg hz, if_neg hz2]
    rfl

/-- When the first try does not return, `guess` is the outcome of the second
loop started with the label left in `bestMatch`. -/
theorem guess_second_try {T : Type} [DecidableEq T] (env : LensEnv)
    (idText : T → List Char) (choices : List (T × List Char)) (lensID : T) (f m : ℚ)
    (info : Option (ℚ × ℚ × ℚ × ℚ)) (label : List Char)
    (h2 : 2 ≤ (candidates choices lensID).length)
    (hfall : noExactReturn env (candidates choices lensID) info label) :
    guess env idText choices lensID f m info
      = secondTry env f m label (candidates choices lensID) := by
  rw [guess_many env idText choices lensID f m info h2]
  rcases hfall with ⟨hi, hl⟩ | ⟨li, hi, hno, hl⟩
  · subst hi hl
    rfl
  · subst hi
    have hnone : exactMatch env li (candidates choices lensID) = none := by
      rw [exactMatch_eq_find, List.find?_eq_none]
      intro x hx
      simpa using hno x hx
    simp only [hnone, hl]
    rfl

/-! ## The lens interpreter: doubles of the examples -/

/-- A natural number below `2 ^ 53` times a power of 2 is a double. -/
theorem isDouble_dyadic (n : Nat) (e : Int) (h : n < 2 ^ 53) :
    isDouble ((n : ℚ) * (2 : ℚ) ^ e) :=
  ⟨n, e, h, Or.inl rfl⟩

/-- A sum of doubles that is a double is exact. -/
theorem doubleAdd_exact (a b : ℚ) (h : isDouble (a + b)) : doubleAdd a b = a + b :=
  roundBinary64_self _ h

/-- The lens info of the example lenses. -/
theorem exampleDoubleTable_lookup :
    (exampleEnv exampleDoubleTable).extractLensInfo "24-70mm f/2.8".toList
      = some (24, 70, roundBinary64 (14 / 5), roundBinary64 (14 / 5)) ∧
    (exampleEnv exampleDoubleTable).extractLensInfo "70-200mm f/2.8".toList
      = some (70, 200, roundBinary64 (14 / 5), roundBinary64 (14 / 5)) ∧
    (exampleEnv exampleDoubleTable).extractLensInfo "50mm f/2.8-3.2".toList
      = some (50, 50, roundBinary64 (14 / 5), roundBinary64 (16 / 5)) ∧
    (exampleEnv exampleDoubleTable).extractLensInfo "50mm f/2.9-3.2".toList
      = some (50, 50, roundBinary64 (29 / 10), roundBinary64 (16 / 5)) ∧
    (exampleEnv exampleDoubleTable).extractLensInfo "50mm f/4".toList
      = some (50, 50, 4, 4) ∧
    (exampleEnv exampleDoubleTable).extractLensInfo "200-300mm f/4".toList
      = some (200, 300, 4, 4) ∧
    (exampleEnv exampleDoubleTable).extractLensInfo "3.9mm f/2.8".toList
      = some (roundBinary64 (39 / 10), roundBinary64 (39 / 10),
          roundBinary64 (14 / 5), roundBinary64 (14 / 5)) := by
  refine ⟨?_, ?_, ?_, ?_, ?_, ?_, ?_⟩ <;>
    simp [exampleEnv, exampleDoubleTable, List.lookup]

/-- Rounding, from the scaled number written as an integer plus a part of at
most one half. -/
theorem roundBinary64_eq (q : ℚ) (k : Int) (N : Nat) (d : ℚ)
    (hx : q * (2 : ℚ) ^ k = (N : ℚ) + d)
    (h1 : (2 : ℚ) ^ (52 : Int) ≤ (N : ℚ) + d) (h2 : (N : ℚ) + d < (2 : ℚ) ^ (53 : Int))
    (h3 : -(1 / 2) ≤ d) (h4 : d ≤ 1 / 2) (h5 : d = 1 / 2 ∨ d = -(1 / 2) → N % 2 = 0) :
    roundBinary64 q = (N : ℚ) * (2 : ℚ) ^ (-k) := by
  have e : q * (2 : ℚ) ^ k - (N : ℚ) = d := by rw [hx]; ring
  apply roundBinary64_nearest q k N (by rw [hx]; exact h1) (by rw [hx]; exact h2)
  · rw [e]
    exact abs_le.mpr ⟨h3, h4⟩
  · rw [e]
    intro h
    apply h5
    rcases abs_cases d with ⟨h6, -⟩ | ⟨h6, -⟩
    · left; rw [← h6]; exact h
    · right; rw [← h, h6, neg_neg]

/-- The literal `0.15` as a double. -/
theorem double_0_15_eq : double_0_15 = 5404319552844595 * (2 : ℚ) ^ (-55 : Int) := by
  have h := roundBinary64_eq (15 / 100) 55 5404319552844595 (1 / 5) (by norm_num) (by norm_num)
    (by norm_num) (by norm_num) (by norm_num) (by norm_num)
  unfold double_0_15
  rw [h]
  norm_num

/-- The decimal 4.15 as a double. -/
theorem double_4_15_eq :
    roundBinary64 (415 / 100) = 4672484613396890 * (2 : ℚ) ^ (-50 : Int) := by
  have h := roundBinary64_eq (415 / 100) 50 4672484613396890 (-(2 / 5)) (by norm_num)
    (by norm_num) (by norm_num) (by norm_num) (by norm_num) (by norm_num)
  rw [h]
  norm_num

/-- The decimal 3.9 as a double. -/
theorem double_3_9_eq :
    roundBinary64 (39 / 10) = 8782019273372467 * (2 : ℚ) ^ (-51 : Int) := by
  have h := roundBinary64_eq (39 / 10) 51 8782019273372467 (1 / 5) (by norm_num)
    (by norm_num) (by norm_num) (by norm_num) (by norm_num) (by norm_num)
  rw [h]
  norm_num

/-- The decimal 4.4 as a double. -/
theorem double_4_4_eq :
    roundBinary64 (44 / 10) = 4953959590107546 * (2 : ℚ) ^ (-50 : Int) := by
  have h := roundBinary64_eq (44 / 10) 50 4953959590107546 (-(2 / 5)) (by norm_num)
    (by norm_num) (by norm_num) (by norm_num) (by norm_num) (by norm_num)
  rw [h]
  norm_num

/-- In exact arithmetic 4.15 is above `4.0 + 0.15` and 4.4 above `3.9 + 0.5`,
the decimal numbers being the doubles of the literals. -/
theorem exact_sums_below :
    4 + double_0_15 < roundBinary64 (415 / 100) ∧
    roundBinary64 (39 / 10) + 1 / 2 < roundBinary64 (44 / 10) := by
  rw [double_0_15_eq, double_4_15_eq, double_3_9_eq, double_4_4_eq]
  constructor <;> norm_num

/-! ## The lens interpreter: resolution policy -/

/-- C13. When the lookup holds exactly one candidate for the lens id, `guess`
returns that candidate's name, whatever the focal length, the aperture and the
lens-info side data, absent or present. -/
theorem guess_single {T : Type} [DecidableEq T] (env : LensEnv) (idText : T → List Char)
    (choices : List (T × List Char)) (lensID : T) (name : List Char)
    (h : candidates choices lensID = [name]) (f m : ℚ) (info : Option (ℚ × ℚ × ℚ × ℚ)) :
    guess env idText choices lensID f m info = .ok name := by
  unfold guess
  rw [h]
  rfl

/-- C13, at the id 9 of the example lookup, which holds one lens. -/
theorem guess_single_witness :
    guess (exampleEnv exampleLensTable) (fun i : Int => (toString i).toList) exampleLenses 9
      300 (14 / 5) none = .ok "50mm f/1.8".toList ∧
    guess (exampleEnv exampleLensTable) (fun i : Int => (toString i).toList) exampleLenses 9
      10 0 (some (1, 2, 3, 4)) = .ok "50mm f/1.8".toList :=
  ⟨guess_single _ _ exampleLenses 9 _ (by decide) 300 (14 / 5) none,
   guess_single _ _ exampleLenses 9 _ (by decide) 10 0 (some (1, 2, 3, 4))⟩

/-- C14. With two or more candidates and lens-info side data present: when
`name` is the first candidate, in lookup order, whose values extracted by
`extractLensInfo` are exactly the four side-data values, `guess` returns `name`,
whatever the focal length and the aperture. -/
theorem guess_exact_match {T : Type} [DecidableEq T] (env : LensEnv)
    (idText : T → List Char) (choices : List (T × List Char)) (lensID : T)
    (li : ℚ × ℚ × ℚ × ℚ) (name : List Char)
    (h2 : 2 ≤ (candidates choices lensID).length)
    (hfirst : (candidates choices lensID).find?
      (fun x => decide (env.extractLensInfo x = some li)) = some name) (f m : ℚ) :
    guess env idText choices lensID f m (some li) = .ok name := by
  rw [guess_many env idText choices lensID f m (some li) h2]
  simp only [exactMatch_eq_find, hfirst]
  rfl

/-- C14, at the id 7 of the example lookup with the side data of the second
lens and a focal length of 300 mm, outside its range `[70, 200]`. -/
theorem guess_exact_match_witness :
    guess (exampleEnv exampleLensTable) (fun i : Int => (toString i).toList) exampleLenses 7
      300 (14 / 5) (some (70, 200, 14 / 5, 14 / 5)) = .ok "70-200mm f/2.8".toList :=
  guess_exact_match _ _ exampleLenses 7 (70, 200, 14 / 5, 14 / 5) _ (by decide)
    (by decide!) 300 (14 / 5)

/-! ## The lens interpreter: resolution policy in binary64 -/

/-- The candidates of id 7 and of the boundary ids, in lookup order. -/
theorem example_candidates :
    candidates exampleLenses 7 = ["24-70mm f/2.8".toList, "70-200mm f/2.8".toList] ∧
    candidates exampleLenses 3 = ["50mm f/2.8-3.2".toList, "50mm f/2.9-3.2".toList] ∧
    candidates boundaryLenses 4 = ["50mm f/4".toList, "200-300mm f/4".toList] ∧
    candidates boundaryLenses 5 = ["3.9mm f/2.8".toList, "200-300mm f/4".toList] :=
  ⟨by decide, by decide, by decide, by decide⟩

/-- A candidate whose focal range does not hold the focal length does not pass
the scoring filters. -/
theorem not_passes_of_focal (env : LensEnv) (f m : ℚ) (name : List Char)
    (f1 f2 a1 a2 : ℚ) (he : env.extractLensInfo name = some (f1, f2, a1, a2))
    (h : f < doubleSub f1 (1 / 2) ∨ f > doubleAdd f2 (1 / 2)) :
    ¬ passesFilters env f m name := by
  rintro ⟨g1, g2, b1, b2, hg, -, -, h3, h4, -⟩
  rw [he] at hg
  simp only [Option.some.injEq, Prod.mk.injEq] at hg
  obtain ⟨rfl, rfl, rfl, rfl⟩ := hg
  rcases h with h | h
  · exact absurd h3 (not_le.mpr h)
  · exact absurd h4 (not_le.mpr h)

/-- When no candidate passes the scoring filters, the second try returns the
label left in `bestMatch`. -/
theorem secondTry_none_pass (env : LensEnv) (f m : ℚ) (label : List Char)
    (names : List (List Char)) (hnone : ∀ name ∈ names, ¬ passesFilters env f m name) :
    secondTry env f m label names = .ok label := by
  have hdif : ∀ name ∈ names, lensDif env f m name = .ok none :=
    fun name hn => lensDif_skip env f m name (hnone name hn)
  have hd0 : ∀ name ∈ names, difOf env f m name = none :=
    fun name hn => difOf_of_ok env f m name none (hdif name hn)
  have hcl : closeCandidates env f m names = [] := by
    unfold closeCandidates
    rw [List.filter_eq_nil_iff]
    intro x hx
    rw [hd0 x hx]
    simp
  rw [secondTry_eq env f m label names (fun name hn => ⟨none, hdif name hn⟩), hcl,
    foldl_guessUpdate_none env f m names _ hd0]
  rfl

/-- C18. With two or more candidates of which none passes the scoring filters
(the sums and differences of the filters being those of doubles): without
side data `guess` returns exactly "Unknown"; with side data that no candidate
has exactly, it returns "Unknown (" + focal + " f/" + aperture + ")", where
focal is `int (minFocal)` followed by "mm" when both focal lengths are equal
and `int (minFocal)`, "-", `int (maxFocal)`, "mm" otherwise, and aperture is
the one-decimal rendering of the single aperture when both are equal and of
the two, joined by "-", otherwise. -/
theorem guess_unknown {T : Type} [DecidableEq T] (env : LensEnv)
    (idText : T → List Char) (choices : List (T × List Char)) (lensID : T) (f m : ℚ)
    (h2 : 2 ≤ (candidates choices lensID).length)
    (hnone : ∀ name ∈ candidates choices lensID, ¬ passesFilters env f m name) :
    guess env idText choices lensID f m none = .ok "Unknown".toList ∧
    ∀ (minFocal maxFocal a1 a2 : ℚ) (i0 i1 : Int),
      (∀ name ∈ candidates choices lensID,
        env.extractLensInfo name ≠ some (minFocal, maxFocal, a1, a2)) →
      doubleToInt minFocal = .ok i0 → doubleToInt maxFocal = .ok i1 →
      guess env idText choices lensID f m (some (minFocal, maxFocal, a1, a2))
        = .ok ("Unknown (".toList
            ++ (if minFocal = maxFocal then env.composeInt i0 ++ "mm".toList
                else env.composeInt i0 ++ "-".toList ++ env.composeInt i1 ++ "mm".toList)
            ++ " f/".toList
            ++ (if a1 = a2 then env.formatFixed1 a1
                else env.formatFixed1 a1 ++ "-".toList ++ env.formatFixed1 a2)
            ++ ")".toList) := by
  have hsecond : ∀ label, secondTry env f m label (candidates choices lensID) = .ok label :=
    fun label => secondTry_none_pass env f m label _ hnone
  constructor
  · rw [guess_second_try env idText choices lensID f m none "Unknown".toList h2
      (Or.inl ⟨rfl, rfl⟩), hsecond]
  · intro minFocal maxFocal a1 a2 i0 i1 hno h0 h1
    have hlabel : unknownLabel env (minFocal, maxFocal, a1, a2)
        = .ok ("Unknown (".toList
            ++ (if minFocal = maxFocal then env.composeInt i0 ++ "mm".toList
                else env.composeInt i0 ++ "-".toList ++ env.composeInt i1 ++ "mm".toList)
            ++ " f/".toList
            ++ (if a1 = a2 then env.formatFixed1 a1
                else env.formatFixed1 a1 ++ "-".toList ++ env.formatFixed1 a2)
            ++ ")".toList) := by
      unfold unknownLabel
      by_cases hf : minFocal = maxFocal
      · subst hf
        by_cases ha : a1 = a2 <;> simp [ha, h0, bind, Except.bind, pure, Except.pure]
      · by_cases ha : a1 = a2 <;> simp [hf, ha, h0, h1, bind, Except.bind, pure, Except.pure]
    rw [guess_second_try env idText choices lensID f m _ _ h2
      (Or.inr ⟨_, rfl, hno, hlabel⟩), hsecond]

/-- At 300 mm neither lens of id 7 passes the scoring filters. -/
theorem example_300_none_passes (m : ℚ) :
    ∀ name ∈ candidates exampleLenses 7,
      ¬ passesFilters (exampleEnv exampleDoubleTable) 300 m name := by
  intro name hn
  rw [example_candidates.1] at hn
  simp only [List.mem_cons, List.mem_singleton, List.not_mem_nil, or_false] at hn
  rcases hn with hn | hn
  · subst hn
    apply not_passes_of_focal _ _ _ _ 24 70 _ _ exampleDoubleTable_lookup.1
    right
    rw [doubleAdd_exact 70 (1 / 2) ⟨141, -1, by norm_num, Or.inl (by norm_num)⟩]
    norm_num
  · subst hn
    apply not_passes_of_focal _ _ _ _ 70 200 _ _ exampleDoubleTable_lookup.2.1
    right
    rw [doubleAdd_exact 200 (1 / 2) ⟨401, -1, by norm_num, Or.inl (by norm_num)⟩]
    norm_num

/-- No lens of id 7 has a minimal focal length of 10 mm. -/
theorem example_no_exact (v : ℚ × ℚ × ℚ) :
    ∀ name ∈ candidates exampleLenses 7,
      (exampleEnv exampleDoubleTable).extractLensInfo name ≠ some (10, v) := by
  intro name hn
  rw [example_candidates.1] at hn
  simp only [List.mem_cons, List.mem_singleton, List.not_mem_nil, or_false] at hn
  rcases hn with hn | hn
  · subst hn
    rw [exampleDoubleTable_lookup.1]
    intro h
    simp only [Option.some.injEq, Prod.mk.injEq] at h
    norm_num at h
  · subst hn
    rw [exampleDoubleTable_lookup.2.1]
    intro h
    simp only [Option.some.injEq, Prod.mk.injEq] at h
    norm_num at h

/-- C18, at the example: at 300 mm neither lens of id 7 passes; the result is
"Unknown" without side data, "Unknown (10-20mm f/4.0)" with the side data
`(10, 20, 4, 4)` and "Unknown (10mm f/4.0-5.6)" with `(10, 10, 4, 5.625)`. -/
theorem guess_unknown_witness :
    guess (exampleEnv exampleDoubleTable) (fun i : Int => (toString i).toList) exampleLenses 7
      300 (roundBinary64 (14 / 5)) none = .ok "Unknown".toList ∧
    guess (exampleEnv exampleDoubleTable) (fun i : Int => (toString i).toList) exampleLenses 7
      300 (roundBinary64 (14 / 5)) (some (10, 20, 4, 4))
      = .ok "Unknown (10-20mm f/4.0)".toList ∧
    guess (exampleEnv exampleDoubleTable) (fun i : Int => (toString i).toList) exampleLenses 7
      300 (roundBinary64 (14 / 5)) (some (10, 10, 4, 45 / 8))
      = .ok "Unknown (10mm f/4.0-5.6)".toList := by
  have key := guess_unknown (exampleEnv exampleDoubleTable)
    (fun i : Int => (toString i).toList) exampleLenses 7 300 (roundBinary64 (14 / 5))
    (by decide) (example_300_none_passes _)
  refine ⟨key.1, ?_, ?_⟩
  · exact (key.2 10 20 4 4 10 20 (example_no_exact _) (by decide!) (by decide!)).trans
      (by decide!)
  · exact (key.2 10 10 4 (45 / 8) 10 10 (example_no_exact _) (by decide!) (by decide!)).trans
      (by decide!)

/-! ## The lens interpreter: the aperture delta -/

/-- C29. For a tag of effective type `INVALID`, `DOUBLE`, `OLYUNDEF`, `AUTO` or
`SUBDIR`, at every offset and for every content `v` of the value buffer,
`Interpreter::toDouble` returns 0.0 and `Interpreter::toInt` without a type
override returns 0: the bytes of a `DOUBLE` tag are never decoded. -/
theorem toDouble_toInt_not_decoded (t : Tag) (ofs : Int) (v : List (Fin 256))
    (hty : t.getType = TagType.INVALID ∨ t.getType = TagType.DOUBLE ∨
      t.getType = TagType.OLYUNDEF ∨ t.getType = TagType.AUTO ∨
      t.getType = TagType.SUBDIR) :
    Interpreter.toDouble { t with value := v } ofs = .ok 0 ∧
    Interpreter.toInt { t with value := v } ofs .INVALID = .ok 0 ∧
    Interpreter.toInt { t with value := v } ofs .AUTO = .ok 0 := by
  have hg : ({ t with value := v } : Tag).getType = t.getType := rfl
  rcases hty with h | h | h | h | h <;>
    simp [Interpreter.toDouble, Interpreter.toInt, hg, h, pure, Except.pure]

/-- C29, at a `DOUBLE` tag holding the IEEE-754 double 1.0 (little-endian bytes
`00 00 00 00 00 00 F0 3F`) and at a `SUBDIR` tag. -/
theorem toDouble_toInt_not_decoded_witness :
    (Interpreter.toDouble (exampleTag .DOUBLE [0, 0, 0, 0, 0, 0, 240, 63] none .INTEL) 0
        = .ok 0 ∧
      Interpreter.toInt (exampleTag .DOUBLE [0, 0, 0, 0, 0, 0, 240, 63] none .INTEL) 0 .INVALID
        = .ok 0 ∧
      Interpreter.toInt (exampleTag .DOUBLE [0, 0, 0, 0, 0, 0, 240, 63] none .INTEL) 0 .AUTO
        = .ok 0) ∧
    (Interpreter.toDouble (exampleTag .SUBDIR [8, 0, 0, 0] none .INTEL) 2 = .ok 0 ∧
      Interpreter.toInt (exampleTag .SUBDIR [8, 0, 0, 0] none .INTEL) 2 .INVALID = .ok 0 ∧
      Interpreter.toInt (exampleTag .SUBDIR [8, 0, 0, 0] none .INTEL) 2 .AUTO = .ok 0) :=
  ⟨toDouble_toInt_not_decoded (exampleTag .DOUBLE [] none .INTEL) 0
      [0, 0, 0, 0, 0, 0, 240, 63] (Or.inr (Or.inl rfl)),
   toDouble_toInt_not_decoded (exampleTag .SUBDIR [] none .INTEL) 2 [8, 0, 0, 0]
      (Or.inr (Or.inr (Or.inr (Or.inr rfl))))⟩

/-! ## The lens interpreter: unknown ids -/

/-- Every digit below ten is rendered by a decimal digit character. -/
theorem digitChar_isDigit (n : Nat) (h : n < 10) : (Nat.digitChar n).isDigit = true := by
  interval_cases n <;> decide

/-- The decimal digits of a natural number are digit characters. -/
theorem toDigitsCore_isDigit (fuel n : Nat) (ds : List Char)
    (hds : ∀ c ∈ ds, c.isDigit = true) :
    ∀ c ∈ Nat.toDigitsCore 10 fuel n ds, c.isDigit = true := by
  induction fuel generalizing n ds with
  | zero => simpa [Nat.toDigitsCore] using hds
  | succ fuel ih =>
    have hd : (Nat.digitChar (n % 10)).isDigit = true :=
      digitChar_isDigit _ (Nat.mod_lt _ (by decide))
    have hcons : ∀ c ∈ Nat.digitChar (n % 10) :: ds, c.isDigit = true := by
      intro c hc
      rcases List.mem_cons.mp hc with h | h
      · rw [h]; exact hd
      · exact hds c h
    simp only [Nat.toDigitsCore]
    split
    · exact hcons
    · exact ih _ _ hcons

/-- The decimal text of an `int` consists of digits and possibly a minus sign. -/
theorem int_decimal_chars (i : Int) :
    ∀ c ∈ (toString i).toList, c.isDigit = true ∨ c = '-' := by
  have hnat : ∀ n : Nat, ∀ c ∈ (toString n).toList, c.isDigit = true := by
    intro n c hc
    exact toDigitsCore_isDigit (n + 1) n [] (by simp) c (by simpa [toString, Nat.repr, Nat.toDigits] using hc)
  intro c hc
  cases i with
  | ofNat n => exact Or.inl (hnat n c hc)
  | negSucc n =>
    have : (toString (Int.negSucc n)).toList = '-' :: (toString (n + 1)).toList := by
      show ("-" ++ toString (n + 1)).toList = _
      simp
    rw [this] at hc
    rcases List.mem_cons.mp hc with h | h
    · exact Or.inr h
    · exact Or.inl (hnat _ c h)

/-- C30. When the lookup holds no candidate for the lens id, `guess` returns
the text rendering `s << lensID` of the id, whatever the focal length, the
aperture and the lens-info side data; it returns a string, and for an id
rendered in decimal (digits and possibly a minus sign) that string is not
"Unknown". -/
theorem guess_no_candidate {T : Type} [DecidableEq T] (env : LensEnv)
    (idText : T → List Char) (choices : List (T × List Char)) (lensID : T)
    (h : candidates choices lensID = []) (f m : ℚ) (info : Option (ℚ × ℚ × ℚ × ℚ)) :
    guess env idText choices lensID f m info = .ok (idText lensID) ∧
    ((∀ c ∈ idText lensID, c.isDigit = true ∨ c = '-') →
      guess env idText choices lensID f m info ≠ .ok "Unknown".toList) := by
  have hg : guess env idText choices lensID f m info = .ok (idText lensID) := by
    unfold guess
    rw [h]
    rfl
  refine ⟨hg, ?_⟩
  intro hdec hu
  rw [hg] at hu
  have hU : 'U' ∈ idText lensID := by
    rw [Except.ok.inj hu]
    decide
  rcases hdec 'U' hU with h1 | h1
  · exact absurd h1 (by decide)
  · exact absurd h1 (by decide)

/-- C30, at the id 8 of the example lookup, which holds no lens: the result is
"8", with and without side data, and is not "Unknown". -/
theorem guess_no_candidate_witness :
    guess (exampleEnv exampleLensTable) (fun i : Int => (toString i).toList) exampleLenses 8
      50 (14 / 5) none = .ok "8".toList ∧
    guess (exampleEnv exampleLensTable) (fun i : Int => (toString i).toList) exampleLenses 8
      50 (14 / 5) (some (24, 70, 14 / 5, 14 / 5)) = .ok "8".toList ∧
    guess (exampleEnv exampleLensTable) (fun i : Int => (toString i).toList) exampleLenses 8
      50 (14 / 5) none ≠ .ok "Unknown".toList :=
  ⟨(guess_no_candidate (exampleEnv exampleLensTable) (fun i : Int => (toString i).toList)
      exampleLenses 8 (by decide) 50 (14 / 5) none).1,
   (guess_no_candidate (exampleEnv exampleLensTable) (fun i : Int => (toString i).toList)
      exampleLenses 8 (by decide) 50 (14 / 5) (some (24, 70, 14 / 5, 14 / 5))).1,
   (guess_no_candidate (exampleEnv exampleLensTable) (fun i : Int => (toString i).toList)
      exampleLenses 8 (by decide) 50 (14 / 5) none).2 (int_decimal_chars 8)⟩

/-! ## Trimming: the substring and idempotence -/

/-- Trimming a string that neither begins nor ends with `c` changes nothing. -/
theorem trim_fixed (r : List Char) (c : Char) (h1 : r.head? ≠ some c)
    (h2 : r.getLast? ≠ some c) :
    (r.rdropWhile (fun x => x == c)).dropWhile (fun x => x == c) = r := by
  have hr : r.rdropWhile (fun x => x == c) = r := by
    rw [List.rdropWhile_eq_self_iff]
    intro hl hp
    apply h2
    rw [List.getLast?_eq_getLast _ hl]
    simpa using hp
  rw [hr, List.dropWhile_eq_self_iff]
  intro hl hp
  apply h1
  cases r with
  | nil => simp at hl
  | cons a r => simpa using hp

/-- Positions in a string cut as a run of `c`, a middle part and a run of `c`. -/
theorem between_runs (s r : List Char) (c : Char) (i j : Nat) (hne : r ≠ [])
    (hs : s = List.replicate i c ++ r ++ List.replicate j c) :
    i + r.length - 1 < s.length ∧
    (∀ k, k < i → s[k]? = some c) ∧
    s[i]? = r.head? ∧
    s[i + r.length - 1]? = r.getLast? ∧
    (∀ k, i + r.length - 1 < k → k < s.length → s[k]? = some c) ∧
    r = (s.drop i).take (i + r.length - 1 - i + 1) := by
  have hpos : 0 < r.length := List.length_pos.mpr hne
  subst hs
  refine ⟨?_, ?_, ?_, ?_, ?_, ?_⟩
  · simp; omega
  · intro k hk
    rw [List.append_assoc, List.getElem?_append_left (by simpa using hk)]
    simp [List.getElem?_replicate, hk]
  · rw [List.append_assoc, List.getElem?_append_right (by simp)]
    simp only [List.length_replicate, Nat.sub_self]
    rw [List.getElem?_append_left hpos]
    cases r with
    | nil => exact absurd rfl hne
    | cons a r => simp
  · rw [List.append_assoc, List.getElem?_append_right (by simp; omega)]
    simp only [List.length_replicate]
    rw [List.getElem?_append_left (by omega), List.getLast?_eq_getElem?]
    congr 1
    omega
  · intro k hk hlen
    simp only [List.length_append, List.length_replicate] at hlen
    rw [List.getElem?_append_right (by simp; omega)]
    simp only [List.length_append, List.length_replicate]
    rw [List.getElem?_replicate, if_pos (by omega)]
  · rw [List.append_assoc, List.drop_left' (by simp)]
    have : i + r.length - 1 - i + 1 = r.length := by omega
    rw [this, List.take_left' rfl]

/-- The default `toString` on a rendering holding a character other than the
space removes the spaces at both ends. -/
theorem toString_eq_trim (f : Tag → List Char) (t : Tag) (hn : (f t).length < npos)
    (h : ∃ x ∈ f t, x ≠ ' ') :
    Interpreter.toString f t
      = ((f t).rdropWhile (fun x => x == ' ')).dropWhile (fun x => x == ' ') := by
  obtain ⟨h1, h2⟩ := substr_between_not_of (f t) ' ' hn h
  simp only [Interpreter.toString]
  rw [if_neg h1, h2]

/-- C27. For a raw rendering that fits the 1024-byte buffer: when it holds a
character other than the space, the default `Interpreter::toString` returns the
substring from index `i` to index `j` inclusive, where `i` is the position of
its first and `j` of its last character other than the space (every character
before `i` and after `j` is a space), so interior spaces are kept; trimming the
result again returns it unchanged; a rendering of only spaces is returned
unchanged. -/
theorem toString_substring_idempotent (Tag_toString : Tag → List Char) (t : Tag)
    (hlen : (Tag_toString t).length < 1024) :
    ((∃ x ∈ Tag_toString t, x ≠ ' ') →
      ∃ i j, i ≤ j ∧ j < (Tag_toString t).length ∧
        (∀ k, k < i → (Tag_toString t)[k]? = some ' ') ∧
        (∃ a, (Tag_toString t)[i]? = some a ∧ a ≠ ' ') ∧
        (∃ b, (Tag_toString t)[j]? = some b ∧ b ≠ ' ') ∧
        (∀ k, j < k → k < (Tag_toString t).length → (Tag_toString t)[k]? = some ' ') ∧
        Interpreter.toString Tag_toString t
          = ((Tag_toString t).drop i).take (j - i + 1)) ∧
    Interpreter.toString (fun _ => Interpreter.toString Tag_toString t) t
      = Interpreter.toString Tag_toString t ∧
    ((∀ x ∈ Tag_toString t, x = ' ') →
      Interpreter.toString Tag_toString t = Tag_toString t) := by
  have hn : (Tag_toString t).length < npos :=
    Nat.lt_trans hlen (by unfold npos; omega)
  have hall : (∀ x ∈ Tag_toString t, x = ' ') →
      Interpreter.toString Tag_toString t = Tag_toString t := by
    intro h
    simp only [Interpreter.toString]
    rw [if_pos (find_not_of_all (Tag_toString t) ' ' h).1]
  have hsome : (∃ x ∈ Tag_toString t, x ≠ ' ') →
      Interpreter.toString Tag_toString t
        = ((Tag_toString t).rdropWhile (fun x => x == ' ')).dropWhile (fun x => x == ' ') := by
    exact toString_eq_trim Tag_toString t hn
  refine ⟨?_, ?_, hall⟩
  · intro h
    obtain ⟨hne, hhead, hlast, i, j, hs⟩ := trimmed_spec (Tag_toString t) ' ' h
    rw [← hsome h] at hne hhead hlast hs
    obtain ⟨b1, b2, b3, b4, b5, b6⟩ :=
      between_runs (Tag_toString t) (Interpreter.toString Tag_toString t) ' ' i j hne hs
    have hpos : 0 < (Interpreter.toString Tag_toString t).length := List.length_pos.mpr hne
    refine ⟨i, i + (Interpreter.toString Tag_toString t).length - 1, by omega, b1, b2,
      ?_, ?_, b5, b6⟩
    · rw [b3]
      cases hr : Interpreter.toString Tag_toString t with
      | nil => exact absurd hr hne
      | cons a r =>
        rw [hr] at hhead
        exact ⟨a, rfl, fun ha => hhead (by rw [← ha]; rfl)⟩
    · rw [b4, List.getLast?_eq_getLast _ hne]
      refine ⟨_, rfl, fun hb => hlast ?_⟩
      rw [List.getLast?_eq_getLast _ hne, hb]
  · by_cases h : ∃ x ∈ Tag_toString t, x ≠ ' '
    · obtain ⟨hne, hhead, hlast, i, j, hs⟩ := trimmed_spec (Tag_toString t) ' ' h
      rw [← hsome h] at hne hhead hlast hs
      have hx : ∃ x ∈ Interpreter.toString Tag_toString t, x ≠ ' ' := by
        cases hr : Interpreter.toString Tag_toString t with
        | nil => exact absurd hr hne
        | cons a r =>
          rw [hr] at hhead
          exact ⟨a, List.mem_cons_self _ _, fun ha => hhead (by rw [← ha]; rfl)⟩
      have hlen2 : (Interpreter.toString Tag_toString t).length < npos := by
        have : (Interpreter.toString Tag_toString t).length ≤ (Tag_toString t).length := by
          conv_rhs => rw [hs]
          simp
          omega
        omega
      rw [toString_eq_trim (fun _ => Interpreter.toString Tag_toString t) t hlen2 hx]
      exact trim_fixed _ ' ' hhead hlast
    · have ha : ∀ x ∈ Tag_toString t, x = ' ' := by
        intro x hx
        by_contra hc
        exact h ⟨x, hx, hc⟩
      rw [hall ha]
      simp only [Interpreter.toString]
      rw [if_pos (find_not_of_all (Tag_toString t) ' ' ha).1]

/-- C27, at the rendering "  a b  ": the result is "a b", the characters 2 to 4
of the rendering, and trimming "a b" again returns "a b". -/
theorem toString_substring_idempotent_witness :
    Interpreter.toString (fun _ => "  a b  ".toList) (exampleTag .ASCII [] none .INTEL)
      = ("  a b  ".toList.drop 2).take 3 ∧
    Interpreter.toString (fun _ => Interpreter.toString (fun _ => "  a b  ".toList)
        (exampleTag .ASCII [] none .INTEL)) (exampleTag .ASCII [] none .INTEL)
      = Interpreter.toString (fun _ => "  a b  ".toList) (exampleTag .ASCII [] none .INTEL) ∧
    Interpreter.toString (fun _ => "   ".toList) (exampleTag .ASCII [] none .INTEL)
      = "   ".toList :=
  ⟨by decide,
   (toString_substring_idempotent (fun _ => "  a b  ".toList)
      (exampleTag .ASCII [] none .INTEL) (by decide)).2.1,
   (toString_substring_idempotent (fun _ => "   ".toList)
      (exampleTag .ASCII [] none .INTEL) (by decide)).2.2 (by decide)⟩

/-! ## Encoding then decoding -/

/-- A write inside the buffer stores the low eight bits at that index. -/
theorem writeByte_natCast (s : List (Fin 256)) (n : Nat) (b : Int) (h : n < s.length) :
    writeByte s (n : Int) b = .ok (s.set n (Fin.ofNat (b % 256).toNat)) := by
  unfold writeByte
  rw [if_pos ⟨Int.natCast_nonneg n, by simpa using h⟩, Int.toNat_natCast]

/-- A read after a write returns the written byte at the written index and the
old byte elsewhere. -/
theorem readByte_set (s : List (Fin 256)) (n m : Nat) (b : Int) (hm : m < s.length) :
    readByte (s.set n (Fin.ofNat (b % 256).toNat)) (m : Int)
      = if n = m then .ok (b % 256) else readByte s (m : Int) := by
  rw [readByte_natCast _ m (by simpa using hm), readByte_natCast s m hm]
  by_cases h : n = m
  · subst h
    rw [if_pos rfl]
    have hb : (b % 256).toNat < 256 := by omega
    have : (Fin.ofNat (b % 256).toNat : Fin 256).val = (b % 256).toNat := by
      simp [Fin.ofNat, Nat.mod_eq_of_lt hb]
    simp [List.getD_eq_getElem?_getD, List.getElem?_set_self, hm, this]
    omega
  · rw [if_neg h]
    simp [List.getD_eq_getElem?_getD, List.getElem?_set_ne h]

/-- Inside the buffer `sset2` overwrites the two bytes at `p`. -/
theorem sset2_in (v : Int) (s : List (Fin 256)) (p : Nat) (o : ByteOrder)
    (h : p + 2 ≤ s.length) :
    sset2 v s p o = .ok (match o with
      | .INTEL => (s.set p (Fin.ofNat (v % 256).toNat)).set (p + 1)
          (Fin.ofNat (v / 256 % 256).toNat)
      | .MOTOROLA => (s.set p (Fin.ofNat (v / 256 % 256).toNat)).set (p + 1)
          (Fin.ofNat (v % 256).toNat)) := by
  have c1 : ((p : Int) + 1) = ((p + 1 : Nat) : Int) := by push_cast; rfl
  cases o <;>
  · simp only [sset2, bind, Except.bind]
    rw [writeByte_natCast s p _ (by omega)]
    simp only []
    rw [c1, writeByte_natCast _ (p + 1) _ (by simp; omega)]

/-- Inside the buffer `sset4` overwrites the four bytes at `p`. -/
theorem sset4_in (v : Int) (s : List (Fin 256)) (p : Nat) (o : ByteOrder)
    (h : p + 4 ≤ s.length) :
    sset4 v s p o = .ok (match o with
      | .INTEL => (((s.set p (Fin.ofNat (v % 256).toNat)).set (p + 1)
          (Fin.ofNat (v / 256 % 256).toNat)).set (p + 2)
          (Fin.ofNat (v / 65536 % 256).toNat)).set (p + 3)
          (Fin.ofNat (v / 16777216 % 256).toNat)
      | .MOTOROLA => (((s.set p (Fin.ofNat (v / 16777216 % 256).toNat)).set (p + 1)
          (Fin.ofNat (v / 65536 % 256).toNat)).set (p + 2)
          (Fin.ofNat (v / 256 % 256).toNat)).set (p + 3)
          (Fin.ofNat (v % 256).toNat)) := by
  have c1 : ((p : Int) + 1) = ((p + 1 : Nat) : Int) := by push_cast; rfl
  have c2 : ((p : Int) + 2) = ((p + 2 : Nat) : Int) := by push_cast; rfl
  have c3 : ((p : Int) + 3) = ((p + 3 : Nat) : Int) := by push_cast; rfl
  cases o <;>
  · simp only [sset4, bind, Except.bind]
    rw [writeByte_natCast s p _ (by omega)]
    simp only []
    rw [c1, writeByte_natCast _ (p + 1) _ (by simp; omega)]
    simp only []
    rw [c2, writeByte_natCast _ (p + 2) _ (by simp; omega)]
    simp only []
    rw [c3, writeByte_natCast _ (p + 3) _ (by simp; omega)]

/-- C23. Modelled from the spec, for both byte orders and every offset `p` with
the bytes inside the buffer: `sset2` of a 16-bit value `v` succeeds, keeps the
buffer length, and `sget2` at the same place then returns `v`; `sset4` of a
32-bit `int` value `w` succeeds, keeps the buffer length, and `sget4` at the
same place then returns `w`. -/
theorem sget_sset_identity (order : ByteOrder) (s : List (Fin 256)) (p : Nat) :
    (∀ v : Int, 0 ≤ v → v < 65536 → p + 2 ≤ s.length →
      ∃ s2, sset2 v s p order = .ok s2 ∧ s2.length = s.length ∧
        sget2 s2 p order = .ok v) ∧
    (∀ w : Int, -2147483648 ≤ w → w < 2147483648 → p + 4 ≤ s.length →
      ∃ s4, sset4 w s p order = .ok s4 ∧ s4.length = s.length ∧
        sget4 s4 p order = .ok w) := by
  have c1 : ((p : Int) + 1) = ((p + 1 : Nat) : Int) := by push_cast; rfl
  have c2 : ((p : Int) + 2) = ((p + 2 : Nat) : Int) := by push_cast; rfl
  have c3 : ((p : Int) + 3) = ((p + 3 : Nat) : Int) := by push_cast; rfl
  constructor
  · intro v h0 h1 hp
    refine ⟨_, sset2_in v s p order hp, ?_, ?_⟩
    · cases order <;> simp
    · cases order <;>
      · simp only [sget2, bind, Except.bind, c1]
        rw [readByte_set _ _ _ _ (by simp; omega), if_neg (by omega),
          readByte_set _ _ _ _ (by omega), if_pos rfl]
        simp only []
        rw [readByte_set _ _ _ _ (by simp; omega), if_pos rfl]
        simp only [pure, Except.pure]
        congr 1
        omega
  · intro w h0 h1 hp
    refine ⟨_, sset4_in w s p order hp, ?_, ?_⟩
    · cases order <;> simp
    · cases order <;>
      · simp only [sget4, bind, Except.bind, c1, c2, c3]
        rw [readByte_set _ _ _ _ (by simp; omega), if_neg (by omega),
          readByte_set _ _ _ _ (by simp; omega), if_neg (by omega),
          readByte_set _ _ _ _ (by simp; omega), if_neg (by omega),
          readByte_set _ _ _ _ (by omega), if_pos rfl]
        simp only []
        rw [readByte_set _ _ _ _ (by simp; omega), if_neg (by omega),
          readByte_set _ _ _ _ (by simp; omega), if_neg (by omega),
          readByte_set _ _ _ _ (by simp; omega), if_pos rfl]
        simp only []
        rw [readByte_set _ _ _ _ (by simp; omega), if_neg (by omega),
          readByte_set _ _ _ _ (by simp; omega), if_pos rfl]
        simp only []
        rw [readByte_set _ _ _ _ (by simp; omega), if_pos rfl]
        simp only [pure, Except.pure, wrap32]
        congr 1
        omega

/-- C23, at the value 0x1234 written big-endian and the value -2 written
little-endian at offset 1 of a six-byte buffer. -/
theorem sget_sset_identity_witness :
    sset2 4660 [9, 9, 9, 9, 9, 9] 1 .MOTOROLA = .ok [9, 18, 52, 9, 9, 9] ∧
    sset4 (-2) [9, 9, 9, 9, 9, 9] 1 .INTEL = .ok [9, 254, 255, 255, 255, 9] ∧
    (∃ s2, sset2 4660 [9, 9, 9, 9, 9, 9] ((1 : Nat) : Int) .MOTOROLA = .ok s2 ∧
      s2.length = [9, 9, 9, 9, 9, (9 : Fin 256)].length ∧
      sget2 s2 ((1 : Nat) : Int) .MOTOROLA = .ok 4660) ∧
    (∃ s4, sset4 (-2) [9, 9, 9, 9, 9, 9] ((1 : Nat) : Int) .INTEL = .ok s4 ∧
      s4.length = [9, 9, 9, 9, 9, (9 : Fin 256)].length ∧
      sget4 s4 ((1 : Nat) : Int) .INTEL = .ok (-2)) :=
  ⟨by decide, by decide,
   (sget_sset_identity .MOTOROLA [9, 9, 9, 9, 9, 9] 1).1 4660 (by decide) (by decide)
     (by decide),
   (sget_sset_identity .INTEL [9, 9, 9, 9, 9, 9] 1).2 (-2) (by decide) (by decide)
     (by decide)⟩

/-! ## Element sizes and the value slot -/

/-- C24. Modelled from the spec: `getTypeSize` returns 1 for `BYTE`, `ASCII` and
`UNDEFINED`, 2 for `SHORT` and `SSHORT`, 4 for `LONG`, `SLONG` and `FLOAT`, 8
for `RATIONAL`, `SRATIONAL` and `DOUBLE`; a value is inline in the 4-byte slot
iff `count * getTypeSize (type) <= 4`, which for a count that is not negative
means at most 4 elements of size 1, 2 of size 2, 1 of size 4 and none of
size 8. -/
theorem getTypeSize_inline (other : TagType → Int) :
    (getTypeSize other .BYTE = 1 ∧ getTypeSize other .ASCII = 1 ∧
      getTypeSize other .UNDEFINED = 1) ∧
    (getTypeSize other .SHORT = 2 ∧ getTypeSize other .SSHORT = 2) ∧
    (getTypeSize other .LONG = 4 ∧ getTypeSize other .SLONG = 4 ∧
      getTypeSize other .FLOAT = 4) ∧
    (getTypeSize other .RATIONAL = 8 ∧ getTypeSize other .SRATIONAL = 8 ∧
      getTypeSize other .DOUBLE = 8) ∧
    (∀ type count, fitsInline other type count = true ↔
      count * getTypeSize other type ≤ 4) ∧
    (∀ type count, 0 ≤ count →
      (getTypeSize other type = 1 → (fitsInline other type count = true ↔ count ≤ 4)) ∧
      (getTypeSize other type = 2 → (fitsInline other type count = true ↔ count ≤ 2)) ∧
      (getTypeSize other type = 4 → (fitsInline other type count = true ↔ count ≤ 1)) ∧
      (getTypeSize other type = 8 → (fitsInline other type count = true ↔ count = 0))) := by
  refine ⟨⟨rfl, rfl, rfl⟩, ⟨rfl, rfl⟩, ⟨rfl, rfl, rfl⟩, ⟨rfl, rfl, rfl⟩, ?_, ?_⟩
  · intro type count
    simp [fitsInline]
  · intro type count hc
    refine ⟨?_, ?_, ?_, ?_⟩ <;>
    · intro hs
      simp only [fitsInline, hs, decide_eq_true_eq]
      omega

/-- C24, at four `BYTE`s and two `SHORT`s (inline), three `SHORT`s, two `LONG`s
and one `RATIONAL` (not inline). -/
theorem getTypeSize_inline_witness :
    fitsInline (fun _ => 1) .BYTE 4 = true ∧ fitsInline (fun _ => 1) .SHORT 2 = true ∧
    fitsInline (fun _ => 1) .SHORT 3 = false ∧ fitsInline (fun _ => 1) .LONG 2 = false ∧
    fitsInline (fun _ => 1) .RATIONAL 1 = false ∧
    (fitsInline (fun _ => 1) .LONG 1 = true ↔ (1 : Int) ≤ 1) :=
  ⟨by decide, by decide, by decide, by decide, by decide,
   (((getTypeSize_inline (fun _ => 1)).2.2.2.2.2 .LONG 1 (by decide)).2.2.1 rfl)⟩

/-! ## Table-addressed directories -/

/-- C26. Modelled from the spec: in a `TagDirectoryTable` a stored offset `o`
at or after `zeroOffset` resolves to the blob-local index `o - zeroOffset`,
which is not negative, is 0 exactly at `o = zeroOffset`, and addresses a byte
of the value blob when `o` lies less than the blob length after
`zeroOffset`. -/
theorem blobIndex_normalization (d : TagDirectoryTable) (o : Int)
    (h : d.zeroOffset ≤ o) :
    d.blobIndex o = o - d.zeroOffset ∧ 0 ≤ d.blobIndex o ∧
    d.zeroOffset + d.blobIndex o = o ∧
    (d.blobIndex o = 0 ↔ o = d.zeroOffset) ∧
    (o < d.zeroOffset + d.values.length →
      ∃ b, readByte d.values (d.blobIndex o) = .ok b) := by
  refine ⟨rfl, ?_, ?_, ?_, ?_⟩
  · unfold TagDirectoryTable.blobIndex; omega
  · unfold TagDirectoryTable.blobIndex; omega
  · unfold TagDirectoryTable.blobIndex; omega
  · intro hlt
    rcases readByte_cases d.values (d.blobIndex o) with he | hb
    · exfalso
      have hi : 0 ≤ d.blobIndex o := by unfold TagDirectoryTable.blobIndex; omega
      have hn : (d.blobIndex o).toNat < d.values.length := by
        unfold TagDirectoryTable.blobIndex; omega
      unfold readByte at he
      rw [if_pos hi, List.get?_eq_get hn] at he
      cases he
    · exact hb

/-- C26, at `zeroOffset = 16` and the stored offset 20, which resolve to the
blob-local index 4. -/
theorem blobIndex_normalization_witness :
    TagDirectoryTable.blobIndex
      { order := .INTEL, values := [1, 2, 3, 4, 5, 6], zeroOffset := 16, valuesSize := 6,
        defaultType := .BYTE } 20 = 4 ∧
    readByte [1, 2, 3, 4, 5, 6] 4 = .ok 5 ∧
    (0 : Int) ≤ TagDirectoryTable.blobIndex
      { order := .INTEL, values := [1, 2, 3, 4, 5, 6], zeroOffset := 16, valuesSize := 6,
        defaultType := .BYTE } 20 :=
  ⟨by decide, by decide,
   (blobIndex_normalization
      { order := .INTEL, values := [1, 2, 3, 4, 5, 6], zeroOffset := 16, valuesSize := 6,
        defaultType := .BYTE } 20 (by decide)).2.1⟩

/-! ## The two numeric decoders -/

/-- The rounded quotient of `n` by `d` is the floor of the quotient or the next
integer. -/
theorem roundTiesEven_bounds (n d : Nat) :
    n / d ≤ roundTiesEven n d ∧ roundTiesEven n d ≤ n / d + 1 := by
  unfold roundTiesEven
  dsimp only
  split_ifs <;> omega

/-- Truncation of a non-negative number between two consecutive integers, and
of its opposite. -/
theorem truncate_of_bounds (x : ℚ) (m : Nat) (h1 : (m : ℚ) ≤ x) (h2 : x < (m : ℚ) + 1) :
    truncate x = (m : Int) ∧ truncate (-x) = -(m : Int) := by
  have hx : 0 ≤ x := le_trans (Nat.cast_nonneg m) h1
  have hfl : ⌊x⌋ = (m : Int) := by
    rw [Int.floor_eq_iff]
    exact ⟨by exact_mod_cast h1, by exact_mod_cast h2⟩
  have hdef : ⌊x⌋ = x.num / (x.den : Int) := Rat.floor_def' x
  have ht : truncate x = (m : Int) := by
    unfold truncate
    rw [Int.tdiv_eq_ediv (Rat.num_nonneg.mpr hx) (Int.natCast_nonneg _), ← hdef, hfl]
  refine ⟨ht, ?_⟩
  unfold truncate at ht ⊢
  rw [Rat.neg_num, Rat.neg_den, Int.neg_tdiv, ht]

/-- The quotient of two positive integers, the numerator below `2 ^ 32`,
rounded to a 53-bit significand has the integer part of the exact quotient. -/
theorem roundPos53_bounds (a b : Nat) (ha : 0 < a) (ha32 : a < 4294967296) (hb : 0 < b) :
    ((a / b : Nat) : ℚ) ≤ roundPos53 a b ∧ roundPos53 a b < ((a / b : Nat) : ℚ) + 1 := by
  have hla : Nat.log2 a ≤ 31 := by
    have := (Nat.log2_lt (Nat.pos_iff_ne_zero.mp ha)).mpr (show a < 2 ^ 32 by norm_num; exact ha32)
    omega
  have hlb : b < 2 ^ (Nat.log2 b + 1) := Nat.lt_log2_self
  -- the exponent of the scaling is at least `log2 b + 21`
  obtain ⟨K, hK, hval⟩ : ∃ K : Nat, Nat.log2 b + 21 ≤ K ∧
      roundPos53 a b = (roundTiesEven (a * 2 ^ K) b : ℚ) / (2 : ℚ) ^ K := by
    unfold roundPos53
    dsimp only
    split_ifs with hc
    · refine ⟨(52 - ((Nat.log2 a : Int) - (Nat.log2 b : Int)) + 1).toNat, by omega, ?_⟩
      have e1 : (-(52 - ((Nat.log2 a : Int) - (Nat.log2 b : Int)) + 1)).toNat = 0 := by omega
      have e2 : (52 - ((Nat.log2 a : Int) - (Nat.log2 b : Int)) + 1)
          = (((52 - ((Nat.log2 a : Int) - (Nat.log2 b : Int)) + 1).toNat : Nat) : Int) := by
        omega
      rw [e1, pow_zero, mul_one]
      conv_lhs => rw [e2, zpow_neg, zpow_natCast]
      rw [Int.toNat_natCast, div_eq_mul_inv]
    · refine ⟨(52 - ((Nat.log2 a : Int) - (Nat.log2 b : Int))).toNat, by omega, ?_⟩
      have e1 : (-(52 - ((Nat.log2 a : Int) - (Nat.log2 b : Int)))).toNat = 0 := by omega
      have e2 : (52 - ((Nat.log2 a : Int) - (Nat.log2 b : Int)))
          = (((52 - ((Nat.log2 a : Int) - (Nat.log2 b : Int))).toNat : Nat) : Int) := by
        omega
      rw [e1, pow_zero, mul_one]
      conv_lhs => rw [e2, zpow_neg, zpow_natCast]
      rw [Int.toNat_natCast, div_eq_mul_inv]
  -- `2 ^ K` is at least `2 * b`
  have hP : 2 * b ≤ 2 ^ K := by
    have h1 : 2 ^ (Nat.log2 b + 1) ≤ 2 ^ K := Nat.pow_le_pow_right (by decide) (by omega)
    have h2 : 2 * b ≤ 2 * 2 ^ (Nat.log2 b + 1) := by omega
    have h3 : 2 * 2 ^ (Nat.log2 b + 1) = 2 ^ (Nat.log2 b + 2) := by ring
    have h4 : 2 ^ (Nat.log2 b + 2) ≤ 2 ^ K := Nat.pow_le_pow_right (by decide) (by omega)
    omega
  have hPcast : ((2 : ℚ) ^ K) = ((2 ^ K : Nat) : ℚ) := by push_cast; rfl
  rw [hPcast] at hval
  generalize 2 ^ K = P at hP hval
  obtain ⟨hr1, hr2⟩ := roundTiesEven_bounds (a * P) b
  -- the floor of the scaled quotient
  have hs : a % b < b := Nat.mod_lt _ hb
  have ht : a * P / b = a / b * P + a % b * P / b := by
    have : a * P = a % b * P + a / b * P * b := by
      conv_lhs => rw [← Nat.div_add_mod a b]
      ring
    rw [this, Nat.add_mul_div_right _ _ hb]
    ring
  have hu : a % b * P / b + 2 ≤ P := by
    have h1 : a % b * P ≤ b * (P - 2) := by
      obtain ⟨P', rfl⟩ : ∃ P', P = P' + 2 := ⟨P - 2, by omega⟩
      rw [Nat.add_sub_cancel]
      have h2 : (a % b + 1) * P' ≤ b * P' := Nat.mul_le_mul_right _ hs
      nlinarith
    have := Nat.div_le_of_le_mul h1
    omega
  have hPpos : (0 : ℚ) < (P : ℚ) := by
    have : 0 < P := by omega
    exact_mod_cast this
  rw [hval]
  rw [ht] at hr1 hr2
  generalize a % b * P / b = u at hr1 hr2 hu
  generalize roundTiesEven (a * P) b = R at hr1 hr2
  constructor
  · rw [le_div_iff₀ hPpos]
    have : a / b * P ≤ R := by omega
    exact_mod_cast this
  · rw [div_lt_iff₀ hPpos]
    have : R < (a / b + 1) * P := by
      have : (a / b + 1) * P = a / b * P + P := by ring
      omega
    exact_mod_cast this

/-- Truncation of a `double` that holds an integer. -/
theorem truncate_intCast (z : Int) : truncate (z : ℚ) = z := by
  simp [truncate]

/-- The 53-bit rounding of a quotient of naturals, the numerator below
`2 ^ 32`, truncates to the quotient of the integer division; so does its
opposite. -/
theorem truncate_round_nat (A B : Nat) (hA : A < 4294967296) (hB : 0 < B) :
    truncate (roundBinary64 ((A : ℚ) / (B : ℚ))) = ((A / B : Nat) : Int) ∧
    truncate (roundBinary64 (-((A : ℚ) / (B : ℚ)))) = -((A / B : Nat) : Int) := by
  have hBq : (0 : ℚ) < (B : ℚ) := by exact_mod_cast hB
  by_cases hA0 : A = 0
  · subst hA0
    simp [roundBinary64, truncate]
  have hApos : 0 < A := Nat.pos_of_ne_zero hA0
  have hq : (0 : ℚ) < (A : ℚ) / (B : ℚ) := div_pos (by exact_mod_cast hApos) hBq
  generalize hqdef : (A : ℚ) / (B : ℚ) = q at hq
  have hnum : 0 < q.num := Rat.num_pos.mpr hq
  have hcast : ((q.num.natAbs : Nat) : ℚ) = (q.num : ℚ) := by
    rw [Nat.cast_natAbs, abs_of_pos hnum]
  have hab : ((q.num.natAbs : Nat) : ℚ) / (q.den : ℚ) = q := by
    rw [hcast]
    exact Rat.num_div_den q
  -- the reduced numerator is at most `A`
  have hle : q.num.natAbs ≤ A := by
    have hdiv : q.num ∣ (A : Int) := by
      have h := Rat.num_dvd (A : Int) (show (B : Int) ≠ 0 by omega)
      rw [Rat.divInt_eq_div] at h
      have e : ((A : Int) : ℚ) / ((B : Int) : ℚ) = q := by
        rw [← hqdef]
        push_cast
        rfl
      rw [e] at h
      exact h
    have := Int.natAbs_dvd_natAbs.mpr hdiv
    rw [Int.natAbs_ofNat] at this
    exact Nat.le_of_dvd hApos this
  have hdivs : q.num.natAbs / q.den = A / B := by
    have h1 := Nat.floor_div_eq_div (α := ℚ) q.num.natAbs q.den
    have h2 := Nat.floor_div_eq_div (α := ℚ) A B
    rw [hab] at h1
    rw [hqdef] at h2
    rw [← h1, ← h2]
  obtain ⟨b1, b2⟩ := roundPos53_bounds q.num.natAbs q.den (by omega) (by omega) q.den_pos
  rw [hdivs] at b1 b2
  obtain ⟨t1, t2⟩ := truncate_of_bounds _ _ b1 b2
  constructor
  · unfold roundBinary64
    rw [if_neg (ne_of_gt hq), if_pos hq]
    exact t1
  · unfold roundBinary64
    rw [if_neg (by linarith), if_neg (by linarith), Rat.neg_num, Int.natAbs_neg, Rat.neg_den]
    exact t2

/-- The `double` quotient of two `int`s, the divisor not zero, truncates to
the quotient of the integer division. -/
theorem truncate_round_int (n d : Int) (hn1 : -2147483648 ≤ n) (hn2 : n < 2147483648)
    (hd : d ≠ 0) :
    truncate (roundBinary64 ((n : ℚ) / (d : ℚ))) = Int.tdiv n d := by
  obtain ⟨A, hA⟩ := Int.eq_nat_or_neg n
  obtain ⟨B, hB⟩ := Int.eq_nat_or_neg d
  obtain ⟨h1, h2⟩ := truncate_round_nat A B (by omega) (by omega)
  have hnat : Int.tdiv (A : Int) (B : Int) = ((A / B : Nat) : Int) := by
    rw [Int.tdiv_eq_ediv (Int.natCast_nonneg _) (Int.natCast_nonneg _)]
    rfl
  rcases hA with hA | hA <;> rcases hB with hB | hB <;> subst hA <;> subst hB
  · rw [Int.cast_natCast, Int.cast_natCast, hnat]
    exact h1
  · rw [Int.cast_neg, Int.cast_natCast, Int.cast_natCast, div_neg, Int.tdiv_neg, hnat]
    exact h2
  · rw [Int.cast_neg, Int.cast_natCast, Int.cast_natCast, neg_div, Int.neg_tdiv, hnat]
    exact h2
  · rw [Int.cast_neg, Int.cast_neg, Int.cast_natCast, Int.cast_natCast, neg_div_neg_eq,
      Int.neg_tdiv, Int.tdiv_neg, hnat, neg_neg]
    exact h1

/-- Truncation of the `double` 0.0. -/
theorem truncate_intCast_zero : truncate 0 = 0 := by
  simp [truncate]

/-- The value of a 32-bit pattern read as an `int` is an `int`. -/
theorem wrap32_range (x : Int) : -2147483648 ≤ wrap32 x ∧ wrap32 x < 2147483648 := by
  unfold wrap32
  omega


/-- The `double` decode of a rational whose two numbers are read. -/
theorem rational_toDouble_eq (v : List (Fin 256)) (p : Int) (o : ByteOrder) (N D : Int)
    (s1 : sget4 v p o = Except.ok N) (s2 : sget4 v (p + 4) o = Except.ok D) :
    (do
      let ud ← sget4 v p o
      let dd ← sget4 v (p + 4) o
      if dd = 0 then pure 0 else doubleDiv ud dd)
      = (if D = 0 then Except.ok 0 else doubleDiv N D) := by
  rw [s1, s2]
  simp only [bind, Except.bind]
  by_cases hD : D = 0
  · rw [if_pos hD, if_pos hD]
    rfl
  · rw [if_neg hD, if_neg hD]

/-- The `int` decode of a rational whose two numbers are read. -/
theorem rational_toInt_eq (v : List (Fin 256)) (p : Int) (o : ByteOrder) (N D : Int)
    (s1 : sget4 v p o = Except.ok N) (s2 : sget4 v (p + 4) o = Except.ok D) :
    (do
      let a ← sget4 v (p + 4) o
      if a = 0 then pure 0
      else do
        let m ← sget4 v p o
        intDiv m a)
      = (if D = 0 then Except.ok 0 else intDiv N D) := by
  rw [s1, s2]
  simp only [bind, Except.bind]
  by_cases hD : D = 0
  · rw [if_pos hD, if_pos hD]
    rfl
  · rw [if_neg hD, if_neg hD]

/-- The two decodes of a rational agree, except at -2147483648 / -1. -/
theorem rational_agree (N D : Int) (r1 : -2147483648 ≤ N) (r2 : N < 2147483648) :
    ∃ d, (if D = 0 then Except.ok 0 else doubleDiv N D) = Except.ok d ∧
      ((if D = 0 then Except.ok 0 else intDiv N D) = Except.ok (truncate d) ∨
        (N = -2147483648 ∧ D = -1 ∧ truncate d = 2147483648 ∧
          (if D = 0 then Except.ok 0 else intDiv N D) = Except.error Fault.intOverflow)) := by
  by_cases hD : D = 0
  · rw [if_pos hD, if_pos hD]
    exact ⟨0, rfl, Or.inl (by rw [truncate_intCast_zero])⟩
  · rw [if_neg hD, if_neg hD]
    have hdd : doubleDiv N D = Except.ok (roundBinary64 ((N : ℚ) / (D : ℚ))) := by
      unfold doubleDiv
      rw [if_neg hD]
    rw [hdd]
    by_cases hov : N = -2147483648 ∧ D = -1
    · refine ⟨_, rfl, Or.inr ⟨hov.1, hov.2, ?_, ?_⟩⟩
      · rw [truncate_round_int N D r1 r2 hD, hov.1, hov.2, Int.tdiv_neg, Int.tdiv_one]
        norm_num
      · unfold intDiv
        rw [if_neg hD, if_pos hov]
    · refine ⟨_, rfl, Or.inl ?_⟩
      unfold intDiv
      rw [if_neg hD, if_neg hov, truncate_round_int N D r1 r2 hD]

/-- The conversion `(int)d` of a `double` that holds an `int`. -/
theorem doubleToInt_intCast (B : Int) (r1 : -2147483648 ≤ B) (r2 : B < 2147483648) :
    doubleToInt (B : ℚ) = Except.ok B := by
  have hz : Int.tdiv (B : ℚ).num (((B : ℚ).den : Nat) : Int) = B := by
    rw [Rat.num_intCast, Rat.den_intCast, Nat.cast_one, Int.tdiv_one]
  unfold doubleToInt
  dsimp only
  rw [hz, if_pos ⟨r1, by omega⟩]

/-- The two decoders on a rational with its eight bytes inside the value. -/
theorem toInt_trunc_rational (t : Tag) (n : Nat)
    (h : t.getType = TagType.RATIONAL ∨ t.getType = TagType.SRATIONAL)
    (hlen : n + 8 ≤ t.getValue.length) :
    ∃ d, Interpreter.toDouble t (n : Int) = .ok d ∧
      (Interpreter.toInt t (n : Int) .INVALID = .ok (truncate d) ∨
        ((t.getType = TagType.RATIONAL ∨ t.getType = TagType.SRATIONAL) ∧
          sget4 t.getValue (n : Int) t.getOrder = .ok (-2147483648) ∧
          sget4 t.getValue ((n : Int) + 4) t.getOrder = .ok (-1) ∧
          truncate d = 2147483648 ∧
          Interpreter.toInt t (n : Int) .INVALID = .error Fault.intOverflow)) := by
  have e4 : (n : Int) + 4 = ((n + 4 : Nat) : Int) := by push_cast; rfl
  have s1 := sget4_in t.getValue n t.getOrder (by omega)
  have s2 := sget4_in t.getValue (n + 4) t.getOrder (by omega)
  rw [← e4] at s2
  obtain ⟨r1, r2⟩ := wrap32_range (storedUnsigned t.getValue n 4 t.getOrder)
  generalize wrap32 (storedUnsigned t.getValue n 4 t.getOrder) = N at s1 r1 r2
  generalize wrap32 (storedUnsigned t.getValue (n + 4) 4 t.getOrder) = D at s2
  have e1 := rational_toDouble_eq t.getValue n t.getOrder N D s1 s2
  have e2 := rational_toInt_eq t.getValue n t.getOrder N D s1 s2
  have hTD : Interpreter.toDouble t (n : Int)
      = (if D = 0 then Except.ok 0 else doubleDiv N D) := by
    rw [← e1]
    rcases h with h | h <;> simp only [Interpreter.toDouble, h]
  have hTI : Interpreter.toInt t (n : Int) .INVALID
      = (if D = 0 then Except.ok 0 else intDiv N D) := by
    rw [← e2]
    rcases h with h | h <;> simp only [Interpreter.toInt, h, true_or, if_true]
  obtain ⟨d, hd1, hd2⟩ := rational_agree N D r1 r2
  rw [hTD, hTI]
  refine ⟨d, hd1, ?_⟩
  rcases hd2 with hl | ⟨hN, hD, htr, herr⟩
  · exact Or.inl hl
  · exact Or.inr ⟨h, by rw [s1, hN], by rw [s2, hD], htr, herr⟩

/-- C28. For a tag of numeric effective type and an offset with the element
inside the value, `Interpreter::toDouble` returns a `double` `d`, and
`Interpreter::toInt` without a type override returns `d` truncated toward
zero, with one exception: for a `RATIONAL` or `SRATIONAL` holding the
numerator -2147483648 and the denominator -1, `toDouble` returns a `double`
whose truncation 2147483648 is not an `int`, and the `int` division of `toInt`
overflows. -/
theorem toInt_trunc_toDouble (t : Tag) (ofs : Int)
    (hty : t.getType = TagType.BYTE ∨ t.getType = TagType.SHORT ∨
      t.getType = TagType.SSHORT ∨ t.getType = TagType.LONG ∨ t.getType = TagType.SLONG ∨
      t.getType = TagType.FLOAT ∨ t.getType = TagType.RATIONAL ∨
      t.getType = TagType.SRATIONAL)
    (hin : 0 ≤ ofs ∧ ofs + decodedWidth t.getType ≤ t.getValueSize) :
    ∃ d, Interpreter.toDouble t ofs = .ok d ∧
      (Interpreter.toInt t ofs .INVALID = .ok (truncate d) ∨
        ((t.getType = TagType.RATIONAL ∨ t.getType = TagType.SRATIONAL) ∧
          sget4 t.getValue ofs t.getOrder = .ok (-2147483648) ∧
          sget4 t.getValue (ofs + 4) t.getOrder = .ok (-1) ∧
          truncate d = 2147483648 ∧
          Interpreter.toInt t ofs .INVALID = .error Fault.intOverflow)) := by
  obtain ⟨h0, hw⟩ := hin
  obtain ⟨n, rfl⟩ := Int.eq_ofNat_of_zero_le h0
  have hsz : t.getValueSize = (t.getValue.length : Int) := rfl
  rw [hsz] at hw
  rcases hty with h | h | h | h | h | h | h | h
  · have hb := readByte_natCast t.getValue n (by simp only [h, decodedWidth] at hw; omega)
    generalize ((t.getValue.getD n 0).val : Int) = B at hb
    refine ⟨(B : ℚ), ?_, Or.inl ?_⟩
    · simp only [Interpreter.toDouble, h, hb, bind, Except.bind, pure, Except.pure]
    · rw [truncate_intCast]
      simp only [Interpreter.toInt, h, hb, true_or, if_true]
  · have hs := sget2_in t.getValue n t.getOrder (by simp only [h, decodedWidth] at hw; omega)
    generalize (storedUnsigned t.getValue n 2 t.getOrder : Int) = B at hs
    refine ⟨(B : ℚ), ?_, Or.inl ?_⟩
    · simp only [Interpreter.toDouble, h, hs, bind, Except.bind, pure, Except.pure]
    · rw [truncate_intCast]
      simp only [Interpreter.toInt, h, hs, true_or, if_true]
  · have hs := sget2_in t.getValue n t.getOrder (by simp only [h, decodedWidth] at hw; omega)
    generalize (storedUnsigned t.getValue n 2 t.getOrder : Int) = B at hs
    refine ⟨(int2_to_signed B : ℚ), ?_, Or.inl ?_⟩
    · simp only [Interpreter.toDouble, h, hs, bind, Except.bind, pure, Except.pure]
    · rw [truncate_intCast]
      simp only [Interpreter.toInt, h, hs, true_or, if_true, bind, Except.bind, pure,
        Except.pure]
  · have hs := sget4_in t.getValue n t.getOrder (by simp only [h, decodedWidth] at hw; omega)
    generalize wrap32 (storedUnsigned t.getValue n 4 t.getOrder) = B at hs
    refine ⟨(B : ℚ), ?_, Or.inl ?_⟩
    · simp only [Interpreter.toDouble, h, hs, bind, Except.bind, pure, Except.pure]
    · rw [truncate_intCast]
      simp only [Interpreter.toInt, h, hs, true_or, if_true]
  · have hs := sget4_in t.getValue n t.getOrder (by simp only [h, decodedWidth] at hw; omega)
    generalize wrap32 (storedUnsigned t.getValue n 4 t.getOrder) = B at hs
    refine ⟨(B : ℚ), ?_, Or.inl ?_⟩
    · simp only [Interpreter.toDouble, h, hs, bind, Except.bind, pure, Except.pure]
    · rw [truncate_intCast]
      simp only [Interpreter.toInt, h, hs, true_or, if_true]
  · have hs := sget4_in t.getValue n t.getOrder (by simp only [h, decodedWidth] at hw; omega)
    obtain ⟨r1, r2⟩ := wrap32_range (storedUnsigned t.getValue n 4 t.getOrder)
    generalize wrap32 (storedUnsigned t.getValue n 4 t.getOrder) = B at hs r1 r2
    have hTD : Interpreter.toDouble t (n : Int) = Except.ok (B : ℚ) := by
      simp only [Interpreter.toDouble, h, hs, bind, Except.bind, pure, Except.pure]
    refine ⟨(B : ℚ), hTD, Or.inl ?_⟩
    have hTI : Interpreter.toInt t (n : Int) .INVALID = doubleToInt (B : ℚ) := by
      simp only [Interpreter.toInt, h, true_or, if_true, hTD, bind, Except.bind]
    rw [hTI, truncate_intCast]
    exact doubleToInt_intCast B r1 r2
  · exact toInt_trunc_rational t n (Or.inl h) (by simp only [h, decodedWidth] at hw; omega)
  · exact toInt_trunc_rational t n (Or.inr h) (by simp only [h, decodedWidth] at hw; omega)

/-- C28, at the `SRATIONAL` -7/2 (little-endian bytes `F9 FF FF FF`,
`02 00 00 00`), where `toInt` returns -3, the truncation of what `toDouble`
returns; and at the `SRATIONAL` -2147483648 / -1, where `toInt` overflows. -/
theorem toInt_trunc_toDouble_witness :
    Interpreter.toInt
        (exampleTag .SRATIONAL [249, 255, 255, 255, 2, 0, 0, 0] none .INTEL) 0 .INVALID
      = .ok (-3) ∧
    Interpreter.toInt
        (exampleTag .SRATIONAL [0, 0, 0, 128, 255, 255, 255, 255] none .INTEL) 0 .INVALID
      = .error Fault.intOverflow ∧
    ∃ d, Interpreter.toDouble
        (exampleTag .SRATIONAL [249, 255, 255, 255, 2, 0, 0, 0] none .INTEL) 0 = .ok d ∧
      (Interpreter.toInt
          (exampleTag .SRATIONAL [249, 255, 255, 255, 2, 0, 0, 0] none .INTEL) 0 .INVALID
          = .ok (truncate d) ∨
        (((exampleTag .SRATIONAL [249, 255, 255, 255, 2, 0, 0, 0] none .INTEL).getType
              = TagType.RATIONAL ∨
            (exampleTag .SRATIONAL [249, 255, 255, 255, 2, 0, 0, 0] none .INTEL).getType
              = TagType.SRATIONAL) ∧
          sget4 (exampleTag .SRATIONAL [249, 255, 255, 255, 2, 0, 0, 0] none .INTEL).getValue 0
            (exampleTag .SRATIONAL [249, 255, 255, 255, 2, 0, 0, 0] none .INTEL).getOrder
            = .ok (-2147483648) ∧
          sget4 (exampleTag .SRATIONAL [249, 255, 255, 255, 2, 0, 0, 0] none .INTEL).getValue
            (0 + 4)
            (exampleTag .SRATIONAL [249, 255, 255, 255, 2, 0, 0, 0] none .INTEL).getOrder
            = .ok (-1) ∧
          truncate d = 2147483648 ∧
          Interpreter.toInt
            (exampleTag .SRATIONAL [249, 255, 255, 255, 2, 0, 0, 0] none .INTEL) 0 .INVALID
            = .error Fault.intOverflow)) :=
  ⟨by decide, by decide,
   toInt_trunc_toDouble (exampleTag .SRATIONAL [249, 255, 255, 255, 2, 0, 0, 0] none .INTEL) 0
     (Or.inr (Or.inr (Or.inr (Or.inr (Or.inr (Or.inr (Or.inr rfl)))))))
     ⟨by decide, by decide⟩⟩

/-! ## The lens interpreter: unknown aperture -/

/-- The aperture computed in the loop and `lensAperture` are one expression:
with the operations of a field and `exp` and `log` total, the first is the
second. -/
theorem lensAperture_eq_with {R : Type} [Field R] [DecidableEq R] (exp log : R → R)
    (f1 f2 a1 a2 x : R) :
    lensAperture exp log f1 f2 a1 a2 x
      = (lensApertureWith (fun a b => a + b) (fun a b => a - b) (fun a b => a * b)
          (fun a b => (pure (a / b) : Id R)) (fun a => (pure (exp a) : Id R))
          (fun a => (pure (log a) : Id R)) f1 f2 a1 a2 x : Id R) := by
  unfold lensAperture lensApertureWith
  by_cases h : a1 = a2 ∨ f1 = f2
  · rw [if_pos h, if_pos h]
    rfl
  · rw [if_neg h, if_neg h]
    rfl

/-- C32. The `dif` that `guess` gives a candidate passing the filters with a
known aperture is `abs` of the difference of `lensAperture` and
`maxApertureAtFocal`, `lensAperture` being computed in binary64 by the
expression that `lensAperture` is over a field; over the real numbers, for
`0 < f1 < f2` and positive `a1 != a2`, `lensAperture`, which is
`exp (log a1 + (log a2 - log a1) / (log f2 - log f1) * (log focalLength - log f1))`,
equals `a1` at `focalLength = f1` and `a2` at `focalLength = f2` and lies
between `a1` and `a2` for every `focalLength` in `[f1, f2]`; for a candidate
with `a1 = a2` or `f1 = f2` the aperture used is `a1`. -/
theorem lensAperture_interpolates (f1 f2 a1 a2 : ℝ) (hf1 : 0 < f1) (hf : f1 < f2)
    (ha1 : 0 < a1) (ha2 : 0 < a2) (ha : a1 ≠ a2) :
    (∀ (env : LensEnv) (f m : ℚ) (name : List Char) (g1 g2 b1 b2 : ℚ),
      env.extractLensInfo name = some (g1, g2, b1, b2) → g1 ≠ 0 → b1 ≠ 0 →
      doubleSub g1 (1 / 2) ≤ f → f ≤ doubleAdd g2 (1 / 2) → m > double_0_1 →
      doubleSub b1 double_0_15 ≤ m → m ≤ doubleAdd b2 double_0_15 →
      lensDif env f m name
        = (lensApertureWith doubleAdd doubleSub doubleMul doubleQuot env.exp env.log
            g1 g2 b1 b2 f >>= fun lensAperture =>
          apertureDif lensAperture m >>= fun dif => pure (some dif))) ∧
    (∀ (exp log : ℝ → ℝ) (g1 g2 b1 b2 x : ℝ),
      lensAperture exp log g1 g2 b1 b2 x
        = (lensApertureWith (fun a b => a + b) (fun a b => a - b) (fun a b => a * b)
            (fun a b => (pure (a / b) : Id ℝ)) (fun a => (pure (exp a) : Id ℝ))
            (fun a => (pure (log a) : Id ℝ)) g1 g2 b1 b2 x : Id ℝ)) ∧
    lensAperture Real.exp Real.log f1 f2 a1 a2
        = (fun x => Real.exp (Real.log a1 + (Real.log a2 - Real.log a1)
            / (Real.log f2 - Real.log f1) * (Real.log x - Real.log f1))) ∧
    lensAperture Real.exp Real.log f1 f2 a1 a2 f1 = a1 ∧
    lensAperture Real.exp Real.log f1 f2 a1 a2 f2 = a2 ∧
    (∀ x, f1 ≤ x → x ≤ f2 →
      min a1 a2 ≤ lensAperture Real.exp Real.log f1 f2 a1 a2 x ∧
      lensAperture Real.exp Real.log f1 f2 a1 a2 x ≤ max a1 a2) ∧
    (∀ (exp log : ℝ → ℝ) (g1 g2 b1 b2 x : ℝ), b1 = b2 ∨ g1 = g2 →
      lensAperture exp log g1 g2 b1 b2 x = b1) := by
  have hne : ¬ (a1 = a2 ∨ f1 = f2) := by
    push_neg; exact ⟨ha, ne_of_lt hf⟩
  have hL : 0 < Real.log f2 - Real.log f1 := sub_pos.mpr (Real.log_lt_log hf1 hf)
  have hval : ∀ x, lensAperture Real.exp Real.log f1 f2 a1 a2 x
      = Real.exp (Real.log a1 + (Real.log a2 - Real.log a1)
          / (Real.log f2 - Real.log f1) * (Real.log x - Real.log f1)) := by
    intro x
    unfold lensAperture
    rw [if_neg hne]
  refine ⟨?_, ?_, funext hval, ?_, ?_, ?_, ?_⟩
  · intro env f m name g1 g2 b1 b2 he h1 h2 h3 h4 h5 h6 h7
    exact lensDif_known env f m name g1 g2 b1 b2 he h1 h2 h3 h4 h5 h6 h7
  · intro exp log g1 g2 b1 b2 x
    exact lensAperture_eq_with exp log g1 g2 b1 b2 x
  · rw [hval, sub_self, mul_zero, add_zero, Real.exp_log ha1]
  · rw [hval, div_mul_cancel₀ _ (ne_of_gt hL), add_sub_cancel, Real.exp_log ha2]
  · intro x hx1 hx2
    rw [hval]
    have hx0 : 0 < x := lt_of_lt_of_le hf1 hx1
    have hn0 : 0 ≤ Real.log x - Real.log f1 := sub_nonneg.mpr (Real.log_le_log hf1 hx1)
    have hn1 : Real.log x - Real.log f1 ≤ Real.log f2 - Real.log f1 :=
      sub_le_sub_right (Real.log_le_log hx0 hx2) _
    have ht0 : 0 ≤ (Real.log x - Real.log f1) / (Real.log f2 - Real.log f1) :=
      div_nonneg hn0 (le_of_lt hL)
    have ht1 : (Real.log x - Real.log f1) / (Real.log f2 - Real.log f1) ≤ 1 :=
      (div_le_one hL).mpr hn1
    have he : Real.log a1 + (Real.log a2 - Real.log a1)
          / (Real.log f2 - Real.log f1) * (Real.log x - Real.log f1)
        = Real.log a1 + (Real.log a2 - Real.log a1)
          * ((Real.log x - Real.log f1) / (Real.log f2 - Real.log f1)) := by
      ring
    rw [he]
    generalize (Real.log x - Real.log f1) / (Real.log f2 - Real.log f1) = t at ht0 ht1
    rcases le_total a1 a2 with h | h
    · have hl : Real.log a1 ≤ Real.log a2 := Real.log_le_log ha1 h
      rw [min_eq_left h, max_eq_right h]
      constructor
      · calc a1 = Real.exp (Real.log a1) := (Real.exp_log ha1).symm
          _ ≤ _ := Real.exp_le_exp.mpr (by nlinarith)
      · calc _ ≤ Real.exp (Real.log a2) := Real.exp_le_exp.mpr (by nlinarith)
          _ = a2 := Real.exp_log ha2
    · have hl : Real.log a2 ≤ Real.log a1 := Real.log_le_log ha2 h
      rw [min_eq_right h, max_eq_left h]
      constructor
      · calc a2 = Real.exp (Real.log a2) := (Real.exp_log ha2).symm
          _ ≤ _ := Real.exp_le_exp.mpr (by nlinarith)
      · calc _ ≤ Real.exp (Real.log a1) := Real.exp_le_exp.mpr (by nlinarith)
          _ = a1 := Real.exp_log ha1
  · intro exp log g1 g2 b1 b2 x h
    unfold lensAperture
    rw [if_pos h]

/-- C32, for a 24-70 mm f/2.8-4 lens: over the real numbers the interpolated
aperture is 2.8 at 24 mm, 4 at 70 mm and between 2.8 and 4 at 50 mm. -/
theorem lensAperture_interpolates_witness :
    lensAperture Real.exp Real.log 24 70 (14 / 5) 4 24 = 14 / 5 ∧
    lensAperture Real.exp Real.log 24 70 (14 / 5) 4 70 = 4 ∧
    14 / 5 ≤ lensAperture Real.exp Real.log 24 70 (14 / 5) 4 50 ∧
    lensAperture Real.exp Real.log 24 70 (14 / 5) 4 50 ≤ 4 := by
  have h := lensAperture_interpolates 24 70 (14 / 5) 4 (by norm_num) (by norm_num)
    (by norm_num) (by norm_num) (by norm_num)
  have hb := h.2.2.2.2.2.1 50 (by norm_num) (by norm_num)
  have hmin : min (14 / 5 : ℝ) 4 = 14 / 5 := min_eq_left (by norm_num)
  have hmax : max (14 / 5 : ℝ) 4 = 4 := max_eq_right (by norm_num)
  rw [hmin, hmax] at hb
  exact ⟨h.2.2.2.1, h.2.2.2.2.1, hb.1, hb.2⟩

end rtexif

namespace rtengine

/-! ## Box blur: the loops -/

/-- A loop whose bounds leave no index does nothing. -/
theorem forLoop_empty {σ : Type} (lo hi : Nat) (body : Nat → σ → σ) (init : σ)
    (h : hi ≤ lo) : forLoop lo hi body init = init := by
  unfold forLoop
  rw [Nat.sub_eq_zero_of_le h]
  rfl

/-- The last iteration of a loop. -/
theorem forLoop_succ {σ : Type} (lo hi : Nat) (body : Nat → σ → σ) (init : σ)
    (h : lo ≤ hi) : forLoop lo (hi + 1) body init = body hi (forLoop lo hi body init) := by
  unfold forLoop
  have e : hi + 1 - lo = (hi - lo) + 1 := by omega
  rw [e, List.range'_concat, List.foldl_append]
  simp only [List.foldl_cons, List.foldl_nil, Nat.one_mul]
  congr 1
  omega

/-- Loop invariants: a property that holds before the loop and is carried by
each iteration holds after it. -/
theorem forLoop_invariant {σ : Type} (lo hi : Nat) (body : Nat → σ → σ) (init : σ)
    (P : Nat → σ → Prop) (hle : lo ≤ hi) (h0 : P lo init)
    (hstep : ∀ i s, lo ≤ i → i < hi → P i s → P (i + 1) (body i s)) :
    P hi (forLoop lo hi body init) := by
  induction hi with
  | zero =>
    have : lo = 0 := by omega
    subst this
    rw [forLoop_empty 0 0 body init (le_refl _)]
    exact h0
  | succ k ih =>
    by_cases hk : lo ≤ k
    · rw [forLoop_succ lo k body init hk]
      exact hstep k _ hk (Nat.lt_succ_self k)
        (ih hk (fun i s h1 h2 hp => hstep i s h1 (Nat.lt_succ_of_lt h2) hp))
    · have : lo = k + 1 := by omega
      subst this
      rw [forLoop_empty _ _ body init (le_refl _)]
      exact h0

/-- A prefix sum with one more term. -/
theorem prefixSum_succ (x : Nat → ℚ) (k : Nat) : prefixSum x (k + 1) = prefixSum x k + x k := by
  unfold prefixSum
  rw [Finset.sum_range_succ]

/-- The empty prefix sum. -/
theorem prefixSum_zero (x : Nat → ℚ) : prefixSum x 0 = 0 := by
  simp [prefixSum]

/-- The window mean where the window starts at index 0. -/
theorem lineMean_head (x : Nat → ℚ) (rad n c : Nat) (hc : c ≤ rad) (hn : c + rad + 1 ≤ n) :
    lineMean x rad n c = prefixSum x (c + rad + 1) / ((c : ℚ) + rad + 1) := by
  unfold lineMean
  rw [Nat.min_eq_right hn, Nat.sub_eq_zero_of_le hc, prefixSum_zero]
  simp

/-- The window mean where the whole window is inside the line. -/
theorem lineMean_full (x : Nat → ℚ) (rad n c : Nat) (hc : rad ≤ c) (hn : c + rad + 1 ≤ n) :
    lineMean x rad n c
      = (prefixSum x (c + rad + 1) - prefixSum x (c - rad)) / (2 * (rad : ℚ) + 1) := by
  unfold lineMean
  rw [Nat.min_eq_right hn]
  have e : c + rad + 1 - (c - rad) = 2 * rad + 1 := by omega
  rw [e]
  push_cast
  rfl

/-- The window mean where the window ends at the last index. -/
theorem lineMean_tail (x : Nat → ℚ) (rad n c : Nat) (hc : rad ≤ c) (hn : n ≤ c + rad + 1)
    (hcn : c < n) :
    lineMean x rad n c
      = (prefixSum x n - prefixSum x (c - rad)) / ((n : ℚ) + rad - c) := by
  unfold lineMean
  rw [Nat.min_eq_left hn]
  have e : ((n - (c - rad) : Nat) : ℚ) = (n : ℚ) + rad - c := by
    rw [Nat.cast_sub (by omega), Nat.cast_sub hc]
    ring
  rw [e]

/-- The sliding-window pass writes the window mean at every index of the line. -/
theorem blurLine_spec (x : Nat → ℚ) (rad n : Nat) (out : Nat → ℚ)
    (hrad : 1 ≤ rad) (hn : 2 * rad + 1 < n) (c : Nat) (hc : c < n) :
    blurLine x rad n out c = lineMean x rad n c := by
  dsimp only [blurLine]
  -- the sum of the first window
  have hA : (forLoop 1 (rad + 1) (fun j o => Function.update o 0 (o 0 + x j / ((rad + 1 : Int) : ℚ)))
      (Function.update out 0 (x 0 / ((rad + 1 : Int) : ℚ)))) 0
      = prefixSum x (rad + 1) / ((rad + 1 : Int) : ℚ) :=
    forLoop_invariant 1 (rad + 1) _ _
      (fun j (o : Nat → ℚ) => o 0 = prefixSum x j / ((rad + 1 : Int) : ℚ)) (by omega)
      (by simp [prefixSum])
      (by
        intro i s _ _ hp
        simp only [Function.update_same, hp, prefixSum_succ]
        ring)
  generalize forLoop 1 (rad + 1) (fun j o => Function.update o 0 (o 0 + x j / ((rad + 1 : Int) : ℚ)))
      (Function.update out 0 (x 0 / ((rad + 1 : Int) : ℚ))) = A at hA ⊢
  -- the growing windows at the start of the line
  have hB : (forLoop 1 (rad + 1)
      (fun col (s : (Nat → ℚ) × Int) =>
        (Function.update s.1 col ((s.1 (col - 1) * s.2 + x (col + rad)) / ((s.2 + 1 : Int) : ℚ)),
          s.2 + 1)) (A, (rad + 1 : Int))).2 = (rad : Int) + ((rad + 1 : Nat) : Int) ∧
      ∀ k, k < rad + 1 → (forLoop 1 (rad + 1)
      (fun col (s : (Nat → ℚ) × Int) =>
        (Function.update s.1 col ((s.1 (col - 1) * s.2 + x (col + rad)) / ((s.2 + 1 : Int) : ℚ)),
          s.2 + 1)) (A, (rad + 1 : Int))).1 k = lineMean x rad n k :=
    forLoop_invariant 1 (rad + 1) _ _
      (fun col (s : (Nat → ℚ) × Int) =>
        s.2 = (rad : Int) + (col : Int) ∧ ∀ k, k < col → s.1 k = lineMean x rad n k)
      (by omega)
      (by
        refine ⟨by push_cast; ring, ?_⟩
        intro k hk
        have : k = 0 := by omega
        subst this
        dsimp only
        rw [hA, lineMean_head x rad n 0 (by omega) (by omega)]
        push_cast
        ring_nf)
      (by
        intro i s h1 h2 ⟨hl, hp⟩
        refine ⟨by simp only [hl]; push_cast; ring, ?_⟩
        intro k hk
        by_cases hki : k = i
        · subst hki
          dsimp only
          simp only [Function.update_same]
          rw [hp (k - 1) (by omega), hl, lineMean_head x rad n (k - 1) (by omega) (by omega),
            lineMean_head x rad n k (by omega) (by omega)]
          have e1 : k - 1 + rad + 1 = k + rad := by omega
          have e2 : ((k - 1 : Nat) : ℚ) + rad + 1 = (rad : ℚ) + k := by
            rw [Nat.cast_sub h1]; push_cast; ring
          have hne : ((rad : ℚ) + k) ≠ 0 := by positivity
          rw [e1, prefixSum_succ, e2]
          push_cast
          rw [div_mul_cancel₀ _ hne]
          congr 1
          ring
        · dsimp only
          rw [Function.update_noteq hki]
          exact hp k (by omega))
  generalize forLoop 1 (rad + 1)
      (fun col (s : (Nat → ℚ) × Int) =>
        (Function.update s.1 col ((s.1 (col - 1) * s.2 + x (col + rad)) / ((s.2 + 1 : Int) : ℚ)),
          s.2 + 1)) (A, (rad + 1 : Int)) = B at hB ⊢
  obtain ⟨hBlen, hBval⟩ := hB
  have hlen : ((B.2 : Int) : ℚ) = 2 * (rad : ℚ) + 1 := by
    rw [hBlen]; push_cast; ring
  -- the full windows in the middle of the line
  have hC : ∀ k, k < n - rad → (forLoop (rad + 1) (n - rad)
      (fun col o =>
        Function.update o col (o (col - 1) + (x (col + rad) - x (col - rad - 1)) / (B.2 : ℚ)))
      B.1) k = lineMean x rad n k :=
    forLoop_invariant (rad + 1) (n - rad) _ _
      (fun col (o : Nat → ℚ) => ∀ k, k < col → o k = lineMean x rad n k)
      (by omega) hBval
      (by
        intro i o h1 h2 hp k hk
        by_cases hki : k = i
        · subst hki
          simp only [Function.update_same]
          rw [hp (k - 1) (by omega), hlen,
            lineMean_full x rad n (k - 1) (by omega) (by omega),
            lineMean_full x rad n k (by omega) (by omega)]
          have e1 : k - 1 + rad + 1 = k + rad := by omega
          have e2 : k - rad = (k - rad - 1) + 1 := by omega
          have e3 : k - 1 - rad = k - rad - 1 := by omega
          rw [e1, prefixSum_succ x (k + rad), e2, prefixSum_succ, e3]
          simp only [Nat.add_sub_cancel]
          ring
        · rw [Function.update_noteq hki]
          exact hp k (by omega))
  generalize forLoop (rad + 1) (n - rad)
      (fun col o =>
        Function.update o col (o (col - 1) + (x (col + rad) - x (col - rad - 1)) / (B.2 : ℚ)))
      B.1 = C at hC ⊢
  -- the shrinking windows at the end of the line
  have hD : (forLoop (n - rad) n
      (fun col (s : (Nat → ℚ) × Int) =>
        (Function.update s.1 col ((s.1 (col - 1) * s.2 - x (col - rad - 1)) / ((s.2 - 1 : Int) : ℚ)),
          s.2 - 1)) (C, B.2)).2 = (n : Int) + rad + 1 - ((n : Nat) : Int) ∧
      ∀ k, k < n → (forLoop (n - rad) n
      (fun col (s : (Nat → ℚ) × Int) =>
        (Function.update s.1 col ((s.1 (col - 1) * s.2 - x (col - rad - 1)) / ((s.2 - 1 : Int) : ℚ)),
          s.2 - 1)) (C, B.2)).1 k = lineMean x rad n k :=
    forLoop_invariant (n - rad) n _ _
      (fun col (s : (Nat → ℚ) × Int) =>
        s.2 = (n : Int) + rad + 1 - ((col : Nat) : Int) ∧ ∀ k, k < col → s.1 k = lineMean x rad n k)
      (by omega)
      ⟨by dsimp only; rw [hBlen]; omega, hC⟩
      (by
        intro i s h1 h2 ⟨hl, hp⟩
        refine ⟨by dsimp only; rw [hl]; omega, ?_⟩
        intro k hk
        by_cases hki : k = i
        · subst hki
          dsimp only
          simp only [Function.update_same]
          rw [hp (k - 1) (by omega), hl,
            lineMean_tail x rad n (k - 1) (by omega) (by omega) (by omega),
            lineMean_tail x rad n k (by omega) (by omega) h2]
          have e2 : k - rad = (k - rad - 1) + 1 := by omega
          have e3 : k - 1 - rad = k - rad - 1 := by omega
          have e4 : ((k - 1 : Nat) : ℚ) = (k : ℚ) - 1 := by
            rw [Nat.cast_sub (by omega)]; simp
          have hne : ((n : ℚ) + rad - ((k : ℚ) - 1)) ≠ 0 := by
            have : (k : ℚ) < n := by exact_mod_cast h2
            have : (0 : ℚ) ≤ rad := by positivity
            linarith
          rw [e2, prefixSum_succ, e3, e4]
          simp only [Nat.add_sub_cancel]
          push_cast
          have e5 : ((n : ℚ) + rad + 1 - k) = (n : ℚ) + rad - ((k : ℚ) - 1) := by ring
          rw [e5, div_mul_cancel₀ _ hne]
          congr 1
          · ring
          · ring
        · dsimp only
          rw [Function.update_noteq hki]
          exact hp k (by omega))
  exact hD.2 c hc


/-- With radius 0 the window mean is the sample itself. -/
theorem lineMean_zero (x : Nat → ℚ) (n c : Nat) (hc : c < n) : lineMean x 0 n c = x c := by
  unfold lineMean
  have e : min n (c + 0 + 1) = c + 1 := by omega
  rw [e]
  simp [prefixSum_succ]

/-- The window mean reads the line only at indices below `n`. -/
theorem lineMean_congr (x y : Nat → ℚ) (rad n c : Nat) (hc : c < n)
    (h : ∀ j, j < n → x j = y j) : lineMean x rad n c = lineMean y rad n c := by
  have hp : ∀ k, k ≤ n → prefixSum x k = prefixSum y k := by
    intro k hk
    unfold prefixSum
    apply Finset.sum_congr rfl
    intro j hj
    exact h j (by rw [Finset.mem_range] at hj; omega)
  unfold lineMean
  rw [hp _ (Nat.min_le_left _ _), hp (c - rad) (by omega)]

/-- The window mean as the mean over the clipped closed interval. -/
theorem lineMean_eq_Icc (x : Nat → ℚ) (rad n c : Nat) (hc : c < n) :
    lineMean x rad n c
      = (∑ j in Finset.Icc (c - rad) (min (n - 1) (c + rad)), x j)
        / ((min (n - 1) (c + rad) - (c - rad) + 1 : Nat) : ℚ) := by
  unfold lineMean prefixSum
  have e : min n (c + rad + 1) = min (n - 1) (c + rad) + 1 := by omega
  have hle : c - rad ≤ min (n - 1) (c + rad) + 1 := by omega
  rw [e, ← Finset.sum_Ico_eq_sub _ hle, Nat.Ico_succ_right]
  congr 2
  omega

/-- The copy loops `for row, for col: img[row][col] = f (row, col)`. -/
theorem copy_spec (f init : Image) (W H r c : Nat) (hr : r < H) (hc : c < W) :
    (forLoop 0 H (fun row t =>
      forLoop 0 W (fun col t => setPixel t row col (f row col)) t) init) r c = f r c := by
  have inner : ∀ (row : Nat) (t : Image),
      (∀ k, k < W → (forLoop 0 W (fun col t => setPixel t row col (f row col)) t) row k
        = f row k) ∧
      (∀ r', r' ≠ row → (forLoop 0 W (fun col t => setPixel t row col (f row col)) t) r'
        = t r') := by
    intro row t
    exact forLoop_invariant 0 W _ _
      (fun col (u : Image) => (∀ k, k < col → u row k = f row k) ∧ (∀ r', r' ≠ row → u r' = t r'))
      (Nat.zero_le _)
      ⟨fun k hk => absurd hk (Nat.not_lt_zero k), fun _ _ => rfl⟩
      (by
        intro i u _ _ ⟨h1, h2⟩
        refine ⟨?_, ?_⟩
        · intro k hk
          by_cases hki : k = i
          · subst hki
            simp [setPixel]
          · simp only [setPixel, Function.update_same, Function.update_noteq hki]
            exact h1 k (by omega)
        · intro r' hr'
          simp only [setPixel, Function.update_noteq hr']
          exact h2 r' hr')
  have outer := forLoop_invariant 0 H
    (fun row t => forLoop 0 W (fun col t => setPixel t row col (f row col)) t) init
    (fun row (t : Image) => ∀ r', r' < row → ∀ k, k < W → t r' k = f r' k)
    (Nat.zero_le _)
    (fun r' hr' => absurd hr' (Nat.not_lt_zero r'))
    (by
      intro i t _ _ hp r' hr' k hk
      dsimp only
      by_cases hri : r' = i
      · subst hri
        exact (inner r' t).1 k hk
      · rw [(inner i t).2 r' hri]
        exact hp r' (by omega) k hk)
  exact outer r hr c hc

/-- The horizontal blur: each row of `temp` is the pass along the row of `src`. -/
theorem rows_spec (src init : Image) (rad W H r c : Nat) (hrad : 1 ≤ rad)
    (hW : 2 * rad + 1 < W) (hr : r < H) (hc : c < W) :
    (forLoop 0 H (fun row t =>
      Function.update t row (blurLine (src row) rad W (t row))) init) r c
      = lineMean (src r) rad W c := by
  have outer := forLoop_invariant 0 H
    (fun row t => Function.update t row (blurLine (src row) rad W (t row))) init
    (fun row (t : Image) => ∀ r', r' < row → ∀ k, k < W → t r' k = lineMean (src r') rad W k)
    (Nat.zero_le _)
    (fun r' hr' => absurd hr' (Nat.not_lt_zero r'))
    (by
      intro i t _ _ hp r' hr' k hk
      dsimp only
      by_cases hri : r' = i
      · subst hri
        rw [Function.update_same]
        exact blurLine_spec (src r') rad W (t r') hrad hW k hk
      · rw [Function.update_noteq hri]
        exact hp r' (by omega) k hk)
  exact outer r hr c hc

/-- The vertical blur: each column of `dst` is the pass along the column of
`temp`. -/
theorem columns_spec (temp init : Image) (rad W H r c : Nat) (hrad : 1 ≤ rad)
    (hH : 2 * rad + 1 < H) (hr : r < H) (hc : c < W) :
    (forLoop 0 W (fun col d =>
      let line := blurLine (fun row => temp row col) rad H (fun row => d row col)
      fun row c => if c = col then line row else d row c) init) r c
      = lineMean (fun row => temp row c) rad H r := by
  have outer := forLoop_invariant 0 W
    (fun col d =>
      let line := blurLine (fun row => temp row col) rad H (fun row => d row col)
      fun row c => if c = col then line row else d row c) init
    (fun col (d : Image) => ∀ k, k < col → ∀ r', r' < H →
      d r' k = lineMean (fun row => temp row k) rad H r')
    (Nat.zero_le _)
    (fun k hk => absurd hk (Nat.not_lt_zero k))
    (by
      intro i d _ _ hp k hk r' hr'
      dsimp only
      by_cases hki : k = i
      · subst hki
        simp only [if_true]
        exact blurLine_spec _ rad H _ hrad hH r' hr'
      · simp only [if_neg hki]
        exact hp k (by omega) r' hr')
  exact outer c hc r hr

/-- The mean along the rows of the means along the columns is the mean over
the box. -/
theorem lineMean_lineMean (src : Image) (radx rady W H r c : Nat) (hr : r < H) (hc : c < W) :
    lineMean (fun i => lineMean (src i) radx W c) rady H r = boxMean src radx rady W H r c := by
  rw [lineMean_eq_Icc _ rady H r hr]
  simp only [lineMean_eq_Icc _ radx W c hc]
  unfold boxMean
  rw [← Finset.sum_div, div_div, Nat.cast_mul, mul_comm]

/-- C20. For radii with `2 * radx + 1 < W` and `2 * rady + 1 < H`, in exact
arithmetic, `boxblur (src, dst, radx, rady, W, H)` ends and leaves in every
`dst[r][c]` of the image the arithmetic mean of `src` over the
`(2 * radx + 1) x (2 * rady + 1)` box centred at `(r, c)` and clipped to the
image: rows `max (0, r - rady) .. min (H - 1, r + rady)`, columns
`max (0, c - radx) .. min (W - 1, c + radx)`. -/
theorem boxblur_mean (src dst temp : Image) (radx rady W H : Nat)
    (hx : 2 * radx + 1 < W) (hy : 2 * rady + 1 < H) :
    ∃ out, boxblur src dst radx rady W H temp = some out ∧
      ∀ r c, r < H → c < W → out r c = boxMean src radx rady W H r c := by
  unfold boxblur
  rw [if_neg (not_not.mpr hx), if_neg (not_not.mpr hy)]
  refine ⟨_, rfl, ?_⟩
  intro r c hr hc
  -- the horizontal pass
  have hT : ∀ i k, i < H → k < W →
      (if radx = 0 then
        forLoop 0 H (fun row t =>
          forLoop 0 W (fun col t => setPixel t row col (src row col)) t) temp
      else
        forLoop 0 H (fun row t =>
          Function.update t row (blurLine (src row) radx W (t row))) temp) i k
      = lineMean (src i) radx W k := by
    intro i k hi hk
    by_cases h0 : radx = 0
    · subst h0
      rw [if_pos rfl, copy_spec src temp W H i k hi hk, lineMean_zero _ W k hk]
    · rw [if_neg h0]
      exact rows_spec src temp radx W H i k (by omega) hx hi hk
  generalize (if radx = 0 then
        forLoop 0 H (fun row t =>
          forLoop 0 W (fun col t => setPixel t row col (src row col)) t) temp
      else
        forLoop 0 H (fun row t =>
          Function.update t row (blurLine (src row) radx W (t row))) temp) = T at hT ⊢
  -- the vertical pass
  have hD : (if rady = 0 then
        forLoop 0 H (fun row d =>
          forLoop 0 W (fun col d => setPixel d row col (T row col)) d) dst
      else
        forLoop 0 W (fun col d =>
          let line := blurLine (fun row => T row col) rady H (fun row => d row col)
          fun row c => if c = col then line row else d row c) dst) r c
      = lineMean (fun i => T i c) rady H r := by
    by_cases h0 : rady = 0
    · subst h0
      rw [if_pos rfl, copy_spec T dst W H r c hr hc, lineMean_zero _ H r hr]
    · rw [if_neg h0]
      exact columns_spec T dst rady W H r c (by omega) hy hr hc
  dsimp only
  rw [hD, lineMean_congr _ (fun i => lineMean (src i) radx W c) rady H r hr
    (fun i hi => hT i c hi hc)]
  exact lineMean_lineMean src radx rady W H r c hr hc

/-- C20, on the 5 x 4 example image with radii 1 and 1: the blur ends, the
corner sample `dst[0][0]` is the mean 2 of the four samples 0, 3, 1, 4 of the
clipped box and the inner sample `dst[1][2]` the mean 23/3 of nine. -/
theorem boxblur_mean_witness :
    ∃ out, boxblur exampleImage (fun _ _ => 0) 1 1 5 4 (fun _ _ => 0) = some out ∧
      out 0 0 = 2 ∧ out 1 2 = 23 / 3 := by
  obtain ⟨out, h, hm⟩ := boxblur_mean exampleImage (fun _ _ => 0) (fun _ _ => 0) 1 1 5 4
    (by decide) (by decide)
  refine ⟨out, h, ?_, ?_⟩
  · rw [hm 0 0 (by decide) (by decide)]
    decide!
  · rw [hm 1 2 (by decide) (by decide)]
    decide!

/-! ## Box blur: index bounds and divisors -/

/-- The loop variable of `for (int i = lo; i < hi; i++)` runs over `lo .. hi - 1`. -/
theorem mem_intRange (lo hi i : Int) : i ∈ intRange lo hi ↔ lo ≤ i ∧ i < hi := by
  simp only [intRange, List.mem_map, List.mem_range]
  constructor
  · rintro ⟨k, hk, rfl⟩
    omega
  · rintro ⟨h1, h2⟩
    exact ⟨(i - lo).toNat, by omega, by omega⟩

/-- A property of the events and an invariant of `len` kept by every iteration
hold after the loop. -/
theorem traceLoop_invariant (lo hi : Int) (body : Int → Int → List Event × Int)
    (s : List Event × Int) (P : Event → Prop) (J : Int → Int → Prop)
    (h0 : ∀ e ∈ s.1, P e) (hJ : J lo s.2)
    (hstep : ∀ i len, lo ≤ i → i < hi → J i len →
      (∀ e ∈ (body i len).1, P e) ∧ J (i + 1) (body i len).2) :
    (∀ e ∈ (traceLoop lo hi body s).1, P e) ∧
      J (max lo hi) (traceLoop lo hi body s).2 := by
  have key : ∀ n : Nat, (n : Int) ≤ max 0 (hi - lo) →
      (∀ e ∈ (((List.range n).map (fun (k : Nat) => lo + (k : Int))).foldl
        (fun s i => (s.1 ++ (body i s.2).1, (body i s.2).2)) s).1, P e) ∧
      J (lo + n) (((List.range n).map (fun (k : Nat) => lo + (k : Int))).foldl
        (fun s i => (s.1 ++ (body i s.2).1, (body i s.2).2)) s).2 := by
    intro n
    induction n with
    | zero =>
      intro _
      simpa using ⟨h0, hJ⟩
    | succ n ih =>
      intro hn
      obtain ⟨ih1, ih2⟩ := ih (by push_cast at hn; omega)
      rw [List.range_succ, List.map_append, List.foldl_append]
      simp only [List.map_cons, List.map_nil, List.foldl_cons, List.foldl_nil]
      obtain ⟨b1, b2⟩ := hstep (lo + n) _ (by omega) (by push_cast at hn; omega) ih2
      constructor
      · intro e he
        rcases List.mem_append.mp he with h | h
        · exact ih1 e h
        · exact b1 e h
      · have : lo + ((n + 1 : Nat) : Int) = lo + n + 1 := by push_cast; ring
        rw [this]
        exact b2
  have := key (hi - lo).toNat (by omega)
  have e : lo + ((hi - lo).toNat : Int) = max lo hi := by omega
  rw [e] at this
  exact this

/-- Every event of the pass along one line is in bounds, when the accesses at
the indices `0 .. n - 1` of the line and the divisions by at least 1 are. -/
theorem lineEvents_inBounds (readX readOut writeOut : Int → Event) (rad n : Int)
    (P : Event → Prop) (hrad : 0 ≤ rad) (hn : 2 * rad + 1 < n)
    (hX : ∀ i, 0 ≤ i → i < n → P (readX i))
    (hR : ∀ i, 0 ≤ i → i < n → P (readOut i))
    (hW : ∀ i, 0 ≤ i → i < n → P (writeOut i))
    (hD : ∀ d, 1 ≤ d → P (Event.divide d)) :
    ∀ e ∈ lineEvents readX readOut writeOut rad n, P e := by
  have mem4 : ∀ (a b c d e : Event), P a → P b → P c → P d → ∀ x ∈ [a, b, c, d],
      P x := by
    intro a b c d _ ha hb hc hd x hx
    simp only [List.mem_cons, List.mem_singleton, List.not_mem_nil, or_false] at hx
    rcases hx with h | h | h | h <;> rw [h] <;> assumption
  -- the first sample of the line
  have s0 : (∀ e ∈ ([readX 0, Event.divide (rad + 1), writeOut 0] : List Event), P e) := by
    intro x hx
    simp only [List.mem_cons, List.mem_singleton, List.not_mem_nil, or_false] at hx
    rcases hx with h | h | h <;> rw [h]
    · exact hX 0 (by omega) (by omega)
    · exact hD _ (by omega)
    · exact hW 0 (by omega) (by omega)
  -- the loop over `j`: `len` stays `rad + 1`
  have s1 := traceLoop_invariant 1 (rad + 1)
    (fun j len => ([readOut 0, readX j, Event.divide len, writeOut 0], len))
    ([readX 0, Event.divide (rad + 1), writeOut 0], rad + 1) P
    (fun _ (len : Int) => len = rad + 1) s0 rfl
    (by
      intro i len h1 h2 hJ
      dsimp only at hJ ⊢
      refine ⟨mem4 _ _ _ _ (readX 0) ?_ ?_ ?_ ?_, hJ⟩
      · exact hR 0 (by omega) (by omega)
      · exact hX i (by omega) (by omega)
      · exact hD _ (by omega)
      · exact hW 0 (by omega) (by omega))
  -- the growing window: `len = rad + col`
  have s2 := traceLoop_invariant 1 (rad + 1)
    (fun col len =>
      ([readOut (col - 1), readX (col + rad), Event.divide (len + 1), writeOut col], len + 1))
    _ P (fun (col : Int) (len : Int) => len = rad + col) s1.1 s1.2
    (by
      intro i len h1 h2 hJ
      dsimp only at hJ ⊢
      refine ⟨mem4 _ _ _ _ (readX 0) ?_ ?_ ?_ ?_, by omega⟩
      · exact hR _ (by omega) (by omega)
      · exact hX _ (by omega) (by omega)
      · exact hD _ (by omega)
      · exact hW _ (by omega) (by omega))
  have m2 : max 1 (rad + 1) = rad + 1 := by omega
  rw [m2] at s2
  -- the full window: `len = 2 * rad + 1`
  have s3 := traceLoop_invariant (rad + 1) (n - rad)
    (fun col len =>
      ([readOut (col - 1), readX (col + rad), readX (col - rad - 1), Event.divide len,
        writeOut col], len))
    _ P (fun _ (len : Int) => len = 2 * rad + 1) s2.1 (by have := s2.2; dsimp only at this ⊢; omega)
    (by
      intro i len h1 h2 hJ
      dsimp only at hJ ⊢
      refine ⟨?_, hJ⟩
      intro x hx
      simp only [List.mem_cons, List.mem_singleton, List.not_mem_nil, or_false] at hx
      rcases hx with h | h | h | h | h <;> rw [h]
      · exact hR _ (by omega) (by omega)
      · exact hX _ (by omega) (by omega)
      · exact hX _ (by omega) (by omega)
      · exact hD _ (by omega)
      · exact hW _ (by omega) (by omega))
  -- the shrinking window: `len = 2 * rad + 1 - (col - (n - rad))`
  have s4 := traceLoop_invariant (n - rad) n
    (fun col len =>
      ([readOut (col - 1), readX (col - rad - 1), Event.divide (len - 1), writeOut col],
        len - 1))
    _ P (fun (col : Int) (len : Int) => len = 2 * rad + 1 - (col - (n - rad))) s3.1
    (by have := s3.2; dsimp only at this ⊢; omega)
    (by
      intro i len h1 h2 hJ
      dsimp only at hJ ⊢
      refine ⟨mem4 _ _ _ _ (readX 0) ?_ ?_ ?_ ?_, by omega⟩
      · exact hR _ (by omega) (by omega)
      · exact hX _ (by omega) (by omega)
      · exact hD _ (by omega)
      · exact hW _ (by omega) (by omega))
  exact s4.1

/-- The events of a nest of two loops have the property of every body. -/
theorem flatten_map_forall {α : Type} (l : List α) (f : α → List Event) (P : Event → Prop)
    (h : ∀ a ∈ l, ∀ e ∈ f a, P e) : ∀ e ∈ (l.map f).flatten, P e := by
  intro e he
  simp only [List.mem_flatten, List.mem_map] at he
  obtain ⟨_, ⟨a, ha, rfl⟩, hm⟩ := he
  exact h a ha e hm

/-- C22. Under the asserted preconditions `2 * radx + 1 < W` and
`2 * rady + 1 < H`, with `radx` and `rady` not negative, the run of `boxblur`
passes both assertions, and every read of `src` and every read or write of
`temp` and `dst` in it uses a row index in `[0, H)` and a column index in
`[0, W)`, so that every flat index `row * W + col` of `temp` is in
`[0, W * H)`, and every division is by a number that is at least 1. -/
theorem boxblur_accesses_in_bounds (radx rady W H : Int) (hx : 0 ≤ radx) (hy : 0 ≤ rady)
    (hW : 2 * radx + 1 < W) (hH : 2 * rady + 1 < H) :
    ∃ evs, boxblurEvents radx rady W H = some evs ∧
      (∀ e ∈ evs, e.inBounds W H = true) ∧
      (∀ row col, (Event.readTemp row col ∈ evs ∨ Event.writeTemp row col ∈ evs) →
        0 ≤ row * W + col ∧ row * W + col < W * H) := by
  have hcopy : ∀ (a b : Int → Int → Event),
      (∀ r c, 0 ≤ r → r < H → 0 ≤ c → c < W → (a r c).inBounds W H = true) →
      (∀ r c, 0 ≤ r → r < H → 0 ≤ c → c < W → (b r c).inBounds W H = true) →
      ∀ e ∈ ((intRange 0 H).map (fun row =>
        ((intRange 0 W).map (fun col => [a row col, b row col])).flatten)).flatten,
        e.inBounds W H = true := by
    intro a b ha hb
    apply flatten_map_forall
    intro row hrow
    apply flatten_map_forall
    intro col hcol e he
    rw [mem_intRange] at hrow hcol
    simp only [List.mem_cons, List.mem_singleton, List.not_mem_nil, or_false] at he
    rcases he with h | h <;> rw [h]
    · exact ha row col hrow.1 hrow.2 hcol.1 hcol.2
    · exact hb row col hrow.1 hrow.2 hcol.1 hcol.2
  have hacc : ∀ r c : Int, 0 ≤ r → r < H → 0 ≤ c → c < W →
      decide (0 ≤ r ∧ r < H ∧ 0 ≤ c ∧ c < W) = true := by
    intro r c h1 h2 h3 h4
    exact decide_eq_true ⟨h1, h2, h3, h4⟩
  have hdiv : ∀ d : Int, 1 ≤ d → (Event.divide d).inBounds W H = true := by
    intro d hd
    exact decide_eq_true hd
  have hall : ∀ e ∈
      ((if radx = 0 then
        ((intRange 0 H).map (fun row =>
          ((intRange 0 W).map (fun col =>
            [Event.readSrc row col, Event.writeTemp row col])).flatten)).flatten
      else
        ((intRange 0 H).map (fun row =>
          lineEvents (Event.readSrc row) (Event.readTemp row) (Event.writeTemp row)
            radx W)).flatten) ++
      (if rady = 0 then
        ((intRange 0 H).map (fun row =>
          ((intRange 0 W).map (fun col =>
            [Event.readTemp row col, Event.writeDst row col])).flatten)).flatten
      else
        ((intRange 0 W).map (fun col =>
          lineEvents (fun row => Event.readTemp row col) (fun row => Event.readDst row col)
            (fun row => Event.writeDst row col) rady H)).flatten) : List Event),
      e.inBounds W H = true := by
    intro e he
    rcases List.mem_append.mp he with h | h
    · split at h
      · exact hcopy Event.readSrc Event.writeTemp hacc hacc e h
      · refine flatten_map_forall _ _ (fun e => e.inBounds W H = true) ?_ e h
        intro row hrow
        rw [mem_intRange] at hrow
        exact lineEvents_inBounds _ _ _ radx W _ hx hW
          (fun i h1 h2 => hacc row i hrow.1 hrow.2 h1 h2)
          (fun i h1 h2 => hacc row i hrow.1 hrow.2 h1 h2)
          (fun i h1 h2 => hacc row i hrow.1 hrow.2 h1 h2) hdiv
    · split at h
      · exact hcopy Event.readTemp Event.writeDst hacc hacc e h
      · refine flatten_map_forall _ _ (fun e => e.inBounds W H = true) ?_ e h
        intro col hcol
        rw [mem_intRange] at hcol
        exact lineEvents_inBounds _ _ _ rady H _ hy hH
          (fun i h1 h2 => hacc i col h1 h2 hcol.1 hcol.2)
          (fun i h1 h2 => hacc i col h1 h2 hcol.1 hcol.2)
          (fun i h1 h2 => hacc i col h1 h2 hcol.1 hcol.2) hdiv
  refine ⟨_, ?_, hall, ?_⟩
  · simp only [boxblurEvents]
    rw [if_neg (not_not.mpr hW), if_neg (not_not.mpr hH)]
  · intro row col hm
    have hb : 0 ≤ row ∧ row < H ∧ 0 ≤ col ∧ col < W := by
      rcases hm with h | h
      · exact of_decide_eq_true (hall _ h)
      · exact of_decide_eq_true (hall _ h)
    obtain ⟨h1, h2, h3, h4⟩ := hb
    have hW0 : 0 ≤ W := by omega
    constructor
    · have := mul_nonneg h1 hW0
      omega
    · have : (row + 1) * W ≤ H * W := mul_le_mul_of_nonneg_right (by omega) hW0
      nlinarith

/-- C22, at a 4 x 3 image with `radx = 1`, `rady = 0`: the run has 84 events,
all in bounds; and a line of 2 samples, too short for the radius 1, would be
read at the index 2. -/
theorem boxblur_accesses_in_bounds_witness :
    (boxblurEvents 1 0 4 3).map List.length = some 84 ∧
    Event.readSrc 0 2 ∈ lineEvents (Event.readSrc 0) (Event.readTemp 0) (Event.writeTemp 0) 1 2 ∧
    ∃ evs, boxblurEvents 1 0 4 3 = some evs ∧
      (∀ e ∈ evs, e.inBounds 4 3 = true) ∧
      (∀ row col, (Event.readTemp row col ∈ evs ∨ Event.writeTemp row col ∈ evs) →
        0 ≤ row * 4 + col ∧ row * 4 + col < 4 * 3) :=
  ⟨by decide, by decide,
   boxblur_accesses_in_bounds 1 0 4 3 (by decide) (by decide) (by decide) (by decide)⟩

/-! ## Box blur with row and line buffers: the window steps -/

/-- Growing the window at the start of the line by one sample on the right. -/
theorem lineMean_grow (x : Nat → ℚ) (rad n c : Nat) (h1 : 1 ≤ c) (hc : c ≤ rad)
    (hn : c + rad + 1 ≤ n) :
    (lineMean x rad n (c - 1) * ((rad : ℚ) + c) + x (c + rad)) / ((rad : ℚ) + c + 1)
      = lineMean x rad n c := by
  rw [lineMean_head x rad n (c - 1) (by omega) (by omega), lineMean_head x rad n c hc hn]
  have e1 : c - 1 + rad + 1 = c + rad := by omega
  have e2 : ((c - 1 : Nat) : ℚ) + rad + 1 = (rad : ℚ) + c := by
    rw [Nat.cast_sub h1]; push_cast; ring
  have hne : ((rad : ℚ) + c) ≠ 0 := by positivity
  rw [e1, prefixSum_succ, e2, div_mul_cancel₀ _ hne]
  congr 1
  ring

/-- Sliding the full window by one sample. -/
theorem lineMean_slide (x : Nat → ℚ) (rad n c : Nat) (hc : rad + 1 ≤ c)
    (hn : c + rad + 1 ≤ n) :
    lineMean x rad n (c - 1) + (x (c + rad) - x (c - rad - 1)) / (2 * (rad : ℚ) + 1)
      = lineMean x rad n c := by
  rw [lineMean_full x rad n (c - 1) (by omega) (by omega),
    lineMean_full x rad n c (by omega) hn]
  have e1 : c - 1 + rad + 1 = c + rad := by omega
  have e2 : c - rad = (c - rad - 1) + 1 := by omega
  have e3 : c - 1 - rad = c - rad - 1 := by omega
  rw [e1, prefixSum_succ x (c + rad), e2, prefixSum_succ, e3]
  simp only [Nat.add_sub_cancel]
  ring

/-- Shrinking the window at the end of the line by one sample on the left. -/
theorem lineMean_shrink (x : Nat → ℚ) (rad n c : Nat) (hc : rad + 1 ≤ c)
    (hn : n ≤ c + rad) (hcn : c < n) :
    (lineMean x rad n (c - 1) * ((n : ℚ) + rad + 1 - c) - x (c - rad - 1))
        / ((n : ℚ) + rad - c)
      = lineMean x rad n c := by
  rw [lineMean_tail x rad n (c - 1) (by omega) (by omega) (by omega),
    lineMean_tail x rad n c (by omega) (by omega) hcn]
  have e2 : c - rad = (c - rad - 1) + 1 := by omega
  have e3 : c - 1 - rad = c - rad - 1 := by omega
  have e4 : ((c - 1 : Nat) : ℚ) = (c : ℚ) - 1 := by
    rw [Nat.cast_sub (by omega)]; simp
  have hne : ((n : ℚ) + rad - ((c : ℚ) - 1)) ≠ 0 := by
    have : (c : ℚ) < n := by exact_mod_cast hcn
    have : (0 : ℚ) ≤ rad := by positivity
    linarith
  have e5 : ((n : ℚ) + rad + 1 - c) = (n : ℚ) + rad - ((c : ℚ) - 1) := by ring
  rw [e2, prefixSum_succ, e3, e4]
  simp only [Nat.add_sub_cancel]
  rw [e5, div_mul_cancel₀ _ hne]
  congr 1
  ring

/-! ## Box blur with row and line buffers: the horizontal pass -/

/-- A write to another pixel of the row does not change what `src[row][j]` reads. -/
theorem srcAt_setPixel (src : Option Image) (d : Image) (row col j : Nat) (v : ℚ)
    (h : j ≠ col) : srcAt src (setPixel d row col v) row j = srcAt src d row j := by
  cases src with
  | some im => rfl
  | none => simp [srcAt, setPixel, Function.update_noteq h]

/-- The ring position after one more step. -/
theorem nextPos_mod (radius a : Nat) :
    nextPos radius (a % (radius + 1)) = (a + 1) % (radius + 1) := by
  have hlt : a % (radius + 1) < radius + 1 := Nat.mod_lt _ (Nat.succ_pos _)
  have hmod : (a + 1) % (radius + 1) = (a % (radius + 1) + 1) % (radius + 1) := by
    rw [Nat.add_mod a 1, Nat.add_mod (a % (radius + 1)) 1, Nat.mod_mod]
  rw [hmod]
  unfold nextPos
  by_cases h : a % (radius + 1) + 1 ≤ radius
  · rw [if_pos h]
    exact (Nat.mod_eq_of_lt (by omega)).symm
  · rw [if_neg h]
    have ha : a % (radius + 1) + 1 = radius + 1 := by omega
    rw [ha, Nat.mod_self]

/-- Two indices less than `m` apart have different places in a ring of `m`. -/
theorem ring_ne (m a b : Nat) (hab : a < b) (hm : b < a + m) : a % m ≠ b % m := by
  intro h
  have h1 : (b - a) % m = 0 := by
    rw [← Nat.sub_mod_eq_zero_of_mod_eq h.symm]
  have h2 : (b - a) % m = b - a := Nat.mod_eq_of_lt (by omega)
  omega

/-- One more sample of the row written: the shared invariant moves to the next
column. -/
theorem horizontalInv_step (src : Option Image) (x : Nat → ℚ) (d0 : Image)
    (radius W row col : Nat) (s t : BlurState)
    (h : horizontalInv src x d0 radius W row col s) (hcol : 1 ≤ col)
    (hd : t.dst = setPixel s.dst row col t.tempval)
    (hv : t.tempval = lineMean x radius W col) :
    horizontalInv src x d0 radius W row (col + 1) t := by
  obtain ⟨_, h2, h3, h4⟩ := h
  refine ⟨by simpa using hv, ?_, ?_, ?_⟩
  · intro k hk
    rw [hd]
    by_cases hkc : k = col
    · subst hkc
      simp [setPixel, hv]
    · simp only [setPixel, Function.update_same, Function.update_noteq hkc]
      exact h2 k (by omega)
  · intro j hj
    rw [hd, srcAt_setPixel src s.dst row col j _ (by omega)]
    exact h3 j (by omega)
  · intro r hr
    rw [hd]
    simp only [setPixel, Function.update_noteq hr]
    exact h4 r hr

/-- The loop of the growing windows (`boxblur.h:357-362`). -/
theorem horizontalGrow_loop (src : Option Image) (x : Nat → ℚ) (d0 : Image)
    (radius W row : Nat) (s : BlurState) (hW : 2 * radius + 1 ≤ W)
    (hinv : horizontalInv src x d0 radius W row 1 s)
    (hlen : s.len = (radius : ℚ) + 1) (hbuf : s.buffer 0 = x 0) :
    horizontalInv src x d0 radius W row (radius + 1)
        (forLoop 1 (radius + 1) (horizontalGrow src radius row) s) ∧
      (forLoop 1 (radius + 1) (horizontalGrow src radius row) s).len = 2 * (radius : ℚ) + 1 ∧
      (∀ i, i < radius + 1 →
        (forLoop 1 (radius + 1) (horizontalGrow src radius row) s).buffer i = x i) := by
  have := forLoop_invariant 1 (radius + 1) (horizontalGrow src radius row) s
    (fun col (t : BlurState) => horizontalInv src x d0 radius W row col t ∧
      t.len = (radius : ℚ) + col ∧ (∀ i, i < col → t.buffer i = x i))
    (by omega)
    ⟨hinv, by simpa using hlen, fun i hi => by
      have : i = 0 := by omega
      rw [this, hbuf]⟩
    (by
      intro col t h1 h2 ⟨hI, hl, hb⟩
      have hsrc : srcAt src t.dst row (col + radius) = x (col + radius) :=
        hI.2.2.1 _ (by omega)
      refine ⟨horizontalInv_step src x d0 radius W row col t _ hI h1 rfl ?_, ?_, ?_⟩
      · simp only [horizontalGrow]
        rw [hI.1, hl, hsrc]
        exact lineMean_grow x radius W col h1 (by omega) (by omega)
      · simp only [horizontalGrow, hl]
        push_cast
        ring
      · intro i hi
        simp only [horizontalGrow]
        by_cases hic : i = col
        · subst hic
          rw [Function.update_same]
          exact hI.2.2.1 i (le_refl _)
        · rw [Function.update_noteq hic]
          exact hb i (by omega))
  refine ⟨this.1, ?_, this.2.2⟩
  rw [this.2.1]
  push_cast
  ring

/-- The loop of the full windows (`boxblur.h:364-371`): the ring `lineBuffer`
holds the last `radius + 1` samples read. -/
theorem horizontalSlide_loop (src : Option Image) (x : Nat → ℚ) (d0 : Image)
    (radius W row : Nat) (s : BlurState) (hW : 2 * radius + 1 ≤ W)
    (hinv : horizontalInv src x d0 radius W row (radius + 1) s)
    (hlen : s.len = 2 * (radius : ℚ) + 1) (hpos : s.pos = 0)
    (hbuf : ∀ i, i < radius + 1 → s.buffer i = x i) :
    horizontalInv src x d0 radius W row (W - radius)
        (forLoop (radius + 1) (W - radius) (horizontalSlide src radius row) s) ∧
      (forLoop (radius + 1) (W - radius) (horizontalSlide src radius row) s).len
        = 2 * (radius : ℚ) + 1 ∧
      (forLoop (radius + 1) (W - radius) (horizontalSlide src radius row) s).pos
        = (W - radius - radius - 1) % (radius + 1) ∧
      (∀ j, W - radius - radius - 1 ≤ j → j < W - radius →
        (forLoop (radius + 1) (W - radius) (horizontalSlide src radius row) s).buffer
          (j % (radius + 1)) = x j) := by
  exact forLoop_invariant (radius + 1) (W - radius) (horizontalSlide src radius row) s
    (fun col (t : BlurState) => horizontalInv src x d0 radius W row col t ∧
      t.len = 2 * (radius : ℚ) + 1 ∧ t.pos = (col - radius - 1) % (radius + 1) ∧
      (∀ j, col - radius - 1 ≤ j → j < col → t.buffer (j % (radius + 1)) = x j))
    (by omega)
    ⟨hinv, hlen, by simp [hpos], fun j _ hj => by
      rw [Nat.mod_eq_of_lt hj]
      exact hbuf j hj⟩
    (by
      intro col t h1 h2 ⟨hI, hl, hp, hb⟩
      have hsrc : srcAt src t.dst row (col + radius) = x (col + radius) :=
        hI.2.2.1 _ (by omega)
      have hold : t.buffer t.pos = x (col - radius - 1) := by
        rw [hp]
        exact hb _ (le_refl _) (by omega)
      have hcolmod : col % (radius + 1) = (col - radius - 1) % (radius + 1) := by
        have : col = (col - radius - 1) + (radius + 1) := by omega
        conv_lhs => rw [this, Nat.add_mod_right]
      refine ⟨horizontalInv_step src x d0 radius W row col t _ hI (by omega) rfl ?_, ?_, ?_, ?_⟩
      · simp only [horizontalSlide]
        rw [hI.1, hl, hsrc, hold]
        exact lineMean_slide x radius W col h1 (by omega)
      · simp only [horizontalSlide, hl]
      · simp only [horizontalSlide]
        rw [hp, nextPos_mod]
        congr 1
        omega
      · intro j hj1 hj2
        simp only [horizontalSlide]
        by_cases hjc : j = col
        · subst hjc
          rw [hp, hcolmod, Function.update_same]
          exact hI.2.2.1 j (le_refl _)
        · have hne : j % (radius + 1) ≠ t.pos := by
            rw [hp]
            exact (ring_ne (radius + 1) (col - radius - 1) j (by omega) (by omega)).symm
          rw [Function.update_noteq hne]
          exact hb j (by omega) (by omega))

/-- The loop of the shrinking windows (`boxblur.h:373-379`). -/
theorem horizontalShrink_loop (src : Option Image) (x : Nat → ℚ) (d0 : Image)
    (radius W row : Nat) (s : BlurState) (hW : 2 * radius + 1 ≤ W)
    (hinv : horizontalInv src x d0 radius W row (W - radius) s)
    (hlen : s.len = 2 * (radius : ℚ) + 1)
    (hpos : s.pos = (W - radius - radius - 1) % (radius + 1))
    (hbuf : ∀ j, W - radius - radius - 1 ≤ j → j < W - radius →
      s.buffer (j % (radius + 1)) = x j) :
    horizontalInv src x d0 radius W row W
      (forLoop (W - radius) W (horizontalShrink radius row) s) := by
  have := forLoop_invariant (W - radius) W (horizontalShrink radius row) s
    (fun col (t : BlurState) => horizontalInv src x d0 radius W row col t ∧
      t.len = (W : ℚ) + radius + 1 - col ∧ t.pos = (col - radius - 1) % (radius + 1) ∧
      (∀ j, W - radius - radius - 1 ≤ j → j < W - radius →
        t.buffer (j % (radius + 1)) = x j))
    (by omega)
    ⟨hinv, by rw [hlen, Nat.cast_sub (by omega)]; ring, hpos, hbuf⟩
    (by
      intro col t h1 h2 ⟨hI, hl, hp, hb⟩
      have hold : t.buffer t.pos = x (col - radius - 1) := by
        rw [hp]
        exact hb _ (by omega) (by omega)
      refine ⟨horizontalInv_step src x d0 radius W row col t _ hI (by omega) rfl ?_, ?_, ?_, ?_⟩
      · simp only [horizontalShrink]
        rw [hI.1, hl, hold]
        have e : (W : ℚ) + radius + 1 - col - 1 = (W : ℚ) + radius - col := by ring
        rw [e]
        exact lineMean_shrink x radius W col (by omega) (by omega) h2
      · simp only [horizontalShrink, hl]
        push_cast
        ring
      · simp only [horizontalShrink]
        rw [hp, nextPos_mod]
        congr 1
        omega
      · intro j hj1 hj2
        simp only [horizontalShrink]
        exact hb j hj1 hj2)
  exact this.1

/-- The first sample of a row (`boxblur.h:347-355`). -/
theorem horizontalStart_spec (src : Option Image) (radius W row : Nat) (s0 : BlurState)
    (hW : 2 * radius + 1 ≤ W) :
    horizontalInv src (fun j => srcAt src s0.dst row j) s0.dst radius W row 1
        (horizontalStart src radius row s0) ∧
      (horizontalStart src radius row s0).len = (radius : ℚ) + 1 ∧
      (horizontalStart src radius row s0).buffer 0 = srcAt src s0.dst row 0 := by
  -- the sum of the first window
  have hA := forLoop_invariant 1 (radius + 1)
    (fun j (s : BlurState) => { s with tempval := s.tempval + srcAt src s.dst row j })
    { s0 with len := (radius : ℚ) + 1, tempval := srcAt src s0.dst row 0,
              buffer := Function.update s0.buffer 0 (srcAt src s0.dst row 0) }
    (fun j (s : BlurState) =>
      s.tempval = prefixSum (fun j => srcAt src s0.dst row j) j ∧ s.dst = s0.dst ∧
      s.len = (radius : ℚ) + 1 ∧ s.buffer 0 = srcAt src s0.dst row 0)
    (by omega)
    ⟨by simp [prefixSum], rfl, rfl, by simp⟩
    (by
      intro j s _ _ ⟨h1, h2, h3, h4⟩
      refine ⟨?_, h2, h3, h4⟩
      simp only [h1, h2, prefixSum_succ])
  obtain ⟨hA1, hA2, hA3, hA4⟩ := hA
  have hmean0 : lineMean (fun j => srcAt src s0.dst row j) radius W 0
      = prefixSum (fun j => srcAt src s0.dst row j) (radius + 1) / ((radius : ℚ) + 1) := by
    rw [lineMean_head _ radius W 0 (by omega) (by omega)]
    simp
  unfold horizontalStart
  dsimp only
  refine ⟨⟨?_, ?_, ?_, ?_⟩, hA3, hA4⟩
  · rw [hA1, hA3, hmean0]
  · intro k hk
    have : k = 0 := by omega
    subst this
    rw [hA1, hA3, hmean0]
    simp [setPixel]
  · intro j hj
    rw [srcAt_setPixel src _ row 0 j _ (by omega), hA2]
  · intro r hr
    simp only [setPixel, Function.update_noteq hr]
    rw [hA2]

/-- The horizontal blur of one row (`boxblur.h:347-379`): the row of `dst`
becomes the window means of the row of `src`, the other rows are unchanged. -/
theorem horizontalRow_spec (src : Option Image) (radius W row : Nat) (s0 : BlurState)
    (hW : 2 * radius + 1 ≤ W) :
    (∀ c, c < W → (horizontalRow src radius W row s0).dst row c
        = lineMean (fun j => srcAt src s0.dst row j) radius W c) ∧
    (∀ r, r ≠ row → (horizontalRow src radius W row s0).dst r = s0.dst r) := by
  obtain ⟨hA1, hA2, hA3⟩ := horizontalStart_spec src radius W row s0 hW
  obtain ⟨hG1, hG2, hG3⟩ := horizontalGrow_loop src (fun j => srcAt src s0.dst row j)
    s0.dst radius W row _ hW hA1 hA2 hA3
  obtain ⟨hS1, hS2, hS3, hS4⟩ := horizontalSlide_loop src (fun j => srcAt src s0.dst row j)
    s0.dst radius W row
    { (forLoop 1 (radius + 1) (horizontalGrow src radius row)
        (horizontalStart src radius row s0)) with pos := 0 } hW hG1 hG2 rfl hG3
  have hE := horizontalShrink_loop src (fun j => srcAt src s0.dst row j) s0.dst radius W row
    _ hW hS1 hS2 hS3 hS4
  exact ⟨fun c hc => hE.2.1 c hc, hE.2.2.2⟩

/-! ## Box blur with row and line buffers: the vertical pass -/

/-- Storing in a pixel the value it holds changes nothing. -/
theorem setPixel_self (d : Image) (row col : Nat) : setPixel d row col (d row col) = d := by
  simp [setPixel]

/-- The pixels of an image after a store. -/
theorem setPixel_apply (d : Image) (row col : Nat) (v : ℚ) (i c : Nat) :
    setPixel d row col v i c = if i = row ∧ c = col then v else d i c := by
  unfold setPixel
  by_cases hi : i = row
  · subst hi
    by_cases hc : c = col
    · subst hc
      simp
    · simp [Function.update_noteq hc, hc]
  · simp [Function.update_noteq hi, hi]

/-- A loop over the `cnt` columns of a block whose iteration `k` stores `fd k`
in `dst[row][col + k]` and `fb k` in `rowBuffer[pw][k]`, whenever the column
`k` of `dst` and of `rowBuffer` is as before the loop. -/
theorem columnLoop_spec (cnt col row pw : Nat) (body : Nat → BlurState → BlurState)
    (s0 : BlurState) (fd fb : Nat → ℚ) (hcnt : cnt ≤ 8)
    (hbody : ∀ k s, k < cnt → (∀ i, s.dst i (col + k) = s0.dst i (col + k)) →
      (∀ p, s.buffer (p * 8 + k) = s0.buffer (p * 8 + k)) → s.len = s0.len →
      s.pos = s0.pos →
      body k s = { s with buffer := Function.update s.buffer (pw * 8 + k) (fb k),
                          dst := setPixel s.dst row (col + k) (fd k) }) :
    (forLoop 0 cnt body s0).len = s0.len ∧ (forLoop 0 cnt body s0).pos = s0.pos ∧
    (∀ i c, (forLoop 0 cnt body s0).dst i c
      = if i = row ∧ col ≤ c ∧ c < col + cnt then fd (c - col) else s0.dst i c) ∧
    (∀ p k, k < 8 → (forLoop 0 cnt body s0).buffer (p * 8 + k)
      = if p = pw ∧ k < cnt then fb k else s0.buffer (p * 8 + k)) := by
  exact forLoop_invariant 0 cnt body s0
    (fun k (t : BlurState) => t.len = s0.len ∧ t.pos = s0.pos ∧
      (∀ i c, t.dst i c
        = if i = row ∧ col ≤ c ∧ c < col + k then fd (c - col) else s0.dst i c) ∧
      (∀ p k', k' < 8 → t.buffer (p * 8 + k')
        = if p = pw ∧ k' < k then fb k' else s0.buffer (p * 8 + k')))
    (Nat.zero_le _)
    ⟨rfl, rfl, fun i c => by rw [if_neg (by omega)],
      fun p k' _ => by rw [if_neg (by omega)]⟩
    (by
      intro k t _ hk ⟨hl, hp, hd, hb⟩
      have hb' := hbody k t hk (fun i => by rw [hd, if_neg (by omega)])
        (fun p => by rw [hb p k (by omega), if_neg (by omega)]) hl hp
      rw [hb']
      refine ⟨hl, hp, ?_, ?_⟩
      · intro i c
        dsimp only
        rw [setPixel_apply, hd]
        by_cases h1 : i = row ∧ c = col + k
        · obtain ⟨h1a, h1b⟩ := h1
          subst h1b
          rw [if_pos ⟨h1a, rfl⟩, if_pos ⟨h1a, by omega, by omega⟩, Nat.add_sub_cancel_left]
        · rw [if_neg h1]
          by_cases h2 : i = row ∧ col ≤ c ∧ c < col + k
          · rw [if_pos h2, if_pos ⟨h2.1, h2.2.1, by omega⟩]
          · rw [if_neg h2, if_neg (by
              rintro ⟨h3, h4, h5⟩
              by_cases h6 : c = col + k
              · exact h1 ⟨h3, h6⟩
              · exact h2 ⟨h3, h4, by omega⟩)]
      · intro p k' hk'
        dsimp only
        by_cases h1 : p = pw ∧ k' = k
        · obtain ⟨h1a, h1b⟩ := h1
          subst h1a h1b
          rw [Function.update_same, if_pos ⟨rfl, by omega⟩]
        · have hne : p * 8 + k' ≠ pw * 8 + k := by
            intro h
            apply h1
            omega
          rw [Function.update_noteq hne, hb p k' hk']
          by_cases h2 : p = pw ∧ k' < k
          · rw [if_pos h2, if_pos ⟨h2.1, by omega⟩]
          · rw [if_neg h2, if_neg (by
              rintro ⟨h3, h4⟩
              by_cases h6 : k' = k
              · exact h1 ⟨h3, h6⟩
              · exact h2 ⟨h3, by omega⟩)])

/-- The first row of a block of columns (`boxblur.h:455-469, 513-524`). -/
theorem verticalStart_spec (radius H col cnt : Nat) (s0 : BlurState) (hcnt : cnt ≤ 8)
    (hH : 2 * radius + 1 ≤ H) :
    verticalInv s0.dst radius H col cnt 1 (verticalStart radius col cnt s0) ∧
      (verticalStart radius col cnt s0).len = (radius : ℚ) + 1 ∧
      (∀ k, k < cnt → (verticalStart radius col cnt s0).buffer (0 * 8 + k)
        = s0.dst 0 (col + k)) := by
  unfold verticalStart
  dsimp only
  -- the first row is saved in the row buffer
  obtain ⟨hA1, -, hA3, hA4⟩ := columnLoop_spec cnt col 0 0 (verticalSave col)
    { s0 with len := (radius : ℚ) + 1 } (fun k => s0.dst 0 (col + k))
    (fun k => s0.dst 0 (col + k)) hcnt
    (by
      intro k s _ hd _ _ _
      dsimp only at hd
      unfold verticalSave
      dsimp only
      rw [← hd 0, setPixel_self])
  have hA3' : ∀ i c, (forLoop 0 cnt (verticalSave col)
      { s0 with len := (radius : ℚ) + 1 }).dst i c = s0.dst i c := by
    intro i c
    rw [hA3]
    split
    · next h =>
      obtain ⟨h1, h2, h3⟩ := h
      have : col + (c - col) = c := by omega
      rw [this, h1]
    · rfl
  have hA4' : ∀ k, k < cnt → (forLoop 0 cnt (verticalSave col)
      { s0 with len := (radius : ℚ) + 1 }).buffer (0 * 8 + k) = s0.dst 0 (col + k) := by
    intro k hk
    rw [hA4 0 k (by omega), if_pos ⟨rfl, hk⟩]
  generalize forLoop 0 cnt (verticalSave col) { s0 with len := (radius : ℚ) + 1 } = sA
    at hA1 hA3' hA4' ⊢
  dsimp only at hA1
  -- the sums of the first windows
  have hB := forLoop_invariant 1 (radius + 1)
    (fun i s => forLoop 0 cnt (verticalAdd col i) s) sA
    (fun i (s : BlurState) => s.len = (radius : ℚ) + 1 ∧
      (∀ k, k < cnt → s.dst 0 (col + k) = prefixSum (fun i => s0.dst i (col + k)) i) ∧
      (∀ r c, (1 ≤ r ∨ c < col ∨ col + cnt ≤ c) → s.dst r c = s0.dst r c) ∧
      (∀ k, k < cnt → s.buffer (0 * 8 + k) = s0.dst 0 (col + k)))
    (by omega)
    ⟨hA1, fun k _ => by rw [hA3']; simp [prefixSum], fun r c _ => hA3' r c, hA4'⟩
    (by
      intro i s h1 _ ⟨hl, hs, hf, hb⟩
      obtain ⟨c1, -, c3, c4⟩ := columnLoop_spec cnt col 0 0 (verticalAdd col i) s
        (fun k => prefixSum (fun i => s0.dst i (col + k)) (i + 1))
        (fun k => s.buffer (0 * 8 + k)) hcnt
        (by
          intro k t hk hd hbuf _ _
          unfold verticalAdd
          dsimp only
          rw [hd 0, hd i, hs k hk, hf i (col + k) (Or.inl h1), ← hbuf 0,
            Function.update_eq_self, prefixSum_succ])
      refine ⟨c1.trans hl, ?_, ?_, ?_⟩
      · intro k hk
        dsimp only
        rw [c3, if_pos ⟨rfl, by omega, by omega⟩, Nat.add_sub_cancel_left]
      · intro r c hrc
        dsimp only
        rw [c3, if_neg (by omega)]
        exact hf r c hrc
      · intro k hk
        dsimp only
        rw [c4 0 k (by omega), if_pos ⟨rfl, hk⟩]
        exact hb k hk)
  obtain ⟨hB1, hB2, hB3, hB4⟩ := hB
  generalize forLoop 1 (radius + 1) (fun i s => forLoop 0 cnt (verticalAdd col i) s) sA = sB
    at hB1 hB2 hB3 hB4 ⊢
  -- the means of the first windows
  obtain ⟨hC1, -, hC3, hC4⟩ := columnLoop_spec cnt col 0 0 (verticalDivide col) sB
    (fun k => lineMean (fun i => s0.dst i (col + k)) radius H 0)
    (fun k => sB.buffer (0 * 8 + k)) hcnt
    (by
      intro k t hk hd hbuf hlen _
      unfold verticalDivide
      dsimp only
      rw [hd 0, hlen, hB1, hB2 k hk, ← hbuf 0, Function.update_eq_self,
        lineMean_head _ radius H 0 (by omega) (by omega)]
      simp)
  refine ⟨⟨?_, ?_, ?_⟩, hC1.trans hB1, ?_⟩
  · intro k hk i hi
    have : i = 0 := by omega
    subst this
    rw [hC3, if_pos ⟨rfl, by omega, by omega⟩, Nat.add_sub_cancel_left]
  · intro k hk i hi
    rw [hC3, if_neg (by omega)]
    exact hB3 i (col + k) (Or.inl hi)
  · intro i c hc
    rw [hC3, if_neg (by omega)]
    exact hB3 i c (Or.inr hc)
  · intro k hk
    rw [hC4 0 k (by omega), if_pos ⟨rfl, hk⟩]
    exact hB4 k hk

/-- The loop of the growing windows of a block of columns
(`boxblur.h:471-478, 525-531`). -/
theorem verticalGrow_loop (d0 : Image) (radius H col cnt : Nat) (s : BlurState)
    (hcnt : cnt ≤ 8) (hH : 2 * radius + 1 ≤ H)
    (hinv : verticalInv d0 radius H col cnt 1 s) (hlen : s.len = (radius : ℚ) + 1)
    (hbuf : ∀ k, k < cnt → s.buffer (0 * 8 + k) = d0 0 (col + k)) :
    verticalInv d0 radius H col cnt (radius + 1)
        (forLoop 1 (radius + 1)
          (fun row s =>
            let s := forLoop 0 cnt (verticalGrow radius col row) s
            { s with len := s.len + 1 }) s) ∧
      (forLoop 1 (radius + 1)
          (fun row s =>
            let s := forLoop 0 cnt (verticalGrow radius col row) s
            { s with len := s.len + 1 }) s).len = 2 * (radius : ℚ) + 1 ∧
      (∀ k, k < cnt → ∀ i, i < radius + 1 →
        (forLoop 1 (radius + 1)
          (fun row s =>
            let s := forLoop 0 cnt (verticalGrow radius col row) s
            { s with len := s.len + 1 }) s).buffer (i * 8 + k) = d0 i (col + k)) := by
  have := forLoop_invariant 1 (radius + 1)
    (fun row s =>
      let s := forLoop 0 cnt (verticalGrow radius col row) s
      { s with len := s.len + 1 }) s
    (fun row (t : BlurState) => verticalInv d0 radius H col cnt row t ∧
      t.len = (radius : ℚ) + row ∧
      (∀ k, k < cnt → ∀ i, i < row → t.buffer (i * 8 + k) = d0 i (col + k)))
    (by omega)
    ⟨hinv, by simpa using hlen, fun k hk i hi => by
      have : i = 0 := by omega
      rw [this]
      exact hbuf k hk⟩
    (by
      intro row t h1 h2 ⟨hI, hl, hb⟩
      obtain ⟨c1, -, c3, c4⟩ := columnLoop_spec cnt col row row (verticalGrow radius col row) t
        (fun k => lineMean (fun i => d0 i (col + k)) radius H row)
        (fun k => d0 row (col + k)) hcnt
        (by
          intro k u hk hd _ hlen' _
          have hstep := lineMean_grow (fun i => d0 i (col + k)) radius H row h1 (by omega)
            (by omega)
          dsimp only at hstep
          unfold verticalGrow
          dsimp only
          rw [hd row, hd (row - 1), hd (row + radius), hlen', hI.2.1 k hk row (le_refl _),
            hI.1 k hk (row - 1) (by omega), hI.2.1 k hk (row + radius) (by omega), hl, hstep])
      refine ⟨⟨?_, ?_, ?_⟩, ?_, ?_⟩
      · intro k hk i hi
        dsimp only
        rw [c3]
        by_cases hir : i = row
        · rw [if_pos ⟨hir, by omega, by omega⟩, Nat.add_sub_cancel_left, hir]
        · rw [if_neg (by omega)]
          exact hI.1 k hk i (by omega)
      · intro k hk i hi
        dsimp only
        rw [c3, if_neg (by omega)]
        exact hI.2.1 k hk i (by omega)
      · intro i c hc
        dsimp only
        rw [c3, if_neg (by omega)]
        exact hI.2.2 i c hc
      · dsimp only
        rw [c1, hl]
        push_cast
        ring
      · intro k hk i hi
        dsimp only
        rw [c4 i k (by omega)]
        by_cases hir : i = row
        · rw [if_pos ⟨hir, hk⟩, hir]
        · rw [if_neg (by omega)]
          exact hb k hk i (by omega))
  refine ⟨this.1, ?_, this.2.2⟩
  rw [this.2.1]
  push_cast
  ring

/-- The loop of the full windows of a block of columns
(`boxblur.h:481-489, 534-542`): the ring `rowBuffer` holds the last
`radius + 1` rows read. -/
theorem verticalSlide_loop (d0 : Image) (radius H col cnt : Nat) (rlen : Bool)
    (rlenVal : ℚ) (s : BlurState) (hcnt : cnt ≤ 8) (hH : 2 * radius + 1 ≤ H)
    (hr : rlenVal = 1 / (2 * (radius : ℚ) + 1))
    (hinv : verticalInv d0 radius H col cnt (radius + 1) s)
    (hlen : s.len = 2 * (radius : ℚ) + 1) (hpos : s.pos = 0)
    (hbuf : ∀ k, k < cnt → ∀ i, i < radius + 1 → s.buffer (i * 8 + k) = d0 i (col + k)) :
    verticalInv d0 radius H col cnt (H - radius)
        (forLoop (radius + 1) (H - radius)
          (fun row s =>
            let s := forLoop 0 cnt (verticalSlide radius col rlen rlenVal row) s
            { s with pos := nextPos radius s.pos }) s) ∧
      (forLoop (radius + 1) (H - radius)
          (fun row s =>
            let s := forLoop 0 cnt (verticalSlide radius col rlen rlenVal row) s
            { s with pos := nextPos radius s.pos }) s).len = 2 * (radius : ℚ) + 1 ∧
      (forLoop (radius + 1) (H - radius)
          (fun row s =>
            let s := forLoop 0 cnt (verticalSlide radius col rlen rlenVal row) s
            { s with pos := nextPos radius s.pos }) s).pos
        = (H - radius - radius - 1) % (radius + 1) ∧
      (∀ k, k < cnt → ∀ j, H - radius - radius - 1 ≤ j → j < H - radius →
        (forLoop (radius + 1) (H - radius)
          (fun row s =>
            let s := forLoop 0 cnt (verticalSlide radius col rlen rlenVal row) s
            { s with pos := nextPos radius s.pos }) s).buffer (j % (radius + 1) * 8 + k)
          = d0 j (col + k)) := by
  exact forLoop_invariant (radius + 1) (H - radius)
    (fun row s =>
      let s := forLoop 0 cnt (verticalSlide radius col rlen rlenVal row) s
      { s with pos := nextPos radius s.pos }) s
    (fun row (t : BlurState) => verticalInv d0 radius H col cnt row t ∧
      t.len = 2 * (radius : ℚ) + 1 ∧ t.pos = (row - radius - 1) % (radius + 1) ∧
      (∀ k, k < cnt → ∀ j, row - radius - 1 ≤ j → j < row →
        t.buffer (j % (radius + 1) * 8 + k) = d0 j (col + k)))
    (by omega)
    ⟨hinv, hlen, by simp [hpos], fun k hk j _ hj => by
      rw [Nat.mod_eq_of_lt hj]
      exact hbuf k hk j hj⟩
    (by
      intro row t h1 h2 ⟨hI, hl, hp, hb⟩
      have hrowmod : row % (radius + 1) = (row - radius - 1) % (radius + 1) := by
        have : row = (row - radius - 1) + (radius + 1) := by omega
        conv_lhs => rw [this, Nat.add_mod_right]
      have hlt : (row - radius - 1) % (radius + 1) < radius + 1 :=
        Nat.mod_lt _ (Nat.succ_pos _)
      obtain ⟨c1, c2, c3, c4⟩ := columnLoop_spec cnt col row t.pos
        (verticalSlide radius col rlen rlenVal row) t
        (fun k => lineMean (fun i => d0 i (col + k)) radius H row)
        (fun k => d0 row (col + k)) hcnt
        (by
          intro k u hk hd hbuf' hlen' hpos'
          have hstep := lineMean_slide (fun i => d0 i (col + k)) radius H row h1 (by omega)
          dsimp only at hstep
          have hold : t.buffer (t.pos * 8 + k) = d0 (row - radius - 1) (col + k) := by
            rw [hp]
            exact hb k hk _ (le_refl _) (by omega)
          unfold verticalSlide
          dsimp only
          rw [hpos', hbuf' t.pos, hd row, hd (row - 1), hd (row + radius), hlen', hold,
            hI.2.1 k hk row (le_refl _), hI.1 k hk (row - 1) (by omega),
            hI.2.1 k hk (row + radius) (by omega), hl, hr, ← hstep]
          cases rlen
          · rfl
          · simp only [if_true, mul_one_div])
      refine ⟨⟨?_, ?_, ?_⟩, ?_, ?_, ?_⟩
      · intro k hk i hi
        dsimp only
        rw [c3]
        by_cases hir : i = row
        · rw [if_pos ⟨hir, by omega, by omega⟩, Nat.add_sub_cancel_left, hir]
        · rw [if_neg (by omega)]
          exact hI.1 k hk i (by omega)
      · intro k hk i hi
        dsimp only
        rw [c3, if_neg (by omega)]
        exact hI.2.1 k hk i (by omega)
      · intro i c hc
        dsimp only
        rw [c3, if_neg (by omega)]
        exact hI.2.2 i c hc
      · dsimp only
        rw [c1, hl]
      · dsimp only
        rw [c2, hp, nextPos_mod]
        congr 1
        omega
      · intro k hk j hj1 hj2
        dsimp only
        rw [c4 _ k (by omega)]
        by_cases hjr : j = row
        · rw [if_pos ⟨by rw [hjr, hrowmod, hp], hk⟩, hjr]
        · have hne : j % (radius + 1) ≠ t.pos := by
            rw [hp]
            exact (ring_ne (radius + 1) (row - radius - 1) j (by omega) (by omega)).symm
          rw [if_neg (fun h => hne h.1)]
          exact hb k hk j (by omega) (by omega))

/-- The loop of the shrinking windows of a block of columns
(`boxblur.h:491-498, 543-550`). -/
theorem verticalShrink_loop (d0 : Image) (radius H col cnt : Nat) (s : BlurState)
    (hcnt : cnt ≤ 8) (hH : 2 * radius + 1 ≤ H)
    (hinv : verticalInv d0 radius H col cnt (H - radius) s)
    (hlen : s.len = 2 * (radius : ℚ) + 1)
    (hpos : s.pos = (H - radius - radius - 1) % (radius + 1))
    (hbuf : ∀ k, k < cnt → ∀ j, H - radius - radius - 1 ≤ j → j < H - radius →
      s.buffer (j % (radius + 1) * 8 + k) = d0 j (col + k)) :
    verticalInv d0 radius H col cnt H
      (forLoop (H - radius) H
        (fun row s =>
          let s := forLoop 0 cnt (verticalShrink col row) s
          let s := { s with len := s.len - 1 }
          { s with pos := nextPos radius s.pos }) s) := by
  have := forLoop_invariant (H - radius) H
    (fun row s =>
      let s := forLoop 0 cnt (verticalShrink col row) s
      let s := { s with len := s.len - 1 }
      { s with pos := nextPos radius s.pos }) s
    (fun row (t : BlurState) => verticalInv d0 radius H col cnt row t ∧
      t.len = (H : ℚ) + radius + 1 - row ∧ t.pos = (row - radius - 1) % (radius + 1) ∧
      (∀ k, k < cnt → ∀ j, H - radius - radius - 1 ≤ j → j < H - radius →
        t.buffer (j % (radius + 1) * 8 + k) = d0 j (col + k)))
    (by omega)
    ⟨hinv, by rw [hlen, Nat.cast_sub (by omega)]; ring, hpos, hbuf⟩
    (by
      intro row t h1 h2 ⟨hI, hl, hp, hb⟩
      have hlt : (row - radius - 1) % (radius + 1) < radius + 1 :=
        Nat.mod_lt _ (Nat.succ_pos _)
      obtain ⟨c1, c2, c3, c4⟩ := columnLoop_spec cnt col row t.pos
        (verticalShrink col row) t
        (fun k => lineMean (fun i => d0 i (col + k)) radius H row)
        (fun k => t.buffer (t.pos * 8 + k)) hcnt
        (by
          intro k u hk hd hbuf' hlen' hpos'
          have hstep := lineMean_shrink (fun i => d0 i (col + k)) radius H row (by omega)
            (by omega) h2
          dsimp only at hstep
          have hold : t.buffer (t.pos * 8 + k) = d0 (row - radius - 1) (col + k) := by
            rw [hp]
            exact hb k hk _ (by omega) (by omega)
          have e : (H : ℚ) + radius + 1 - row - 1 = (H : ℚ) + radius - row := by ring
          unfold verticalShrink
          dsimp only
          rw [hpos', ← hbuf' t.pos, Function.update_eq_self, hbuf' t.pos, hd (row - 1), hlen',
            hold, hI.1 k hk (row - 1) (by omega), hl, e, hstep])
      refine ⟨⟨?_, ?_, ?_⟩, ?_, ?_, ?_⟩
      · intro k hk i hi
        dsimp only
        rw [c3]
        by_cases hir : i = row
        · rw [if_pos ⟨hir, by omega, by omega⟩, Nat.add_sub_cancel_left, hir]
        · rw [if_neg (by omega)]
          exact hI.1 k hk i (by omega)
      · intro k hk i hi
        dsimp only
        rw [c3, if_neg (by omega)]
        exact hI.2.1 k hk i (by omega)
      · intro i c hc
        dsimp only
        rw [c3, if_neg (by omega)]
        exact hI.2.2 i c hc
      · dsimp only
        rw [c1, hl]
        push_cast
        ring
      · dsimp only
        rw [c2, hp, nextPos_mod]
        congr 1
        omega
      · intro k hk j hj1 hj2
        dsimp only
        rw [c4 _ k (by omega)]
        split
        · next h =>
          rw [← h.1]
          exact hb k hk j hj1 hj2
        · exact hb k hk j hj1 hj2)
  exact this.1

/-- The vertical blur of a block of columns: every column of the block
becomes the window means of the column, the other columns are unchanged. -/
theorem verticalCols_spec (radius H col cnt : Nat) (rlen : Bool) (s0 : BlurState)
    (hcnt : cnt ≤ 8) (hH : 2 * radius + 1 ≤ H) :
    verticalInv s0.dst radius H col cnt H (verticalCols radius H col cnt rlen s0) := by
  obtain ⟨hA1, hA2, hA3⟩ := verticalStart_spec radius H col cnt s0 hcnt hH
  obtain ⟨hG1, hG2, hG3⟩ := verticalGrow_loop s0.dst radius H col cnt _ hcnt hH hA1 hA2 hA3
  obtain ⟨hS1, hS2, hS3, hS4⟩ := verticalSlide_loop s0.dst radius H col cnt rlen
    (1 / (forLoop 1 (radius + 1)
      (fun row s =>
        let s := forLoop 0 cnt (verticalGrow radius col row) s
        { s with len := s.len + 1 }) (verticalStart radius col cnt s0)).len)
    { (forLoop 1 (radius + 1)
      (fun row s =>
        let s := forLoop 0 cnt (verticalGrow radius col row) s
        { s with len := s.len + 1 }) (verticalStart radius col cnt s0)) with pos := 0 }
    hcnt hH (by rw [hG2]) hG1 hG2 rfl hG3
  exact verticalShrink_loop s0.dst radius H col cnt _ hcnt hH hS1 hS2 hS3 hS4

/-- What `src[row][col]` reads depends on the row `row` of `dst` only. -/
theorem srcAt_congr (src : Option Image) (d e : Image) (row : Nat) (h : d row = e row)
    (j : Nat) : srcAt src d row j = srcAt src e row j := by
  cases src with
  | some im => rfl
  | none => simp [srcAt, h]

/-- The horizontal blur (`boxblur.h:346-380`): every row of `dst` becomes the
window means of the row of `src`. -/
theorem horizontal_spec (src : Option Image) (radius W H : Nat) (s0 : BlurState)
    (hW : 2 * radius + 1 ≤ W) (r c : Nat) (hr : r < H) (hc : c < W) :
    (forLoop 0 H (fun row s => horizontalRow src radius W row s) s0).dst r c
      = lineMean (fun j => srcAt src s0.dst r j) radius W c := by
  have := forLoop_invariant 0 H (fun row s => horizontalRow src radius W row s) s0
    (fun row (s : BlurState) =>
      (∀ i, i < row → ∀ k, k < W →
        s.dst i k = lineMean (fun j => srcAt src s0.dst i j) radius W k) ∧
      (∀ i, row ≤ i → s.dst i = s0.dst i))
    (Nat.zero_le _)
    ⟨fun i hi => absurd hi (Nat.not_lt_zero i), fun _ _ => rfl⟩
    (by
      intro row s _ _ ⟨h1, h2⟩
      obtain ⟨a1, a2⟩ := horizontalRow_spec src radius W row s hW
      refine ⟨?_, ?_⟩
      · intro i hi k hk
        dsimp only
        by_cases hir : i = row
        · subst hir
          rw [a1 k hk]
          congr 1
          funext j
          exact srcAt_congr src s.dst s0.dst i (h2 i (le_refl _)) j
        · rw [a2 i hir]
          exact h1 i (by omega) k hk
      · intro i hi
        dsimp only
        rw [a2 i (by omega)]
        exact h2 i (by omega))
  exact this.1 r hr c hc

/-- Loop invariants for a loop with a step. -/
theorem forLoopStep_invariant {σ : Type} (lo hi step : Nat) (body : Nat → σ → σ) (init : σ)
    (P : Nat → σ → Prop) (h0 : P 0 init)
    (hstep : ∀ t s, t < (hi - lo + step - 1) / step → P t s →
      P (t + 1) (body (lo + step * t) s)) :
    P ((hi - lo + step - 1) / step) (forLoopStep lo hi step body init) := by
  unfold forLoopStep
  generalize (hi - lo + step - 1) / step = n at hstep ⊢
  induction n with
  | zero => exact h0
  | succ n ih =>
    rw [List.range'_concat, List.foldl_append]
    exact hstep n _ (Nat.lt_succ_self n)
      (ih (fun t s ht hp => hstep t s (Nat.lt_succ_of_lt ht) hp))

/-- The vertical blur of the tiles of `numCols` columns
(`boxblur.h:454-499`). -/
theorem tiles_spec (radius W H : Nat) (s0 : BlurState) (hH : 2 * radius + 1 ≤ H) :
    (∀ c, c < 8 * (W / 8) → ∀ i, i < H →
      (forLoopStep 0 (W + 1 - numCols) 8
        (fun col s => verticalCols radius H col numCols false s) s0).dst i c
        = lineMean (fun i => s0.dst i c) radius H i) ∧
    (∀ c, 8 * (W / 8) ≤ c → ∀ i,
      (forLoopStep 0 (W + 1 - numCols) 8
        (fun col s => verticalCols radius H col numCols false s) s0).dst i c
        = s0.dst i c) := by
  have hn : (W + 1 - numCols - 0 + 8 - 1) / 8 = W / 8 := by
    simp only [numCols]
    omega
  have := forLoopStep_invariant 0 (W + 1 - numCols) 8
    (fun col s => verticalCols radius H col numCols false s) s0
    (fun t (s : BlurState) =>
      (∀ c, c < 8 * t → ∀ i, i < H → s.dst i c = lineMean (fun i => s0.dst i c) radius H i) ∧
      (∀ c, 8 * t ≤ c → ∀ i, s.dst i c = s0.dst i c))
    ⟨fun c hc => absurd hc (by omega), fun _ _ _ => rfl⟩
    (by
      intro t s _ ⟨h1, h2⟩
      obtain ⟨v1, -, v3⟩ := verticalCols_spec radius H (0 + 8 * t) numCols false s
        (le_refl _) hH
      refine ⟨?_, ?_⟩
      · intro c hc i hi
        dsimp only
        by_cases hct : c < 8 * t
        · rw [v3 i c (Or.inl (by omega))]
          exact h1 c hct i hi
        · have hck : c = 0 + 8 * t + (c - 8 * t) := by omega
          have hk : c - 8 * t < numCols := by simp only [numCols]; omega
          have := v1 (c - 8 * t) hk i hi
          rw [← hck] at this
          rw [this]
          congr 1
          funext j
          exact h2 c (by omega) j
      · intro c hc i
        dsimp only
        rw [v3 i c (Or.inr (by simp only [numCols]; omega))]
        exact h2 c (by omega) i)
  rw [hn] at this
  exact this

/-- The row/line-buffer blur leaves in `dst` the window means along the
columns of the window means along the rows of `src`. -/
theorem boxblurRowBuffer_lineMean (src : Option Image) (dst : Image) (radius W H : Nat)
    (multiThread : Bool) (buffer : Nat → ℚ) (hrad : 1 ≤ radius) (hW : 2 * radius + 1 ≤ W)
    (hH : 2 * radius + 1 ≤ H) (r c : Nat) (hr : r < H) (hc : c < W) :
    boxblurRowBuffer src dst radius W H multiThread buffer r c
      = lineMean (fun i => lineMean (fun j => srcAt src dst i j) radius W c) radius H r := by
  unfold boxblurRowBuffer
  rw [if_neg (by omega)]
  -- the horizontal pass
  have hT : ∀ i k, i < H → k < W →
      (forLoop 0 H (fun row s => horizontalRow src radius W row s)
        { dst := dst, buffer := buffer, tempval := 0, len := 0, pos := 0 }).dst i k
      = lineMean (fun j => srcAt src dst i j) radius W k :=
    fun i k hi hk => horizontal_spec src radius W H _ hW i k hi hk
  generalize forLoop 0 H (fun row s => horizontalRow src radius W row s)
    { dst := dst, buffer := buffer, tempval := 0, len := 0, pos := 0 } = S1 at hT ⊢
  -- the tiles
  obtain ⟨hV1, hV2⟩ := tiles_spec radius W H S1 hH
  generalize forLoopStep 0 (W + 1 - numCols) 8
    (fun col s => verticalCols radius H col numCols false s) S1 = S2 at hV1 hV2 ⊢
  -- the remaining columns
  have hfin : (if W % numCols > 0 then
      verticalCols radius H (W - W % numCols) (W % numCols) true S2 else S2).dst r c
      = lineMean (fun i => S1.dst i c) radius H r := by
    have hcol : W - W % numCols = 8 * (W / 8) := by simp only [numCols]; omega
    by_cases hrem : W % numCols > 0
    · rw [if_pos hrem]
      obtain ⟨v1, -, v3⟩ := verticalCols_spec radius H (W - W % numCols) (W % numCols) true S2
        (by simp only [numCols]; omega) hH
      by_cases hct : c < 8 * (W / 8)
      · rw [v3 r c (Or.inl (by omega))]
        exact hV1 c hct r hr
      · have hck : c = W - W % numCols + (c - 8 * (W / 8)) := by omega
        have hk : c - 8 * (W / 8) < W % numCols := by simp only [numCols]; omega
        have := v1 (c - 8 * (W / 8)) hk r hr
        rw [← hck] at this
        rw [this]
        congr 1
        funext j
        exact hV2 c (by omega) j
    · rw [if_neg hrem]
      exact hV1 c (by simp only [numCols] at hrem; omega) r hr
  rw [hfin]
  exact lineMean_congr _ _ radius H r hr (fun i hi => hT i c hi hc)

/-- The full-size-buffer blur leaves in `dst` the window means along the
columns of the window means along the rows of `src`. -/
theorem boxblur_lineMean (src dst temp : Image) (radx rady W H : Nat)
    (hx : 2 * radx + 1 < W) (hy : 2 * rady + 1 < H) :
    ∃ out, boxblur src dst radx rady W H temp = some out ∧
      ∀ r c, r < H → c < W →
        out r c = lineMean (fun i => lineMean (src i) radx W c) rady H r := by
  unfold boxblur
  rw [if_neg (not_not.mpr hx), if_neg (not_not.mpr hy)]
  refine ⟨_, rfl, ?_⟩
  intro r c hr hc
  have hT : ∀ i k, i < H → k < W →
      (if radx = 0 then
        forLoop 0 H (fun row t =>
          forLoop 0 W (fun col t => setPixel t row col (src row col)) t) temp
      else
        forLoop 0 H (fun row t =>
          Function.update t row (blurLine (src row) radx W (t row))) temp) i k
      = lineMean (src i) radx W k := by
    intro i k hi hk
    by_cases h0 : radx = 0
    · subst h0
      rw [if_pos rfl, copy_spec src temp W H i k hi hk, lineMean_zero _ W k hk]
    · rw [if_neg h0]
      exact rows_spec src temp radx W H i k (by omega) hx hi hk
  generalize (if radx = 0 then
        forLoop 0 H (fun row t =>
          forLoop 0 W (fun col t => setPixel t row col (src row col)) t) temp
      else
        forLoop 0 H (fun row t =>
          Function.update t row (blurLine (src row) radx W (t row))) temp) = T at hT ⊢
  have hD : (if rady = 0 then
        forLoop 0 H (fun row d =>
          forLoop 0 W (fun col d => setPixel d row col (T row col)) d) dst
      else
        forLoop 0 W (fun col d =>
          let line := blurLine (fun row => T row col) rady H (fun row => d row col)
          fun row c => if c = col then line row else d row c) dst) r c
      = lineMean (fun i => T i c) rady H r := by
    by_cases h0 : rady = 0
    · subst h0
      rw [if_pos rfl, copy_spec T dst W H r c hr hc, lineMean_zero _ H r hr]
    · rw [if_neg h0]
      exact columns_spec T dst rady W H r c (by omega) hy hr hc
  dsimp only
  rw [hD]
  exact lineMean_congr _ (fun i => lineMean (src i) radx W c) rady H r hr
    (fun i hi => hT i c hi hc)

/-- C21, as stated, fails at `W = 2 * radius + 1`: for a 3 x 5 image and
radius 1, where `2 * radius + 1 <= W` and `2 * radius + 1 <= H` hold, the
full-size-buffer `boxblur` stops at `assert (2 * radx + 1 < W)` and leaves no
image, while the row/line-buffer `boxblur` returns with the box mean in
`dst[2][1]`. -/
theorem boxblur_rowBuffer_counterexample :
    2 * 1 + 1 ≤ 3 ∧ 2 * 1 + 1 ≤ 5 ∧
    boxblur exampleImage exampleImage 1 1 3 5 (fun _ _ => 0) = none ∧
    boxblurRowBuffer none exampleImage 1 3 5 false (fun _ => 0) 2 1
      = boxMean exampleImage 1 1 3 5 2 1 := by
  refine ⟨by decide, by decide, rfl, ?_⟩
  rw [boxblurRowBuffer_lineMean none exampleImage 1 3 5 false (fun _ => 0) (by decide)
    (by decide) (by decide) 2 1 (by decide) (by decide)]
  exact lineMean_lineMean exampleImage 1 1 3 5 2 1 (by decide) (by decide)

/-- C21, amended. In exact arithmetic, for every image, every content of the
scratch buffers and radius `>= 1` with `2 * radius + 1 <= W` and
`2 * radius + 1 <= H`, the row/line-buffer `boxblur` leaves in every
`dst[r][c]` of the image the box mean of `src`, also in place (`src == dst`);
when both inequalities are strict the full-size-buffer
`boxblur (src, dst, radius, radius, W, H)` passes its assertions and leaves
the same image, also in place; when one of them is an equality it stops at
its assertion. -/
theorem boxblur_rowBuffer_refines (src dst temp : Image) (buffer : Nat → ℚ)
    (radius W H : Nat) (multiThread : Bool) (hrad : 1 ≤ radius)
    (hW : 2 * radius + 1 ≤ W) (hH : 2 * radius + 1 ≤ H) :
    (∀ r c, r < H → c < W →
      boxblurRowBuffer (some src) dst radius W H multiThread buffer r c
        = boxMean src radius radius W H r c ∧
      boxblurRowBuffer none src radius W H multiThread buffer r c
        = boxMean src radius radius W H r c) ∧
    (2 * radius + 1 < W → 2 * radius + 1 < H →
      (∃ out, boxblur src dst radius radius W H temp = some out ∧
        ∀ r c, r < H → c < W →
          boxblurRowBuffer (some src) dst radius W H multiThread buffer r c = out r c) ∧
      (∃ out, boxblur src src radius radius W H temp = some out ∧
        ∀ r c, r < H → c < W →
          boxblurRowBuffer none src radius W H multiThread buffer r c = out r c)) ∧
    (W = 2 * radius + 1 ∨ H = 2 * radius + 1 →
      boxblur src dst radius radius W H temp = none) := by
  have hrow : ∀ (s : Option Image) (d : Image), (∀ i j, srcAt s d i j = src i j) →
      ∀ r c, r < H → c < W →
      boxblurRowBuffer s d radius W H multiThread buffer r c
        = lineMean (fun i => lineMean (src i) radius W c) radius H r := by
    intro s d hs r c hr hc
    rw [boxblurRowBuffer_lineMean s d radius W H multiThread buffer hrad hW hH r c hr hc]
    congr 1
    funext i
    congr 1
    funext j
    exact hs i j
  refine ⟨?_, ?_, ?_⟩
  · intro r c hr hc
    rw [hrow (some src) dst (fun _ _ => rfl) r c hr hc, hrow none src (fun _ _ => rfl) r c hr hc]
    exact ⟨lineMean_lineMean src radius radius W H r c hr hc,
      lineMean_lineMean src radius radius W H r c hr hc⟩
  · intro hW' hH'
    constructor
    · obtain ⟨out, ho, hm⟩ := boxblur_lineMean src dst temp radius radius W H hW' hH'
      refine ⟨out, ho, fun r c hr hc => ?_⟩
      rw [hrow (some src) dst (fun _ _ => rfl) r c hr hc, hm r c hr hc]
    · obtain ⟨out, ho, hm⟩ := boxblur_lineMean src src temp radius radius W H hW' hH'
      refine ⟨out, ho, fun r c hr hc => ?_⟩
      rw [hrow none src (fun _ _ => rfl) r c hr hc, hm r c hr hc]
  · intro h
    unfold boxblur
    by_cases h1 : 2 * radius + 1 < W
    · rw [if_neg (not_not.mpr h1), if_pos (by omega)]
    · rw [if_pos h1]

/-- C21, amended, on the 5 x 4 example image with radius 1: blurred in place
with row and line buffers, the sample `dst[1][2]` is the mean 23/3 of the nine
samples of its box, and the full-size-buffer blur leaves the same image. -/
theorem boxblur_rowBuffer_refines_witness :
    boxblurRowBuffer none exampleImage 1 5 4 false (fun _ => 0) 1 2 = 23 / 3 ∧
    ∃ out, boxblur exampleImage exampleImage 1 1 5 4 (fun _ _ => 0) = some out ∧
      ∀ r c, r < 4 → c < 5 →
        boxblurRowBuffer none exampleImage 1 5 4 false (fun _ => 0) r c = out r c := by
  have h := boxblur_rowBuffer_refines exampleImage exampleImage (fun _ _ => 0) (fun _ => 0)
    1 5 4 false (by decide) (by decide) (by decide)
  refine ⟨?_, (h.2.1 (by decide) (by decide)).2⟩
  rw [(h.1 1 2 (by decide) (by decide)).2]
  decide!

/-! ## Box blur: bounds of the output, zero radius -/

/-- The window mean lies between any two bounds of the samples of the line. -/
theorem lineMean_bounds (x : Nat → ℚ) (rad n c : Nat) (lo hi : ℚ) (hc : c < n)
    (h : ∀ j, j < n → lo ≤ x j ∧ x j ≤ hi) :
    lo ≤ lineMean x rad n c ∧ lineMean x rad n c ≤ hi := by
  rw [lineMean_eq_Icc x rad n c hc]
  have hmem : ∀ j ∈ Finset.Icc (c - rad) (min (n - 1) (c + rad)), lo ≤ x j ∧ x j ≤ hi := by
    intro j hj
    rw [Finset.mem_Icc] at hj
    exact h j (by omega)
  have hcard : (Finset.Icc (c - rad) (min (n - 1) (c + rad))).card
      = min (n - 1) (c + rad) - (c - rad) + 1 := by
    rw [Nat.card_Icc]
    omega
  have hpos : (0 : ℚ) < ((min (n - 1) (c + rad) - (c - rad) + 1 : Nat) : ℚ) := by
    exact_mod_cast Nat.succ_pos _
  have h1 := Finset.card_nsmul_le_sum (Finset.Icc (c - rad) (min (n - 1) (c + rad))) x lo
    (fun j hj => (hmem j hj).1)
  have h2 := Finset.sum_le_card_nsmul (Finset.Icc (c - rad) (min (n - 1) (c + rad))) x hi
    (fun j hj => (hmem j hj).2)
  rw [hcard, nsmul_eq_mul] at h1 h2
  constructor
  · rw [le_div_iff₀ hpos]
    linarith
  · rw [div_le_iff₀ hpos]
    linarith

/-- C34. In exact arithmetic and under `2 * radx + 1 < W` and
`2 * rady + 1 < H`, `boxblur (src, dst, radx, rady, W, H)` ends and every
output sample of the image lies between any lower bound `lo` and any upper
bound `hi` of the samples of `src`, so between the minimum and the maximum
sample of `src`; hence a constant image is a fixed point of the blur. -/
theorem boxblur_between_min_max (src dst temp : Image) (radx rady W H : Nat)
    (hx : 2 * radx + 1 < W) (hy : 2 * rady + 1 < H) :
    ∃ out, boxblur src dst radx rady W H temp = some out ∧
      (∀ lo hi : ℚ, (∀ i j, i < H → j < W → lo ≤ src i j ∧ src i j ≤ hi) →
        ∀ r c, r < H → c < W → lo ≤ out r c ∧ out r c ≤ hi) ∧
      (∀ v : ℚ, (∀ i j, i < H → j < W → src i j = v) →
        ∀ r c, r < H → c < W → out r c = src r c) := by
  obtain ⟨out, ho, hm⟩ := boxblur_lineMean src dst temp radx rady W H hx hy
  have hb : ∀ lo hi : ℚ, (∀ i j, i < H → j < W → lo ≤ src i j ∧ src i j ≤ hi) →
      ∀ r c, r < H → c < W → lo ≤ out r c ∧ out r c ≤ hi := by
    intro lo hi hsrc r c hr hc
    rw [hm r c hr hc]
    exact lineMean_bounds _ rady H r lo hi hr
      (fun i hi' => lineMean_bounds (src i) radx W c lo hi hc (fun j hj => hsrc i j hi' hj))
  refine ⟨out, ho, hb, ?_⟩
  intro v hv r c hr hc
  have := hb v v (fun i j hi hj => by rw [hv i j hi hj]; exact ⟨le_refl _, le_refl _⟩) r c hr hc
  rw [hv r c hr hc]
  exact le_antisymm this.2 this.1

/-- C34, on the 5 x 4 example image with radii 1 and 1, whose samples
`r * r + 3 * c` lie between 0 and 21: the blur ends and every output sample
lies between 0 and 21. -/
theorem boxblur_between_min_max_witness :
    ∃ out, boxblur exampleImage (fun _ _ => 0) 1 1 5 4 (fun _ _ => 0) = some out ∧
      ∀ r c, r < 4 → c < 5 → (0 : ℚ) ≤ out r c ∧ out r c ≤ 21 := by
  obtain ⟨out, ho, hb, -⟩ := boxblur_between_min_max exampleImage (fun _ _ => 0) (fun _ _ => 0)
    1 1 5 4 (by decide) (by decide)
  refine ⟨out, ho, hb 0 21 ?_⟩
  intro i j hi hj
  unfold exampleImage
  constructor
  · positivity
  · have h1 : i * i ≤ 9 := by nlinarith
    have h2 : i * i + 3 * j ≤ 21 := by omega
    exact_mod_cast h2

/-- C35, as stated, fails for the full-size-buffer version on a 1 x 1 image:
`boxblur (src, dst, 0, 0, 1, 1)` stops at `assert (2 * radx + 1 < W)` and
copies nothing. -/
theorem boxblur_zero_radius_counterexample :
    boxblur exampleImage (fun _ _ => 0) 0 0 1 1 (fun _ _ => 0) = none := by
  rfl

/-- C35, amended. A zero radius is the identity: for every `W` and `H`,
`boxblur (src, dst, 0, W, H, multiThread)` leaves every sample of `dst` in the
image equal to that of `src`, and leaves the image untouched when `src` and
`dst` are the same image; `boxblur (src, dst, 0, 0, W, H)` copies `src` to
`dst` when `1 < W` and `1 < H`, and stops at its assertion when `W <= 1` or
`H <= 1`. -/
theorem boxblur_zero_radius (src dst temp : Image) (buffer : Nat → ℚ) (W H : Nat)
    (multiThread : Bool) :
    (∀ r c, r < H → c < W →
      boxblurRowBuffer (some src) dst 0 W H multiThread buffer r c = src r c) ∧
    boxblurRowBuffer none dst 0 W H multiThread buffer = dst ∧
    (1 < W → 1 < H →
      ∃ out, boxblur src dst 0 0 W H temp = some out ∧
        ∀ r c, r < H → c < W → out r c = src r c) ∧
    (W ≤ 1 ∨ H ≤ 1 → boxblur src dst 0 0 W H temp = none) := by
  refine ⟨?_, ?_, ?_, ?_⟩
  · intro r c hr hc
    unfold boxblurRowBuffer
    rw [if_pos rfl]
    exact copy_spec src dst W H r c hr hc
  · unfold boxblurRowBuffer
    rw [if_pos rfl]
  · intro hW hH
    obtain ⟨out, ho, hm⟩ := boxblur_lineMean src dst temp 0 0 W H (by omega) (by omega)
    refine ⟨out, ho, fun r c hr hc => ?_⟩
    rw [hm r c hr hc, lineMean_zero _ H r hr, lineMean_zero _ W c hc]
  · intro h
    unfold boxblur
    by_cases h1 : 2 * 0 + 1 < W
    · rw [if_neg (not_not.mpr h1), if_pos (by omega)]
    · rw [if_pos h1]

/-- C35, amended, on the 5 x 4 example image: with radius 0 the row/line-buffer
blur copies the sample `src[3][4] = 21` and the full-size-buffer blur ends with
a copy of `src`. -/
theorem boxblur_zero_radius_witness :
    boxblurRowBuffer (some exampleImage) (fun _ _ => 0) 0 5 4 false (fun _ => 0) 3 4 = 21 ∧
    ∃ out, boxblur exampleImage (fun _ _ => 0) 0 0 5 4 (fun _ _ => 0) = some out ∧
      ∀ r c, r < 4 → c < 5 → out r c = exampleImage r c := by
  have h := boxblur_zero_radius exampleImage (fun _ _ => 0) (fun _ _ => 0) (fun _ => 0) 5 4 false
  refine ⟨?_, h.2.2.1 (by decide) (by decide)⟩
  rw [h.1 3 4 (by decide) (by decide)]
  decide!

/-! ## Box blur with the buffer of the caller: the horizontal pass -/

/-- Loop invariants for a loop that counts down. -/
theorem forLoopDown_invariant {σ : Type} (hi : Nat) (body : Nat → σ → σ) (init : σ)
    (P : Nat → σ → Prop) (h0 : P hi init)
    (hstep : ∀ i s, i < hi → P (i + 1) s → P i (body i s)) :
    P 0 (forLoopDown hi body init) := by
  induction hi generalizing init with
  | zero => exact h0
  | succ n ih =>
    have e : forLoopDown (n + 1) body init = forLoopDown n body (body n init) := by
      unfold forLoopDown
      rw [List.range_succ, List.foldr_append]
      rfl
    rw [e]
    exact ih (body n init) (hstep n init (Nat.lt_succ_self n) h0)
      (fun i s hi hp => hstep i s (Nat.lt_succ_of_lt hi) hp)

/-- One more store at the end of a run of stores. -/
theorem frame_step (t temp : Nat → ℚ) (g : Nat → ℚ) (base col : Nat) (v : ℚ)
    (h : ∀ i, t i = if base ≤ i ∧ i < base + col then g (i - base) else temp i)
    (hv : v = g col) (i : Nat) :
    Function.update t (base + col) v i
      = if base ≤ i ∧ i < base + (col + 1) then g (i - base) else temp i := by
  by_cases hi : i = base + col
  · subst hi
    rw [Function.update_same, if_pos ⟨by omega, by omega⟩, Nat.add_sub_cancel_left, hv]
  · rw [Function.update_noteq hi, h]
    by_cases hc : base ≤ i ∧ i < base + col
    · rw [if_pos hc, if_pos ⟨hc.1, by omega⟩]
    · rw [if_neg hc, if_neg (by omega)]

/-- The horizontal blur of one row stores the window means of the row in
`temp[row * W .. row * W + W - 1]` and leaves the rest of `temp`. -/
theorem blurRow_spec (first ahead behind x : Nat → ℚ) (rad n base : Nat) (recip : Bool)
    (temp : Nat → ℚ) (hn : 2 * rad + 1 ≤ n)
    (hfirst : ∀ j, j ≤ rad → first j = x j)
    (hahead : ∀ col, 1 ≤ col → col + rad < n → ahead col = x (col + rad))
    (hbehind : ∀ col, rad + 1 ≤ col → col < n → behind col = x (col - rad - 1)) (i : Nat) :
    blurRow first ahead behind rad n base recip temp i
      = if base ≤ i ∧ i < base + n then lineMean x rad n (i - base) else temp i := by
  unfold blurRow
  -- the sum of the first window
  have hA : forLoop 1 (rad + 1) (fun j tv => tv + first j) (first 0) = prefixSum x (rad + 1) :=
    forLoop_invariant 1 (rad + 1) _ _ (fun j (tv : ℚ) => tv = prefixSum x j) (by omega)
      (by simp [prefixSum, hfirst 0 (Nat.zero_le _)])
      (by
        intro j tv _ h2 hp
        rw [hp, prefixSum_succ, hfirst j (by omega)])
  have h0 : prefixSum x (rad + 1) / ((rad : ℚ) + 1) = lineMean x rad n 0 := by
    rw [lineMean_head x rad n 0 (Nat.zero_le _) (by omega)]
    simp
  rw [hA, h0]
  -- the growing windows
  obtain ⟨hB1, hB2, hB3⟩ := forLoop_invariant 1 (rad + 1) (blurRowGrow ahead base)
    { temp := Function.update temp (base + 0) (lineMean x rad n 0),
      tempval := lineMean x rad n 0, len := (rad : ℚ) + 1 }
    (fun col (s : LineState) => s.tempval = lineMean x rad n (col - 1) ∧
      s.len = (rad : ℚ) + col ∧
      ∀ i, s.temp i = if base ≤ i ∧ i < base + col then lineMean x rad n (i - base) else temp i)
    (by omega)
    ⟨rfl, by simp, fun i =>
      frame_step temp temp (lineMean x rad n) base 0 _
        (fun i => by rw [if_neg (by omega)]) rfl i⟩
    (by
      intro col s h1 h2 ⟨a1, a2, a3⟩
      have hv : (s.tempval * s.len + ahead col) / (s.len + 1) = lineMean x rad n col := by
        rw [a1, a2, hahead col h1 (by omega)]
        exact lineMean_grow x rad n col h1 (by omega) (by omega)
      unfold blurRowGrow
      dsimp only
      refine ⟨by simpa using hv, by rw [a2]; push_cast; ring, fun i => ?_⟩
      exact frame_step s.temp temp (lineMean x rad n) base col _ a3 hv i)
  generalize forLoop 1 (rad + 1) (blurRowGrow ahead base)
    { temp := Function.update temp (base + 0) (lineMean x rad n 0),
      tempval := lineMean x rad n 0, len := (rad : ℚ) + 1 } = sB at hB1 hB2 hB3 ⊢
  have hBlen : sB.len = 2 * (rad : ℚ) + 1 := by
    rw [hB2]; push_cast; ring
  -- the full windows
  obtain ⟨hC1, hC2, hC3⟩ := forLoop_invariant (rad + 1) (n - rad)
    (blurRowSlide ahead behind base recip (1 / sB.len)) sB
    (fun col (s : LineState) => s.tempval = lineMean x rad n (col - 1) ∧
      s.len = 2 * (rad : ℚ) + 1 ∧
      ∀ i, s.temp i = if base ≤ i ∧ i < base + col then lineMean x rad n (i - base) else temp i)
    (by omega) ⟨hB1, hBlen, hB3⟩
    (by
      intro col s h1 h2 ⟨a1, a2, a3⟩
      have hv : (if recip then s.tempval + (ahead col - behind col) * (1 / sB.len)
          else s.tempval + (ahead col - behind col) / s.len) = lineMean x rad n col := by
        rw [a1, a2, hBlen, hahead col (by omega) (by omega), hbehind col h1 (by omega),
          mul_one_div, ite_self]
        exact lineMean_slide x rad n col h1 (by omega)
      unfold blurRowSlide
      dsimp only
      refine ⟨by simpa using hv, a2, fun i => ?_⟩
      exact frame_step s.temp temp (lineMean x rad n) base col _ a3 hv i)
  generalize forLoop (rad + 1) (n - rad)
    (blurRowSlide ahead behind base recip (1 / sB.len)) sB = sC at hC1 hC2 hC3 ⊢
  -- the shrinking windows
  obtain ⟨-, -, hD3⟩ := forLoop_invariant (n - rad) n (blurRowShrink behind base) sC
    (fun col (s : LineState) => s.tempval = lineMean x rad n (col - 1) ∧
      s.len = (n : ℚ) + rad + 1 - col ∧
      ∀ i, s.temp i = if base ≤ i ∧ i < base + col then lineMean x rad n (i - base) else temp i)
    (by omega)
    ⟨hC1, by rw [hC2, Nat.cast_sub (by omega)]; ring, hC3⟩
    (by
      intro col s h1 h2 ⟨a1, a2, a3⟩
      have hv : (s.tempval * s.len - behind col) / (s.len - 1) = lineMean x rad n col := by
        rw [a1, a2, hbehind col (by omega) h2]
        have e : (n : ℚ) + rad + 1 - col - 1 = (n : ℚ) + rad - col := by ring
        rw [e]
        exact lineMean_shrink x rad n col (by omega) (by omega) h2
      unfold blurRowShrink
      dsimp only
      refine ⟨by simpa using hv, by rw [a2]; push_cast; ring, fun i => ?_⟩
      exact frame_step s.temp temp (lineMean x rad n) base col _ a3 hv i)
  exact hD3 i

/-- The index of a sample of a row, divided by the width, is the row. -/
theorem flat_div (W row i : Nat) (h1 : row * W ≤ i) (h2 : i < row * W + W) :
    i / W = row ∧ i % W = i - row * W := by
  have hW : 0 < W := by omega
  have e : i = (i - row * W) + row * W := by omega
  have hk : i - row * W < W := by omega
  constructor
  · rw [e, Nat.add_mul_div_right _ _ hW, Nat.div_eq_of_lt hk, Nat.zero_add]
  · rw [e, Nat.add_mul_mod_self_right, Nat.mod_eq_of_lt hk]
    omega

/-- Rows stored one after the other, from the first to the last: when the
pass of a row stores `g row` in `temp[row * W .. row * W + W - 1]` and leaves
the rest, the loop over the rows stores `g` in `temp[0 .. H * W - 1]`. -/
theorem rows_frame (op : Nat → (Nat → ℚ) → (Nat → ℚ)) (g : Nat → Nat → ℚ) (W H : Nat)
    (temp : Nat → ℚ)
    (hop : ∀ row t i, row < H → op row t i
      = if row * W ≤ i ∧ i < row * W + W then g row (i - row * W) else t i) (i : Nat) :
    forLoop 0 H op temp i = if i < H * W then g (i / W) (i % W) else temp i := by
  have := forLoop_invariant 0 H op temp
    (fun row (t : Nat → ℚ) => ∀ i, t i = if i < row * W then g (i / W) (i % W) else temp i)
    (Nat.zero_le _)
    (fun i => by rw [if_neg (by omega)])
    (by
      intro row t _ hr hp i
      rw [hop row t i hr, Nat.succ_mul]
      by_cases hc : row * W ≤ i ∧ i < row * W + W
      · obtain ⟨e1, e2⟩ := flat_div W row i hc.1 hc.2
        rw [if_pos hc, if_pos hc.2, e1, e2]
      · rw [if_neg hc, hp i]
        by_cases hlt : i < row * W
        · rw [if_pos hlt, if_pos (by omega)]
        · rw [if_neg hlt, if_neg (by omega)])
  exact this i

/-- Rows stored one after the other, from the last to the first: the result is
the same as from the first to the last. -/
theorem rows_frame_down (op : Nat → (Nat → ℚ) → (Nat → ℚ)) (g : Nat → Nat → ℚ) (W H : Nat)
    (temp : Nat → ℚ)
    (hop : ∀ row t i, row < H → op row t i
      = if row * W ≤ i ∧ i < row * W + W then g row (i - row * W) else t i) (i : Nat) :
    forLoopDown H op temp i = if i < H * W then g (i / W) (i % W) else temp i := by
  have := forLoopDown_invariant H op temp
    (fun row (t : Nat → ℚ) => ∀ i, t i
      = if row * W ≤ i ∧ i < H * W then g (i / W) (i % W) else temp i)
    (fun i => by rw [if_neg (by omega)])
    (by
      intro row t hr hp i
      have hle : (row + 1) * W ≤ H * W := Nat.mul_le_mul_right W hr
      rw [Nat.succ_mul] at hle
      rw [hop row t i hr]
      by_cases hc : row * W ≤ i ∧ i < row * W + W
      · obtain ⟨e1, e2⟩ := flat_div W row i hc.1 hc.2
        rw [if_pos hc, if_pos ⟨hc.1, by omega⟩, e1, e2]
      · rw [if_neg hc, hp i, Nat.succ_mul]
        by_cases h2 : row * W + W ≤ i ∧ i < H * W
        · rw [if_pos h2, if_pos ⟨by omega, h2.2⟩]
        · rw [if_neg h2, if_neg (by omega)])
  have h := this i
  rw [h]
  by_cases hlt : i < H * W
  · rw [if_pos ⟨by omega, hlt⟩, if_pos hlt]
  · rw [if_neg (by omega), if_neg hlt]

/-- The horizontal pass of `boxabsblur` leaves in `temp` what the horizontal
pass of the flat-array `boxblur` leaves for the absolute values of `src`,
although the rows are taken in the opposite order. -/
theorem absHorizontal_eq (src temp : Nat → ℚ) (radx W H : Nat) (hW : 2 * radx + 1 ≤ W) :
    absHorizontal src radx W H temp = flatHorizontal (fun i => |src i|) radx W H temp := by
  unfold absHorizontal flatHorizontal
  by_cases h0 : radx = 0
  · rw [if_pos h0, if_pos h0]
  · rw [if_neg h0, if_neg h0]
    funext i
    have hrow : ∀ row (t : Nat → ℚ) i, row < H →
        blurRow (fun j => |src (row * W + j)|) (fun col => |src (row * W + col + radx)|)
          (fun col => |src (row * W + col - radx - 1)|) radx W (row * W) true t i
        = if row * W ≤ i ∧ i < row * W + W
            then (fun row k => lineMean (fun j => |src (row * W + j)|) radx W k) row (i - row * W)
            else t i := by
      intro row t i _
      exact blurRow_spec _ _ _ (fun j => |src (row * W + j)|) radx W (row * W) true t hW
        (fun j _ => rfl)
        (fun col _ _ => by
          show |src (row * W + col + radx)| = |src (row * W + (col + radx))|
          rw [Nat.add_assoc])
        (fun col h1 _ => by
          show |src (row * W + col - radx - 1)| = |src (row * W + (col - radx - 1))|
          have e : row * W + col - radx - 1 = row * W + (col - radx - 1) := by omega
          rw [e])
        i
    rw [rows_frame _ (fun row k => lineMean (fun j => |src (row * W + j)|) radx W k) W H temp
        hrow i,
      rows_frame_down _ (fun row k => lineMean (fun j => |src (row * W + j)|) radx W k) W H temp
        hrow i]

/-! ## Box blur with the buffer of the caller: the vertical pass -/

/-- The sliding-window pass writes the window mean at every index of the line,
also when the line is exactly one full window long. -/
theorem blurLine_window (x : Nat → ℚ) (rad n : Nat) (out : Nat → ℚ)
    (hn : 2 * rad + 1 ≤ n) (c : Nat) (hc : c < n) :
    blurLine x rad n out c = lineMean x rad n c := by
  dsimp only [blurLine]
  -- the sum of the first window
  have hA : (forLoop 1 (rad + 1) (fun j o => Function.update o 0 (o 0 + x j / ((rad + 1 : Int) : ℚ)))
      (Function.update out 0 (x 0 / ((rad + 1 : Int) : ℚ)))) 0
      = prefixSum x (rad + 1) / ((rad + 1 : Int) : ℚ) :=
    forLoop_invariant 1 (rad + 1) _ _
      (fun j (o : Nat → ℚ) => o 0 = prefixSum x j / ((rad + 1 : Int) : ℚ)) (by omega)
      (by simp [prefixSum])
      (by
        intro i s _ _ hp
        simp only [Function.update_same, hp, prefixSum_succ]
        ring)
  generalize forLoop 1 (rad + 1) (fun j o => Function.update o 0 (o 0 + x j / ((rad + 1 : Int) : ℚ)))
      (Function.update out 0 (x 0 / ((rad + 1 : Int) : ℚ))) = A at hA ⊢
  -- the growing windows at the start of the line
  have hB : (forLoop 1 (rad + 1)
      (fun col (s : (Nat → ℚ) × Int) =>
        (Function.update s.1 col ((s.1 (col - 1) * s.2 + x (col + rad)) / ((s.2 + 1 : Int) : ℚ)),
          s.2 + 1)) (A, (rad + 1 : Int))).2 = (rad : Int) + ((rad + 1 : Nat) : Int) ∧
      ∀ k, k < rad + 1 → (forLoop 1 (rad + 1)
      (fun col (s : (Nat → ℚ) × Int) =>
        (Function.update s.1 col ((s.1 (col - 1) * s.2 + x (col + rad)) / ((s.2 + 1 : Int) : ℚ)),
          s.2 + 1)) (A, (rad + 1 : Int))).1 k = lineMean x rad n k :=
    forLoop_invariant 1 (rad + 1) _ _
      (fun col (s : (Nat → ℚ) × Int) =>
        s.2 = (rad : Int) + (col : Int) ∧ ∀ k, k < col → s.1 k = lineMean x rad n k)
      (by omega)
      (by
        refine ⟨by push_cast; ring, ?_⟩
        intro k hk
        have : k = 0 := by omega
        subst this
        dsimp only
        rw [hA, lineMean_head x rad n 0 (by omega) (by omega)]
        push_cast
        ring_nf)
      (by
        intro i s h1 h2 ⟨hl, hp⟩
        refine ⟨by simp only [hl]; push_cast; ring, ?_⟩
        intro k hk
        by_cases hki : k = i
        · subst hki
          dsimp only
          simp only [Function.update_same]
          rw [hp (k - 1) (by omega), hl, lineMean_head x rad n (k - 1) (by omega) (by omega),
            lineMean_head x rad n k (by omega) (by omega)]
          have e1 : k - 1 + rad + 1 = k + rad := by omega
          have e2 : ((k - 1 : Nat) : ℚ) + rad + 1 = (rad : ℚ) + k := by
            rw [Nat.cast_sub h1]; push_cast; ring
          have hne : ((rad : ℚ) + k) ≠ 0 := by positivity
          rw [e1, prefixSum_succ, e2]
          push_cast
          rw [div_mul_cancel₀ _ hne]
          congr 1
          ring
        · dsimp only
          rw [Function.update_noteq hki]
          exact hp k (by omega))
  generalize forLoop 1 (rad + 1)
      (fun col (s : (Nat → ℚ) × Int) =>
        (Function.update s.1 col ((s.1 (col - 1) * s.2 + x (col + rad)) / ((s.2 + 1 : Int) : ℚ)),
          s.2 + 1)) (A, (rad + 1 : Int)) = B at hB ⊢
  obtain ⟨hBlen, hBval⟩ := hB
  have hlen : ((B.2 : Int) : ℚ) = 2 * (rad : ℚ) + 1 := by
    rw [hBlen]; push_cast; ring
  -- the full windows in the middle of the line
  have hC : ∀ k, k < n - rad → (forLoop (rad + 1) (n - rad)
      (fun col o =>
        Function.update o col (o (col - 1) + (x (col + rad) - x (col - rad - 1)) / (B.2 : ℚ)))
      B.1) k = lineMean x rad n k :=
    forLoop_invariant (rad + 1) (n - rad) _ _
      (fun col (o : Nat → ℚ) => ∀ k, k < col → o k = lineMean x rad n k)
      (by omega) hBval
      (by
        intro i o h1 h2 hp k hk
        by_cases hki : k = i
        · subst hki
          simp only [Function.update_same]
          rw [hp (k - 1) (by omega), hlen,
            lineMean_full x rad n (k - 1) (by omega) (by omega),
            lineMean_full x rad n k (by omega) (by omega)]
          have e1 : k - 1 + rad + 1 = k + rad := by omega
          have e2 : k - rad = (k - rad - 1) + 1 := by omega
          have e3 : k - 1 - rad = k - rad - 1 := by omega
          rw [e1, prefixSum_succ x (k + rad), e2, prefixSum_succ, e3]
          simp only [Nat.add_sub_cancel]
          ring
        · rw [Function.update_noteq hki]
          exact hp k (by omega))
  generalize forLoop (rad + 1) (n - rad)
      (fun col o =>
        Function.update o col (o (col - 1) + (x (col + rad) - x (col - rad - 1)) / (B.2 : ℚ)))
      B.1 = C at hC ⊢
  -- the shrinking windows at the end of the line
  have hD : (forLoop (n - rad) n
      (fun col (s : (Nat → ℚ) × Int) =>
        (Function.update s.1 col ((s.1 (col - 1) * s.2 - x (col - rad - 1)) / ((s.2 - 1 : Int) : ℚ)),
          s.2 - 1)) (C, B.2)).2 = (n : Int) + rad + 1 - ((n : Nat) : Int) ∧
      ∀ k, k < n → (forLoop (n - rad) n
      (fun col (s : (Nat → ℚ) × Int) =>
        (Function.update s.1 col ((s.1 (col - 1) * s.2 - x (col - rad - 1)) / ((s.2 - 1 : Int) : ℚ)),
          s.2 - 1)) (C, B.2)).1 k = lineMean x rad n k :=
    forLoop_invariant (n - rad) n _ _
      (fun col (s : (Nat → ℚ) × Int) =>
        s.2 = (n : Int) + rad + 1 - ((col : Nat) : Int) ∧ ∀ k, k < col → s.1 k = lineMean x rad n k)
      (by omega)
      ⟨by dsimp only; rw [hBlen]; omega, hC⟩
      (by
        intro i s h1 h2 ⟨hl, hp⟩
        refine ⟨by dsimp only; rw [hl]; omega, ?_⟩
        intro k hk
        by_cases hki : k = i
        · subst hki
          dsimp only
          simp only [Function.update_same]
          rw [hp (k - 1) (by omega), hl,
            lineMean_tail x rad n (k - 1) (by omega) (by omega) (by omega),
            lineMean_tail x rad n k (by omega) (by omega) h2]
          have e2 : k - rad = (k - rad - 1) + 1 := by omega
          have e3 : k - 1 - rad = k - rad - 1 := by omega
          have e4 : ((k - 1 : Nat) : ℚ) = (k : ℚ) - 1 := by
            rw [Nat.cast_sub (by omega)]; simp
          have hne : ((n : ℚ) + rad - ((k : ℚ) - 1)) ≠ 0 := by
            have : (k : ℚ) < n := by exact_mod_cast h2
            have : (0 : ℚ) ≤ rad := by positivity
            linarith
          rw [e2, prefixSum_succ, e3, e4]
          simp only [Nat.add_sub_cancel]
          push_cast
          have e5 : ((n : ℚ) + rad + 1 - k) = (n : ℚ) + rad - ((k : ℚ) - 1) := by ring
          rw [e5, div_mul_cancel₀ _ hne]
          congr 1
          · ring
          · ring
        · dsimp only
          rw [Function.update_noteq hki]
          exact hp k (by omega))
  exact hD.2 c hc

/-- A loop over the `cnt` columns of a tile whose iteration `k` stores `fd k`
in `dst[row][col + k]`, whenever the column `col + k` of `dst` is as before
the loop. -/
theorem tileLoop_spec (cnt col row : Nat) (body : Nat → Image → Image) (d0 : Image)
    (fd : Nat → ℚ)
    (hbody : ∀ k d, k < cnt → (∀ i, d i (col + k) = d0 i (col + k)) →
      body k d = setPixel d row (col + k) (fd k)) (i c : Nat) :
    forLoop 0 cnt body d0 i c
      = if i = row ∧ col ≤ c ∧ c < col + cnt then fd (c - col) else d0 i c := by
  have := forLoop_invariant 0 cnt body d0
    (fun k (d : Image) => ∀ i c, d i c
      = if i = row ∧ col ≤ c ∧ c < col + k then fd (c - col) else d0 i c)
    (Nat.zero_le _)
    (fun i c => by rw [if_neg (by omega)])
    (by
      intro k d _ hk hd i c
      rw [hbody k d hk (fun i => by rw [hd, if_neg (by omega)]), setPixel_apply, hd]
      by_cases h1 : i = row ∧ c = col + k
      · obtain ⟨h1a, h1b⟩ := h1
        subst h1b
        rw [if_pos ⟨h1a, rfl⟩, if_pos ⟨h1a, by omega, by omega⟩, Nat.add_sub_cancel_left]
      · rw [if_neg h1]
        by_cases h2 : i = row ∧ col ≤ c ∧ c < col + k
        · rw [if_pos h2, if_pos ⟨h2.1, h2.2.1, by omega⟩]
        · rw [if_neg h2, if_neg (by
            rintro ⟨h3, h4, h5⟩
            by_cases h6 : c = col + k
            · exact h1 ⟨h3, h6⟩
            · exact h2 ⟨h3, h4, by omega⟩)])
  exact this i c

/-- The vertical blur of a tile: every column of the tile becomes the window
means of the column of `temp`, the other columns of `dst` are unchanged. -/
theorem tileColumns_spec (temp : Nat → ℚ) (rady W H col : Nat) (dst : Image)
    (hH : 2 * rady + 1 ≤ H) :
    (∀ k, k < numCols → ∀ i, i < H →
      tileColumns temp rady W H col dst i (col + k)
        = lineMean (fun i => temp (i * W + col + k)) rady H i) ∧
    (∀ i c, (c < col ∨ col + numCols ≤ c) → tileColumns temp rady W H col dst i c = dst i c) := by
  unfold tileColumns
  -- the first samples of the columns of temp
  have hA : ∀ i c, forLoop 0 numCols (tileInit temp W col) dst i c
      = if i = 0 ∧ col ≤ c ∧ c < col + numCols then temp (0 * W + col + (c - col))
        else dst i c :=
    tileLoop_spec numCols col 0 (tileInit temp W col) dst
      (fun k => temp (0 * W + col + k)) (fun k d _ _ => rfl)
  generalize forLoop 0 numCols (tileInit temp W col) dst = dA at hA ⊢
  -- the sums of the first windows
  obtain ⟨hB1, hB2⟩ := forLoop_invariant 1 (rady + 1)
    (fun i d => forLoop 0 numCols (tileAdd temp W col i) d) dA
    (fun i (d : Image) =>
      (∀ k, k < numCols → d 0 (col + k) = prefixSum (fun i => temp (i * W + col + k)) i) ∧
      (∀ r c, (1 ≤ r ∨ c < col ∨ col + numCols ≤ c) → d r c = dst r c))
    (by omega)
    ⟨fun k hk => by
        rw [hA, if_pos ⟨rfl, by omega, by omega⟩, Nat.add_sub_cancel_left]
        simp [prefixSum],
      fun r c hrc => by rw [hA, if_neg (by omega)]⟩
    (by
      intro i d _ _ ⟨hs, hf⟩
      have hL := tileLoop_spec numCols col 0 (tileAdd temp W col i) d
        (fun k => prefixSum (fun i => temp (i * W + col + k)) (i + 1))
        (by
          intro k e hk he
          unfold tileAdd
          dsimp only
          rw [he 0, hs k hk, prefixSum_succ])
      refine ⟨?_, ?_⟩
      · intro k hk
        dsimp only
        rw [hL, if_pos ⟨rfl, by omega, by omega⟩, Nat.add_sub_cancel_left]
      · intro r c hrc
        dsimp only
        rw [hL, if_neg (by omega)]
        exact hf r c hrc)
  generalize forLoop 1 (rady + 1) (fun i d => forLoop 0 numCols (tileAdd temp W col i) d) dA
    = dB at hB1 hB2 ⊢
  -- the means of the first windows
  have hC := tileLoop_spec numCols col 0 (tileDivide ((rady : ℚ) + 1) col) dB
    (fun k => lineMean (fun i => temp (i * W + col + k)) rady H 0)
    (by
      intro k e hk he
      unfold tileDivide
      dsimp only
      rw [he 0, hB1 k hk, lineMean_head _ rady H 0 (Nat.zero_le _) (by omega)]
      simp)
  generalize forLoop 0 numCols (tileDivide ((rady : ℚ) + 1) col) dB = dC at hC ⊢
  -- the growing windows
  obtain ⟨hG1, hG2, hG3⟩ := forLoop_invariant 1 (rady + 1)
    (fun row (s : Image × ℚ) =>
      (forLoop 0 numCols (tileGrow temp rady W col s.2 row) s.1, s.2 + 1))
    (dC, (rady : ℚ) + 1)
    (fun row (s : Image × ℚ) => s.2 = (rady : ℚ) + row ∧
      (∀ k, k < numCols → ∀ i, i < row →
        s.1 i (col + k) = lineMean (fun i => temp (i * W + col + k)) rady H i) ∧
      (∀ i c, (row ≤ i ∨ c < col ∨ col + numCols ≤ c) → s.1 i c = dst i c))
    (by omega)
    ⟨by simp,
      fun k hk i hi => by
        have : i = 0 := by omega
        subst this
        dsimp only
        rw [hC, if_pos ⟨rfl, by omega, by omega⟩, Nat.add_sub_cancel_left],
      fun i c hic => by
        dsimp only
        rw [hC, if_neg (by omega)]
        exact hB2 i c hic⟩
    (by
      intro row s h1 h2 ⟨hl, hm, hf⟩
      have hL := tileLoop_spec numCols col row (tileGrow temp rady W col s.2 row) s.1
        (fun k => lineMean (fun i => temp (i * W + col + k)) rady H row)
        (by
          intro k e hk he
          have hstep := lineMean_grow (fun i => temp (i * W + col + k)) rady H row h1
            (by omega) (by omega)
          dsimp only at hstep
          unfold tileGrow
          rw [he (row - 1), hm k hk (row - 1) (by omega), hl, hstep])
      refine ⟨by dsimp only; rw [hl]; push_cast; ring, ?_, ?_⟩
      · intro k hk i hi
        dsimp only
        rw [hL]
        by_cases hir : i = row
        · rw [if_pos ⟨hir, by omega, by omega⟩, Nat.add_sub_cancel_left, hir]
        · rw [if_neg (by omega)]
          exact hm k hk i (by omega)
      · intro i c hic
        dsimp only
        rw [hL, if_neg (by omega)]
        exact hf i c (by omega))
  generalize forLoop 1 (rady + 1)
    (fun row (s : Image × ℚ) =>
      (forLoop 0 numCols (tileGrow temp rady W col s.2 row) s.1, s.2 + 1))
    (dC, (rady : ℚ) + 1) = sG at hG1 hG2 hG3 ⊢
  have hGlen : sG.2 = 2 * (rady : ℚ) + 1 := by
    rw [hG1]; push_cast; ring
  -- the full windows
  obtain ⟨hS1, hS2⟩ := forLoop_invariant (rady + 1) (H - rady)
    (fun row d => forLoop 0 numCols (tileSlide temp rady W col sG.2 row) d) sG.1
    (fun row (d : Image) =>
      (∀ k, k < numCols → ∀ i, i < row →
        d i (col + k) = lineMean (fun i => temp (i * W + col + k)) rady H i) ∧
      (∀ i c, (row ≤ i ∨ c < col ∨ col + numCols ≤ c) → d i c = dst i c))
    (by omega) ⟨hG2, hG3⟩
    (by
      intro row d h1 h2 ⟨hm, hf⟩
      have hL := tileLoop_spec numCols col row (tileSlide temp rady W col sG.2 row) d
        (fun k => lineMean (fun i => temp (i * W + col + k)) rady H row)
        (by
          intro k e hk he
          have hstep := lineMean_slide (fun i => temp (i * W + col + k)) rady H row h1
            (by omega)
          dsimp only at hstep
          unfold tileSlide
          rw [he (row - 1), hm k hk (row - 1) (by omega), hGlen, hstep])
      refine ⟨?_, ?_⟩
      · intro k hk i hi
        dsimp only
        rw [hL]
        by_cases hir : i = row
        · rw [if_pos ⟨hir, by omega, by omega⟩, Nat.add_sub_cancel_left, hir]
        · rw [if_neg (by omega)]
          exact hm k hk i (by omega)
      · intro i c hic
        dsimp only
        rw [hL, if_neg (by omega)]
        exact hf i c (by omega))
  generalize forLoop (rady + 1) (H - rady)
    (fun row d => forLoop 0 numCols (tileSlide temp rady W col sG.2 row) d) sG.1
    = dS at hS1 hS2 ⊢
  -- the shrinking windows
  obtain ⟨-, hD2, hD3⟩ := forLoop_invariant (H - rady) H
    (fun row (s : Image × ℚ) =>
      (forLoop 0 numCols (tileShrink temp rady W col s.2 row) s.1, s.2 - 1))
    (dS, sG.2)
    (fun row (s : Image × ℚ) => s.2 = (H : ℚ) + rady + 1 - row ∧
      (∀ k, k < numCols → ∀ i, i < row →
        s.1 i (col + k) = lineMean (fun i => temp (i * W + col + k)) rady H i) ∧
      (∀ i c, (row ≤ i ∨ c < col ∨ col + numCols ≤ c) → s.1 i c = dst i c))
    (by omega)
    ⟨by dsimp only; rw [hGlen, Nat.cast_sub (by omega)]; ring, hS1, hS2⟩
    (by
      intro row s h1 h2 ⟨hl, hm, hf⟩
      have hL := tileLoop_spec numCols col row (tileShrink temp rady W col s.2 row) s.1
        (fun k => lineMean (fun i => temp (i * W + col + k)) rady H row)
        (by
          intro k e hk he
          have hstep := lineMean_shrink (fun i => temp (i * W + col + k)) rady H row
            (by omega) (by omega) h2
          dsimp only at hstep
          have e1 : (H : ℚ) + rady + 1 - row - 1 = (H : ℚ) + rady - row := by ring
          unfold tileShrink
          rw [he (row - 1), hm k hk (row - 1) (by omega), hl, e1, hstep])
      refine ⟨by dsimp only; rw [hl]; push_cast; ring, ?_, ?_⟩
      · intro k hk i hi
        dsimp only
        rw [hL]
        by_cases hir : i = row
        · rw [if_pos ⟨hir, by omega, by omega⟩, Nat.add_sub_cancel_left, hir]
        · rw [if_neg (by omega)]
          exact hm k hk i (by omega)
      · intro i c hic
        dsimp only
        rw [hL, if_neg (by omega)]
        exact hf i c (by omega))
  exact ⟨hD2, fun i c hc => hD3 i c (by omega)⟩

/-- The copy of a row to `temp[base .. base + W - 1]`. -/
theorem copyRow_frame (f : Nat → ℚ) (W base : Nat) (t : Nat → ℚ) (j : Nat) :
    forLoop 0 W (fun col t => Function.update t (base + col) (f col)) t j
      = if base ≤ j ∧ j < base + W then f (j - base) else t j := by
  have := forLoop_invariant 0 W (fun col t => Function.update t (base + col) (f col)) t
    (fun col (u : Nat → ℚ) => ∀ j, u j
      = if base ≤ j ∧ j < base + col then f (j - base) else t j)
    (Nat.zero_le _)
    (fun j => by rw [if_neg (by omega)])
    (fun col u _ _ hp j => frame_step u t f base col _ hp rfl j)
  exact this j

/-- The first half of `boxblur` with the buffer of the caller leaves in
`temp[i * W + c]` the window mean of the row `i` of `src` at `c`. -/
theorem bufferHorizontal_spec (src : Image) (radx W H : Nat) (temp : Nat → ℚ)
    (hW : 2 * radx + 1 ≤ W) (i c : Nat) (hi : i < H) (hc : c < W) :
    bufferHorizontal src radx W H temp (i * W + c) = lineMean (src i) radx W c := by
  have hlt : i * W + c < H * W := by
    have h : (i + 1) * W ≤ H * W := Nat.mul_le_mul_right W hi
    rw [Nat.succ_mul] at h
    omega
  obtain ⟨e1, e2⟩ := flat_div W i (i * W + c) (by omega) (by omega)
  rw [Nat.add_sub_cancel_left] at e2
  unfold bufferHorizontal
  by_cases h0 : radx = 0
  · have hop : ∀ row (t : Nat → ℚ) j, row < H →
        forLoop 0 W (fun col t => Function.update t (row * W + col) (src row col)) t j
        = if row * W ≤ j ∧ j < row * W + W then (fun row k => src row k) row (j - row * W)
          else t j :=
      fun row t j _ => copyRow_frame (fun col => src row col) W (row * W) t j
    rw [if_pos h0, rows_frame _ (fun row k => src row k) W H temp hop (i * W + c), if_pos hlt,
      e1, e2, h0, lineMean_zero _ W c hc]
  · have hop : ∀ row (t : Nat → ℚ) j, row < H →
        blurRow (fun j => src row j) (fun col => src row (col + radx))
          (fun col => src row (col - radx - 1)) radx W (row * W) false t j
        = if row * W ≤ j ∧ j < row * W + W
            then (fun row k => lineMean (src row) radx W k) row (j - row * W)
          else t j :=
      fun row t j _ => blurRow_spec _ _ _ (src row) radx W (row * W) false t hW
        (fun _ _ => rfl) (fun _ _ _ => rfl) (fun _ _ _ => rfl) j
    rw [if_neg h0, rows_frame _ (fun row k => lineMean (src row) radx W k) W H temp hop
      (i * W + c), if_pos hlt, e1, e2]

/-- The vertical blur of the tiles of `numCols` columns (`boxblur.h:244-282`). -/
theorem bufferTiles_spec (temp : Nat → ℚ) (rady W H : Nat) (d0 : Image)
    (hH : 2 * rady + 1 ≤ H) :
    (∀ c, c < 8 * (W / 8) → ∀ i, i < H →
      (forLoopStep 0 (W + 1 - numCols) 8 (fun col d => tileColumns temp rady W H col d) d0) i c
        = lineMean (fun i => temp (i * W + c)) rady H i) ∧
    (∀ c, 8 * (W / 8) ≤ c → ∀ i,
      (forLoopStep 0 (W + 1 - numCols) 8 (fun col d => tileColumns temp rady W H col d) d0) i c
        = d0 i c) := by
  have hn : (W + 1 - numCols - 0 + 8 - 1) / 8 = W / 8 := by
    simp only [numCols]
    omega
  have := forLoopStep_invariant 0 (W + 1 - numCols) 8
    (fun col d => tileColumns temp rady W H col d) d0
    (fun t (d : Image) =>
      (∀ c, c < 8 * t → ∀ i, i < H → d i c = lineMean (fun i => temp (i * W + c)) rady H i) ∧
      (∀ c, 8 * t ≤ c → ∀ i, d i c = d0 i c))
    ⟨fun c hc => absurd hc (by omega), fun _ _ _ => rfl⟩
    (by
      intro t d _ ⟨h1, h2⟩
      obtain ⟨v1, v2⟩ := tileColumns_spec temp rady W H (0 + 8 * t) d hH
      refine ⟨?_, ?_⟩
      · intro c hc i hi
        dsimp only
        by_cases hct : c < 8 * t
        · rw [v2 i c (Or.inl (by omega))]
          exact h1 c hct i hi
        · have hck : c = 0 + 8 * t + (c - 8 * t) := by omega
          have hk : c - 8 * t < numCols := by simp only [numCols]; omega
          have hv := v1 (c - 8 * t) hk i hi
          rw [← hck] at hv
          rw [hv]
          congr 1
          funext j
          congr 1
          omega
      · intro c hc i
        dsimp only
        rw [v2 i c (Or.inr (by simp only [numCols]; omega))]
        exact h2 c (by omega) i)
  rw [hn] at this
  exact this

/-- The vertical blur of the remaining columns (`boxblur.h:289-310`). -/
theorem bufferRemainder_spec (temp : Nat → ℚ) (rady W H lo : Nat) (d0 : Image)
    (hH : 2 * rady + 1 ≤ H) (hlo : lo ≤ W) :
    (∀ c, lo ≤ c → c < W → ∀ i, i < H →
      (forLoop lo W (fun col d =>
        let line := blurLine (fun row => temp (row * W + col)) rady H (fun row => d row col)
        fun row c => if c = col then line row else d row c) d0) i c
        = lineMean (fun i => temp (i * W + c)) rady H i) ∧
    (∀ c, c < lo → ∀ i,
      (forLoop lo W (fun col d =>
        let line := blurLine (fun row => temp (row * W + col)) rady H (fun row => d row col)
        fun row c => if c = col then line row else d row c) d0) i c = d0 i c) := by
  have := forLoop_invariant lo W
    (fun col d =>
      let line := blurLine (fun row => temp (row * W + col)) rady H (fun row => d row col)
      fun row c => if c = col then line row else d row c) d0
    (fun col (d : Image) =>
      (∀ c, lo ≤ c → c < col → ∀ i, i < H →
        d i c = lineMean (fun i => temp (i * W + c)) rady H i) ∧
      (∀ c, c < lo → ∀ i, d i c = d0 i c))
    hlo
    ⟨fun c h1 h2 => absurd h2 (by omega), fun _ _ _ => rfl⟩
    (by
      intro col d h1 _ ⟨hp, hq⟩
      refine ⟨?_, ?_⟩
      · intro c hc1 hc2 i hi
        dsimp only
        by_cases hcc : c = col
        · subst hcc
          simp only [if_true]
          exact blurLine_window _ rady H _ hH i hi
        · simp only [if_neg hcc]
          exact hp c hc1 (by omega) i hi
      · intro c hc i
        dsimp only
        rw [if_neg (by omega)]
        exact hq c hc i)
  exact ⟨fun c h1 h2 => this.1 c h1 h2, this.2⟩

/-- The blur with the buffer of the caller leaves in `dst` the window means
along the columns of the window means along the rows of `src`. -/
theorem boxblurBuffer_lineMean (src dst : Image) (buffer : Nat → ℚ) (radx rady W H : Nat)
    (hW : 2 * radx + 1 ≤ W) (hH : 2 * rady + 1 ≤ H) (r c : Nat) (hr : r < H) (hc : c < W) :
    boxblurBuffer src dst buffer radx rady W H r c
      = lineMean (fun i => lineMean (src i) radx W c) rady H r := by
  unfold boxblurBuffer
  have hT : ∀ i k, i < H → k < W →
      bufferHorizontal src radx W H buffer (i * W + k) = lineMean (src i) radx W k :=
    fun i k hi hk => bufferHorizontal_spec src radx W H buffer hW i k hi hk
  generalize bufferHorizontal src radx W H buffer = T at hT ⊢
  dsimp only
  have hcol : lineMean (fun i => T (i * W + c)) rady H r
      = lineMean (fun i => lineMean (src i) radx W c) rady H r :=
    lineMean_congr _ _ rady H r hr (fun i hi => hT i c hi hc)
  by_cases h0 : rady = 0
  · rw [if_pos h0, copy_spec (fun row col => T (row * W + col)) dst W H r c hr hc, ← hcol, h0,
      lineMean_zero _ H r hr]
  · rw [if_neg h0, ← hcol]
    obtain ⟨hV1, hV2⟩ := bufferTiles_spec T rady W H dst hH
    generalize forLoopStep 0 (W + 1 - numCols) 8 (fun col d => tileColumns T rady W H col d) dst
      = D at hV1 hV2 ⊢
    obtain ⟨hR1, hR2⟩ := bufferRemainder_spec T rady W H (W - W % numCols) D hH
      (Nat.sub_le _ _)
    have hlo : W - W % numCols = 8 * (W / 8) := by simp only [numCols]; omega
    by_cases hct : c < 8 * (W / 8)
    · rw [hR2 c (by omega) r]
      exact hV1 c hct r hr
    · exact hR1 c (by omega) hc r hr

/-! ## Box blur on flat arrays: the vertical pass -/

/-- Two loops whose states are related before the loops and stay related
through each pair of iterations end in related states. -/
theorem forLoop_sim {σ τ : Type} (lo hi : Nat) (f : Nat → σ → σ) (g : Nat → τ → τ)
    (s0 : σ) (t0 : τ) (R : σ → τ → Prop) (h0 : R s0 t0)
    (hstep : ∀ i s t, R s t → R (f i s) (g i t)) :
    R (forLoop lo hi f s0) (forLoop lo hi g t0) := by
  unfold forLoop
  generalize List.range' lo (hi - lo) = l
  induction l generalizing s0 t0 with
  | nil => exact h0
  | cons a rest ih =>
    rw [List.foldl_cons, List.foldl_cons]
    exact ih _ _ (hstep a s0 t0 h0)

/-- A store through the stride and the store in the line keep the memory and
the line related. -/
theorem update_sim (idx : Nat → Nat) (hidx : Function.Injective idx) (out o1 o2 : Nat → ℚ)
    (c : Nat) (v1 v2 : ℚ)
    (h : (∀ k, o1 (idx k) = o2 k) ∧ (∀ j, (∀ k, j ≠ idx k) → o1 j = out j)) (hv : v1 = v2) :
    (∀ k, Function.update o1 (idx c) v1 (idx k) = Function.update o2 c v2 k) ∧
    (∀ j, (∀ k, j ≠ idx k) → Function.update o1 (idx c) v1 j = out j) := by
  refine ⟨?_, ?_⟩
  · intro k
    by_cases hk : k = c
    · subst hk
      rw [Function.update_same, Function.update_same, hv]
    · rw [Function.update_noteq (fun e => hk (hidx e)), Function.update_noteq hk]
      exact h.1 k
  · intro j hj
    rw [Function.update_noteq (hj c)]
    exact h.2 j hj

/-- The pass on a line stored with a stride writes what `blurLine` writes on
the line, and leaves the memory outside the line. -/
theorem blurLineAt_spec (x : Nat → ℚ) (rad n : Nat) (idx : Nat → Nat) (out : Nat → ℚ)
    (hidx : Function.Injective idx) :
    (∀ k, blurLineAt x rad n idx out (idx k) = blurLine x rad n (fun k => out (idx k)) k) ∧
    (∀ j, (∀ k, j ≠ idx k) → blurLineAt x rad n idx out j = out j) := by
  dsimp only [blurLineAt, blurLine]
  have hA0 := update_sim idx hidx out out (fun k => out (idx k)) 0
    (x 0 / ((rad + 1 : Int) : ℚ)) (x 0 / ((rad + 1 : Int) : ℚ))
    ⟨fun _ => rfl, fun _ _ => rfl⟩ rfl
  have hA := forLoop_sim 1 (rad + 1)
    (fun j o => Function.update o (idx 0) (o (idx 0) + x j / ((rad + 1 : Int) : ℚ)))
    (fun j o => Function.update o 0 (o 0 + x j / ((rad + 1 : Int) : ℚ)))
    (Function.update out (idx 0) (x 0 / ((rad + 1 : Int) : ℚ)))
    (Function.update (fun k => out (idx k)) 0 (x 0 / ((rad + 1 : Int) : ℚ)))
    (fun (o1 o2 : Nat → ℚ) =>
      (∀ k, o1 (idx k) = o2 k) ∧ (∀ j, (∀ k, j ≠ idx k) → o1 j = out j))
    hA0
    (fun j o1 o2 h => update_sim idx hidx out o1 o2 0 _ _ h (by rw [h.1 0]))
  generalize forLoop 1 (rad + 1)
    (fun j o => Function.update o (idx 0) (o (idx 0) + x j / ((rad + 1 : Int) : ℚ)))
    (Function.update out (idx 0) (x 0 / ((rad + 1 : Int) : ℚ))) = A1 at hA ⊢
  generalize forLoop 1 (rad + 1)
    (fun j o => Function.update o 0 (o 0 + x j / ((rad + 1 : Int) : ℚ)))
    (Function.update (fun k => out (idx k)) 0 (x 0 / ((rad + 1 : Int) : ℚ))) = A2 at hA ⊢
  have hB := forLoop_sim 1 (rad + 1)
    (fun row (s : (Nat → ℚ) × Int) =>
      (Function.update s.1 (idx row)
        ((s.1 (idx (row - 1)) * s.2 + x (row + rad)) / ((s.2 + 1 : Int) : ℚ)),
        s.2 + 1))
    (fun col (s : (Nat → ℚ) × Int) =>
      (Function.update s.1 col ((s.1 (col - 1) * s.2 + x (col + rad)) / ((s.2 + 1 : Int) : ℚ)),
        s.2 + 1))
    (A1, (rad + 1 : Int)) (A2, (rad + 1 : Int))
    (fun (s1 s2 : (Nat → ℚ) × Int) =>
      ((∀ k, s1.1 (idx k) = s2.1 k) ∧ (∀ j, (∀ k, j ≠ idx k) → s1.1 j = out j)) ∧ s1.2 = s2.2)
    ⟨hA, rfl⟩
    (fun row s1 s2 h =>
      ⟨update_sim idx hidx out s1.1 s2.1 row _ _ h.1 (by rw [h.1.1 (row - 1), h.2]),
        by dsimp only; rw [h.2]⟩)
  generalize forLoop 1 (rad + 1)
    (fun row (s : (Nat → ℚ) × Int) =>
      (Function.update s.1 (idx row)
        ((s.1 (idx (row - 1)) * s.2 + x (row + rad)) / ((s.2 + 1 : Int) : ℚ)),
        s.2 + 1)) (A1, (rad + 1 : Int)) = B1 at hB ⊢
  generalize forLoop 1 (rad + 1)
    (fun col (s : (Nat → ℚ) × Int) =>
      (Function.update s.1 col ((s.1 (col - 1) * s.2 + x (col + rad)) / ((s.2 + 1 : Int) : ℚ)),
        s.2 + 1)) (A2, (rad + 1 : Int)) = B2 at hB ⊢
  obtain ⟨hB1, hB2⟩ := hB
  rw [hB2]
  have hC := forLoop_sim (rad + 1) (n - rad)
    (fun row o =>
      Function.update o (idx row)
        (o (idx (row - 1)) + (x (row + rad) - x (row - rad - 1)) / (B2.2 : ℚ)))
    (fun col o =>
      Function.update o col (o (col - 1) + (x (col + rad) - x (col - rad - 1)) / (B2.2 : ℚ)))
    B1.1 B2.1
    (fun (o1 o2 : Nat → ℚ) =>
      (∀ k, o1 (idx k) = o2 k) ∧ (∀ j, (∀ k, j ≠ idx k) → o1 j = out j))
    hB1
    (fun row o1 o2 h => update_sim idx hidx out o1 o2 row _ _ h (by rw [h.1 (row - 1)]))
  generalize forLoop (rad + 1) (n - rad)
    (fun row o =>
      Function.update o (idx row)
        (o (idx (row - 1)) + (x (row + rad) - x (row - rad - 1)) / (B2.2 : ℚ))) B1.1
    = C1 at hC ⊢
  generalize forLoop (rad + 1) (n - rad)
    (fun col o =>
      Function.update o col (o (col - 1) + (x (col + rad) - x (col - rad - 1)) / (B2.2 : ℚ)))
    B2.1 = C2 at hC ⊢
  have hD := forLoop_sim (n - rad) n
    (fun row (s : (Nat → ℚ) × Int) =>
      (Function.update s.1 (idx row)
        ((s.1 (idx (row - 1)) * s.2 - x (row - rad - 1)) / ((s.2 - 1 : Int) : ℚ)),
        s.2 - 1))
    (fun col (s : (Nat → ℚ) × Int) =>
      (Function.update s.1 col ((s.1 (col - 1) * s.2 - x (col - rad - 1)) / ((s.2 - 1 : Int) : ℚ)),
        s.2 - 1))
    (C1, B2.2) (C2, B2.2)
    (fun (s1 s2 : (Nat → ℚ) × Int) =>
      ((∀ k, s1.1 (idx k) = s2.1 k) ∧ (∀ j, (∀ k, j ≠ idx k) → s1.1 j = out j)) ∧ s1.2 = s2.2)
    ⟨hC, rfl⟩
    (fun row s1 s2 h =>
      ⟨update_sim idx hidx out s1.1 s2.1 row _ _ h.1 (by rw [h.1.1 (row - 1), h.2]),
        by dsimp only; rw [h.2]⟩)
  exact hD.1

/-- The second half of the flat-array versions leaves in `dst[r * W + c]` the
window mean of the column `c` of `temp` at `r`. -/
theorem flatVertical_spec (temp dst : Nat → ℚ) (rady W H : Nat) (hH : 2 * rady + 1 ≤ H)
    (r c : Nat) (hr : r < H) (hc : c < W) :
    flatVertical temp dst rady W H (r * W + c)
      = lineMean (fun i => temp (i * W + c)) rady H r := by
  have hW : 0 < W := by omega
  unfold flatVertical
  by_cases h0 : rady = 0
  · have hlt : r * W + c < H * W := by
      have h : (r + 1) * W ≤ H * W := Nat.mul_le_mul_right W hr
      rw [Nat.succ_mul] at h
      omega
    obtain ⟨e1, e2⟩ := flat_div W r (r * W + c) (by omega) (by omega)
    rw [Nat.add_sub_cancel_left] at e2
    have hop : ∀ row (t : Nat → ℚ) j, row < H →
        forLoop 0 W (fun col d => Function.update d (row * W + col) (temp (row * W + col))) t j
        = if row * W ≤ j ∧ j < row * W + W then (fun row k => temp (row * W + k)) row (j - row * W)
          else t j :=
      fun row t j _ => copyRow_frame (fun col => temp (row * W + col)) W (row * W) t j
    rw [if_pos h0, rows_frame _ (fun row k => temp (row * W + k)) W H dst hop (r * W + c),
      if_pos hlt, e1, e2, h0, lineMean_zero _ H r hr]
  · rw [if_neg h0]
    have := forLoop_invariant 0 W
      (fun col d =>
        blurLineAt (fun row => temp (row * W + col)) rady H (fun row => row * W + col) d) dst
      (fun col (d : Nat → ℚ) => ∀ k, k < col → ∀ i, i < H →
        d (i * W + k) = lineMean (fun i => temp (i * W + k)) rady H i)
      (Nat.zero_le _)
      (fun k hk => absurd hk (Nat.not_lt_zero k))
      (by
        intro col d _ hcol hp k hk i hi
        have hidx : Function.Injective (fun row => row * W + col) := by
          intro a b hab
          dsimp only at hab
          exact Nat.eq_of_mul_eq_mul_right hW (Nat.add_right_cancel hab)
        obtain ⟨s1, s2⟩ := blurLineAt_spec (fun row => temp (row * W + col)) rady H
          (fun row => row * W + col) d hidx
        by_cases hkc : k = col
        · subst hkc
          dsimp only
          rw [s1 i]
          exact blurLine_window _ rady H _ hH i hi
        · dsimp only
          rw [s2 (i * W + k) (by
            intro a h
            have h1 : (i * W + k) % W = k := by
              rw [Nat.mul_add_mod_of_lt (by omega)]
            have h2 : (a * W + col) % W = col := by
              rw [Nat.mul_add_mod_of_lt hcol]
            rw [h, h2] at h1
            exact hkc h1.symm)]
          exact hp k (by omega) i hi)
    exact this c hc r hr

/-- The first half of `boxabsblur` leaves in `temp[i * W + c]` the window mean
of the absolute values of the row `i` of `src` at `c`. -/
theorem absHorizontal_spec (src temp : Nat → ℚ) (radx W H : Nat) (hW : 2 * radx + 1 ≤ W)
    (i c : Nat) (hi : i < H) (hc : c < W) :
    absHorizontal src radx W H temp (i * W + c)
      = lineMean (fun j => |src (i * W + j)|) radx W c := by
  have hlt : i * W + c < H * W := by
    have h : (i + 1) * W ≤ H * W := Nat.mul_le_mul_right W hi
    rw [Nat.succ_mul] at h
    omega
  obtain ⟨e1, e2⟩ := flat_div W i (i * W + c) (by omega) (by omega)
  rw [Nat.add_sub_cancel_left] at e2
  unfold absHorizontal
  by_cases h0 : radx = 0
  · have hop : ∀ row (t : Nat → ℚ) j, row < H →
        forLoop 0 W (fun col t => Function.update t (row * W + col) |src (row * W + col)|) t j
        = if row * W ≤ j ∧ j < row * W + W
            then (fun row k => |src (row * W + k)|) row (j - row * W)
          else t j :=
      fun row t j _ => copyRow_frame (fun col => |src (row * W + col)|) W (row * W) t j
    rw [if_pos h0, rows_frame _ (fun row k => |src (row * W + k)|) W H temp hop (i * W + c),
      if_pos hlt, e1, e2, h0, lineMean_zero _ W c hc]
  · have hop : ∀ row (t : Nat → ℚ) j, row < H →
        blurRow (fun j => |src (row * W + j)|) (fun col => |src (row * W + col + radx)|)
          (fun col => |src (row * W + col - radx - 1)|) radx W (row * W) true t j
        = if row * W ≤ j ∧ j < row * W + W
            then (fun row k => lineMean (fun j => |src (row * W + j)|) radx W k) row
              (j - row * W)
          else t j := by
      intro row t j _
      exact blurRow_spec _ _ _ (fun j => |src (row * W + j)|) radx W (row * W) true t hW
        (fun j _ => rfl)
        (fun col _ _ => by
          show |src (row * W + col + radx)| = |src (row * W + (col + radx))|
          rw [Nat.add_assoc])
        (fun col h1 _ => by
          show |src (row * W + col - radx - 1)| = |src (row * W + (col - radx - 1))|
          have e : row * W + col - radx - 1 = row * W + (col - radx - 1) := by omega
          rw [e])
        j
    rw [if_neg h0, rows_frame _ (fun row k => lineMean (fun j => |src (row * W + j)|) radx W k)
      W H temp hop (i * W + c), if_pos hlt, e1, e2]

/-- A loop that appends one element in each iteration. -/
theorem forLoop_append (lo hi : Nat) (f : Nat → Nat) (cols : List Nat) :
    forLoop lo hi (fun k cols => cols ++ [f k]) cols
      = cols ++ (List.range' lo (hi - lo)).map f := by
  unfold forLoop
  generalize List.range' lo (hi - lo) = l
  induction l generalizing cols with
  | nil => simp
  | cons a rest ih =>
    rw [List.foldl_cons, ih]
    simp

/-- The tiles cover the first `W - W % 8` columns, each once and in order. -/
theorem tiledColumns_eq (W : Nat) : tiledColumns W = List.range (W - W % 8) := by
  have hn : (W + 1 - numCols - 0 + 8 - 1) / 8 = W / 8 := by
    simp only [numCols]
    omega
  have := forLoopStep_invariant 0 (W + 1 - numCols) 8
    (fun col cols => forLoop 0 numCols (fun k cols => cols ++ [col + k]) cols) []
    (fun t (cols : List Nat) => cols = List.range (8 * t))
    rfl
    (by
      intro t cols _ hp
      dsimp only
      rw [forLoop_append, hp, Nat.mul_succ, List.range_add]
      congr 1
      simp only [numCols, Nat.sub_zero, Nat.zero_add, List.range_eq_range'])
  rw [hn] at this
  have e : W - W % 8 = 8 * (W / 8) := by omega
  rw [e]
  exact this

/-- The remainder loop covers the last `W % 8` columns, each once and in order. -/
theorem remainderColumns_eq (W : Nat) :
    remainderColumns W = List.range' (W - W % 8) (W % 8) := by
  unfold remainderColumns
  rw [forLoop_append]
  have e : W - (W - W % numCols) = W % 8 := by
    simp only [numCols]
    omega
  rw [e]
  simp [numCols]

/-- C36, as stated, fails at `W = 2 * radx + 1`: for a 3 x 5 image and radii 1
and 1, where `2 * radx + 1 <= W` holds, the untiled `boxblur` stops at
`assert (2 * radx + 1 < W)` and leaves no image, while the tiled `boxblur`
with the buffer of the caller returns with the box mean in `dst[2][1]`. -/
theorem boxblur_tiled_counterexample :
    2 * 1 + 1 ≤ 3 ∧
    boxblur exampleImage (fun _ _ => 0) 1 1 3 5 (fun _ _ => 0) = none ∧
    boxblurBuffer exampleImage (fun _ _ => 0) (fun _ => 0) 1 1 3 5 2 1
      = boxMean exampleImage 1 1 3 5 2 1 := by
  refine ⟨by decide, rfl, ?_⟩
  rw [boxblurBuffer_lineMean exampleImage (fun _ _ => 0) (fun _ => 0) 1 1 3 5 (by decide)
    (by decide) 2 1 (by decide) (by decide)]
  exact lineMean_lineMean exampleImage 1 1 3 5 2 1 (by decide) (by decide)

/-- C36, amended. In the vertical pass of
`boxblur (src, dst, buffer, radx, rady, W, H)` (portable code) the loop over
the tiles of 8 columns handles the columns `0 .. W - (W mod 8) - 1` and the
remainder loop the columns `W - (W mod 8) .. W - 1`, so that every column
`0 .. W - 1` of `dst` is handled exactly once, for every `W`; in exact
arithmetic, for `2 * radx + 1 <= W` and `2 * rady + 1 <= H`, the function
leaves in every `dst[r][c]` of the image the box mean of `src`; when both
inequalities are strict the untiled `boxblur (src, dst, radx, rady, W, H)`
passes its assertions and leaves the same image; when one of them is an
equality the untiled `boxblur` stops at its assertion. -/
theorem boxblur_tiled_refines (src dst temp : Image) (buffer : Nat → ℚ)
    (radx rady W H : Nat) :
    (tiledColumns W = List.range (W - W % 8) ∧
      remainderColumns W = List.range' (W - W % 8) (W % 8) ∧
      tiledColumns W ++ remainderColumns W = List.range W) ∧
    (2 * radx + 1 ≤ W → 2 * rady + 1 ≤ H →
      ∀ r c, r < H → c < W →
        boxblurBuffer src dst buffer radx rady W H r c = boxMean src radx rady W H r c) ∧
    (2 * radx + 1 < W → 2 * rady + 1 < H →
      ∃ out, boxblur src dst radx rady W H temp = some out ∧
        ∀ r c, r < H → c < W → boxblurBuffer src dst buffer radx rady W H r c = out r c) ∧
    (W = 2 * radx + 1 ∨ H = 2 * rady + 1 → boxblur src dst radx rady W H temp = none) := by
  refine ⟨⟨tiledColumns_eq W, remainderColumns_eq W, ?_⟩, ?_, ?_, ?_⟩
  · rw [tiledColumns_eq, remainderColumns_eq, List.range_eq_range', List.range_eq_range']
    have h := List.range'_append 0 (W - W % 8) (W % 8) 1
    simp only [Nat.zero_add, Nat.one_mul] at h
    rw [h]
    congr 1
    omega
  · intro hW hH r c hr hc
    rw [boxblurBuffer_lineMean src dst buffer radx rady W H hW hH r c hr hc]
    exact lineMean_lineMean src radx rady W H r c hr hc
  · intro hW hH
    obtain ⟨out, ho, hm⟩ := boxblur_lineMean src dst temp radx rady W H hW hH
    refine ⟨out, ho, fun r c hr hc => ?_⟩
    rw [boxblurBuffer_lineMean src dst buffer radx rady W H (le_of_lt hW) (le_of_lt hH) r c
      hr hc, hm r c hr hc]
  · intro h
    unfold boxblur
    by_cases h1 : 2 * radx + 1 < W
    · rw [if_neg (not_not.mpr h1), if_pos (by omega)]
    · rw [if_pos h1]

/-- C36, amended, on the example image taken 10 x 4 with radii 1 and 1: the
tiles handle the columns 0 to 7 and the remainder loop the columns 8 and 9;
the sample `dst[1][8]`, in a remaining column, is the mean 77/3 of the nine
samples of its box, and the untiled `boxblur` leaves the same image. -/
theorem boxblur_tiled_refines_witness :
    tiledColumns 10 = [0, 1, 2, 3, 4, 5, 6, 7] ∧ remainderColumns 10 = [8, 9] ∧
    boxblurBuffer exampleImage (fun _ _ => 0) (fun _ => 0) 1 1 10 4 1 8 = 77 / 3 ∧
    ∃ out, boxblur exampleImage (fun _ _ => 0) 1 1 10 4 (fun _ _ => 0) = some out ∧
      ∀ r c, r < 4 → c < 10 →
        boxblurBuffer exampleImage (fun _ _ => 0) (fun _ => 0) 1 1 10 4 r c = out r c := by
  have h := boxblur_tiled_refines exampleImage (fun _ _ => 0) (fun _ _ => 0) (fun _ => 0)
    1 1 10 4
  refine ⟨h.1.1.trans (by decide), h.1.2.1.trans (by decide), ?_,
    h.2.2.1 (by decide) (by decide)⟩
  rw [h.2.1 (by decide) (by decide) 1 8 (by decide) (by decide)]
  decide!

/-! ## The vertical blur under `__SSE2__` -/

/-- Loop invariants for a loop whose body may fault: when each iteration
returns and carries the property, the loop returns and the property holds
after it. -/
theorem forLoopM_invariant {σ : Type} (lo hi : Nat) (body : Nat → σ → Option σ) (init : σ)
    (P : Nat → σ → Prop) (hle : lo ≤ hi) (h0 : P lo init)
    (hstep : ∀ i s, lo ≤ i → i < hi → P i s → ∃ s1, body i s = some s1 ∧ P (i + 1) s1) :
    ∃ s1, forLoopM lo hi body init = some s1 ∧ P hi s1 := by
  unfold forLoopM
  obtain ⟨n, rfl⟩ : ∃ n, hi = lo + n := ⟨hi - lo, by omega⟩
  rw [Nat.add_sub_cancel_left]
  clear hle
  induction n with
  | zero => exact ⟨init, rfl, h0⟩
  | succ n ih =>
    obtain ⟨s1, h1, p1⟩ := ih (fun i s a b p => hstep i s a (by omega) p)
    obtain ⟨s2, h2, p2⟩ := hstep (lo + n) s1 (by omega) (by omega) p1
    refine ⟨s2, ?_, p2⟩
    rw [List.range'_concat, List.foldlM_append, h1]
    simp only [Nat.one_mul, Option.bind_eq_bind, Option.some_bind, List.foldlM_cons,
      List.foldlM_nil]
    rw [h2]
    rfl

/-- Loop invariants for a loop with a step whose body may fault. -/
theorem forLoopStepM_invariant {σ : Type} (lo hi step : Nat) (body : Nat → σ → Option σ)
    (init : σ) (P : Nat → σ → Prop) (h0 : P 0 init)
    (hstep : ∀ t s, t < (hi - lo + step - 1) / step → P t s →
      ∃ s1, body (lo + step * t) s = some s1 ∧ P (t + 1) s1) :
    ∃ s1, forLoopStepM lo hi step body init = some s1 ∧
      P ((hi - lo + step - 1) / step) s1 := by
  unfold forLoopStepM
  generalize (hi - lo + step - 1) / step = n at hstep ⊢
  induction n with
  | zero => exact ⟨init, rfl, h0⟩
  | succ n ih =>
    obtain ⟨s1, h1, p1⟩ := ih (fun t s ht hp => hstep t s (Nat.lt_succ_of_lt ht) hp)
    obtain ⟨s2, h2, p2⟩ := hstep n s1 (Nat.lt_succ_self n) p1
    refine ⟨s2, ?_, p2⟩
    rw [List.range'_concat, List.foldlM_append, h1]
    simp only [Option.bind_eq_bind, Option.some_bind, List.foldlM_cons, List.foldlM_nil]
    rw [h2]
    rfl

/-- A loop whose first iteration faults faults. -/
theorem forLoopM_none {σ : Type} (lo hi : Nat) (body : Nat → σ → Option σ) (init : σ)
    (hlt : lo < hi) (h : body lo init = none) : forLoopM lo hi body init = none := by
  unfold forLoopM
  obtain ⟨n, hn⟩ : ∃ n, hi - lo = n + 1 := ⟨hi - lo - 1, by omega⟩
  rw [hn, List.range'_succ, List.foldlM_cons, h]
  rfl

/-- A loop with a step whose first iteration faults faults. -/
theorem forLoopStepM_none {σ : Type} (lo hi step : Nat) (body : Nat → σ → Option σ)
    (init : σ) (hs : 0 < step) (hlt : lo < hi) (h : body lo init = none) :
    forLoopStepM lo hi step body init = none := by
  unfold forLoopStepM
  have hpos : 0 < (hi - lo + step - 1) / step := by
    apply Nat.div_pos _ hs
    omega
  obtain ⟨n, hn⟩ : ∃ n, (hi - lo + step - 1) / step = n + 1 :=
    ⟨(hi - lo + step - 1) / step - 1, by omega⟩
  rw [hn, List.range'_succ, List.foldlM_cons, h]
  rfl

/-- An aligned load or store at an address that is a multiple of 16 bytes, and
every unaligned one, is done. -/
theorem loadV_some (aligned : Bool) (base : Nat) (mem : Nat → ℚ) (i : Nat)
    (h : aligned = true → (base + i) % 4 = 0) :
    loadV aligned base mem i = some (fun k => mem (i + k)) := by
  unfold loadV
  rw [if_neg]
  rintro ⟨h1, h2⟩
  exact h2 (h h1)

/-- An aligned store at an address that is a multiple of 16 bytes, and every
unaligned one, writes the lanes and leaves the rest of the memory. -/
theorem storeV_some (aligned : Bool) (base lanes : Nat) (mem : Nat → ℚ) (i : Nat)
    (v : Nat → ℚ) (h : aligned = true → (base + i) % 4 = 0) :
    storeV aligned base lanes mem i v
      = some (fun j => if i ≤ j ∧ j < i + lanes then v (j - i) else mem j) := by
  unfold storeV
  rw [if_neg]
  rintro ⟨h1, h2⟩
  exact h2 (h h1)

/-- The first group of columns of `boxabsblur` under `__SSE2__` faults when the
radius is at least 1 and the width, the address of `temp` or the address of
`dst` is not a multiple of 4 `float`s: the loads of the rows 0 and 1 of `temp`
and the store to the row 0 of `dst` cannot all be aligned. -/
theorem vectorColumn_misaligned (tempBase dstBase : Nat) (temp dst : Nat → ℚ)
    (rady W H : Nat) (hr : 1 ≤ rady)
    (hmis : ¬ (W % 4 = 0 ∧ tempBase % 4 = 0 ∧ dstBase % 4 = 0)) :
    vectorColumn true tempBase dstBase 4 temp rady W H 0 dst = none := by
  unfold vectorColumn
  by_cases hb : tempBase % 4 = 0
  · by_cases hw : W % 4 = 0
    · -- the loads are aligned, the store is not
      have hd : dstBase % 4 ≠ 0 := fun h => hmis ⟨hw, hb, h⟩
      rw [loadV_some true tempBase temp (0 * W + 0) (fun _ => by simpa using hb)]
      obtain ⟨tv, htv, -⟩ := forLoopM_invariant 1 (rady + 1)
        (vectorAdd true tempBase temp W 0) (fun k => temp (0 * W + 0 + k))
        (fun _ _ => True) (by omega) trivial
        (fun i s _ _ _ => ⟨fun k => s k + temp (i * W + 0 + k), by
          unfold vectorAdd
          rw [loadV_some true tempBase temp (i * W + 0) (fun _ => by
            have : (i * W) % 4 = 0 := by
              rw [Nat.mul_mod, hw]; simp
            omega)]
          rfl, trivial⟩)
      simp only [Option.bind_eq_bind, Option.some_bind, htv]
      have hst : ∀ v, storeV true dstBase 4 dst (0 * W + 0) v = none := by
        intro v
        unfold storeV
        rw [if_pos ⟨rfl, by simpa using hd⟩]
      rw [hst]
      rfl
    · -- the load of the row 1 is not aligned
      rw [loadV_some true tempBase temp (0 * W + 0) (fun _ => by simpa using hb)]
      have hl : ∀ s, vectorAdd true tempBase temp W 0 1 s = none := by
        intro s
        unfold vectorAdd loadV
        rw [if_pos ⟨rfl, by omega⟩]
        rfl
      simp only [Option.bind_eq_bind, Option.some_bind]
      rw [forLoopM_none 1 (rady + 1) _ _ (by omega) (hl _)]
      rfl
  · -- the load of the row 0 is not aligned
    have hl : loadV true tempBase temp (0 * W + 0) = none := by
      unfold loadV
      rw [if_pos ⟨rfl, by simpa using hb⟩]
    rw [hl]
    rfl

/-- Under `__SSE2__` the second half of `boxabsblur` faults for a radius of at
least 1 and a width of at least 4 when the width, the address of `temp` or the
address of `dst` is not a multiple of 4 `float`s. -/
theorem absVerticalSSE2_misaligned (tempBase dstBase : Nat) (temp dst : Nat → ℚ)
    (rady W H : Nat) (hr : 1 ≤ rady) (hW : 4 ≤ W)
    (hmis : ¬ (W % 4 = 0 ∧ tempBase % 4 = 0 ∧ dstBase % 4 = 0)) :
    absVerticalSSE2 tempBase dstBase temp dst rady W H = none := by
  unfold absVerticalSSE2
  rw [if_neg (by omega)]
  rw [forLoopStepM_none 0 (W - 3) 4 _ dst (by norm_num) (by omega)
    (vectorColumn_misaligned tempBase dstBase temp dst rady W H hr hmis)]
  rfl

/-- The address of `mem[i * W + col]` is a multiple of 16 bytes when the
address of `mem[0]`, the width and the column are multiples of 4 `float`s. -/
theorem aligned_index (base W col i : Nat) (hW : W % 4 = 0) (hb : base % 4 = 0)
    (hc : col % 4 = 0) : (base + (i * W + col)) % 4 = 0 := by
  have : (i * W) % 4 = 0 := by
    rw [Nat.mul_mod, hW]; simp
  omega

/-- When the first part of a computation returns a value with a property, and
the rest returns for every such value, the computation returns. -/
theorem bind_spec {α β : Type} (x : Option α) (f : α → Option β) (P : α → Prop)
    (Q : β → Prop) (hx : ∃ a, x = some a ∧ P a) (hf : ∀ a, P a → ∃ b, f a = some b ∧ Q b) :
    ∃ b, x.bind f = some b ∧ Q b := by
  obtain ⟨a, ha, pa⟩ := hx
  rw [ha]
  exact hf a pa

/-- The store of the lanes of a row of the group: the rows up to this one hold
their values, and the memory outside the group is left. -/
theorem store_rows (L : Nat → Nat → ℚ) (W H col lanes row : Nat) (d0 d v : Nat → ℚ)
    (hrow : row < H) (hcol : col + lanes ≤ W)
    (hv : ∀ k, k < lanes → v k = L row k)
    (hd : ∀ r k, r < row → k < lanes → d (r * W + col + k) = L r k)
    (hf : ∀ j, (∀ r k, r < H → k < lanes → j ≠ r * W + col + k) → d j = d0 j) :
    (∀ r k, r < row + 1 → k < lanes →
      (fun j => if row * W + col ≤ j ∧ j < row * W + col + lanes
        then v (j - (row * W + col)) else d j) (r * W + col + k) = L r k) ∧
    (∀ j, (∀ r k, r < H → k < lanes → j ≠ r * W + col + k) →
      (fun j => if row * W + col ≤ j ∧ j < row * W + col + lanes
        then v (j - (row * W + col)) else d j) j = d0 j) := by
  constructor
  · intro r k hr hk
    dsimp only
    by_cases h : r = row
    · subst h
      rw [if_pos ⟨by omega, by omega⟩]
      have e : r * W + col + k - (r * W + col) = k := by omega
      rw [e]
      exact hv k hk
    · have hlt : r < row := by omega
      have h1 : (r + 1) * W ≤ row * W := Nat.mul_le_mul_right W hlt
      rw [Nat.succ_mul] at h1
      rw [if_neg (by omega)]
      exact hd r k hlt hk
  · intro j hj
    dsimp only
    by_cases h : row * W + col ≤ j ∧ j < row * W + col + lanes
    · exact absurd (by omega) (hj row (j - (row * W + col)) hrow (by omega))
    · rw [if_neg h]
      exact hf j hj

/-- One iteration of the loop over the growing windows under `__SSE2__`. -/
theorem vectorGrow_step (aligned : Bool) (tempBase dstBase lanes : Nat) (temp d0 : Nat → ℚ)
    (rady W H col row : Nat) (s : VectorState)
    (hH : 2 * rady + 1 ≤ H) (hcol : col + lanes ≤ W)
    (hal : aligned = true → W % 4 = 0 ∧ tempBase % 4 = 0 ∧ dstBase % 4 = 0 ∧ col % 4 = 0)
    (h1 : 1 ≤ row) (h2 : row < rady + 1)
    (hinv : vectorInv temp d0 rady W H col lanes row ((rady : ℚ) + row) s) :
    ∃ s1, vectorGrow aligned tempBase dstBase lanes temp rady W col row s = some s1 ∧
      vectorInv temp d0 rady W H col lanes (row + 1) ((rady : ℚ) + (row + 1 : Nat)) s1 := by
  obtain ⟨a1, a2, a3, a4⟩ := hinv
  unfold vectorGrow
  have hl : ∀ i, loadV aligned tempBase temp (i * W + col)
      = some (fun k => temp (i * W + col + k)) := fun i =>
    loadV_some aligned tempBase temp _ (fun h =>
      aligned_index tempBase W col i (hal h).1 (hal h).2.1 (hal h).2.2.2)
  have hs : ∀ (d : Nat → ℚ) i (v : Nat → ℚ), storeV aligned dstBase lanes d (i * W + col) v
      = some (fun j => if i * W + col ≤ j ∧ j < i * W + col + lanes
          then v (j - (i * W + col)) else d j) := fun d i v =>
    storeV_some aligned dstBase lanes d _ v (fun h =>
      aligned_index dstBase W col i (hal h).1 (hal h).2.2.1 (hal h).2.2.2)
  simp only [hl, hs, Option.bind_eq_bind, Option.some_bind]
  refine ⟨_, rfl, ?_⟩
  have hv : ∀ k, k < lanes →
      (s.tempv k * s.lenv + temp ((row + rady) * W + col + k)) / (s.lenv + 1)
        = lineMean (fun i => temp (i * W + col + k)) rady H row := by
    intro k hk
    rw [a1, a2 k hk]
    exact lineMean_grow (fun i => temp (i * W + col + k)) rady H row h1 (by omega) (by omega)
  obtain ⟨b1, b2⟩ := store_rows
    (fun r k => lineMean (fun i => temp (i * W + col + k)) rady H r) W H col lanes row d0
    s.dst (fun k => (s.tempv k * s.lenv + temp ((row + rady) * W + col + k)) / (s.lenv + 1))
    (by omega) hcol hv a3 a4
  refine ⟨?_, ?_, b1, b2⟩
  · show s.lenv + 1 = _
    rw [a1]; push_cast; ring
  · intro k hk
    show (s.tempv k * s.lenv + temp ((row + rady) * W + col + k)) / (s.lenv + 1) = _
    rw [Nat.add_sub_cancel]
    exact hv k hk

/-- One iteration of the loop over the full windows under `__SSE2__`. -/
theorem vectorSlide_step (aligned : Bool) (tempBase dstBase lanes : Nat) (temp d0 : Nat → ℚ)
    (rady W H col row : Nat) (s : VectorState) (hcol : col + lanes ≤ W)
    (hal : aligned = true → W % 4 = 0 ∧ tempBase % 4 = 0 ∧ dstBase % 4 = 0 ∧ col % 4 = 0)
    (h1 : rady + 1 ≤ row) (h2 : row < H - rady)
    (hinv : vectorInv temp d0 rady W H col lanes row (2 * (rady : ℚ) + 1) s) :
    ∃ s1, vectorSlide aligned tempBase dstBase lanes temp rady W col
        (1 / (2 * (rady : ℚ) + 1)) row s = some s1 ∧
      vectorInv temp d0 rady W H col lanes (row + 1) (2 * (rady : ℚ) + 1) s1 := by
  obtain ⟨a1, a2, a3, a4⟩ := hinv
  unfold vectorSlide
  have hl : ∀ i, loadV aligned tempBase temp (i * W + col)
      = some (fun k => temp (i * W + col + k)) := fun i =>
    loadV_some aligned tempBase temp _ (fun h =>
      aligned_index tempBase W col i (hal h).1 (hal h).2.1 (hal h).2.2.2)
  have hs : ∀ (d : Nat → ℚ) i (v : Nat → ℚ), storeV aligned dstBase lanes d (i * W + col) v
      = some (fun j => if i * W + col ≤ j ∧ j < i * W + col + lanes
          then v (j - (i * W + col)) else d j) := fun d i v =>
    storeV_some aligned dstBase lanes d _ v (fun h =>
      aligned_index dstBase W col i (hal h).1 (hal h).2.2.1 (hal h).2.2.2)
  simp only [hl, hs, Option.bind_eq_bind, Option.some_bind]
  refine ⟨_, rfl, ?_⟩
  have hv : ∀ k, k < lanes →
      s.tempv k + (temp ((row + rady) * W + col + k) - temp ((row - rady - 1) * W + col + k))
          * (1 / (2 * (rady : ℚ) + 1))
        = lineMean (fun i => temp (i * W + col + k)) rady H row := by
    intro k hk
    rw [a2 k hk, mul_one_div]
    exact lineMean_slide (fun i => temp (i * W + col + k)) rady H row h1 (by omega)
  obtain ⟨b1, b2⟩ := store_rows
    (fun r k => lineMean (fun i => temp (i * W + col + k)) rady H r) W H col lanes row d0
    s.dst (fun k => s.tempv k + (temp ((row + rady) * W + col + k)
      - temp ((row - rady - 1) * W + col + k)) * (1 / (2 * (rady : ℚ) + 1)))
    (by omega) hcol hv a3 a4
  refine ⟨a1, ?_, b1, b2⟩
  intro k hk
  show s.tempv k + (temp ((row + rady) * W + col + k)
      - temp ((row - rady - 1) * W + col + k)) * (1 / (2 * (rady : ℚ) + 1)) = _
  rw [Nat.add_sub_cancel]
  exact hv k hk

/-- One iteration of the loop over the shrinking windows under `__SSE2__`. -/
theorem vectorShrink_step (aligned : Bool) (tempBase dstBase lanes : Nat)
    (temp d0 : Nat → ℚ) (rady W H col row : Nat) (s : VectorState)
    (hH : 2 * rady + 1 ≤ H) (hcol : col + lanes ≤ W)
    (hal : aligned = true → W % 4 = 0 ∧ tempBase % 4 = 0 ∧ dstBase % 4 = 0 ∧ col % 4 = 0)
    (h1 : H - rady ≤ row) (h2 : row < H)
    (hinv : vectorInv temp d0 rady W H col lanes row ((H : ℚ) + rady + 1 - row) s) :
    ∃ s1, vectorShrink aligned tempBase dstBase lanes temp rady W col row s = some s1 ∧
      vectorInv temp d0 rady W H col lanes (row + 1)
        ((H : ℚ) + rady + 1 - (row + 1 : Nat)) s1 := by
  obtain ⟨a1, a2, a3, a4⟩ := hinv
  unfold vectorShrink
  have hl : ∀ i, loadV aligned tempBase temp (i * W + col)
      = some (fun k => temp (i * W + col + k)) := fun i =>
    loadV_some aligned tempBase temp _ (fun h =>
      aligned_index tempBase W col i (hal h).1 (hal h).2.1 (hal h).2.2.2)
  have hs : ∀ (d : Nat → ℚ) i (v : Nat → ℚ), storeV aligned dstBase lanes d (i * W + col) v
      = some (fun j => if i * W + col ≤ j ∧ j < i * W + col + lanes
          then v (j - (i * W + col)) else d j) := fun d i v =>
    storeV_some aligned dstBase lanes d _ v (fun h =>
      aligned_index dstBase W col i (hal h).1 (hal h).2.2.1 (hal h).2.2.2)
  simp only [hl, hs, Option.bind_eq_bind, Option.some_bind]
  refine ⟨_, rfl, ?_⟩
  have hv : ∀ k, k < lanes →
      (s.tempv k * s.lenv - temp ((row - rady - 1) * W + col + k)) / (s.lenv - 1)
        = lineMean (fun i => temp (i * W + col + k)) rady H row := by
    intro k hk
    rw [a1, a2 k hk]
    have e : (H : ℚ) + rady + 1 - row - 1 = (H : ℚ) + rady - row := by ring
    rw [e]
    exact lineMean_shrink (fun i => temp (i * W + col + k)) rady H row (by omega) (by omega) h2
  obtain ⟨b1, b2⟩ := store_rows
    (fun r k => lineMean (fun i => temp (i * W + col + k)) rady H r) W H col lanes row d0
    s.dst (fun k => (s.tempv k * s.lenv - temp ((row - rady - 1) * W + col + k))
      / (s.lenv - 1))
    h2 hcol hv a3 a4
  refine ⟨?_, ?_, b1, b2⟩
  · show s.lenv - 1 = _
    rw [a1]; push_cast; ring
  · intro k hk
    show (s.tempv k * s.lenv - temp ((row - rady - 1) * W + col + k)) / (s.lenv - 1) = _
    rw [Nat.add_sub_cancel]
    exact hv k hk

/-- The vertical blur of a group of columns under `__SSE2__`, when its loads
and stores are unaligned or all at addresses that are multiples of 16 bytes:
it returns, leaves in `dst[r * W + col + k]` the window mean of the column
`col + k` of `temp` at `r`, and leaves the memory outside the group. -/
theorem vectorColumn_spec (aligned : Bool) (tempBase dstBase lanes : Nat)
    (temp d0 : Nat → ℚ) (rady W H col : Nat)
    (hH : 2 * rady + 1 ≤ H) (hcol : col + lanes ≤ W)
    (hal : aligned = true → W % 4 = 0 ∧ tempBase % 4 = 0 ∧ dstBase % 4 = 0 ∧ col % 4 = 0) :
    ∃ d, vectorColumn aligned tempBase dstBase lanes temp rady W H col d0 = some d ∧
      (∀ r k, r < H → k < lanes →
        d (r * W + col + k) = lineMean (fun i => temp (i * W + col + k)) rady H r) ∧
      (∀ j, (∀ r k, r < H → k < lanes → j ≠ r * W + col + k) → d j = d0 j) := by
  have hl : ∀ i, loadV aligned tempBase temp (i * W + col)
      = some (fun k => temp (i * W + col + k)) := fun i =>
    loadV_some aligned tempBase temp _ (fun h =>
      aligned_index tempBase W col i (hal h).1 (hal h).2.1 (hal h).2.2.2)
  have hs : ∀ (d : Nat → ℚ) i (v : Nat → ℚ), storeV aligned dstBase lanes d (i * W + col) v
      = some (fun j => if i * W + col ≤ j ∧ j < i * W + col + lanes
          then v (j - (i * W + col)) else d j) := fun d i v =>
    storeV_some aligned dstBase lanes d _ v (fun h =>
      aligned_index dstBase W col i (hal h).1 (hal h).2.2.1 (hal h).2.2.2)
  unfold vectorColumn
  simp only [hl, hs, Option.bind_eq_bind, Option.some_bind]
  refine bind_spec _ _
    (fun tv => ∀ k, tv k = prefixSum (fun i => temp (i * W + col + k)) (rady + 1)) _ ?_ ?_
  · -- the sum of the first window
    exact forLoopM_invariant 1 (rady + 1) _ _
      (fun i (tv : Nat → ℚ) => ∀ k, tv k = prefixSum (fun i => temp (i * W + col + k)) i)
      (by omega)
      (fun k => by simp [prefixSum])
      (fun i tv _ _ hp => ⟨fun k => tv k + temp (i * W + col + k), by
        unfold vectorAdd
        rw [hl i]
        rfl, fun k => by
          rw [prefixSum_succ]
          show tv k + temp (i * W + col + k) = _
          rw [hp k]⟩)
  · intro tv htv
    have hmean0 : ∀ k, tv k / ((rady : ℚ) + 1)
        = lineMean (fun i => temp (i * W + col + k)) rady H 0 := by
      intro k
      rw [lineMean_head _ rady H 0 (Nat.zero_le _) (by omega), htv k]
      simp
    refine bind_spec _ _
      (fun s => vectorInv temp d0 rady W H col lanes (rady + 1)
        ((rady : ℚ) + (rady + 1 : Nat)) s) _ ?_ ?_
    · -- the growing windows
      refine forLoopM_invariant 1 (rady + 1) _ _
        (fun row s => vectorInv temp d0 rady W H col lanes row ((rady : ℚ) + row) s)
        (by omega) ?_
        (fun row s a b p => vectorGrow_step aligned tempBase dstBase lanes temp d0 rady W H
          col row s hH hcol hal a b p)
      obtain ⟨b1, b2⟩ := store_rows
        (fun r k => lineMean (fun i => temp (i * W + col + k)) rady H r) W H col lanes 0 d0
        d0 (fun k => tv k / ((rady : ℚ) + 1)) (by omega) hcol (fun k _ => hmean0 k)
        (fun r k hr _ => absurd hr (Nat.not_lt_zero r)) (fun j _ => rfl)
      exact ⟨by push_cast; ring, fun k _ => hmean0 k, b1, b2⟩
    · intro s1 hs1
      have hlen : s1.lenv = 2 * (rady : ℚ) + 1 := by
        rw [hs1.1]; push_cast; ring
      rw [hlen]
      refine bind_spec _ _
        (fun s => vectorInv temp d0 rady W H col lanes (H - rady) (2 * (rady : ℚ) + 1) s)
        _ ?_ ?_
      · -- the full windows
        exact forLoopM_invariant (rady + 1) (H - rady) _ _
          (fun row s => vectorInv temp d0 rady W H col lanes row (2 * (rady : ℚ) + 1) s)
          (by omega) ⟨hlen, hs1.2⟩
          (fun row s a b p => vectorSlide_step aligned tempBase dstBase lanes temp d0 rady W H
            col row s hcol hal a b p)
      · intro s2 hs2
        refine bind_spec _ _
          (fun s => vectorInv temp d0 rady W H col lanes H
            ((H : ℚ) + rady + 1 - (H : Nat)) s) _ ?_ ?_
        · -- the shrinking windows
          refine forLoopM_invariant (H - rady) H _ _
            (fun row s => vectorInv temp d0 rady W H col lanes row
              ((H : ℚ) + rady + 1 - (row : Nat)) s)
            (by omega) ?_
            (fun row s a b p => vectorShrink_step aligned tempBase dstBase lanes temp d0 rady
              W H col row s hH hcol hal a b p)
          refine ⟨?_, hs2.2⟩
          rw [hs2.1, Nat.cast_sub (by omega)]
          ring
        · intro s3 hs3
          exact ⟨s3.dst, rfl, hs3.2.2.1, hs3.2.2.2⟩

/-- The index of a sample of a flat image determines its row and column. -/
theorem flat_index_inj (W r c r1 c1 : Nat) (hc : c < W) (hc1 : c1 < W)
    (h : r * W + c = r1 * W + c1) : r = r1 ∧ c = c1 := by
  have h1 : (r * W + c) % W = c := Nat.mul_add_mod_of_lt hc
  have h2 : (r1 * W + c1) % W = c1 := Nat.mul_add_mod_of_lt hc1
  have hcc : c = c1 := by rw [← h1, h, h2]
  subst hcc
  have hW : 0 < W := by omega
  exact ⟨Nat.eq_of_mul_eq_mul_right hW (Nat.add_right_cancel h), rfl⟩

/-- The loop over the groups of `lanes` columns under `__SSE2__`, when the
groups lie within the width and the loads and stores are unaligned or all at
addresses that are multiples of 16 bytes: it returns, leaves the window means
in the columns of the groups and leaves the rest of the memory. -/
theorem vectorTiles_spec (aligned : Bool) (tempBase dstBase lanes : Nat)
    (temp d0 : Nat → ℚ) (rady W H lo hi : Nat) (hH : 2 * rady + 1 ≤ H)
    (hfit : lo + lanes * ((hi - lo + lanes - 1) / lanes) ≤ W)
    (hal : aligned = true → 0 < (hi - lo + lanes - 1) / lanes →
      W % 4 = 0 ∧ tempBase % 4 = 0 ∧ dstBase % 4 = 0 ∧ lo % 4 = 0 ∧ lanes % 4 = 0) :
    ∃ d, forLoopStepM lo hi lanes (vectorColumn aligned tempBase dstBase lanes temp rady W H)
        d0 = some d ∧
      (∀ r c, r < H → lo ≤ c → c < lo + lanes * ((hi - lo + lanes - 1) / lanes) →
        d (r * W + c) = lineMean (fun i => temp (i * W + c)) rady H r) ∧
      (∀ j, (∀ r c, r < H → lo ≤ c → c < lo + lanes * ((hi - lo + lanes - 1) / lanes) →
        j ≠ r * W + c) → d j = d0 j) := by
  generalize hn : (hi - lo + lanes - 1) / lanes = n at hfit hal
  have key := forLoopStepM_invariant lo hi lanes
    (vectorColumn aligned tempBase dstBase lanes temp rady W H) d0
    (fun t (d : Nat → ℚ) =>
      (∀ r c, r < H → lo ≤ c → c < lo + lanes * t →
        d (r * W + c) = lineMean (fun i => temp (i * W + c)) rady H r) ∧
      (∀ j, (∀ r c, r < H → lo ≤ c → c < lo + lanes * t → j ≠ r * W + c) → d j = d0 j))
    ⟨fun r c _ h1 h2 => absurd h2 (by omega), fun j _ => rfl⟩
    (by
      intro t d ht hp
      rw [hn] at ht
      have hle : lanes * (t + 1) ≤ lanes * n := Nat.mul_le_mul_left lanes ht
      rw [Nat.mul_succ] at hle
      have hcol : lo + lanes * t + lanes ≤ W := by omega
      obtain ⟨d1, h1, s1, s2⟩ := vectorColumn_spec aligned tempBase dstBase lanes temp d
        rady W H (lo + lanes * t) hH hcol (fun h => by
          obtain ⟨a1, a2, a3, a4, a5⟩ := hal h (by omega)
          refine ⟨a1, a2, a3, ?_⟩
          have : (lanes * t) % 4 = 0 := by
            rw [Nat.mul_mod, a5]; simp
          omega)
      refine ⟨d1, h1, ?_, ?_⟩
      · intro r c hr hc1 hc2
        rw [Nat.mul_succ] at hc2
        by_cases hc : lo + lanes * t ≤ c
        · have e : r * W + c = r * W + (lo + lanes * t) + (c - (lo + lanes * t)) := by omega
          have h3 := s1 r (c - (lo + lanes * t)) hr (by omega)
          have e2 : lo + lanes * t + (c - (lo + lanes * t)) = c := by omega
          rw [e, h3]
          simp only [Nat.add_assoc, e2]
        · rw [s2 (r * W + c) (fun r1 k hr1 hk h => by
            have := flat_index_inj W r c r1 (lo + lanes * t + k) (by omega) (by omega)
              (by omega)
            omega)]
          exact hp.1 r c hr hc1 (by omega)
      · intro j hj
        rw [s2 j (fun r1 k hr1 hk h =>
          hj r1 (lo + lanes * t + k) hr1 (by omega) (by rw [Nat.mul_succ]; omega) (by omega))]
        exact hp.2 j (fun r c hr hc1 hc2 =>
          hj r c hr hc1 (by rw [Nat.mul_succ]; omega)))
  rw [hn] at key
  exact key

/-- The loop over single columns of the vertical blur, from the column `lo`
on: it leaves the window means in these columns and leaves the columns before
`lo`. -/
theorem scalarColumns_spec (temp d0 : Nat → ℚ) (rady W H lo : Nat) (hH : 2 * rady + 1 ≤ H)
    (hlo : lo ≤ W) :
    (∀ r c, r < H → lo ≤ c → c < W →
      forLoop lo W (fun col d =>
        blurLineAt (fun row => temp (row * W + col)) rady H (fun row => row * W + col) d) d0
        (r * W + c) = lineMean (fun i => temp (i * W + c)) rady H r) ∧
    (∀ r c, c < lo →
      forLoop lo W (fun col d =>
        blurLineAt (fun row => temp (row * W + col)) rady H (fun row => row * W + col) d) d0
        (r * W + c) = d0 (r * W + c)) := by
  have key := forLoop_invariant lo W
    (fun col d =>
      blurLineAt (fun row => temp (row * W + col)) rady H (fun row => row * W + col) d) d0
    (fun col (d : Nat → ℚ) =>
      (∀ r c, r < H → lo ≤ c → c < col →
        d (r * W + c) = lineMean (fun i => temp (i * W + c)) rady H r) ∧
      (∀ r c, c < lo → d (r * W + c) = d0 (r * W + c)))
    hlo
    ⟨fun r c _ h1 h2 => absurd h2 (by omega), fun r c _ => rfl⟩
    (by
      intro col d hcl hcol hp
      have hW : 0 < W := by omega
      have hidx : Function.Injective (fun row => row * W + col) := by
        intro a b hab
        dsimp only at hab
        exact Nat.eq_of_mul_eq_mul_right hW (Nat.add_right_cancel hab)
      obtain ⟨s1, s2⟩ := blurLineAt_spec (fun row => temp (row * W + col)) rady H
        (fun row => row * W + col) d hidx
      refine ⟨?_, ?_⟩
      · intro r c hr hc1 hc2
        by_cases hkc : c = col
        · subst hkc
          dsimp only
          rw [s1 r]
          exact blurLine_window _ rady H _ hH r hr
        · dsimp only
          rw [s2 (r * W + c) (fun a h => by
            have := flat_index_inj W r c a col (by omega) hcol h
            exact hkc this.2)]
          exact hp.1 r c hr hc1 (by omega)
      · intro r c hc
        dsimp only
        rw [s2 (r * W + c) (fun a h => by
          have := flat_index_inj W r c a col (by omega) hcol h
          omega)]
        exact hp.2 r c hc)
  exact key

/-- The second half of the flat-array `boxblur` under `__SSE2__` returns and
leaves in `dst[r * W + c]` the window mean of the column `c` of `temp` at
`r`. -/
theorem flatVerticalSSE2_spec (temp dst : Nat → ℚ) (rady W H : Nat) (hH : 2 * rady + 1 ≤ H) :
    ∃ d, flatVerticalSSE2 temp dst rady W H = some d ∧
      ∀ r c, r < H → c < W →
        d (r * W + c) = lineMean (fun i => temp (i * W + c)) rady H r := by
  unfold flatVerticalSSE2
  by_cases h0 : rady = 0
  · rw [if_pos h0]
    refine ⟨_, rfl, fun r c hr hc => ?_⟩
    have h := flatVertical_spec temp dst rady W H hH r c hr hc
    unfold flatVertical at h
    rw [if_pos h0] at h
    exact h
  · rw [if_neg h0]
    have e1 : (W - 7 - 0 + 8 - 1) / 8 = W / 8 := by omega
    have x1 : loopExit 0 (W - 7) 8 = 8 * (W / 8) := by
      unfold loopExit
      rw [e1, Nat.zero_add]
    have e2 : (W - 3 - 8 * (W / 8) + 4 - 1) / 4 = W / 4 - 2 * (W / 8) := by omega
    have x2 : loopExit (8 * (W / 8)) (W - 3) 4 = 4 * (W / 4) := by
      unfold loopExit
      rw [e2]
      omega
    obtain ⟨d1, h1, p1, q1⟩ := vectorTiles_spec false 0 0 8 temp dst rady W H 0 (W - 7) hH
      (by rw [e1]; omega) (fun h => absurd h (by decide))
    rw [e1] at p1 q1
    obtain ⟨d2, h2, p2, q2⟩ := vectorTiles_spec false 0 0 4 temp d1 rady W H (8 * (W / 8))
      (W - 3) hH (by rw [e2]; omega) (fun h => absurd h (by decide))
    rw [e2] at p2 q2
    obtain ⟨p3, q3⟩ := scalarColumns_spec temp d2 rady W H (4 * (W / 4)) hH (by omega)
    simp only [x1, h1, Option.bind_eq_bind, Option.some_bind, x2, h2]
    refine ⟨_, rfl, fun r c hr hc => ?_⟩
    by_cases c3 : 4 * (W / 4) ≤ c
    · exact p3 r c hr c3 hc
    · rw [q3 r c (by omega)]
      by_cases c2 : 8 * (W / 8) ≤ c
      · exact p2 r c hr c2 (by omega)
      · rw [q2 (r * W + c) (fun r1 c1 hr1 h3 h4 h => by
          have := flat_index_inj W r c r1 c1 hc (by omega) h
          omega)]
        exact p1 r c hr (Nat.zero_le _) (by omega)

/-- The second half of `boxabsblur` under `__SSE2__`, when the width is below 4
or the width and the addresses of `temp` and `dst` are multiples of 4
`float`s: it returns and leaves in `dst[r * W + c]` the window mean of the
column `c` of `temp` at `r`. -/
theorem absVerticalSSE2_spec (tempBase dstBase : Nat) (temp dst : Nat → ℚ) (rady W H : Nat)
    (hH : 2 * rady + 1 ≤ H)
    (hal : rady = 0 ∨ W < 4 ∨ (W % 4 = 0 ∧ tempBase % 4 = 0 ∧ dstBase % 4 = 0)) :
    ∃ d, absVerticalSSE2 tempBase dstBase temp dst rady W H = some d ∧
      ∀ r c, r < H → c < W →
        d (r * W + c) = lineMean (fun i => temp (i * W + c)) rady H r := by
  unfold absVerticalSSE2
  by_cases h0 : rady = 0
  · rw [if_pos h0]
    refine ⟨_, rfl, fun r c hr hc => ?_⟩
    have h := flatVertical_spec temp dst rady W H hH r c hr hc
    unfold flatVertical at h
    rw [if_pos h0] at h
    exact h
  · rw [if_neg h0]
    have e1 : (W - 3 - 0 + 4 - 1) / 4 = W / 4 := by omega
    have e2 : W - W % 4 = 4 * (W / 4) := by omega
    obtain ⟨d1, h1, p1, q1⟩ := vectorTiles_spec true tempBase dstBase 4 temp dst rady W H 0
      (W - 3) hH (by rw [e1]; omega) (fun _ hpos => by
        rw [e1] at hpos
        rcases hal with h | h | h
        · exact absurd h h0
        · omega
        · exact ⟨h.1, h.2.1, h.2.2, rfl, rfl⟩)
    rw [e1] at p1 q1
    obtain ⟨p3, q3⟩ := scalarColumns_spec temp d1 rady W H (4 * (W / 4)) hH (by omega)
    simp only [e2, h1, Option.bind_eq_bind, Option.some_bind]
    refine ⟨_, rfl, fun r c hr hc => ?_⟩
    by_cases c3 : 4 * (W / 4) ≤ c
    · exact p3 r c hr c3 hc
    · rw [q3 r c (by omega)]
      exact p1 r c hr (Nat.zero_le _) (by omega)

/-- A vertical pass that leaves the window means of the columns of the
horizontal pass of `boxabsblur` leaves the box means of the absolute values. -/
theorem absVertical_boxMean (src temp d : Nat → ℚ) (radx rady W H : Nat)
    (hW : 2 * radx + 1 ≤ W)
    (hd : ∀ r c, r < H → c < W →
      d (r * W + c) = lineMean (fun i => absHorizontal src radx W H temp (i * W + c)) rady H r)
    (r c : Nat) (hr : r < H) (hc : c < W) :
    d (r * W + c) = boxMean (fun i j => |src (i * W + j)|) radx rady W H r c := by
  rw [hd r c hr hc,
    lineMean_congr _ (fun i => lineMean (fun j => |src (i * W + j)|) radx W c) rady H r hr
      (fun i hi => absHorizontal_spec src temp radx W H hW i c hi hc)]
  exact lineMean_lineMean (fun i j => |src (i * W + j)|) radx rady W H r c hr hc

/-- C33, where the program departs from it.  In exact arithmetic, for a
`W` x `H` flat image and radii with `2 * radx + 1 <= W` and
`2 * rady + 1 <= H`: compiled without `__SSE2__`, `boxabsblur` leaves the same
memory in `dst` as the flat-array `boxblur` applied to the absolute values of
`src`, the box means of the absolute values; compiled under `__SSE2__`, the
flat-array `boxblur`, whose loads and stores are unaligned, still returns the
box means, but `boxabsblur`, whose loads and stores are aligned, faults when
the radius `rady` is at least 1, the width is at least 4 and the width, the
address of `temp` or the address of `dst` is not a multiple of 4 `float`s; it
returns the box means when `rady` is 0, when the width is below 4 and when the
width and both addresses are multiples of 4 `float`s. -/
theorem boxabsblur_sse2_alignment (src dst temp : Nat → ℚ)
    (radx rady W H tempBase dstBase : Nat)
    (hW : 2 * radx + 1 ≤ W) (hH : 2 * rady + 1 ≤ H) :
    (boxabsblur false tempBase dstBase src dst radx rady W H temp
        = boxblurFlat false (fun i => |src i|) dst temp radx rady W H ∧
      ∃ d, boxabsblur false tempBase dstBase src dst radx rady W H temp = some d ∧
        ∀ r c, r < H → c < W →
          d (r * W + c) = boxMean (fun i j => |src (i * W + j)|) radx rady W H r c) ∧
    (∃ d, boxblurFlat true (fun i => |src i|) dst temp radx rady W H = some d ∧
      ∀ r c, r < H → c < W →
        d (r * W + c) = boxMean (fun i j => |src (i * W + j)|) radx rady W H r c) ∧
    (1 ≤ rady → 4 ≤ W → ¬ (W % 4 = 0 ∧ tempBase % 4 = 0 ∧ dstBase % 4 = 0) →
      boxabsblur true tempBase dstBase src dst radx rady W H temp = none) ∧
    (rady = 0 ∨ W < 4 ∨ (W % 4 = 0 ∧ tempBase % 4 = 0 ∧ dstBase % 4 = 0) →
      ∃ d, boxabsblur true tempBase dstBase src dst radx rady W H temp = some d ∧
        ∀ r c, r < H → c < W →
          d (r * W + c) = boxMean (fun i j => |src (i * W + j)|) radx rady W H r c) := by
  have heq := absHorizontal_eq src temp radx W H hW
  refine ⟨⟨?_, ?_⟩, ?_, ?_, ?_⟩
  · unfold boxabsblur boxblurFlat
    rw [heq]
    rfl
  · refine ⟨flatVertical (absHorizontal src radx W H temp) dst rady W H, rfl,
      absVertical_boxMean src temp _ radx rady W H hW
        (fun r c hr hc => flatVertical_spec _ dst rady W H hH r c hr hc)⟩
  · obtain ⟨d, h1, h2⟩ := flatVerticalSSE2_spec (absHorizontal src radx W H temp) dst rady W H hH
    refine ⟨d, ?_, absVertical_boxMean src temp d radx rady W H hW h2⟩
    unfold boxblurFlat
    rw [← heq]
    exact h1
  · intro hr h4 hmis
    unfold boxabsblur
    exact absVerticalSSE2_misaligned tempBase dstBase _ dst rady W H hr h4 hmis
  · intro hal
    obtain ⟨d, h1, h2⟩ := absVerticalSSE2_spec tempBase dstBase
      (absHorizontal src radx W H temp) dst rady W H hH hal
    exact ⟨d, h1, absVertical_boxMean src temp d radx rady W H hW h2⟩

/-- C33, on the 5 x 3 flat image (width 5, height 3) with samples 1, -2, 3,
..., 15 and radii 1 and 1, with `temp` and `dst` at addresses that are
multiples of 16 bytes: compiled under `__SSE2__`, `boxabsblur` faults and the
flat-array `boxblur` of the absolute values returns an image whose centre
sample (row 1, column 2) is the mean 8 of the nine absolute values around it;
compiled without `__SSE2__` the two agree. -/
theorem boxabsblur_sse2_alignment_witness :
    boxabsblur true 0 0 exampleFlat (fun _ => 0) 1 1 5 3 (fun _ => 0) = none ∧
    (∃ d, boxblurFlat true (fun i => |exampleFlat i|) (fun _ => 0) (fun _ => 0) 1 1 5 3
        = some d ∧ d (1 * 5 + 2) = 8) ∧
    boxabsblur false 0 0 exampleFlat (fun _ => 0) 1 1 5 3 (fun _ => 0)
      = boxblurFlat false (fun i => |exampleFlat i|) (fun _ => 0) (fun _ => 0) 1 1 5 3 := by
  have h := boxabsblur_sse2_alignment exampleFlat (fun _ => 0) (fun _ => 0) 1 1 5 3 0 0
    (by decide) (by decide)
  refine ⟨h.2.2.1 (by decide) (by decide) (by decide), ?_, h.1.1⟩
  obtain ⟨d, h1, h2⟩ := h.2.1
  refine ⟨d, h1, ?_⟩
  rw [h2 1 2 (by decide) (by decide)]
  decide!

end rtengine
